import Mathlib

/-!
# Trinity: posting-list codec, merge and terms dictionary

A shallow embedding of `google_codec.cpp` and `terms.h`.

* Byte buffers (`IOBuffer`) are `List Nat`, every element a byte value.
* Read-only memory reached through a raw pointer is a `List Nat` together
  with a `Nat` offset; a read outside the list yields the byte `0`.
* 32-bit unsigned arithmetic is `Nat` arithmetic reduced modulo `2^32`.
* Fixed-size arrays (`documents[N]`, `freqs[N]`, ...) are lists read with
  `getD` and written with `set`.
* Loops whose exit depends on the data take a fuel argument and return
  `none` when the fuel is used up.
-/

namespace Trinity

/-! ## Constants -/

/-- The sentinel document ID of an exhausted decoder. -/
def UINT32_MAX : Nat := 4294967295

/-- Modelled from the spec: the block capacity `N` of `google_codec.h`
(§3: a block is a group of `N = 128` postings). -/
def N : Nat := 128

/-- Reduction of a value to `uint32_t`. -/
def u32 (x : Nat) : Nat := x % 4294967296

/-- Subtraction of `uint32_t` values. -/
def sub32 (a b : Nat) : Nat := (a % 4294967296 + 4294967296 - b % 4294967296) % 4294967296

/-! ## Binary primitives -/

/-- Loop of `encode_varuint32`: low seven bits first, continuation bit set
on every byte but the last. -/
def encodeVarAux : Nat → Nat → List Nat
  | 0, x => [x % 128]
  | k + 1, x => if x < 128 then [x] else (x % 128 + 128) :: encodeVarAux k (x / 128)

/-- Modelled from the spec: `encode_varuint32` of `compress.h` (§4.1: standard
little-endian base-128 unsigned varint, 1 to 5 bytes for a 32-bit value).
The result is the bytes appended to the buffer. -/
def encode_varuint32 (x : Nat) : List Nat := encodeVarAux 4 (u32 x)

/-- Loop of `decode_varuint32` over the bytes at the read pointer: the value
and the number of bytes consumed. At most five bytes are read. -/
def decodeVarAux : Nat → List Nat → Nat × Nat
  | 0, _ => (0, 0)
  | k + 1, bs =>
    let b := bs.headD 0
    if b < 128 then (b, 1)
    else ((b % 128) + 128 * (decodeVarAux k bs.tail).1, (decodeVarAux k bs.tail).2 + 1)

/-- Modelled from the spec: `Compression::decode_varuint32(p)` of `compress.h`
(§4.1): decodes the varint at offset `p` of `mem` and returns the value
together with the advanced pointer. -/
def decode_varuint32 (mem : List Nat) (p : Nat) : Nat × Nat :=
  (u32 (decodeVarAux 5 (mem.drop p)).1, p + (decodeVarAux 5 (mem.drop p)).2)

/-- The four little-endian bytes of `IOBuffer::pack(uint32_t)`. -/
def pack32 (x : Nat) : List Nat :=
  [x % 256, x / 256 % 256, x / 65536 % 256, x / 16777216 % 256]

/-- A loop `for (i = start; i != start + cnt; ++i) buf.encode_varuint32(arr[i])`. -/
def encodeArray (arr : List Nat) : Nat → Nat → List Nat → List Nat
  | 0, _, buf => buf
  | k + 1, i, buf => encodeArray arr k (i + 1) (buf ++ encode_varuint32 (arr.getD i 0))

/-- A loop decoding and discarding `cnt` varints: the advanced pointer. -/
def skipVarints (mem : List Nat) : Nat → Nat → Nat
  | 0, p => p
  | k + 1, p => skipVarints mem k (decode_varuint32 mem p).2

/-! ## Encoder -/

/-- State of `Trinity::Codecs::Google::Encoder`, with the output buffer
`sess->indexOut` of its session. -/
structure Encoder where
  indexOut : List Nat
  curDocID : Nat
  prevBlockLastDocumentID : Nat
  curBlockSize : Nat
  docDeltas : List Nat
  blockFreqs : List Nat
  block : List Nat
  hitsData : List Nat
  skipListData : List Nat
  skiplistEntryCountdown : Nat
  lastPos : Nat
  termDocuments : Nat
  termOffset : Nat
deriving DecidableEq, Repr

/-- The posting-list locator `term_index_ctx`: document count and the chunk
range `(offset, size)` in the index. -/
structure term_index_ctx where
  documents : Nat
  offset : Nat
  size : Nat
deriving DecidableEq, Repr

/-- Embeds `Encoder::commit_block`. `SKIPLIST_STEP` is the constant of
`google_codec.h`. With `curBlockSize = 0` the first loop bound wraps around
and `require(curBlockSize)` fails: `none`. -/
def Encoder.commit_block (SKIPLIST_STEP : Nat) (e : Encoder) : Option Encoder :=
  if e.curBlockSize = 0 then none
  else
    let delta := sub32 e.curDocID e.prevBlockLastDocumentID
    let n := e.curBlockSize - 1
    let block := encodeArray e.blockFreqs e.curBlockSize 0 (encodeArray e.docDeltas n 0 [])
    let blockLength := block.length + e.hitsData.length
    let countdown := sub32 e.skiplistEntryCountdown 1
    let out := e.indexOut
    some { e with
      block := block
      skipListData :=
        if countdown = 0 then
          e.skipListData ++ pack32 (u32 e.prevBlockLastDocumentID) ++ pack32 (u32 out.length)
        else e.skipListData
      skiplistEntryCountdown := if countdown = 0 then SKIPLIST_STEP else countdown
      indexOut :=
        out ++ encode_varuint32 delta ++ encode_varuint32 blockLength
          ++ [e.curBlockSize % 256] ++ block ++ e.hitsData
      hitsData := []
      prevBlockLastDocumentID := e.curDocID
      curBlockSize := 0 }

/-- Modelled from the spec: `Encoder::begin_term` of `google_codec.h` (§4.2:
opens a new term's posting list and resets the per-term state). -/
def Encoder.begin_term (SKIPLIST_STEP : Nat) (e : Encoder) : Encoder :=
  { e with
    curDocID := 0
    prevBlockLastDocumentID := 0
    curBlockSize := 0
    hitsData := []
    skipListData := []
    skiplistEntryCountdown := SKIPLIST_STEP
    lastPos := 0
    termDocuments := 0
    termOffset := e.indexOut.length }

/-- Modelled from the spec: `Encoder::begin_document` of `google_codec.h`
(§4.2): records the delta to the previous document and the frequency in the
next slot of the current block. The document ID must be greater than the
previous one of the term; the call is made under that precondition. -/
def Encoder.begin_document (e : Encoder) (docID freq : Nat) : Encoder :=
  { e with
    docDeltas := e.docDeltas.set e.curBlockSize (sub32 docID e.curDocID)
    blockFreqs := e.blockFreqs.set e.curBlockSize (u32 freq)
    curBlockSize := e.curBlockSize + 1
    curDocID := u32 docID
    lastPos := 0
    termDocuments := e.termDocuments + 1 }

/-- Modelled from the spec: `Encoder::new_position` of `google_codec.h`
(§4.2): positions are delta-encoded within each document. -/
def Encoder.new_position (e : Encoder) (pos : Nat) : Encoder :=
  { e with
    hitsData := e.hitsData ++ encode_varuint32 (sub32 pos e.lastPos)
    lastPos := u32 pos }

/-- Modelled from the spec: `Encoder::end_document` of `google_codec.h`
(§4.2): emits a block when `N` documents have been accumulated since the
last flush. -/
def Encoder.end_document (SKIPLIST_STEP : Nat) (e : Encoder) : Option Encoder :=
  if e.curBlockSize = N then e.commit_block SKIPLIST_STEP else some e

/-- Modelled from the spec: `Encoder::end_term` of `google_codec.h` (§4.2):
flushes any partial block and returns the term context pointing to the
bytes written since `begin_term`. -/
def Encoder.end_term (SKIPLIST_STEP : Nat) (e : Encoder) : Option (Encoder × term_index_ctx) :=
  if e.curBlockSize = 0 then
    some (e, ⟨e.termDocuments, e.termOffset, e.indexOut.length - e.termOffset⟩)
  else
    (e.commit_block SKIPLIST_STEP).map fun e1 =>
      (e1, ⟨e1.termDocuments, e1.termOffset, e1.indexOut.length - e1.termOffset⟩)

/-- One call of the encoder interface. -/
inductive EncCall where
  | begin_document (docID freq : Nat)
  | new_position (pos : Nat)
  | end_document
deriving DecidableEq, Repr

/-- Applies one interface call to the encoder. -/
def Encoder.call (SKIPLIST_STEP : Nat) (e : Encoder) : EncCall → Option Encoder
  | .begin_document d f => some (e.begin_document d f)
  | .new_position pos => some (e.new_position pos)
  | .end_document => e.end_document SKIPLIST_STEP

/-- Applies a sequence of interface calls, in order. -/
def Encoder.calls (SKIPLIST_STEP : Nat) : Encoder → List EncCall → Option Encoder
  | e, [] => some e
  | e, c :: cs => (e.call SKIPLIST_STEP c).bind fun e1 => Encoder.calls SKIPLIST_STEP e1 cs

/-- One document of a posting list: ID, frequency and positions. -/
structure Posting where
  docID : Nat
  freq : Nat
  positions : List Nat
deriving DecidableEq, Repr

/-- The interface calls that index one document. -/
def Posting.calls (d : Posting) : List EncCall :=
  EncCall.begin_document d.docID d.freq :: (d.positions.map EncCall.new_position ++ [EncCall.end_document])

/-- The interface calls that index a posting list, after `begin_term`. -/
def postingCalls : List Posting → List EncCall
  | [] => []
  | d :: ds => d.calls ++ postingCalls ds

/-- A fresh encoder over an output buffer. -/
def Encoder.new (indexOut : List Nat) : Encoder :=
  { indexOut := indexOut, curDocID := 0, prevBlockLastDocumentID := 0, curBlockSize := 0,
    docDeltas := List.replicate N 0, blockFreqs := List.replicate N 0, block := [],
    hitsData := [], skipListData := [], skiplistEntryCountdown := 0, lastPos := 0,
    termDocuments := 0, termOffset := 0 }

/-- Encodes one term: `begin_term`, the calls of every document, `end_term`. -/
def encodeTerm (SKIPLIST_STEP : Nat) (e : Encoder) (S : List Posting) :
    Option (Encoder × term_index_ctx) :=
  (Encoder.calls SKIPLIST_STEP (e.begin_term SKIPLIST_STEP) (postingCalls S)).bind
    fun e1 => e1.end_term SKIPLIST_STEP

/-! ## Decoder -/

/-- State of `Trinity::Codecs::Google::Decoder`. `mem` is the memory behind
`access->indexPtr`; `p`, `chunkEnd` and `base` are offsets into it. -/
structure Decoder where
  mem : List Nat
  p : Nat
  chunkEnd : Nat
  base : Nat
  skiplist : List (Nat × Nat)
  skipListIdx : Nat
  blockLastDocID : Nat
  documents : List Nat
  freqs : List Nat
  blockDocIdx : Nat
deriving DecidableEq, Repr

/-- A default-constructed decoder: empty skiplist, arrays of `N` slots. -/
def Decoder.new : Decoder :=
  { mem := [], p := 0, chunkEnd := 0, base := 0, skiplist := [], skipListIdx := 0,
    blockLastDocID := 0, documents := List.replicate N 0, freqs := List.replicate N 0,
    blockDocIdx := 0 }

/-- The current document, `documents[blockDocIdx]`. -/
def Decoder.cur_document (d : Decoder) : Nat := d.documents.getD d.blockDocIdx 0

/-- The current frequency, `freqs[blockDocIdx]`. -/
def Decoder.cur_freq (d : Decoder) : Nat := d.freqs.getD d.blockDocIdx 0

/-- Modelled from the spec: `Decoder::finalize` of `google_codec.h` (§4.3:
the terminal state, in which the current document is `UINT32_MAX` and which
the state machine gives no transition out of; the comment in `seek` adds that
`blockLastDocID` is `UINT32_MAX` after it). The frequency slot of the
sentinel is cleared, as `init` clears it before its own call of `finalize`:
the terminal state has no position bytes left to skip. -/
def Decoder.finalize (d : Decoder) : Decoder :=
  { d with
    blockLastDocID := UINT32_MAX
    blockDocIdx := 0
    documents := d.documents.set 0 UINT32_MAX
    freqs := d.freqs.set 0 0 }

/-- The loop of `Decoder::skiplist_search`, on `int32_t` bounds. -/
def skiplistSearchLoop (skiplist : List (Nat × Nat)) (skipListIdx target : Nat) :
    Nat → Int → Int → Nat → Nat
  | 0, _, _, idx => idx
  | fuel + 1, top, btm, idx =>
    if btm ≤ top then
      let mid := (btm + top) / 2
      let v := (skiplist.getD mid.toNat (0, 0)).1
      if target < v then skiplistSearchLoop skiplist skipListIdx target fuel (mid - 1) btm idx
      else
        let idx1 :=
          if v ≠ target then mid.toNat
          else if mid ≠ (skipListIdx : Int) then ((mid - 1) % 4294967296).toNat
          else idx
        skiplistSearchLoop skiplist skipListIdx target fuel top (mid + 1) idx1
    else idx

/-- Embeds `Decoder::skiplist_search`. The interval halves at every step, so
`size + 1` steps exhaust it. -/
def Decoder.skiplist_search (d : Decoder) (target : Nat) : Nat :=
  skiplistSearchLoop d.skiplist d.skipListIdx target (d.skiplist.length + 1)
    ((d.skiplist.length : Int) - 1) (d.skipListIdx : Int) UINT32_MAX

/-- Embeds `Decoder::skip_block_doc`. -/
def Decoder.skip_block_doc (d : Decoder) : Decoder :=
  { d with
    blockDocIdx := d.blockDocIdx + 1
    p := skipVarints d.mem (d.freqs.getD d.blockDocIdx 0) d.p }

/-- The state of a `DocWordsSpace`: the `set(termID, pos)` calls received. -/
abbrev DocWordsSpace := List (Nat × Nat)

/-- A `term_hit`: payload, position, flags. -/
structure term_hit where
  payload : Nat
  pos : Nat
  flags : Nat
deriving DecidableEq, Repr

/-- The loop of `Decoder::materialize_hits`; `pos` is a `uint16_t`. The hit
stored at `out[i]` is the `i`-th element of the output list. -/
def materializeLoop (mem : List Nat) (termID : Nat) :
    Nat → Nat → Nat → DocWordsSpace → List term_hit → Nat × DocWordsSpace × List term_hit
  | 0, p, _, dws, out => (p, dws, out)
  | k + 1, p, pos, dws, out =>
    let pos1 := (pos + (decode_varuint32 mem p).1) % 65536
    materializeLoop mem termID k (decode_varuint32 mem p).2 pos1
      (dws ++ [(termID, pos1)]) (out ++ [⟨0, pos1, 0⟩])

/-- Embeds `Decoder::materialize_hits`. The loop counter is a `uint16_t` compared
with the frequency: for a frequency of `65536` or more it never ends. -/
def Decoder.materialize_hits (d : Decoder) (termID : Nat) (dwspace : DocWordsSpace) :
    Option (Decoder × DocWordsSpace × List term_hit) :=
  let freq := d.freqs.getD d.blockDocIdx 0
  if 65536 ≤ freq then none
  else
    let r := materializeLoop d.mem termID freq d.p 0 dwspace []
    some ({ d with p := r.1, freqs := d.freqs.set d.blockDocIdx 0 }, r.2.1, r.2.2)

/-- First loop of `unpack_block`: `k` document deltas. -/
def unpackDocs (mem : List Nat) : Nat → Nat → Nat → Nat → List Nat → List Nat × Nat
  | 0, _, _, p, docs => (docs, p)
  | c + 1, i, id, p, docs =>
    let id1 := u32 (id + (decode_varuint32 mem p).1)
    unpackDocs mem c (i + 1) id1 (decode_varuint32 mem p).2 (docs.set i id1)

/-- Second loop of `unpack_block`: `n` frequencies. -/
def unpackFreqs (mem : List Nat) : Nat → Nat → Nat → List Nat → List Nat × Nat
  | 0, _, p, freqs => (freqs, p)
  | c + 1, i, p, freqs =>
    unpackFreqs mem c (i + 1) (decode_varuint32 mem p).2 (freqs.set i (decode_varuint32 mem p).1)

/-- Embeds `Decoder::unpack_block`. For `n = 0` the bound `k = n - 1` is `-1` and
the first loop, on a `uint8_t` counter, never ends: `none`. -/
def Decoder.unpack_block (d : Decoder) (thisBlockLastDocID n : Nat) : Option Decoder :=
  if n = 0 then none
  else
    let k := n - 1
    let r1 := unpackDocs d.mem k 0 d.blockLastDocID d.p d.documents
    let r2 := unpackFreqs d.mem n 0 r1.2 d.freqs
    some { d with
      p := r2.2
      freqs := r2.1
      blockLastDocID := thisBlockLastDocID
      documents := r1.1.set k thisBlockLastDocID
      blockDocIdx := 0 }

/-- Embeds `Decoder::seek_block`. -/
def Decoder.seek_block : Nat → Decoder → Nat → Option Decoder
  | 0, _, _ => none
  | fuel + 1, d, target =>
    let r1 := decode_varuint32 d.mem d.p
    let thisBlockLastDocID := u32 (d.blockLastDocID + r1.1)
    let r2 := decode_varuint32 d.mem r1.2
    let blockSize := r2.1
    let blockDocsCnt := d.mem.getD r2.2 0
    let p := r2.2 + 1
    if target > thisBlockLastDocID then
      if p + blockSize = d.chunkEnd then some { d with p := p + blockSize }.finalize
      else
        Decoder.seek_block fuel { d with p := p + blockSize, blockLastDocID := thisBlockLastDocID }
          target
    else { d with p := p }.unpack_block thisBlockLastDocID blockDocsCnt

/-- Embeds `Decoder::unpack_next_block`. -/
def Decoder.unpack_next_block (d : Decoder) : Option Decoder :=
  let r1 := decode_varuint32 d.mem d.p
  let thisBlockLastDocID := u32 (d.blockLastDocID + r1.1)
  let r2 := decode_varuint32 d.mem r1.2
  let blockDocsCnt := d.mem.getD r2.2 0
  { d with p := r2.2 + 1 }.unpack_block thisBlockLastDocID blockDocsCnt

/-- Embeds `Decoder::skip_remaining_block_documents`. -/
def Decoder.skip_remaining_block_documents : Nat → Decoder → Option Decoder
  | 0, _ => none
  | fuel + 1, d =>
    let d1 := { d with p := skipVarints d.mem (d.freqs.getD d.blockDocIdx 0) d.p }
    if d1.documents.getD d1.blockDocIdx 0 = d1.blockLastDocID then some d1
    else Decoder.skip_remaining_block_documents fuel { d1 with blockDocIdx := d1.blockDocIdx + 1 }

/-- Embeds `Decoder::begin`: the new state and the returned document. -/
def Decoder.begin (d : Decoder) : Option (Nat × Decoder) :=
  if d.p ≠ d.chunkEnd then d.unpack_next_block.map fun d1 => (d1.cur_document, d1)
  else some (d.finalize.cur_document, d.finalize)

/-- Embeds `Decoder::next`: the returned flag and the new state. -/
def Decoder.next (d : Decoder) : Option (Bool × Decoder) :=
  if d.documents.getD d.blockDocIdx 0 = d.blockLastDocID then
    let d1 := d.skip_block_doc
    if d1.p ≠ d1.chunkEnd then d1.unpack_next_block.map fun d2 => (true, d2)
    else some (false, d1.finalize)
  else some (true, d.skip_block_doc)

/-- The final loop of `Decoder::seek`, over the current block. -/
def Decoder.seek_scan : Nat → Decoder → Nat → Option (Bool × Decoder)
  | 0, _, _ => none
  | fuel + 1, d, target =>
    let docID := d.documents.getD d.blockDocIdx 0
    if docID > target then some (false, d)
    else if docID = target then some (true, d)
    else if docID = d.blockLastDocID then some (false, d)
    else Decoder.seek_scan fuel d.skip_block_doc target

/-- Embeds `Decoder::seek`: the returned flag and the new state. -/
def Decoder.seek (fuel : Nat) (d : Decoder) (target : Nat) : Option (Bool × Decoder) :=
  if target > d.blockLastDocID then
    (d.skip_remaining_block_documents fuel).bind fun d1 =>
      if d1.p = d1.chunkEnd then some (false, d1.finalize)
      else
        let d2 :=
          if d1.skipListIdx ≠ d1.skiplist.length then
            let idx := d1.skiplist_search target
            if idx ≠ UINT32_MAX then
              { d1 with
                blockLastDocID := (d1.skiplist.getD idx (0, 0)).1
                p := d1.base + (d1.skiplist.getD idx (0, 0)).2
                skipListIdx := idx + 1 }
            else d1
          else d1
        (d2.seek_block fuel target).bind fun d3 => d3.seek_scan fuel target
  else d.seek_scan fuel target

/-- Embeds `Decoder::init`. The local `skiplistData` is a null pointer, so the
branch that would fill `skiplist` is never entered. -/
def Decoder.init (d : Decoder) (tctx : term_index_ctx) (indexPtr : List Nat) : Decoder :=
  let d1 : Decoder :=
    { d with
      mem := indexPtr
      chunkEnd := tctx.offset + tctx.size
      blockLastDocID := 0
      blockDocIdx := 0
      documents := d.documents.set 0 0
      freqs := d.freqs.set 0 0
      base := tctx.offset
      p := tctx.offset
      skipListIdx := 0 }
  if tctx.size = 0 then d1.finalize else d1

/-- Embeds `AccessProxy::new_decoder`. -/
def new_decoder (tctx : term_index_ctx) (indexPtr : List Nat) : Decoder :=
  Decoder.new.init tctx indexPtr

/-! ## Merge -/

/-- The local `struct chunk` of `IndexSession::merge`, with the memory `mem`
its pointers `p` and `e` refer to. `maskedDocsReg` is the `test` predicate of
the participant's `masked_documents_registry`. -/
structure Chunk where
  mem : List Nat
  p : Nat
  e : Nat
  maskedDocsReg : Nat → Bool
  documents : List Nat
  freqs : List Nat
  size : Nat
  idx : Nat

instance : Inhabited Chunk :=
  ⟨{ mem := [], p := 0, e := 0, maskedDocsReg := fun _ => false, documents := [], freqs := [],
     size := 0, idx := 0 }⟩

/-- A `merge_participant`: the index memory of its access proxy, its chunk
range `(offset, size)` and its masked-documents registry. -/
structure merge_participant where
  indexPtr : List Nat
  offset : Nat
  size : Nat
  maskedDocsReg : Nat → Bool

/-- The current document of a chunk, `cur_block.documents[cur_block.idx]`. -/
def Chunk.cur_document (c : Chunk) : Nat := c.documents.getD c.idx 0

/-- Embeds `chunk::skip_current`: the returned flag and the new chunk state. -/
def Chunk.skip_current (c : Chunk) : Bool × Chunk :=
  let c1 := { c with p := skipVarints c.mem (c.freqs.getD c.idx 0) c.p, idx := (c.idx + 1) % 256 }
  (decide (c1.idx = c1.size), c1)

/-- The lambda `refill` of `IndexSession::merge`; `require(n)` fails on a
zero count byte. -/
def Chunk.refill (c : Chunk) : Option Chunk :=
  let prevBlockLastID := c.documents.getD (c.size - 1) 0
  let r1 := decode_varuint32 c.mem c.p
  let thisBlockLastDocID := u32 (prevBlockLastID + r1.1)
  let r2 := decode_varuint32 c.mem r1.2
  let n := c.mem.getD r2.2 0
  if n = 0 then none
  else
    let k := n - 1
    let r3 := unpackDocs c.mem k 0 prevBlockLastID (r2.2 + 1) c.documents
    let r4 := unpackFreqs c.mem n 0 r3.2 c.freqs
    some { c with
      documents := r3.1.set k thisBlockLastDocID
      freqs := r4.1
      size := n
      idx := 0
      p := r4.2 }

/-- The position loop of `append_from`: the `new_position` calls made and
the advanced pointer. -/
def appendPositions (mem : List Nat) : Nat → Nat → Nat → List EncCall → List EncCall × Nat
  | 0, p, _, acc => (acc, p)
  | k + 1, p, pos, acc =>
    let pos1 := u32 (pos + (decode_varuint32 mem p).1)
    appendPositions mem k (decode_varuint32 mem p).2 pos1 (acc ++ [EncCall.new_position pos1])

/-- The lambda `append_from` of `IndexSession::merge`: the encoder calls made
and the new chunk state. -/
def Chunk.append_from (c : Chunk) : List EncCall × Chunk :=
  let did := c.documents.getD c.idx 0
  let freq := c.freqs.getD c.idx 0
  let r := appendPositions c.mem freq c.p 0 [EncCall.begin_document did freq]
  (r.1 ++ [EncCall.end_document], { c with p := r.2, freqs := c.freqs.set c.idx 0 })

/-- The loop of `merge` that finds the lowest current document among
`chunks[1 .. rem)` and collects in `toAdvance` the chunks positioned on it. -/
def findLowest (chunks : List Chunk) : Nat → Nat → Nat → List Nat → Nat × List Nat
  | 0, _, lowestDID, toAdvance => (lowestDID, toAdvance)
  | c + 1, i, lowestDID, toAdvance =>
    let id := (chunks.getD i default).cur_document
    if id < lowestDID then findLowest chunks c (i + 1) id [i]
    else if id = lowestDID then findLowest chunks c (i + 1) lowestDID (toAdvance ++ [i])
    else findLowest chunks c (i + 1) lowestDID toAdvance

/-- Embeds `memmove(dst, src, cnt)` on the array of chunks. -/
def memmoveChunks (chunks : List Chunk) (dst src cnt : Nat) : List Chunk :=
  chunks.take dst ++ (chunks.drop src).take cnt ++ chunks.drop (dst + cnt)

/-- The `do ... while (toAdvanceCnt)` loop of `merge`, given the entries of
`toAdvance` in the order they are taken (last first). The result is the
array, `rem` and whether `goto l1` was taken; `none` when a `refill` fails. -/
def advanceLoop : List Nat → List Chunk → Nat → Option (List Chunk × Nat × Bool)
  | [], chunks, rem => some (chunks, rem, false)
  | idx :: rest, chunks, rem =>
    let r := (chunks.getD idx default).skip_current
    if r.1 then
      if r.2.p ≠ r.2.e then
        match r.2.refill with
        | none => none
        | some c1 => advanceLoop rest (chunks.set idx c1) rem
      else if rem - 1 = 0 then some (chunks.set idx r.2, rem - 1, true)
      else advanceLoop rest (memmoveChunks (chunks.set idx r.2) idx (idx + 1) (rem - 1 - idx)) (rem - 1)
    else advanceLoop rest (chunks.set idx r.2) rem

/-- The `for (;;)` loop of `merge`: the encoder calls made, in order. -/
def mergeLoop : Nat → List Chunk → Nat → List EncCall → Option (List EncCall)
  | 0, _, _, _ => none
  | fuel + 1, chunks, rem, calls =>
    let r := findLowest chunks (rem - 1) 1 (chunks.getD 0 default).cur_document [0]
    let lowestDID := r.1
    let toAdvance := r.2
    let first := toAdvance.getD 0 0
    let src := chunks.getD first default
    let emitted := if !src.maskedDocsReg lowestDID then src.append_from else ([], src)
    match advanceLoop toAdvance.reverse (chunks.set first emitted.2) rem with
    | none => none
    | some (chunks1, rem1, done) =>
      if done then some (calls ++ emitted.1) else mergeLoop fuel chunks1 rem1 (calls ++ emitted.1)

/-- The first loop of `merge`: the initial state of the chunk of a participant. -/
def Chunk.ofParticipant (m : merge_participant) : Chunk :=
  { mem := m.indexPtr, p := m.offset, e := m.offset + m.size, maskedDocsReg := m.maskedDocsReg,
    documents := (List.replicate N 0).set 0 0, freqs := List.replicate N 0, size := 1, idx := 0 }

/-- The loop `for (i = 0; i != participantsCnt; ++i) refill(chunks + i)`. -/
def refillAll : List Chunk → Option (List Chunk)
  | [] => some []
  | c :: cs =>
    match c.refill with
    | none => none
    | some c1 => (refillAll cs).map fun cs1 => c1 :: cs1

/-- Embeds `IndexSession::merge`: the calls made on the encoder, in order.
`require(participantsCnt <= 128)` fails on more participants; with none
`chunks[0]` is read uninitialised. -/
def merge (fuel : Nat) (participants : List merge_participant) : Option (List EncCall) :=
  if participants.length = 0 ∨ 128 < participants.length then none
  else
    match refillAll (participants.map Chunk.ofParticipant) with
    | none => none
    | some chunks => mergeLoop fuel chunks participants.length []

/-- Embeds `IndexSession::append_index_chunk`: the new output buffer and the
returned range `(offset, size)`. -/
def append_index_chunk (indexOut : List Nat) (indexPtr : List Nat) (srcTCTX : term_index_ctx) :
    List Nat × Nat × Nat :=
  (indexOut ++ (List.range srcTCTX.size).map (fun i => indexPtr.getD (srcTCTX.offset + i) 0),
    u32 indexOut.length, srcTCTX.size)


/-! ## Byte layout of a posting list

Functions describing the bytes of a chunk from the posting list it holds.
They are used to state and prove the properties of the encoder, the decoder
and the merge; `encodeTerm_layout` shows that the encoder produces them. -/

/-- The concatenated varints of a list of values. -/
def varints (l : List Nat) : List Nat := (l.map encode_varuint32).flatten

/-- The position deltas of one document, after a previous position. -/
def posDeltas : Nat → List Nat → List Nat
  | _, [] => []
  | prev, p :: ps => sub32 p prev :: posDeltas (u32 p) ps

/-- The position bytes of one document. -/
def Posting.hits (d : Posting) : List Nat := varints (posDeltas 0 d.positions)

/-- The document deltas of consecutive documents, after a previous ID. -/
def docDeltasOf : Nat → List Posting → List Nat
  | _, [] => []
  | prev, d :: ds => sub32 d.docID prev :: docDeltasOf (u32 d.docID) ds

/-- The ID of the last document of a block, or the previous ID for no document. -/
def lastDoc (prev : Nat) (B : List Posting) : Nat :=
  (B.getLast?.map fun d => u32 d.docID).getD prev

/-- The body of a block: all deltas but the last, the frequencies, the hits. -/
def blockBody (prev : Nat) (B : List Posting) : List Nat :=
  varints ((docDeltasOf prev B).take (B.length - 1)) ++ varints (B.map fun d => u32 d.freq)
    ++ (B.map Posting.hits).flatten

/-- The bytes of a block that follows a block ending at document `prev`. -/
def blockBytes (prev : Nat) (B : List Posting) : List Nat :=
  encode_varuint32 (sub32 (lastDoc prev B) prev) ++ encode_varuint32 (blockBody prev B).length
    ++ [B.length] ++ blockBody prev B

/-- The bytes of a sequence of blocks. -/
def chunkBytes : Nat → List (List Posting) → List Nat
  | _, [] => []
  | prev, B :: Bs => blockBytes prev B ++ chunkBytes (lastDoc prev B) Bs

/-- The ID of the last document of a sequence of blocks. -/
def chunkLast : Nat → List (List Posting) → Nat
  | prev, [] => prev
  | prev, B :: Bs => chunkLast (lastDoc prev B) Bs

/-- The state of the encoder after the documents of the full blocks `Bs`
and of the partial block `B` of a term that starts at offset `out0.length`. -/
structure EncInv (out0 : List Nat) (Bs : List (List Posting)) (B : List Posting)
    (e : Encoder) : Prop where
  out : e.indexOut = out0 ++ chunkBytes 0 Bs
  prev : e.prevBlockLastDocumentID = chunkLast 0 Bs
  prev_lt : e.prevBlockLastDocumentID < 4294967296
  cur : e.curDocID = lastDoc (chunkLast 0 Bs) B
  size : e.curBlockSize = B.length
  size_lt : B.length < N
  deltas : e.docDeltas.take B.length = docDeltasOf (chunkLast 0 Bs) B
  freqs : e.blockFreqs.take B.length = B.map fun d => u32 d.freq
  hits : e.hitsData = (B.map Posting.hits).flatten
  deltas_len : e.docDeltas.length = N
  freqs_len : e.blockFreqs.length = N
  full : ∀ B1 ∈ Bs, B1.length = N
  count : e.termDocuments = Bs.flatten.length + B.length
  offset : e.termOffset = out0.length

/-- The conditions on a posting list under which it is encoded: document
IDs strictly increasing and below `UINT32_MAX`, the frequency of a document
a 32-bit value equal to the number of its positions. -/
structure WellFormed (S : List Posting) : Prop where
  sorted : S.Pairwise fun a b => a.docID < b.docID
  doc_lt : ∀ d ∈ S, d.docID < UINT32_MAX
  freq_eq : ∀ d ∈ S, d.freq = d.positions.length
  freq_lt : ∀ d ∈ S, d.freq < 4294967296

/-- The position bytes of consecutive documents. -/
def hitsOf (B : List Posting) : List Nat := (B.map Posting.hits).flatten

/-- The decoder is positioned in block `B`, with the blocks `R` still ahead
in the chunk. With `fresh` the positions of the current document are unread;
without it they have been consumed and its frequency slot zeroed. -/
structure DecInv (d : Decoder) (fresh : Bool) (B : List Posting) (R : List (List Posting)) :
    Prop where
  idx_lt : d.blockDocIdx < B.length
  len_le : B.length ≤ N
  docs_len : d.documents.length = N
  freqs_len : d.freqs.length = N
  docs : ∀ (j : Nat) (x : Posting), B[j]? = some x → d.documents[j]? = some x.docID
  freqs : ∀ (j : Nat) (x : Posting), d.blockDocIdx < j → B[j]? = some x →
    d.freqs[j]? = some x.freq
  cur_freq : ∀ x : Posting, B[d.blockDocIdx]? = some x →
    d.freqs[d.blockDocIdx]? = some (if fresh then x.freq else 0)
  last : d.blockLastDocID = lastDoc 0 B
  bytes : d.mem.drop d.p =
    hitsOf (B.drop (if fresh then d.blockDocIdx else d.blockDocIdx + 1))
      ++ chunkBytes (lastDoc 0 B) R ++ d.mem.drop d.chunkEnd
  p_end : d.p + (hitsOf (B.drop (if fresh then d.blockDocIdx else d.blockDocIdx + 1))
      ++ chunkBytes (lastDoc 0 B) R).length = d.chunkEnd
  blocks : ∀ B1 ∈ R, 0 < B1.length ∧ B1.length ≤ N
  wf : WellFormed (B ++ R.flatten)
  skiplist : d.skiplist = []
  base_le : d.base ≤ d.p

/-- The decoder is in the terminal state. -/
structure DecTerm (d : Decoder) : Prop where
  last : d.blockLastDocID = UINT32_MAX
  idx : d.blockDocIdx = 0
  doc : d.documents[0]? = some UINT32_MAX
  p_end : d.p = d.chunkEnd
  docs_len : d.documents.length = N
  freqs_len : d.freqs.length = N
  skiplist : d.skiplist = []
  freq0 : d.freqs[0]? = some 0

/-- The decoder has the documents `rem` left to visit, the current one
first; with none left it is in the terminal state. -/
def DecState (d : Decoder) (fresh : Bool) (rem : List Posting) : Prop :=
  (∃ (B : List Posting) (R : List (List Posting)), DecInv d fresh B R ∧ rem = B.drop d.blockDocIdx ++ R.flatten) ∨ (rem = [] ∧ DecTerm d)

/-- Calls `next()` the given number of times: the returned flag, the current
document and the current frequency after every call, and the final state. -/
def nextTrace : Nat → Decoder → Option (List (Bool × Nat × Nat) × Decoder)
  | 0, d => some ([], d)
  | k + 1, d =>
    match d.next with
    | none => none
    | some r => (nextTrace k r.2).map fun t => ((r.1, r.2.cur_document, r.2.cur_freq) :: t.1, t.2)

/-- The decoder states reached from `d0` by calls of `next()` on a decoder
that is not exhausted and calls of `seek()` with 32-bit targets, each `seek`
running with at least `minFuel` units of fuel. -/
inductive Reach (minFuel : Nat) (d0 : Decoder) : Decoder → Prop
  | refl : Reach minFuel d0 d0
  | next {d d1 : Decoder} {b : Bool} : Reach minFuel d0 d → d.cur_document ≠ UINT32_MAX →
      d.next = some (b, d1) → Reach minFuel d0 d1
  | seek {d d1 : Decoder} {fuel target : Nat} {b : Bool} : Reach minFuel d0 d →
      minFuel ≤ fuel → target ≤ UINT32_MAX → d.seek fuel target = some (b, d1) →
      Reach minFuel d0 d1

/-- The decoder states reached from `d0` by any calls of `next()`, of `seek()`
with 32-bit targets, each `seek` running with at least `minFuel` units of
fuel, and of `materialize_hits`, also on the exhausted decoder. -/
inductive ReachAny (minFuel : Nat) (d0 : Decoder) : Decoder → Prop
  | refl : ReachAny minFuel d0 d0
  | next {d d1 : Decoder} {b : Bool} : ReachAny minFuel d0 d → d.next = some (b, d1) →
      ReachAny minFuel d0 d1
  | seek {d d1 : Decoder} {fuel target : Nat} {b : Bool} : ReachAny minFuel d0 d →
      minFuel ≤ fuel → target ≤ UINT32_MAX → d.seek fuel target = some (b, d1) →
      ReachAny minFuel d0 d1
  | materialize_hits {d d1 : Decoder} {termID : Nat} {dwspace w : DocWordsSpace}
      {out : List term_hit} : ReachAny minFuel d0 d →
      d.materialize_hits termID dwspace = some (d1, w, out) → ReachAny minFuel d0 d1

/-- The test of a document against a seek target: the document lies below it. -/
def below (t : Nat) (s : Posting) : Bool := decide (s.docID < t)

/-- The current document of a decoder that has the documents `rem` left. -/
def curOf (rem : List Posting) : Nat := (rem.head?.map fun s => s.docID).getD UINT32_MAX

/-- The decoder has visited the documents `pre` of the list `full` and has
the others left; its chunk is shorter than `2^32` bytes. -/
def SeekInv (full : List Posting) (d : Decoder) : Prop :=
  ∃ (fresh : Bool) (pre rem : List Posting), DecState d fresh rem ∧ full = pre ++ rem ∧
    d.chunkEnd < d.base + 4294967296

/-! ## Concrete inputs -/

/-- The first term of the encoder scenario of `app.cpp`: documents 10, 11,
15, 25 and 50 with their positions. -/
def applePostings : List Posting :=
  [⟨10, 2, [1, 2]⟩, ⟨11, 5, [15, 20, 21, 50, 55]⟩, ⟨15, 1, [20]⟩, ⟨25, 1, [18]⟩, ⟨50, 1, [20]⟩]

/-- The encoder state and term context after encoding `applePostings` into an
empty session output. -/
def appleChunk : Encoder × term_index_ctx :=
  (encodeTerm 1 (Encoder.new []) applePostings).getD (Encoder.new [], ⟨0, 0, 0⟩)

/-- The decoder right after `init` on the chunk of `applePostings`. -/
def appleDecoder : Decoder := new_decoder appleChunk.2 appleChunk.1.indexOut

/-- The decoder after `init` and `begin()` on the chunk of `applePostings`. -/
def appleBegun : Decoder := (appleDecoder.begin.getD (0, appleDecoder)).2

/-- The decoder after `init`, `begin()` and one `next()` on the chunk of `applePostings`. -/
def appleSecond : Decoder := (appleBegun.next.getD (false, appleBegun)).2

/-- A posting list with one document whose only position does not fit 16 bits. -/
def widePostings : List Posting := [⟨1, 1, [65536]⟩]

/-- The encoder state and term context after encoding `widePostings`. -/
def wideChunk : Encoder × term_index_ctx :=
  (encodeTerm 1 (Encoder.new []) widePostings).getD (Encoder.new [], ⟨0, 0, 0⟩)

/-- The decoder after `init` and `begin()` on the chunk of `widePostings`. -/
def wideBegun : Decoder :=
  ((new_decoder wideChunk.2 wideChunk.1.indexOut).begin.getD (0, Decoder.new)).2

/-- The encoder after `begin_term` and the calls for `applePostings`, before
`end_term`: one open block of five documents. -/
def appleOpen : Encoder :=
  (Encoder.calls 1 ((Encoder.new []).begin_term 1) (postingCalls applePostings)).getD
    (Encoder.new [])

/-! ## Merge: the state of the chunks and the merged list -/

/-- The decoder state that reads the chunk of a merge participant: the same
memory, pointers and block arrays, the last document of the block taken from
`documents[size - 1]`. -/
def Chunk.toDecoder (c : Chunk) : Decoder :=
  { mem := c.mem, p := c.p, chunkEnd := c.e, base := 0, skiplist := [], skipListIdx := 0,
    blockLastDocID := c.documents.getD (c.size - 1) 0, documents := c.documents,
    freqs := c.freqs, blockDocIdx := c.idx }

/-- The chunk of a merge participant is positioned in block `B`, with the
blocks `R` still ahead. -/
structure ChunkInv (c : Chunk) (fresh : Bool) (B : List Posting) (R : List (List Posting)) :
    Prop where
  inv : DecInv c.toDecoder fresh B R
  size : c.size = B.length

/-- A participant of a merge seen from outside: the test of its registry of
masked documents and the documents it has left. -/
abbrev Part := (Nat → Bool) × List Posting

/-- The chunk `c` stands on the first of the documents `a.2`, positions unread. -/
def ChunkRel (c : Chunk) (a : Part) : Prop :=
  c.maskedDocsReg = a.1 ∧
    ∃ (B : List Posting) (R : List (List Posting)), ChunkInv c true B R ∧
      a.2 = B.drop c.idx ++ R.flatten

/-- The chunk `c` stands on the first of the documents `a.2`; its positions
may have been consumed when that document is `d`. -/
def ChunkRelAt (d : Nat) (c : Chunk) (a : Part) : Prop :=
  c.maskedDocsReg = a.1 ∧
    ∃ (fresh : Bool) (B : List Posting) (R : List (List Posting)), ChunkInv c fresh B R ∧
      a.2 = B.drop c.idx ++ R.flatten ∧ (fresh = false → a.2.head?.map Posting.docID = some d)

/-- The document a participant stands on, when it has one left. -/
def headOf (a : Part) : Option Nat := a.2.head?.map Posting.docID

/-- The current documents of the participants that have one left. -/
def heads (S : List Part) : List Nat := S.filterMap headOf

/-- The lowest current document of the participants. -/
def lowest (S : List Part) : Option Nat :=
  match heads S with
  | [] => none
  | c :: cs => some (cs.foldl min c)

/-- The document emitted for the lowest current document `d`: the one of
the first participant standing on `d`, unless its registry masks `d`. -/
def emitS (d : Nat) (S : List Part) : List Posting :=
  match S.find? (fun a => headOf a == some d) with
  | some a => if a.1 d then [] else a.2.take 1
  | none => []

/-- Every participant standing on `d` moves to its following document. -/
def advanceS (d : Nat) (S : List Part) : List Part :=
  S.map fun a => if headOf a = some d then (a.1, a.2.tail) else a

/-- The participants that have a document left. -/
def live (S : List Part) : List Part := S.filter fun a => !a.2.isEmpty

/-- The merged list: at every step the lowest current document is emitted
from the first participant standing on it, and all participants standing on
it advance. -/
def mergeS : Nat → List Part → List Posting
  | 0, _ => []
  | fuel + 1, S =>
    match lowest S with
    | none => []
    | some d => emitS d S ++ mergeS fuel (advanceS d S)

/-- The indices, counted from `i`, of the entries of a list equal to `d`. -/
def idxs (d : Nat) : List Nat → Nat → List Nat
  | [], _ => []
  | c :: cs, i => if c = d then i :: idxs d cs (i + 1) else idxs d cs (i + 1)

/-- The total number of documents the participants have left. -/
def totalLen (S : List Part) : Nat := (S.map fun a => a.2.length).sum

/-- The posting `x` belongs to the first participant that holds a document
with its ID, and the registry of that participant does not mask it. -/
def Owner (S : List Part) (x : Posting) : Prop :=
  ∃ (pre : List Part) (a : Part) (post : List Part), S = pre ++ a :: post ∧ x ∈ a.2 ∧
    a.1 x.docID = false ∧ ∀ b ∈ pre, ∀ y ∈ b.2, y.docID ≠ x.docID

/-- The lists of all participants have strictly increasing document IDs. -/
def SortedParts (S : List Part) : Prop :=
  ∀ a ∈ S, a.2.Pairwise fun u v => u.docID < v.docID

/-- One participant moves past the document `d` when it stands on it. -/
def advanceOne (d : Nat) (a : Part) : Part := if headOf a = some d then (a.1, a.2.tail) else a

/-- The participant `m` refers to the chunk the encoder produced for the
posting list `L`. -/
def Encodes (m : merge_participant) (L : List Posting) : Prop :=
  ∃ (st : Nat) (e e1 : Encoder) (tctx : term_index_ctx), e.docDeltas.length = N ∧
    e.blockFreqs.length = N ∧ encodeTerm st e L = some (e1, tctx) ∧
    m.indexPtr = e1.indexOut ∧ m.offset = tctx.offset ∧ m.size = tctx.size

/-- A participant of a merge with the posting list its chunk holds: the list
is well-formed, not empty, and its positions are 32-bit values. -/
structure MergeInput (m : merge_participant) (L : List Posting) : Prop where
  enc : Encodes m L
  wf : WellFormed L
  ne : L ≠ []
  pos32 : ∀ x ∈ L, ∀ q ∈ x.positions, q < 4294967296

/-- The registry test and the posting list of every participant. -/
def partsOf (inputs : List (merge_participant × List Posting)) : List Part :=
  inputs.map fun i => (i.1.maskedDocsReg, i.2)

/-- The document IDs passed to `begin_document`, in order. -/
def beginDocs (calls : List EncCall) : List Nat :=
  calls.filterMap fun c =>
    match c with
    | .begin_document d _ => some d
    | _ => none

/-- The posting list of the more recent segment of the merge scenarios: document 1. -/
def seg1Postings : List Posting := [⟨1, 2, [3, 9]⟩]

/-- The posting list of the older segment of the merge scenarios: documents 1 and 2. -/
def seg2Postings : List Posting := [⟨1, 1, [7]⟩, ⟨2, 1, [5]⟩]

/-- The participant of a merge that holds the chunk the encoder produces for
`L` in an empty session output, with the registry test `mask`. -/
def participantOf (L : List Posting) (mask : Nat → Bool) : merge_participant :=
  let r := (encodeTerm 1 (Encoder.new []) L).getD (Encoder.new [], ⟨0, 0, 0⟩)
  ⟨r.1.indexOut, r.2.offset, r.2.size, mask⟩

/-- The merge scenario with a deletion: the registry of the more recent
segment masks document 1. -/
def mergeInputsD : List (merge_participant × List Posting) :=
  [(participantOf seg1Postings (fun d => d == 1), seg1Postings),
   (participantOf seg2Postings (fun _ => false), seg2Postings)]

/-- A decoder whose skiplist has the keys 5, 9 and 20. -/
def searchDecoder : Decoder := { Decoder.new with skiplist := [(5, 0), (9, 10), (20, 30)] }

/-- The encoder states after the successive calls of `commit_block` of one
term: `Commits st e0 k e` when `e` results from the `k`-th call, the work
between two calls leaving `skipListData` and `skiplistEntryCountdown` as the
previous call set them. -/
inductive Commits (st : Nat) (e0 : Encoder) : Nat → Encoder → Prop
  | zero : Commits st e0 0 e0
  | step {k : Nat} {e e' e1 : Encoder} : Commits st e0 k e →
      e'.skipListData = e.skipListData →
      e'.skiplistEntryCountdown = e.skiplistEntryCountdown →
      e'.commit_block st = some e1 → Commits st e0 (k + 1) e1

/-- The encoder after the first `commit_block` of the term of `applePostings`. -/
def appleCommitted : Encoder := (appleOpen.commit_block 1).getD appleOpen

/-- The encoder state and term context after encoding `seg2Postings` as the
second term of the session that holds the chunk of `applePostings`. -/
def secondChunk : Encoder × term_index_ctx :=
  (encodeTerm 1 appleChunk.1 seg2Postings).getD (Encoder.new [], ⟨0, 0, 0⟩)

/-- A document with 65536 positions: 0, 1, ..., 65535. -/
def manyPositions : Posting := ⟨1, 65536, List.range 65536⟩

/-- The posting list of the large-list scenario: documents 1 to 10000, each
with frequency 1 and the position 1. -/
def largeList : List Posting := (List.range 10000).map fun i => ⟨i + 1, 1, [1]⟩

/-- The total size bound of a posting list: 21 bytes and 5 bytes per position
for every document. -/
def sizeBound (S : List Posting) : Nat := (S.map fun x => 21 + 5 * x.positions.length).sum

/-! ## Terms dictionary (`terms.h`)

`terms.h` declares `pack_terms`, `unpack_terms_skiplist`, `lookup_term` and
`terms_data_view::iterator::decode_cur` without their bodies; they are
modelled from §4.5 and §4.6 of the specification. The iterator and the view
`IndexSourcePrefixCompressedTermsView` are embedded from `terms.h`. -/

/-- Byte-lexicographic order of two terms (`strwlen8_t`): `a` sorts before `b`. -/
def termLt : List Nat → List Nat → Bool
  | _, [] => false
  | [], _ :: _ => true
  | a :: as, b :: bs => if a < b then true else if a = b then termLt as bs else false

/-- The length of the common prefix of two terms. -/
def commonPrefixLen : List Nat → List Nat → Nat
  | a :: as, b :: bs => if a = b then commonPrefixLen as bs + 1 else 0
  | _, _ => 0

/-- Embeds `terms_skiplist_entry`. -/
structure terms_skiplist_entry where
  term : List Nat
  blockOffset : Nat
  tctx : term_index_ctx

/-- Inserts a pair in a list sorted by term. -/
def insertTerm (x : List Nat × term_index_ctx) :
    List (List Nat × term_index_ctx) → List (List Nat × term_index_ctx)
  | [] => [x]
  | y :: ys => if termLt y.1 x.1 then y :: insertTerm x ys else x :: y :: ys

/-- Step 1 of §4.5: the pairs sorted ascending by term bytes. -/
def sortTerms : List (List Nat × term_index_ctx) → List (List Nat × term_index_ctx)
  | [] => []
  | x :: xs => insertTerm x (sortTerms xs)

/-- The three varints of a term context: document count, chunk offset, chunk length. -/
def tctxBytes (c : term_index_ctx) : List Nat :=
  encode_varuint32 c.documents ++ encode_varuint32 c.offset ++ encode_varuint32 c.size

/-- Step 3 of §4.5: the record of a term in the data stream, after the term `prev`:
`u8` common prefix length, `u8` suffix length, the suffix, the term context. -/
def termRecord (prev t : List Nat) (c : term_index_ctx) : List Nat :=
  [commonPrefixLen prev t % 256, (t.length - commonPrefixLen prev t) % 256]
    ++ t.drop (commonPrefixLen prev t) ++ tctxBytes c

/-- Step 2 of §4.5: a record of the index stream, with the framing chosen
here: `u8` length, the full term, the varint of the data offset and the term
context carried by the skiplist entry. -/
def indexRecord (t : List Nat) (off : Nat) (c : term_index_ctx) : List Nat :=
  [t.length % 256] ++ t ++ encode_varuint32 off ++ tctxBytes c

/-- The walk of §4.5 over the sorted pairs: `cd` terms remain before the next
index boundary, at which an index record is emitted and the prefix context
is reset. -/
def packLoop (STEP : Nat) :
    List (List Nat × term_index_ctx) → List Nat → Nat → List Nat → List Nat → List Nat × List Nat
  | [], _, _, data, index => (data, index)
  | x :: rest, prev, cd, data, index =>
    if cd = 0 then
      packLoop STEP rest x.1 (STEP - 1) (data ++ termRecord [] x.1 x.2)
        (index ++ indexRecord x.1 data.length x.2)
    else packLoop STEP rest x.1 (cd - 1) (data ++ termRecord prev x.1 x.2) index

/-- Modelled from the spec: `pack_terms` of `terms.h` (§4.5), with
`TERMS_SKIPLIST_STEP` as a parameter: the data and the index buffers. -/
def pack_terms (STEP : Nat) (terms : List (List Nat × term_index_ctx)) : List Nat × List Nat :=
  packLoop STEP (sortTerms terms) [] 0 [] []

/-- Reads the three varints of a term context. -/
def decodeTctx (mem : List Nat) (p : Nat) : term_index_ctx × Nat :=
  let r1 := decode_varuint32 mem p
  let r2 := decode_varuint32 mem r1.2
  let r3 := decode_varuint32 mem r2.2
  (⟨r1.1, r2.1, r3.1⟩, r3.2)

/-- The loop of `unpack_terms_skiplist` over the records of the index stream. -/
def unpackEntries : Nat → List Nat → Nat → List terms_skiplist_entry → List terms_skiplist_entry
  | 0, _, _, acc => acc
  | fuel + 1, index, p, acc =>
    if p < index.length then
      let len := index.getD p 0
      let term := (index.drop (p + 1)).take len
      let r1 := decode_varuint32 index (p + 1 + len)
      let r2 := decodeTctx index r1.2
      unpackEntries fuel index r2.2 (acc ++ [⟨term, r1.1, r2.1⟩])
    else acc

/-- Modelled from the spec: `unpack_terms_skiplist` of `terms.h` (§4.6: the
in-memory skiplist parsed from the terms-index stream). -/
def unpack_terms_skiplist (termsIndex : List Nat) : List terms_skiplist_entry :=
  unpackEntries termsIndex.length termsIndex 0 []

/-- Reads the record of the data stream at `p`, after the term `prev`:
`fullTerm = previousFullTerm[0..commonPrefixLength] ++ suffix` (§4.6). The
result is the term, its context and the offset after the record. -/
def decodeTermRecord (data : List Nat) (p : Nat) (prev : List Nat) :
    List Nat × term_index_ctx × Nat :=
  let cpl := data.getD p 0
  let sl := data.getD (p + 1) 0
  let r := decodeTctx data (p + 2 + sl)
  (prev.take cpl ++ (data.drop (p + 2)).take sl, r.1, r.2)

/-- Step 1 of §4.6: binary search of the skiplist; the result is the number of
entries whose term is not above the query. -/
def searchEntries (skipList : List terms_skiplist_entry) (q : List Nat) : Nat → Nat → Nat → Nat
  | 0, lo, _ => lo
  | fuel + 1, lo, hi =>
    if lo < hi then
      if termLt q (skipList.getD ((lo + hi) / 2) ⟨[], 0, ⟨0, 0, 0⟩⟩).term then
        searchEntries skipList q fuel lo ((lo + hi) / 2)
      else searchEntries skipList q fuel ((lo + hi) / 2 + 1) hi
    else lo

/-- Step 2 of §4.6: the linear scan of the data stream from `p`; it stops at
the first term not below the query. -/
def scanTerms (data q : List Nat) : Nat → Nat → List Nat → term_index_ctx
  | 0, _, _ => ⟨0, 0, 0⟩
  | fuel + 1, p, prev =>
    if p < data.length then
      if (decodeTermRecord data p prev).1 = q then (decodeTermRecord data p prev).2.1
      else if termLt q (decodeTermRecord data p prev).1 then ⟨0, 0, 0⟩
      else scanTerms data q fuel (decodeTermRecord data p prev).2.2 (decodeTermRecord data p prev).1
    else ⟨0, 0, 0⟩

/-- Modelled from the spec: `lookup_term` of `terms.h` (§4.6). The value for
"not found" is the empty term context. -/
def lookup_term (termsData : List Nat) (term : List Nat)
    (skipList : List terms_skiplist_entry) : term_index_ctx :=
  if searchEntries skipList term skipList.length 0 skipList.length = 0 then ⟨0, 0, 0⟩
  else
    scanTerms termsData term termsData.length
      (skipList.getD (searchEntries skipList term skipList.length 0 skipList.length - 1)
        ⟨[], 0, ⟨0, 0, 0⟩⟩).blockOffset []

/-- Embeds `terms_data_view::iterator`: the read pointer `p`, the bytes of
`termStorage` that hold the last decoded term, `cur.term.len` and `cur.tctx`. -/
structure terms_iterator where
  p : Nat
  termStorage : List Nat
  curLen : Nat
  curTctx : term_index_ctx

/-- Modelled from the spec: `terms_data_view::iterator::decode_cur` of
`terms.h`: when no term is held (`cur.term.len == 0`), decodes the record at
`p` on top of the previous term kept in `termStorage` and moves `p` past it. -/
def terms_iterator.decode_cur (data : List Nat) (it : terms_iterator) : terms_iterator :=
  if it.curLen = 0 then
    { p := (decodeTermRecord data it.p it.termStorage).2.2
      termStorage := (decodeTermRecord data it.p it.termStorage).1
      curLen := (decodeTermRecord data it.p it.termStorage).1.length
      curTctx := (decodeTermRecord data it.p it.termStorage).2.1 }
  else it

/-- Embeds `IndexSourcePrefixCompressedTermsView`: the terms data, the iterator
`it` and the pointer of the iterator `end`. -/
structure IndexSourcePrefixCompressedTermsView where
  termsData : List Nat
  it : terms_iterator
  endp : Nat

/-- The constructor of the view over a whole data buffer: `it` at its start
holding no term, `end` at its stop. -/
def IndexSourcePrefixCompressedTermsView.new (termsData : List Nat) :
    IndexSourcePrefixCompressedTermsView :=
  { termsData := termsData, it := ⟨0, [], 0, ⟨0, 0, 0⟩⟩, endp := termsData.length }

/-- Embeds `cur()`, that is `*it`: `decode_cur()` then the pair `(cur.term, cur.tctx)`. -/
def IndexSourcePrefixCompressedTermsView.cur (v : IndexSourcePrefixCompressedTermsView) :
    (List Nat × term_index_ctx) × IndexSourcePrefixCompressedTermsView :=
  let it1 := v.it.decode_cur v.termsData
  ((it1.termStorage.take it1.curLen, it1.curTctx), { v with it := it1 })

/-- Embeds `next()`, that is `++it`: `cur.term.len = 0`. -/
def IndexSourcePrefixCompressedTermsView.next (v : IndexSourcePrefixCompressedTermsView) :
    IndexSourcePrefixCompressedTermsView :=
  { v with it := { v.it with curLen := 0 } }

/-- Embeds `done()`, that is `it == end`: the two pointers are equal. -/
def IndexSourcePrefixCompressedTermsView.done (v : IndexSourcePrefixCompressedTermsView) : Bool :=
  v.it.p == v.endp

/-- The loop `while (!done()) { read cur(); next(); }`: the pairs read, in order. -/
def driveTerms : Nat → IndexSourcePrefixCompressedTermsView → List (List Nat × term_index_ctx) →
    Option (List (List Nat × term_index_ctx))
  | 0, _, _ => none
  | fuel + 1, v, acc =>
    if v.done then some acc else driveTerms fuel v.cur.2.next (acc ++ [v.cur.1])

/-- The data bytes written by the walk of `pack_terms` for the pairs `L`. -/
def dataOf (STEP : Nat) : List (List Nat × term_index_ctx) → List Nat → Nat → List Nat
  | [], _, _ => []
  | x :: rest, prev, cd =>
    if cd = 0 then termRecord [] x.1 x.2 ++ dataOf STEP rest x.1 (STEP - 1)
    else termRecord prev x.1 x.2 ++ dataOf STEP rest x.1 (cd - 1)

/-- The skiplist entries recorded by the walk of `pack_terms` for the pairs
`L`, the data written so far having `off` bytes. -/
def entriesOf (STEP : Nat) :
    List (List Nat × term_index_ctx) → List Nat → Nat → Nat → List terms_skiplist_entry
  | [], _, _, _ => []
  | x :: rest, prev, cd, off =>
    if cd = 0 then
      ⟨x.1, off, x.2⟩ :: entriesOf STEP rest x.1 (STEP - 1) (off + (termRecord [] x.1 x.2).length)
    else entriesOf STEP rest x.1 (cd - 1) (off + (termRecord prev x.1 x.2).length)

/-- The context paired with the term `q` in a list of pairs, or the empty
context when there is none. -/
def findCtx (L : List (List Nat × term_index_ctx)) (q : List Nat) : term_index_ctx :=
  match L.find? (fun x => x.1 == q) with
  | some x => x.2
  | none => ⟨0, 0, 0⟩

/-- The conditions on a dictionary: terms of at most 255 bytes (`strwlen8_t`),
pairwise distinct, and 32-bit fields in the term contexts. -/
structure ValidTerms (D : List (List Nat × term_index_ctx)) : Prop where
  nodup : (D.map Prod.fst).Nodup
  len : ∀ x ∈ D, x.1.length ≤ 255
  docs : ∀ x ∈ D, x.2.documents < 4294967296
  off : ∀ x ∈ D, x.2.offset < 4294967296
  size : ∀ x ∈ D, x.2.size < 4294967296

/-- A small dictionary: "ipad", "apple", "ipod", "amiga". -/
def sampleTerms : List (List Nat × term_index_ctx) :=
  [([105, 112, 97, 100], ⟨1, 30, 4⟩), ([97, 112, 112, 108, 101], ⟨2, 0, 7⟩),
   ([105, 112, 111, 100], ⟨3, 40, 5⟩), ([97, 109, 105, 103, 97], ⟨4, 10, 9⟩)]

/-- The view after `k` rounds of the loop body `read cur(); next()`. -/
def readAndPass : Nat → IndexSourcePrefixCompressedTermsView → IndexSourcePrefixCompressedTermsView
  | 0, v => v
  | k + 1, v => readAndPass k v.cur.2.next

/-- The view holds no term and its pointer stands, inside the data written by
the walk of `pack_terms`, at the start of the records of the pairs `L`. -/
def CursorAt (STEP : Nat) (v : IndexSourcePrefixCompressedTermsView)
    (L : List (List Nat × term_index_ctx)) : Prop :=
  v.endp = v.termsData.length ∧ v.it.curLen = 0 ∧ v.it.p ≤ v.termsData.length ∧
    ∃ prev1 cd, v.termsData.drop v.it.p = dataOf STEP L prev1 cd ∧
      (cd ≠ 0 → v.it.termStorage = prev1)

/-- The value of a little-endian base-128 digit string: the low seven bits of
every byte, the first byte the least significant. -/
def base128Value : List Nat → Nat
  | [] => 0
  | b :: bs => b % 128 + 128 * base128Value bs

/-- A participant of a merge whose posting range is empty: a term without
documents encoded right before the term of `applePostings`, at offset 0 of the
same index. -/
def emptyParticipant : merge_participant := ⟨appleChunk.1.indexOut, 0, 0, fun _ => false⟩

/-! ## Merge: one round of the main loop -/

/-- The indices collected in `toAdvance` by the scan of a round of `merge`. -/
def tiedOf (chunks : List Chunk) (rem : Nat) : List Nat :=
  (findLowest chunks (rem - 1) 1 (chunks.getD 0 default).cur_document [0]).2

/-- The array of chunks of a round of `merge` after the emission step: the
chunk `toAdvance[0]` has been passed to `append_from` unless its registry
masks the lowest document. -/
def afterEmit (chunks : List Chunk) (rem : Nat) : List Chunk :=
  let r := findLowest chunks (rem - 1) 1 (chunks.getD 0 default).cur_document [0]
  let src := chunks.getD (r.2.getD 0 0) default
  chunks.set (r.2.getD 0 0) (if !src.maskedDocsReg r.1 then src.append_from else ([], src)).2

/-- One round of the `for (;;)` loop of `merge`: the encoder calls made, the
array, `rem` and whether `goto l1` was taken; `none` when a `refill` fails. -/
def mergeIter (chunks : List Chunk) (rem : Nat) :
    Option (List EncCall × List Chunk × Nat × Bool) :=
  let r := findLowest chunks (rem - 1) 1 (chunks.getD 0 default).cur_document [0]
  let lowestDID := r.1
  let toAdvance := r.2
  let first := toAdvance.getD 0 0
  let src := chunks.getD first default
  let emitted := if !src.maskedDocsReg lowestDID then src.append_from else ([], src)
  (advanceLoop toAdvance.reverse (chunks.set first emitted.2) rem).map fun r1 => (emitted.1, r1)

/-- The states `(chunks, rem)` of `merge` at the start of a round of its main
loop, from the state `(chunks0, rem0)` after the initial refills. -/
inductive MergeReach (chunks0 : List Chunk) (rem0 : Nat) : List Chunk → Nat → Prop
  | start : MergeReach chunks0 rem0 chunks0 rem0
  | round {chunks chunks1 : List Chunk} {rem rem1 : Nat} {calls : List EncCall} :
      MergeReach chunks0 rem0 chunks rem →
      mergeIter chunks rem = some (calls, chunks1, rem1, false) →
      MergeReach chunks0 rem0 chunks1 rem1

/-- What a pass of the `do ... while` loop of `merge` does to a chunk:
`some (some c1)` when the chunk stays in the array as `c1`, after a move
inside its block or a refill; `some none` when it is exhausted and removed;
`none` when `refill` fails. -/
def Chunk.advance (c : Chunk) : Option (Option Chunk) :=
  if c.skip_current.1 then
    if c.skip_current.2.p ≠ c.skip_current.2.e then c.skip_current.2.refill.map some
    else some none
  else some (some c.skip_current.2)

/-- What identifies the participant a chunk belongs to: the memory and the end
of its range, and its registry. No step of `merge` changes them. -/
def Chunk.origin (c : Chunk) : List Nat × Nat × (Nat → Bool) := (c.mem, c.e, c.maskedDocsReg)

/-- The origin of the chunk set up for a participant. -/
def merge_participant.origin (m : merge_participant) : List Nat × Nat × (Nat → Bool) :=
  (m.indexPtr, m.offset + m.size, m.maskedDocsReg)

/-- The live chunks after the tied ones among `chunks[0 .. rem)` have been
advanced: in the order of the array, every chunk whose index is in `tied`
replaced by its advanced state or left out when exhausted, the others kept. -/
def advanceAll (chunks : List Chunk) (rem : Nat) (tied : List Nat) : List Chunk :=
  (List.range rem).filterMap fun i =>
    if i ∈ tied then (chunks.getD i default).advance.join else some (chunks.getD i default)

/-- The chunks of the merge scenario with a deletion after the initial refills. -/
def mergeChunksD : List Chunk :=
  (refillAll ((mergeInputsD.map Prod.fst).map Chunk.ofParticipant)).getD []

/-- The array of chunks of the merge scenario with a deletion after the first
round, in which both participants stand on document 1 and the more recent
one is exhausted and removed. -/
def mergeChunksD1 : List Chunk := ((mergeIter mergeChunksD 2).getD ([], [], 0, true)).2.1

/-- The set of the document IDs that occur in the lists of the participants. -/
def docSet (S : List Part) : Finset Nat :=
  ((S.map fun a => a.2.map Posting.docID).flatten).toFinset

/-! ## Seek with a skiplist -/

/-- The decoder state without its skiplist: `skiplist` empty and `skipListIdx` 0. -/
def Decoder.core (d : Decoder) : Decoder := { d with skiplist := [], skipListIdx := 0 }

/-- The decoder state with the skiplist `sl` and the skiplist index `i`. -/
def Decoder.withSkip (d : Decoder) (sl : List (Nat × Nat)) (i : Nat) : Decoder :=
  { d with skiplist := sl, skipListIdx := i }

/-- The decoder is positioned in one of the blocks `All` of its chunk, or in
the terminal state. -/
def DecAt (All : List (List Posting)) (d : Decoder) : Prop :=
  (∃ (fresh : Bool) (Pre : List (List Posting)) (B : List Posting) (R : List (List Posting)),
      All = Pre ++ B :: R ∧ DecInv d fresh B R) ∨ DecTerm d

/-- The skiplist step of `Decoder::seek`, made after the rest of the current
block has been skipped: when entries remain and `skiplist_search` finds one,
the pointer and `blockLastDocID` are set from it. -/
def Decoder.skiplist_jump (d1 : Decoder) (target : Nat) : Decoder :=
  if d1.skipListIdx ≠ d1.skiplist.length then
    let idx := d1.skiplist_search target
    if idx ≠ UINT32_MAX then
      { d1 with
        blockLastDocID := (d1.skiplist.getD idx (0, 0)).1
        p := d1.base + (d1.skiplist.getD idx (0, 0)).2
        skipListIdx := idx + 1 }
    else d1
  else d1

/-- A chunk of two blocks: the documents 10, 11 and the documents 15, 25, 50. -/
def twoBlocks : List (List Posting) :=
  [[⟨10, 2, [1, 2]⟩, ⟨11, 5, [15, 20, 21, 50, 55]⟩], [⟨15, 1, [20]⟩, ⟨25, 1, [18]⟩, ⟨50, 1, [20]⟩]]

/-- The skiplist of `twoBlocks` with an entry for each of its blocks. -/
def twoBlocksSkiplist : List (Nat × Nat) :=
  [0, 1].map fun j => (chunkLast 0 (twoBlocks.take j), (chunkBytes 0 (twoBlocks.take j)).length)

/-- The decoder opened on the chunk of `twoBlocks` with its skiplist, after `begin()`. -/
def twoBlocksBegun : Decoder :=
  ((((new_decoder ⟨5, 0, (chunkBytes 0 twoBlocks).length⟩ (chunkBytes 0 twoBlocks)).withSkip
    twoBlocksSkiplist 0).begin).getD (0, Decoder.new)).2

/-- The local `n` of `Decoder::init` (google_codec.cpp l.596): the number of
skiplist entries the loop of its skiplist branch reads, computed from the
document count of the term context. -/
def Decoder.init_n (SKIPLIST_STEP : Nat) (tctx : term_index_ctx) : Nat :=
  ((tctx.documents + (N - 1)) / N) / SKIPLIST_STEP

/-- The skiplist state of the encoder after `n` documents of a term: the
block in progress holds `n % N` documents, `n / N` blocks have been
committed, and an entry of 8 bytes has been recorded every `st` commits. -/
structure CountInv (st n : Nat) (e : Encoder) : Prop where
  size : e.curBlockSize = n % N
  docs : e.termDocuments = n
  countdown : e.skiplistEntryCountdown = st - (n / N) % st
  entries : e.skipListData.length = 8 * ((n / N) / st)

/-- The decoder state `d` moved to the memory `mem` that holds its chunk at
offset `base`: the block arrays, the indices and the skiplist fields are
those of `d`, the pointers `p` and `chunkEnd` keep their distance from the
start of the chunk. -/
def Decoder.relocate (d : Decoder) (mem : List Nat) (base : Nat) : Decoder :=
  { d with
    mem := mem
    base := base
    p := base + (d.p - d.base)
    chunkEnd := base + (d.chunkEnd - d.base) }

/-- The bytes of `mem` from offset `b` up to offset `e` are the bytes of
`mem'` from offset `b'` on. -/
def AgreeOn (mem mem' : List Nat) (b b' e : Nat) : Prop :=
  (mem.drop b).take (e - b) = (mem'.drop b').take (e - b)


/-- A call of the decoder interface made after `begin()`. -/
inductive DecCall where
  | next
  | seek (fuel target : Nat)
  | materialize_hits (termID : Nat) (dwspace : DocWordsSpace)
deriving DecidableEq, Repr

/-- What a call of the decoder interface returns: the flag of `next()` and
of `seek()`, or the word space and the hits that `materialize_hits` fills. -/
inductive DecResult where
  | flag (b : Bool)
  | hits (dwspace : DocWordsSpace) (out : List term_hit)
deriving DecidableEq, Repr

/-- Makes one call on the decoder: what it returns and the new state. -/
def Decoder.call (d : Decoder) : DecCall → Option (DecResult × Decoder)
  | .next => d.next.map fun r => (DecResult.flag r.1, r.2)
  | .seek fuel target => (d.seek fuel target).map fun r => (DecResult.flag r.1, r.2)
  | .materialize_hits termID dwspace =>
    (d.materialize_hits termID dwspace).map fun r => (DecResult.hits r.2.1 r.2.2, r.1)

/-- The calls a client may make in the state `d`: `next()` and
`materialize_hits` on a decoder that is not exhausted, `seek` with a 32-bit
target, run with `minFuel` units of fuel at least. -/
def Decoder.allows (minFuel : Nat) (d : Decoder) : DecCall → Prop
  | .next => d.cur_document ≠ UINT32_MAX
  | .seek fuel target => minFuel ≤ fuel ∧ target ≤ UINT32_MAX
  | .materialize_hits _ _ => d.cur_document ≠ UINT32_MAX

/-- A run of the decoder from the state `d0`: the calls made, each with what
it returned and with the current document and frequency after it, and the
state reached. -/
inductive Session (minFuel : Nat) (d0 : Decoder) :
    List (DecCall × DecResult × Nat × Nat) → Decoder → Prop
  | start : Session minFuel d0 [] d0
  | step {tr : List (DecCall × DecResult × Nat × Nat)} {d d1 : Decoder} {c : DecCall}
      {r : DecResult} : Session minFuel d0 tr d → d.allows minFuel c →
      d.call c = some (r, d1) →
      Session minFuel d0 (tr ++ [(c, r, d1.cur_document, d1.cur_freq)]) d1

/-- The index of the session that holds the chunk of `applePostings` followed
by the chunk of `seg2Postings`. -/
def sessionIndex : List Nat := secondChunk.1.indexOut

/-- The output and the range returned by appending the chunk of
`applePostings`, taken from `sessionIndex`, to an output of three bytes. -/
def appendedApple : List Nat × Nat × Nat := append_index_chunk [9, 9, 9] sessionIndex appleChunk.2

/-- The decoder on the chunk of `applePostings` in `sessionIndex`, after `begin()`. -/
def sourceBegun : Decoder :=
  ((new_decoder appleChunk.2 sessionIndex).begin.getD (0, Decoder.new)).2

/-- The decoder on the range returned by the append, after `begin()`. -/
def copyBegun : Decoder :=
  ((new_decoder ⟨5, appendedApple.2.1, appendedApple.2.2⟩ appendedApple.1).begin.getD
    (0, Decoder.new)).2

theorem encodeVarAux_lt (k x : Nat) : ∀ b ∈ encodeVarAux k x, b < 256 := by
  induction k generalizing x with
  | zero => intro b hb; simp [encodeVarAux] at hb; omega
  | succ k ih =>
    intro b hb
    unfold encodeVarAux at hb
    split at hb
    · simp at hb; omega
    · simp at hb
      rcases hb with h | h
      · omega
      · exact ih _ b h

theorem encodeVarAux_length_pos (k x : Nat) : 0 < (encodeVarAux k x).length := by
  cases k <;> (unfold encodeVarAux; try split) <;> simp

theorem encodeVarAux_length_le (k x : Nat) : (encodeVarAux k x).length ≤ k + 1 := by
  induction k generalizing x with
  | zero => simp [encodeVarAux]
  | succ k ih =>
    unfold encodeVarAux
    split
    · simp
    · simp; exact ih _

theorem decodeVarAux_encodeVarAux (k x : Nat) (rest : List Nat) (hx : x < 128 ^ (k + 1)) :
    decodeVarAux (k + 1) (encodeVarAux k x ++ rest) = (x, (encodeVarAux k x).length) := by
  induction k generalizing x with
  | zero =>
    have : x < 128 := by simpa using hx
    simp [encodeVarAux, decodeVarAux, Nat.mod_eq_of_lt this, this]
  | succ k ih =>
    unfold encodeVarAux
    split
    · rename_i h
      simp [decodeVarAux, h]
    · rename_i h
      have hx2 : x / 128 < 128 ^ (k + 1) := by
        rw [Nat.div_lt_iff_lt_mul (by norm_num)]
        calc x < 128 ^ (k + 1 + 1) := hx
          _ = 128 ^ (k + 1) * 128 := by ring
      have := ih (x / 128) hx2
      have h2 : ¬ (x % 128 + 128 < 128) := by omega
      rw [decodeVarAux]
      simp only [List.cons_append, List.headD_cons, h2, if_false, List.tail_cons, this]
      simp only [List.length_cons, Prod.mk.injEq, and_true]
      omega

theorem u32_lt (x : Nat) : u32 x < 4294967296 := Nat.mod_lt _ (by norm_num)

theorem u32_of_lt {x : Nat} (h : x < 4294967296) : u32 x = x := Nat.mod_eq_of_lt h

theorem u32_u32 (x : Nat) : u32 (u32 x) = u32 x := u32_of_lt (u32_lt x)

theorem decodeVarAux_encode (x : Nat) (rest : List Nat) :
    decodeVarAux 5 (encode_varuint32 x ++ rest) = (u32 x, (encode_varuint32 x).length) := by
  unfold encode_varuint32
  exact decodeVarAux_encodeVarAux 4 (u32 x) rest (by have := u32_lt x; norm_num; omega)

theorem decode_varuint32_encode (mem : List Nat) (p x : Nat) (rest : List Nat)
    (h : mem.drop p = encode_varuint32 x ++ rest) :
    decode_varuint32 mem p = (u32 x, p + (encode_varuint32 x).length) := by
  unfold decode_varuint32
  rw [h, decodeVarAux_encode, u32_u32]

theorem encode_varuint32_length_pos (x : Nat) : 0 < (encode_varuint32 x).length :=
  encodeVarAux_length_pos _ _

theorem encode_varuint32_length_le (x : Nat) : (encode_varuint32 x).length ≤ 5 :=
  encodeVarAux_length_le _ _

theorem encode_varuint32_lt (x : Nat) : ∀ b ∈ encode_varuint32 x, b < 256 :=
  encodeVarAux_lt _ _


/-! ## Encoder -/

theorem varints_nil : varints [] = [] := rfl

theorem varints_cons (x : Nat) (l : List Nat) :
    varints (x :: l) = encode_varuint32 x ++ varints l := by
  simp [varints]

theorem varints_append (l1 l2 : List Nat) : varints (l1 ++ l2) = varints l1 ++ varints l2 := by
  simp [varints]

theorem getD_eq_head_drop (l : List Nat) (i : Nat) : l.getD i 0 = (l.drop i).headD 0 := by
  induction l generalizing i with
  | nil => simp
  | cons a l ih =>
    cases i with
    | zero => simp
    | succ i => simp

theorem encodeArray_eq (arr : List Nat) (k i : Nat) (buf : List Nat) (h : i + k ≤ arr.length) :
    encodeArray arr k i buf = buf ++ varints ((arr.drop i).take k) := by
  induction k generalizing i buf with
  | zero => simp [encodeArray, varints]
  | succ k ih =>
    have hi : i < arr.length := by omega
    rw [encodeArray, ih (i + 1) _ (by omega)]
    rw [List.drop_eq_getElem_cons hi, List.take_succ_cons, varints_cons]
    have : arr.getD i 0 = arr[i] := by
      rw [List.getD_eq_getElem?_getD, List.getElem?_eq_getElem hi]; rfl
    rw [this, List.append_assoc]

theorem calls_append (st : Nat) (e : Encoder) (a b : List EncCall) :
    Encoder.calls st e (a ++ b) = (Encoder.calls st e a).bind fun e1 => Encoder.calls st e1 b := by
  induction a generalizing e with
  | nil => simp [Encoder.calls]
  | cons c cs ih =>
    simp only [List.cons_append, Encoder.calls]
    cases h : e.call st c with
    | none => simp
    | some e1 => simp [ih]

theorem calls_positions (st : Nat) (e : Encoder) (ps : List Nat) :
    ∃ lp, Encoder.calls st e (ps.map EncCall.new_position) =
      some { e with
        hitsData := e.hitsData ++ varints (posDeltas e.lastPos ps)
        lastPos := lp } := by
  induction ps generalizing e with
  | nil => exact ⟨e.lastPos, by simp [Encoder.calls, posDeltas, varints]⟩
  | cons p ps ih =>
    obtain ⟨lp, h⟩ := ih (e.new_position p)
    refine ⟨lp, ?_⟩
    simp only [List.map_cons, Encoder.calls, Encoder.call, Option.some_bind, h]
    simp [Encoder.new_position, posDeltas, varints_cons, List.append_assoc]

theorem lastDoc_append_singleton (prev : Nat) (B : List Posting) (d : Posting) :
    lastDoc prev (B ++ [d]) = u32 d.docID := by
  simp [lastDoc]

theorem lastDoc_nil (prev : Nat) : lastDoc prev [] = prev := rfl

theorem lastDoc_cons_cons (prev : Nat) (b c : Posting) (cs : List Posting) :
    lastDoc prev (b :: c :: cs) = lastDoc (u32 b.docID) (c :: cs) := by
  unfold lastDoc
  rw [List.getLast?_cons_cons]
  cases h : (c :: cs).getLast? with
  | none => simp at h
  | some x => rfl

theorem lastDoc_cons (prev : Nat) (b : Posting) (bs : List Posting) :
    lastDoc prev (b :: bs) = lastDoc (u32 b.docID) bs := by
  cases bs with
  | nil => simp [lastDoc]
  | cons c cs => exact lastDoc_cons_cons _ _ _ _

theorem docDeltasOf_append_singleton (prev : Nat) (B : List Posting) (d : Posting) :
    docDeltasOf prev (B ++ [d]) = docDeltasOf prev B ++ [sub32 d.docID (lastDoc prev B)] := by
  induction B generalizing prev with
  | nil => simp [docDeltasOf, lastDoc]
  | cons b bs ih =>
    rw [List.cons_append, docDeltasOf, ih, lastDoc_cons, docDeltasOf, List.cons_append]

theorem docDeltasOf_length (prev : Nat) (B : List Posting) :
    (docDeltasOf prev B).length = B.length := by
  induction B generalizing prev with
  | nil => rfl
  | cons b bs ih => simp [docDeltasOf, ih]

theorem chunkBytes_append_singleton (prev : Nat) (Bs : List (List Posting)) (B : List Posting) :
    chunkBytes prev (Bs ++ [B]) = chunkBytes prev Bs ++ blockBytes (chunkLast prev Bs) B := by
  induction Bs generalizing prev with
  | nil => simp [chunkBytes, chunkLast]
  | cons b bs ih => simp [chunkBytes, chunkLast, ih]

theorem chunkLast_append_singleton (prev : Nat) (Bs : List (List Posting)) (B : List Posting) :
    chunkLast prev (Bs ++ [B]) = lastDoc (chunkLast prev Bs) B := by
  induction Bs generalizing prev with
  | nil => simp [chunkLast]
  | cons b bs ih => simp [chunkLast, ih]

theorem take_succ_set (l : List Nat) (n v : Nat) (h : n < l.length) :
    (l.set n v).take (n + 1) = l.take n ++ [v] := by
  rw [List.set_eq_take_cons_drop v h]
  have : (l.take n).length = n := by simp; omega
  rw [List.take_append_eq_append_take, this]
  simp [List.take_take]

theorem lastDoc_lt (prev : Nat) (B : List Posting) (h : prev < 4294967296) :
    lastDoc prev B < 4294967296 := by
  unfold lastDoc
  cases B.getLast? with
  | none => simpa using h
  | some d => simpa using u32_lt _

theorem EncInv.begin_term (st : Nat) (e : Encoder) (hd : e.docDeltas.length = N)
    (hf : e.blockFreqs.length = N) : EncInv e.indexOut [] [] (e.begin_term st) := by
  constructor <;> simp [Encoder.begin_term, chunkBytes, chunkLast, lastDoc, docDeltasOf, hd, hf, N]

theorem commit_block_layout_aux (st : Nat) {out0 : List Nat} {Bs : List (List Posting)}
    {B : List Posting} {e : Encoder} (h : e.indexOut = out0 ++ chunkBytes 0 Bs)
    (hprev : e.prevBlockLastDocumentID = chunkLast 0 Bs)
    (hcur : e.curDocID = lastDoc (chunkLast 0 Bs) B)
    (hsize : e.curBlockSize = B.length) (hpos : 0 < B.length) (hle : B.length ≤ N)
    (hdel : e.docDeltas.take B.length = docDeltasOf (chunkLast 0 Bs) B)
    (hfr : e.blockFreqs.take B.length = B.map fun d => u32 d.freq)
    (hhits : e.hitsData = (B.map Posting.hits).flatten)
    (hdl : e.docDeltas.length = N) (hfl : e.blockFreqs.length = N) :
    ∃ e1, e.commit_block st = some e1 ∧ e1.indexOut = out0 ++ chunkBytes 0 (Bs ++ [B]) ∧
      e1.prevBlockLastDocumentID = e.curDocID ∧ e1.curDocID = e.curDocID ∧
      e1.curBlockSize = 0 ∧ e1.hitsData = [] ∧ e1.docDeltas = e.docDeltas ∧
      e1.blockFreqs = e.blockFreqs ∧ e1.termDocuments = e.termDocuments ∧
      e1.termOffset = e.termOffset := by
  have hne : e.curBlockSize ≠ 0 := by omega
  cases hc : e.commit_block st with
  | none => simp [Encoder.commit_block, hne] at hc
  | some e1 =>
  simp only [Encoder.commit_block, hne, if_false, Option.some.injEq] at hc
  subst hc
  refine ⟨_, rfl, ?_, rfl, rfl, rfl, rfl, rfl, rfl, rfl, rfl⟩
  have hb1 : encodeArray e.docDeltas (e.curBlockSize - 1) 0 [] =
      varints ((docDeltasOf (chunkLast 0 Bs) B).take (B.length - 1)) := by
    rw [encodeArray_eq _ _ _ _ (by omega)]
    simp only [List.drop_zero, List.nil_append, hsize]
    rw [← hdel, List.take_take]
    congr 2
    omega
  have hb2 : encodeArray e.blockFreqs e.curBlockSize 0
      (encodeArray e.docDeltas (e.curBlockSize - 1) 0 []) =
      varints ((docDeltasOf (chunkLast 0 Bs) B).take (B.length - 1))
        ++ varints (B.map fun d => u32 d.freq) := by
    rw [encodeArray_eq _ _ _ _ (by omega), hb1]
    simp only [List.drop_zero, hsize, hfr]
  rw [hsize] at hb1 hb2
  simp only [hb2, h, chunkBytes_append_singleton, blockBytes, blockBody, hcur, hprev, hsize, hhits,
    List.append_assoc, List.length_append]
  have : B.length % 256 = B.length := Nat.mod_eq_of_lt (by unfold N at hle; omega)
  rw [this]
  simp [List.append_assoc, Nat.add_assoc]

theorem EncInv.commit (st : Nat) {out0 : List Nat} {Bs : List (List Posting)} {B : List Posting}
    {e : Encoder} (h : e.indexOut = out0 ++ chunkBytes 0 Bs)
    (hprev : e.prevBlockLastDocumentID = chunkLast 0 Bs)
    (hprevlt : e.prevBlockLastDocumentID < 4294967296)
    (hcur : e.curDocID = lastDoc (chunkLast 0 Bs) B)
    (hsize : e.curBlockSize = B.length)
    (hdel : e.docDeltas.take B.length = docDeltasOf (chunkLast 0 Bs) B)
    (hfr : e.blockFreqs.take B.length = B.map fun d => u32 d.freq)
    (hhits : e.hitsData = (B.map Posting.hits).flatten)
    (hdl : e.docDeltas.length = N) (hfl : e.blockFreqs.length = N)
    (hfull : ∀ B1 ∈ Bs, B1.length = N) (hN : B.length = N)
    (hcount : e.termDocuments = Bs.flatten.length + B.length)
    (hoff : e.termOffset = out0.length) :
    ∃ e1, e.commit_block st = some e1 ∧ EncInv out0 (Bs ++ [B]) [] e1 := by
  obtain ⟨e1, he1, h1, h2, h3, h4, h5, h6, h7, h8, h9⟩ :=
    commit_block_layout_aux st h hprev hcur hsize (by rw [hN]; decide) (by omega) hdel hfr hhits
      hdl hfl
  refine ⟨e1, he1, ?_⟩
  constructor
  · exact h1
  · rw [h2, hcur, chunkLast_append_singleton]
  · rw [h2, hcur]; exact lastDoc_lt _ _ (hprev ▸ hprevlt)
  · rw [h3, hcur, chunkLast_append_singleton, lastDoc_nil]
  · simp [h4]
  · simp [N]
  · simp [docDeltasOf]
  · simp
  · simp [h5]
  · rw [h6]; exact hdl
  · rw [h7]; exact hfl
  · intro B1 hB1
    simp only [List.mem_append, List.mem_singleton] at hB1
    rcases hB1 with h1 | h1
    · exact hfull _ h1
    · exact h1 ▸ hN
  · simp [h8, hcount]
  · rw [h9]; exact hoff

theorem EncInv.posting (st : Nat) {out0 : List Nat} {Bs : List (List Posting)} {B : List Posting}
    {e : Encoder} (inv : EncInv out0 Bs B e) (d : Posting) :
    ∃ e1 Bs1 B1, Encoder.calls st e d.calls = some e1 ∧ EncInv out0 Bs1 B1 e1 ∧
      Bs1.flatten ++ B1 = Bs.flatten ++ B ++ [d] ∧
      (B1 = [] ∧ Bs1 = Bs ++ [B ++ [d]] ∨ B1 = B ++ [d] ∧ Bs1 = Bs) := by
  obtain ⟨lp, hp⟩ := calls_positions st (e.begin_document d.docID d.freq) d.positions
  have hlen : B.length < e.docDeltas.length := by rw [inv.deltas_len]; exact inv.size_lt
  have hlen2 : B.length < e.blockFreqs.length := by rw [inv.freqs_len]; exact inv.size_lt
  -- the state before `end_document`
  set e2 : Encoder := { e.begin_document d.docID d.freq with
    hitsData := (e.begin_document d.docID d.freq).hitsData
      ++ varints (posDeltas (e.begin_document d.docID d.freq).lastPos d.positions)
    lastPos := lp } with he2
  have hcalls : Encoder.calls st e d.calls = e2.end_document st := by
    simp only [Posting.calls, Encoder.calls, Encoder.call, Option.some_bind, calls_append, hp]
    cases e2.end_document st <;> rfl
  have hsz : e2.curBlockSize = (B ++ [d]).length := by
    simp [he2, Encoder.begin_document, inv.size]
  have hcur : e2.curDocID = lastDoc (chunkLast 0 Bs) (B ++ [d]) := by
    simp [he2, Encoder.begin_document, lastDoc_append_singleton]
  have hdel : e2.docDeltas.take (B ++ [d]).length = docDeltasOf (chunkLast 0 Bs) (B ++ [d]) := by
    simp only [he2, Encoder.begin_document, inv.size, List.length_append, List.length_singleton]
    rw [take_succ_set _ _ _ hlen, inv.deltas, docDeltasOf_append_singleton, inv.cur]
  have hfr : e2.blockFreqs.take (B ++ [d]).length = (B ++ [d]).map fun d => u32 d.freq := by
    simp only [he2, Encoder.begin_document, inv.size, List.length_append, List.length_singleton]
    rw [take_succ_set _ _ _ hlen2, inv.freqs]
    simp
  have hhits : e2.hitsData = ((B ++ [d]).map Posting.hits).flatten := by
    simp [he2, Encoder.begin_document, inv.hits, Posting.hits]
  have hdl : e2.docDeltas.length = N := by simp [he2, Encoder.begin_document, inv.deltas_len]
  have hfl : e2.blockFreqs.length = N := by simp [he2, Encoder.begin_document, inv.freqs_len]
  have hcount : e2.termDocuments = Bs.flatten.length + (B ++ [d]).length := by
    simp [he2, Encoder.begin_document, inv.count]; omega
  by_cases hN : B.length + 1 = N
  · obtain ⟨e1, h1, h2⟩ := EncInv.commit st (e := e2) (B := B ++ [d]) inv.out inv.prev inv.prev_lt
      hcur hsz hdel hfr hhits hdl hfl inv.full (by simpa using hN) hcount inv.offset
    refine ⟨e1, Bs ++ [B ++ [d]], [], ?_, h2, by simp, Or.inl ⟨rfl, rfl⟩⟩
    rw [hcalls, Encoder.end_document, if_pos (by rw [hsz]; simpa using hN)]
    exact h1
  · refine ⟨e2, Bs, B ++ [d], ?_, ?_, by simp, Or.inr ⟨rfl, rfl⟩⟩
    · rw [hcalls, Encoder.end_document, if_neg (by rw [hsz]; simpa using hN)]
    · have := inv.size_lt
      exact ⟨inv.out, inv.prev, inv.prev_lt, hcur, hsz, by simp; omega, hdel, hfr, hhits, hdl, hfl,
        inv.full, hcount, inv.offset⟩

theorem EncInv.postings (st : Nat) {out0 : List Nat} (S : List Posting) :
    ∀ {Bs : List (List Posting)} {B : List Posting} {e : Encoder}, EncInv out0 Bs B e →
    ∃ e1 Bs1 B1, Encoder.calls st e (postingCalls S) = some e1 ∧ EncInv out0 Bs1 B1 e1 ∧
      Bs1.flatten ++ B1 = Bs.flatten ++ B ++ S := by
  induction S with
  | nil => intro Bs B e inv; exact ⟨e, Bs, B, rfl, inv, by simp⟩
  | cons d ds ih =>
    intro Bs B e inv
    obtain ⟨e1, Bs1, B1, h1, inv1, hfl, -⟩ := inv.posting st d
    obtain ⟨e2, Bs2, B2, h2, inv2, hfl2⟩ := ih inv1
    refine ⟨e2, Bs2, B2, ?_, inv2, ?_⟩
    · simp only [postingCalls, calls_append, h1, Option.some_bind, h2]
    · rw [hfl2, hfl]; simp

/-- The block partition of a posting list together with the conditions the
encoder guarantees: no empty block, at most `N` documents per block. -/
theorem encodeTerm_layout (st : Nat) (e : Encoder) (S : List Posting)
    (hd : e.docDeltas.length = N) (hf : e.blockFreqs.length = N) :
    ∃ e1 Bs, encodeTerm st e S =
        some (e1, ⟨S.length, e.indexOut.length, (chunkBytes 0 Bs).length⟩) ∧
      e1.indexOut = e.indexOut ++ chunkBytes 0 Bs ∧ Bs.flatten = S ∧
      (∀ B ∈ Bs, 0 < B.length ∧ B.length ≤ N) ∧
      e1.docDeltas.length = N ∧ e1.blockFreqs.length = N := by
  obtain ⟨e1, Bs1, B1, h1, inv, hfl⟩ := (EncInv.begin_term st e hd hf).postings st S
  simp only [List.flatten_nil, List.nil_append] at hfl
  have hlenS : S.length = Bs1.flatten.length + B1.length := by rw [← hfl]; simp
  by_cases hB : B1.length = 0
  · have hB1 : B1 = [] := List.length_eq_zero.mp hB
    subst hB1
    refine ⟨e1, Bs1, ?_, inv.out, by simpa using hfl, ?_, inv.deltas_len, inv.freqs_len⟩
    · simp only [encodeTerm, h1, Option.some_bind, Encoder.end_term, inv.size, List.length_nil,
        if_true, inv.count, inv.offset, inv.out, List.length_append]
      simp [hlenS]
    · intro B hBm
      rw [inv.full B hBm]; simp [N]
  · have hpos : 0 < B1.length := Nat.pos_of_ne_zero hB
    obtain ⟨e2, he2, g1, g2, g3, g4, g5, g6, g7, g8, g9⟩ :=
      commit_block_layout_aux st inv.out inv.prev inv.cur inv.size hpos (Nat.le_of_lt inv.size_lt)
        inv.deltas inv.freqs inv.hits inv.deltas_len inv.freqs_len
    refine ⟨e2, Bs1 ++ [B1], ?_, g1, by simpa using hfl, ?_, by rw [g6]; exact inv.deltas_len,
      by rw [g7]; exact inv.freqs_len⟩
    · have hne : e1.curBlockSize ≠ 0 := by rw [inv.size]; exact hB
      simp only [encodeTerm, h1, Option.some_bind, Encoder.end_term, hne, if_false, he2,
        Option.map_some', g8, g9, inv.count, inv.offset, g1, List.length_append]
      simp [hlenS]
    · intro B hBm
      simp only [List.mem_append, List.mem_singleton] at hBm
      rcases hBm with h | h
      · rw [inv.full B h]; simp [N]
      · subst h; exact ⟨hpos, Nat.le_of_lt inv.size_lt⟩



/-! ## Reading the chunk -/

theorem drop_add_of_drop_eq {mem : List Nat} {p : Nat} {a rest : List Nat}
    (h : mem.drop p = a ++ rest) : mem.drop (p + a.length) = rest := by
  rw [← List.drop_drop, h, List.drop_left]

theorem decode_at {mem : List Nat} {p x : Nat} {rest : List Nat}
    (h : mem.drop p = encode_varuint32 x ++ rest) :
    (decode_varuint32 mem p).1 = u32 x ∧
      (decode_varuint32 mem p).2 = p + (encode_varuint32 x).length ∧
      mem.drop (decode_varuint32 mem p).2 = rest := by
  rw [decode_varuint32_encode mem p x rest h]
  exact ⟨rfl, rfl, drop_add_of_drop_eq h⟩

theorem skipVarints_eq (mem : List Nat) (ws : List Nat) :
    ∀ (p : Nat) (rest : List Nat), mem.drop p = varints ws ++ rest →
      skipVarints mem ws.length p = p + (varints ws).length := by
  induction ws with
  | nil => intro p rest _; simp [skipVarints, varints]
  | cons w ws ih =>
    intro p rest h
    rw [varints_cons, List.append_assoc] at h
    obtain ⟨_, h2, h3⟩ := decode_at h
    rw [List.length_cons, skipVarints, ih _ rest h3, h2, varints_cons, List.length_append]
    omega

theorem sub32_lt (a b : Nat) : sub32 a b < 4294967296 := Nat.mod_lt _ (by norm_num)

theorem u32_add_sub32 (a id : Nat) (h : id < 4294967296) : u32 (id + sub32 a id) = u32 a := by
  unfold u32 sub32
  rw [Nat.mod_eq_of_lt h]
  omega

theorem posDeltas_length (prev : Nat) (ps : List Nat) : (posDeltas prev ps).length = ps.length := by
  induction ps generalizing prev with
  | nil => rfl
  | cons p ps ih => simp [posDeltas, ih]

theorem unpackDocs_eq (mem : List Nat) (L : List Posting) :
    ∀ (i id p : Nat) (docs rest : List Nat), id < 4294967296 →
      mem.drop p = varints (docDeltasOf id L) ++ rest → i + L.length ≤ docs.length →
      (unpackDocs mem L.length i id p docs).2 = p + (varints (docDeltasOf id L)).length ∧
      (unpackDocs mem L.length i id p docs).1.length = docs.length ∧
      (∀ j, j < i → (unpackDocs mem L.length i id p docs).1[j]? = docs[j]?) ∧
      (∀ (j : Nat) (x : Posting), L[j]? = some x →
        (unpackDocs mem L.length i id p docs).1[i + j]? = some (u32 x.docID)) := by
  induction L with
  | nil => intro i id p docs rest _ _ _; simp [unpackDocs, docDeltasOf, varints]
  | cons x xs ih =>
    intro i id p docs rest hid h hlen
    rw [docDeltasOf, varints_cons, List.append_assoc] at h
    obtain ⟨h1, h2, h3⟩ := decode_at h
    simp only [List.length_cons] at hlen
    have hv : u32 (id + (decode_varuint32 mem p).1) = u32 x.docID := by
      rw [h1, u32_of_lt (sub32_lt _ _), u32_add_sub32 _ _ hid]
    obtain ⟨g1, g2, g3, g4⟩ := ih (i + 1) (u32 x.docID) (decode_varuint32 mem p).2
      (docs.set i (u32 x.docID)) rest (u32_lt _) h3 (by simp; omega)
    simp only [List.length_cons, unpackDocs, hv]
    refine ⟨?_, ?_, ?_, ?_⟩
    · rw [g1, h2, docDeltasOf, varints_cons, List.length_append]; omega
    · rw [g2, List.length_set]
    · intro j hj
      rw [g3 j (by omega), List.getElem?_set_ne (by omega)]
    · intro j y hy
      cases j with
      | zero =>
        simp only [List.getElem?_cons_zero, Option.some.injEq] at hy
        subst hy
        show (unpackDocs mem xs.length (i + 1) (u32 x.docID) (decode_varuint32 mem p).2 (docs.set i (u32 x.docID))).1[i]? = _
        rw [g3 i (by omega), List.getElem?_set_self (by omega)]
      | succ j =>
        simp only [List.getElem?_cons_succ] at hy
        have := g4 j y hy
        rw [show i + (j + 1) = i + 1 + j by omega]
        exact this

theorem unpackFreqs_eq (mem : List Nat) (vs : List Nat) :
    ∀ (i p : Nat) (freqs rest : List Nat),
      mem.drop p = varints vs ++ rest → i + vs.length ≤ freqs.length →
      (unpackFreqs mem vs.length i p freqs).2 = p + (varints vs).length ∧
      (unpackFreqs mem vs.length i p freqs).1.length = freqs.length ∧
      (∀ j, j < i → (unpackFreqs mem vs.length i p freqs).1[j]? = freqs[j]?) ∧
      (∀ (j : Nat) (x : Nat), vs[j]? = some x →
        (unpackFreqs mem vs.length i p freqs).1[i + j]? = some (u32 x)) := by
  induction vs with
  | nil => intro i p freqs rest _ _; simp [unpackFreqs, varints]
  | cons x xs ih =>
    intro i p freqs rest h hlen
    rw [varints_cons, List.append_assoc] at h
    obtain ⟨h1, h2, h3⟩ := decode_at h
    simp only [List.length_cons] at hlen
    obtain ⟨g1, g2, g3, g4⟩ := ih (i + 1) (decode_varuint32 mem p).2
      (freqs.set i (decode_varuint32 mem p).1) rest h3 (by simp; omega)
    simp only [List.length_cons, unpackFreqs]
    refine ⟨?_, ?_, ?_, ?_⟩
    · rw [g1, h2, varints_cons, List.length_append]; omega
    · rw [g2, List.length_set]
    · intro j hj
      rw [g3 j (by omega), List.getElem?_set_ne (by omega)]
    · intro j y hy
      cases j with
      | zero =>
        simp only [List.getElem?_cons_zero, Option.some.injEq] at hy
        subst hy
        show (unpackFreqs mem xs.length (i + 1) (decode_varuint32 mem p).2 (freqs.set i (decode_varuint32 mem p).1)).1[i]? = _
        rw [g3 i (by omega), List.getElem?_set_self (by omega), h1]
      | succ j =>
        simp only [List.getElem?_cons_succ] at hy
        have := g4 j y hy
        rw [show i + (j + 1) = i + 1 + j by omega]
        exact this

theorem getD_of_drop_cons {mem : List Nat} {p a : Nat} {t : List Nat} (h : mem.drop p = a :: t) :
    mem.getD p 0 = a ∧ mem.drop (p + 1) = t := by
  constructor
  · rw [getD_eq_head_drop, h]; rfl
  · rw [← List.drop_drop, h]; rfl

theorem docDeltasOf_take (prev : Nat) (B : List Posting) (k : Nat) :
    (docDeltasOf prev B).take k = docDeltasOf prev (B.take k) := by
  induction B generalizing prev k with
  | nil => simp [docDeltasOf]
  | cons b bs ih =>
    cases k with
    | zero => simp [docDeltasOf]
    | succ k => simp [docDeltasOf, ih]

theorem lastDoc_of_getElem? {B : List Posting} {x : Posting} (prev : Nat)
    (h : B[B.length - 1]? = some x) : lastDoc prev B = u32 x.docID := by
  unfold lastDoc
  rw [List.getLast?_eq_getElem?, h]
  rfl

theorem header_eq {mem : List Nat} {p prev : Nat} {B : List Posting} {rest : List Nat}
    (h : mem.drop p = blockBytes prev B ++ rest) (hprev : prev < 4294967296) :
    u32 (prev + (decode_varuint32 mem p).1) = lastDoc prev B ∧
    (decode_varuint32 mem (decode_varuint32 mem p).2).1 = u32 (blockBody prev B).length ∧
    mem.getD (decode_varuint32 mem (decode_varuint32 mem p).2).2 0 = B.length ∧
    mem.drop ((decode_varuint32 mem (decode_varuint32 mem p).2).2 + 1) = blockBody prev B ++ rest ∧
    (decode_varuint32 mem (decode_varuint32 mem p).2).2 + 1 + (blockBody prev B).length =
      p + (blockBytes prev B).length := by
  simp only [blockBytes, List.append_assoc] at h
  obtain ⟨h1, h2, h3⟩ := decode_at h
  obtain ⟨g1, g2, g3⟩ := decode_at h3
  obtain ⟨k1, k2⟩ := getD_of_drop_cons (a := B.length) g3
  refine ⟨?_, g1, k1, k2, ?_⟩
  · rw [h1, u32_of_lt (sub32_lt _ _), u32_add_sub32 _ _ hprev,
      u32_of_lt (lastDoc_lt _ _ hprev)]
  · rw [g2, h2]
    simp only [blockBytes, List.length_append, List.length_singleton]
    omega

theorem unpack_block_eq (d : Decoder) (B : List Posting) (rest : List Nat)
    (hB : 0 < B.length) (hle : B.length ≤ N) (hdl : d.documents.length = N)
    (hfl : d.freqs.length = N) (hprev : d.blockLastDocID < 4294967296)
    (hbytes : d.mem.drop d.p = blockBody d.blockLastDocID B ++ rest) :
    ∃ d1, d.unpack_block (lastDoc d.blockLastDocID B) B.length = some d1 ∧
      d1.mem = d.mem ∧ d1.chunkEnd = d.chunkEnd ∧ d1.base = d.base ∧
      d1.skiplist = d.skiplist ∧ d1.skipListIdx = d.skipListIdx ∧
      d1.blockLastDocID = lastDoc d.blockLastDocID B ∧ d1.blockDocIdx = 0 ∧
      d1.documents.length = N ∧ d1.freqs.length = N ∧
      d.mem.drop d1.p = hitsOf B ++ rest ∧
      d1.p + (hitsOf B).length = d.p + (blockBody d.blockLastDocID B).length ∧
      (∀ (j : Nat) (x : Posting), B[j]? = some x → d1.documents[j]? = some (u32 x.docID)) ∧
      (∀ (j : Nat) (x : Posting), B[j]? = some x → d1.freqs[j]? = some (u32 x.freq)) := by
  have hne : B.length ≠ 0 := by omega
  simp only [blockBody, List.append_assoc, docDeltasOf_take] at hbytes
  have hk : (B.take (B.length - 1)).length = B.length - 1 := by simp
  obtain ⟨a1, a2, a3, a4⟩ := unpackDocs_eq d.mem (B.take (B.length - 1)) 0 d.blockLastDocID d.p
    d.documents _ hprev hbytes (by rw [hk, hdl]; omega)
  rw [hk] at a1 a2 a3 a4
  have hbytes2 := drop_add_of_drop_eq hbytes
  rw [← a1] at hbytes2
  have hfl2 : (B.map fun x => u32 x.freq).length = B.length := by simp
  obtain ⟨b1, b2, b3, b4⟩ := unpackFreqs_eq d.mem (B.map fun x => u32 x.freq) 0 _ d.freqs _
    hbytes2 (by rw [hfl2, hfl]; omega)
  rw [hfl2] at b1 b2 b3 b4
  have hbytes3 := drop_add_of_drop_eq hbytes2
  rw [← b1] at hbytes3
  cases hc : d.unpack_block (lastDoc d.blockLastDocID B) B.length with
  | none => simp [Decoder.unpack_block, hne] at hc
  | some d1 =>
  simp only [Decoder.unpack_block, hne, if_false, Option.some.injEq] at hc
  subst hc
  refine ⟨_, rfl, rfl, rfl, rfl, rfl, rfl, rfl, rfl, ?_, ?_, ?_, ?_, ?_, ?_⟩
  · simp only [List.length_set]; rw [a2]; exact hdl
  · show (unpackFreqs _ _ _ _ _).1.length = N
    rw [b2]; exact hfl
  · exact hbytes3
  · show (unpackFreqs _ _ _ _ _).2 + _ = _
    rw [b1, a1]
    simp only [blockBody, List.length_append, docDeltasOf_take, hitsOf]
    omega
  · intro j x hx
    show ((unpackDocs _ _ _ _ _ _).1.set (B.length - 1) _)[j]? = _
    have hj : j < B.length := by
      rcases List.getElem?_eq_some_iff.mp hx with ⟨h, _⟩; exact h
    by_cases hlast : j = B.length - 1
    · subst hlast
      rw [List.getElem?_set_self (by rw [a2, hdl]; omega), lastDoc_of_getElem? _ hx]
    · rw [List.getElem?_set_ne (by omega)]
      have := a4 j x (by rw [List.getElem?_take_of_lt (by omega)]; exact hx)
      simpa using this
  · intro j x hx
    show (unpackFreqs _ _ _ _ _).1[j]? = _
    have := b4 j (u32 x.freq) (by simp [hx])
    simpa [u32_u32] using this


/-! ## Decoder: sequential access -/

theorem pairwise_getElem? {α : Type} {r : α → α → Prop} {S : List α} (hs : S.Pairwise r)
    {i j : Nat} {x y : α} (hij : i < j) (hx : S[i]? = some x) (hy : S[j]? = some y) : r x y := by
  obtain ⟨hi, rfl⟩ := List.getElem?_eq_some_iff.mp hx
  obtain ⟨hj, rfl⟩ := List.getElem?_eq_some_iff.mp hy
  exact List.pairwise_iff_getElem.mp hs i j hi hj hij

theorem lastDoc_congr (a b : Nat) {B : List Posting} (h : 0 < B.length) :
    lastDoc a B = lastDoc b B := by
  unfold lastDoc
  rw [List.getLast?_eq_getElem?, List.getElem?_eq_getElem (by omega)]
  rfl

theorem getD_of_getElem? {l : List Nat} {i v : Nat} (h : l[i]? = some v) : l.getD i 0 = v := by
  rw [List.getD_eq_getElem?_getD, h]; rfl

theorem hitsOf_cons (x : Posting) (xs : List Posting) : hitsOf (x :: xs) = x.hits ++ hitsOf xs := by
  simp [hitsOf]

theorem hitsOf_nil : hitsOf [] = [] := rfl

theorem blockBytes_length_pos (prev : Nat) (B : List Posting) : 0 < (blockBytes prev B).length := by
  simp [blockBytes]

theorem WellFormed.u32_doc {S : List Posting} (wf : WellFormed S) {x : Posting} (hx : x ∈ S) :
    u32 x.docID = x.docID :=
  u32_of_lt (by have := wf.doc_lt x hx; unfold UINT32_MAX at this; omega)

theorem WellFormed.u32_freq {S : List Posting} (wf : WellFormed S) {x : Posting} (hx : x ∈ S) :
    u32 x.freq = x.freq :=
  u32_of_lt (wf.freq_lt x hx)

theorem mem_of_getElem? {α : Type} {l : List α} {i : Nat} {x : α} (h : l[i]? = some x) : x ∈ l :=
  List.mem_iff_getElem?.mpr ⟨i, h⟩

theorem WellFormed.lastDoc {B : List Posting} {T : List Posting} (wf : WellFormed (B ++ T))
    {x : Posting} (prev : Nat) (hx : B[B.length - 1]? = some x) : lastDoc prev B = x.docID := by
  rw [lastDoc_of_getElem? prev hx]
  exact wf.u32_doc (List.mem_append_left _ (mem_of_getElem? hx))

/-- Unpacking the block at the read pointer puts the decoder on its first document. -/
theorem unpack_next_block_inv (d : Decoder) (B : List Posting) (R : List (List Posting))
    (hB : 0 < B.length) (hle : B.length ≤ N) (hdl : d.documents.length = N)
    (hfl : d.freqs.length = N) (hprev : d.blockLastDocID < 4294967296)
    (hbytes : d.mem.drop d.p = chunkBytes d.blockLastDocID (B :: R) ++ d.mem.drop d.chunkEnd)
    (hend : d.p + (chunkBytes d.blockLastDocID (B :: R)).length = d.chunkEnd)
    (hblocks : ∀ B1 ∈ R, 0 < B1.length ∧ B1.length ≤ N) (hwf : WellFormed (B ++ R.flatten))
    (hskip : d.skiplist = []) (hbase : d.base ≤ d.p) :
    ∃ d1, d.unpack_next_block = some d1 ∧ DecInv d1 true B R ∧ d1.blockDocIdx = 0 ∧
      d1.skipListIdx = d.skipListIdx ∧ d1.base = d.base ∧ d1.mem = d.mem ∧
      d1.chunkEnd = d.chunkEnd := by
  simp only [chunkBytes, List.append_assoc] at hbytes
  obtain ⟨h1, h2, h3, h4, h5⟩ := header_eq hbytes hprev
  obtain ⟨d1, e1, e2, e3, e4, e5, e6, e7, e8, e9, e10, e11, e12, e13, e14⟩ :=
    unpack_block_eq { d with p := (decode_varuint32 d.mem (decode_varuint32 d.mem d.p).2).2 + 1 }
      B (chunkBytes (lastDoc d.blockLastDocID B) R ++ d.mem.drop d.chunkEnd) hB hle hdl hfl hprev h4
  simp only at e2 e3 e4 e5 e6 e7 e11 e12
  have hl : lastDoc d.blockLastDocID B = lastDoc 0 B := lastDoc_congr _ _ hB
  refine ⟨d1, ?_, ?_, e8, e6, e4, e2, e3⟩
  · simp only [Decoder.unpack_next_block, h1, h3]
    exact e1
  · refine ⟨by rw [e8]; exact hB, hle, e9, e10, ?_, ?_, ?_, by rw [e7, hl], ?_, ?_, hblocks, hwf,
      by rw [e5]; exact hskip, ?_⟩
    · intro j x hx
      rw [e13 j x hx, hwf.u32_doc (List.mem_append_left _ (mem_of_getElem? hx))]
    · intro j x _ hx
      rw [e14 j x hx, hwf.u32_freq (List.mem_append_left _ (mem_of_getElem? hx))]
    · intro x hx
      rw [e14 _ x hx, hwf.u32_freq (List.mem_append_left _ (mem_of_getElem? hx))]
      rfl
    · rw [e2, e3, e8]
      simp only [if_true, List.drop_zero, ← hl, List.append_assoc]
      exact e11
    · rw [e3, e8, ← hend]
      simp only [if_true, List.drop_zero, ← hl, List.length_append, chunkBytes] at e12 h5 ⊢
      omega
    · rw [e4]
      simp only [blockBody, blockBytes, hitsOf, List.length_append] at e12 h5
      omega

theorem drop_eq_cons_of_getElem? {α : Type} {l : List α} {i : Nat} {x : α} (h : l[i]? = some x) :
    l.drop i = x :: l.drop (i + 1) := by
  obtain ⟨hi, rfl⟩ := List.getElem?_eq_some_iff.mp h
  exact List.drop_eq_getElem_cons hi

theorem DecInv.cur_ex {d : Decoder} {fresh : Bool} {B : List Posting} {R : List (List Posting)}
    (h : DecInv d fresh B R) : ∃ x, B[d.blockDocIdx]? = some x :=
  ⟨_, List.getElem?_eq_getElem h.idx_lt⟩

/-- The pointer after the positions of the current document have been skipped. -/
theorem DecInv.skip_cur {d : Decoder} {fresh : Bool} {B : List Posting} {R : List (List Posting)}
    (h : DecInv d fresh B R) :
    d.mem.drop (skipVarints d.mem (d.freqs.getD d.blockDocIdx 0) d.p) =
      hitsOf (B.drop (d.blockDocIdx + 1)) ++ chunkBytes (lastDoc 0 B) R ++ d.mem.drop d.chunkEnd ∧
    skipVarints d.mem (d.freqs.getD d.blockDocIdx 0) d.p
      + (hitsOf (B.drop (d.blockDocIdx + 1)) ++ chunkBytes (lastDoc 0 B) R).length = d.chunkEnd ∧
    d.p ≤ skipVarints d.mem (d.freqs.getD d.blockDocIdx 0) d.p := by
  obtain ⟨x, hx⟩ := h.cur_ex
  have hf := getD_of_getElem? (h.cur_freq _ hx)
  have hb := h.bytes
  have he := h.p_end
  cases fresh with
  | false =>
    simp only [Bool.false_eq_true, if_false] at hf hb he
    rw [hf, skipVarints]
    exact ⟨hb, he, Nat.le_refl _⟩
  | true =>
    simp only [if_true] at hf hb he
    rw [drop_eq_cons_of_getElem? hx, hitsOf_cons, Posting.hits] at hb he
    have hmem : x ∈ B ++ R.flatten := List.mem_append_left _ (mem_of_getElem? hx)
    have hlen : (posDeltas 0 x.positions).length = x.freq := by
      rw [posDeltas_length, h.wf.freq_eq _ hmem]
    simp only [List.append_assoc] at hb
    have := skipVarints_eq d.mem _ d.p _ hb
    rw [hlen] at this
    rw [hf, this]
    refine ⟨?_, ?_, Nat.le_add_right _ _⟩
    · rw [List.append_assoc]; exact drop_add_of_drop_eq hb
    · simp only [List.length_append] at he ⊢
      omega


theorem WellFormed.right {A T : List Posting} (wf : WellFormed (A ++ T)) : WellFormed T :=
  ⟨(List.pairwise_append.mp wf.sorted).2.1,
    fun d hd => wf.doc_lt d (List.mem_append_right _ hd),
    fun d hd => wf.freq_eq d (List.mem_append_right _ hd),
    fun d hd => wf.freq_lt d (List.mem_append_right _ hd)⟩

theorem DecInv.cur_doc {d : Decoder} {fresh : Bool} {B : List Posting} {R : List (List Posting)}
    (h : DecInv d fresh B R) {x : Posting} (hx : B[d.blockDocIdx]? = some x) :
    d.documents.getD d.blockDocIdx 0 = x.docID :=
  getD_of_getElem? (h.docs _ x hx)

theorem DecInv.last_doc {d : Decoder} {fresh : Bool} {B : List Posting} {R : List (List Posting)}
    (h : DecInv d fresh B R) : ∃ y, B[B.length - 1]? = some y ∧ d.blockLastDocID = y.docID := by
  have hlt : B.length - 1 < B.length := by have := h.idx_lt; omega
  refine ⟨_, List.getElem?_eq_getElem hlt, ?_⟩
  rw [h.last]
  exact h.wf.lastDoc 0 (List.getElem?_eq_getElem hlt)

theorem DecInv.last_lt {d : Decoder} {fresh : Bool} {B : List Posting} {R : List (List Posting)}
    (h : DecInv d fresh B R) : d.blockLastDocID < UINT32_MAX := by
  obtain ⟨y, hy, hl⟩ := h.last_doc
  rw [hl]
  exact h.wf.doc_lt y (List.mem_append_left _ (mem_of_getElem? hy))

/-- The current document is the last of its block exactly at the last index. -/
theorem DecInv.at_last_iff {d : Decoder} {fresh : Bool} {B : List Posting}
    {R : List (List Posting)} (h : DecInv d fresh B R) :
    d.documents.getD d.blockDocIdx 0 = d.blockLastDocID ↔ d.blockDocIdx + 1 = B.length := by
  obtain ⟨x, hx⟩ := h.cur_ex
  obtain ⟨y, hy, hl⟩ := h.last_doc
  rw [h.cur_doc hx, hl]
  have hs := (List.pairwise_append.mp h.wf.sorted).1
  constructor
  · intro he
    by_contra hne
    have hlt : d.blockDocIdx < B.length - 1 := by have := h.idx_lt; omega
    have := pairwise_getElem? hs hlt hx hy
    omega
  · intro he
    have : B.length - 1 = d.blockDocIdx := by omega
    rw [this, hx] at hy
    simp only [Option.some.injEq] at hy
    rw [hy]

/-- Moving to the next document of the same block. -/
theorem DecInv.skip_block_doc {d : Decoder} {fresh : Bool} {B : List Posting}
    {R : List (List Posting)} (h : DecInv d fresh B R) (hlt : d.blockDocIdx + 1 < B.length) :
    DecInv d.skip_block_doc true B R := by
  obtain ⟨hb, he, hp⟩ := h.skip_cur
  refine ⟨hlt, h.len_le, h.docs_len, h.freqs_len, h.docs, ?_, ?_, h.last, ?_, ?_, h.blocks, h.wf,
    h.skiplist, Nat.le_trans h.base_le (by simpa only [Decoder.skip_block_doc] using hp)⟩
  · intro j x hj hx
    exact h.freqs j x (by simp only [Decoder.skip_block_doc] at hj; omega) hx
  · intro x hx
    simp only [Decoder.skip_block_doc, if_true] at hx ⊢
    exact h.freqs _ x (by omega) hx
  · simpa only [Decoder.skip_block_doc, if_true] using hb
  · simpa only [Decoder.skip_block_doc, if_true] using he

theorem DecTerm.finalize {d : Decoder} (hp : d.p = d.chunkEnd) (hdl : d.documents.length = N)
    (hfl : d.freqs.length = N) (hs : d.skiplist = []) : DecTerm d.finalize := by
  refine ⟨rfl, rfl, ?_, hp, ?_, ?_, hs, ?_⟩
  · simp only [Decoder.finalize]
    rw [List.getElem?_set_self (by rw [hdl]; decide)]
  · simp only [Decoder.finalize, List.length_set]; exact hdl
  · simp only [Decoder.finalize, List.length_set]; exact hfl
  · simp only [Decoder.finalize]
    rw [List.getElem?_set_self (by rw [hfl]; decide)]

/-- One call of `next()`: the decoder moves to the following document of the
list, or to the terminal state when there is none. -/
theorem DecInv.next_step {d : Decoder} {fresh : Bool} {B : List Posting} {R : List (List Posting)}
    (h : DecInv d fresh B R) :
    ∃ b d1, d.next = some (b, d1) ∧
      DecState d1 true (B.drop (d.blockDocIdx + 1) ++ R.flatten) ∧
      (b = true ↔ B.drop (d.blockDocIdx + 1) ++ R.flatten ≠ []) ∧
      d1.mem = d.mem ∧ d1.chunkEnd = d.chunkEnd ∧ d1.base = d.base ∧
      d1.skipListIdx = d.skipListIdx := by
  by_cases hlast : d.blockDocIdx + 1 = B.length
  · have hat := h.at_last_iff.mpr hlast
    obtain ⟨hb, he, hp⟩ := h.skip_cur
    have hdrop : B.drop (d.blockDocIdx + 1) = [] := List.drop_eq_nil_of_le (by omega)
    rw [hdrop, hitsOf_nil, List.nil_append] at hb he
    cases R with
    | nil =>
      simp only [chunkBytes, List.length_nil, Nat.add_zero] at he
      refine ⟨false, d.skip_block_doc.finalize, ?_, ?_, by simp [hdrop], rfl, rfl, rfl, rfl⟩
      · simp only [Decoder.next, hat, if_true]
        rw [if_neg (by simp only [Decoder.skip_block_doc, ne_eq, not_not]; exact he)]
      · right
        refine ⟨by simp [hdrop], DecTerm.finalize ?_ h.docs_len h.freqs_len h.skiplist⟩
        simpa only [Decoder.skip_block_doc] using he
    | cons B1 R1 =>
      have hB1 := h.blocks B1 (List.mem_cons_self _ _)
      have hne : d.skip_block_doc.p ≠ d.skip_block_doc.chunkEnd := by
        simp only [Decoder.skip_block_doc]
        have := blockBytes_length_pos (lastDoc 0 B) B1
        simp only [chunkBytes, List.length_append] at he
        omega
      have hlt32 : d.skip_block_doc.blockLastDocID < 4294967296 := by
        have := h.last_lt
        simp only [Decoder.skip_block_doc]
        unfold UINT32_MAX at this
        omega
      obtain ⟨d1, g1, g2, g3, g4, g5, g6, g7⟩ := unpack_next_block_inv d.skip_block_doc B1 R1
        hB1.1 hB1.2 h.docs_len h.freqs_len hlt32
        (by simp only [Decoder.skip_block_doc]; rw [h.last]; exact hb)
        (by simp only [Decoder.skip_block_doc]; rw [h.last]; exact he)
        (fun B2 hB2 => h.blocks B2 (List.mem_cons_of_mem _ hB2))
        (by have := h.wf.right; simpa using this) h.skiplist
        (Nat.le_trans h.base_le (by simpa only [Decoder.skip_block_doc] using hp))
      refine ⟨true, d1, ?_, ?_, by simp [hdrop, List.length_pos.mp hB1.1], g6, g7, g5, g4⟩
      · simp only [Decoder.next, hat, if_true, if_pos hne, g1, Option.map_some']
      · left
        refine ⟨B1, R1, g2, ?_⟩
        rw [g3, hdrop]
        simp
  · have hat : ¬ d.documents.getD d.blockDocIdx 0 = d.blockLastDocID :=
      fun hc => hlast (h.at_last_iff.mp hc)
    have hlt : d.blockDocIdx + 1 < B.length := by have := h.idx_lt; omega
    have hne : B.drop (d.blockDocIdx + 1) ≠ [] := by
      intro hc
      have := List.drop_eq_nil_iff.mp hc
      omega
    refine ⟨true, d.skip_block_doc, ?_, ?_, by simp [hne], rfl, rfl, rfl, rfl⟩
    · simp only [Decoder.next, hat, if_false]
    · left
      exact ⟨B, R, h.skip_block_doc hlt, rfl⟩

theorem DecState.cur_head {d : Decoder} {x : Posting} {rest : List Posting}
    (h : DecState d true (x :: rest)) : d.cur_document = x.docID ∧ d.cur_freq = x.freq := by
  rcases h with ⟨B, R, inv, hrem⟩ | ⟨hc, _⟩
  · obtain ⟨y, hy⟩ := inv.cur_ex
    rw [drop_eq_cons_of_getElem? hy] at hrem
    simp only [List.cons_append, List.cons.injEq] at hrem
    obtain ⟨rfl, -⟩ := hrem
    exact ⟨inv.cur_doc hy, getD_of_getElem? (inv.cur_freq _ hy)⟩
  · cases hc

theorem DecState.terminal {d : Decoder} {fresh : Bool} (h : DecState d fresh []) : DecTerm d := by
  rcases h with ⟨B, R, inv, hrem⟩ | ⟨_, ht⟩
  · obtain ⟨y, hy⟩ := inv.cur_ex
    rw [drop_eq_cons_of_getElem? hy] at hrem
    cases hrem
  · exact ht

theorem DecTerm.cur_document_max {d : Decoder} (h : DecTerm d) : d.cur_document = UINT32_MAX := by
  unfold Decoder.cur_document
  rw [h.idx]
  exact getD_of_getElem? h.doc

/-- One call of `next()` on a decoder that has documents left. -/
theorem DecState.next_state {d : Decoder} {fresh : Bool} {x : Posting} {rest : List Posting}
    (h : DecState d fresh (x :: rest)) :
    ∃ b d1, d.next = some (b, d1) ∧ DecState d1 true rest ∧ (b = true ↔ rest ≠ []) ∧
      d1.mem = d.mem ∧ d1.chunkEnd = d.chunkEnd ∧ d1.base = d.base ∧
      d1.skipListIdx = d.skipListIdx := by
  rcases h with ⟨B, R, inv, hrem⟩ | ⟨hc, _⟩
  · obtain ⟨y, hy⟩ := inv.cur_ex
    rw [drop_eq_cons_of_getElem? hy] at hrem
    simp only [List.cons_append, List.cons.injEq] at hrem
    obtain ⟨-, rfl⟩ := hrem
    exact inv.next_step
  · cases hc


theorem chunkBytes_length_pos (prev : Nat) {Bs : List (List Posting)} (h : Bs ≠ []) :
    0 < (chunkBytes prev Bs).length := by
  cases Bs with
  | nil => exact absurd rfl h
  | cons B R =>
    have := blockBytes_length_pos prev B
    simp only [chunkBytes, List.length_append]
    omega

/-- The state after `init` on a non-empty chunk: the decoder stands before the
first block, on a slot holding document `0` and frequency `0`. -/
theorem init_inv (mem out0 : List Nat) (Bs : List (List Posting)) (n : Nat) (hBs : Bs ≠ [])
    (hmem : mem.drop out0.length = chunkBytes 0 Bs ++ mem.drop (out0.length + (chunkBytes 0 Bs).length))
    (hblocks : ∀ B ∈ Bs, 0 < B.length ∧ B.length ≤ N) (wf : WellFormed Bs.flatten)
    (hpos : ∀ d ∈ Bs.flatten, 1 ≤ d.docID) :
    DecInv (new_decoder ⟨n, out0.length, (chunkBytes 0 Bs).length⟩ mem) true [⟨0, 0, []⟩] Bs := by
  have hsz : (chunkBytes 0 Bs).length ≠ 0 := by have := chunkBytes_length_pos 0 hBs; omega
  have hl : lastDoc 0 [(⟨0, 0, []⟩ : Posting)] = 0 := by simp [lastDoc, u32]
  have hh : hitsOf [(⟨0, 0, []⟩ : Posting)] = [] := by
    simp [hitsOf, Posting.hits, posDeltas, varints]
  simp only [new_decoder, Decoder.init, hsz, if_false]
  refine ⟨by simp [Decoder.new], by simp [N], by simp [Decoder.new], by simp [Decoder.new], ?_, ?_,
    ?_, ?_, ?_, ?_, hblocks, ?_, rfl, Nat.le_refl _⟩
  · intro j x hx
    cases j with
    | zero =>
      simp only [List.getElem?_cons_zero, Option.some.injEq] at hx
      subst hx
      show ((List.replicate N 0).set 0 0)[0]? = some 0
      rw [List.getElem?_set_self (by rw [List.length_replicate]; decide)]
    | succ j => simp at hx
  · intro j x hj hx
    simp only [Decoder.new] at hj
    cases j with
    | zero => omega
    | succ j => simp at hx
  · intro x hx
    simp only [Decoder.new, List.getElem?_cons_zero, Option.some.injEq] at hx
    subst hx
    show ((List.replicate N 0).set 0 0)[0]? = some (if true = true then 0 else 0)
    rw [List.getElem?_set_self (by rw [List.length_replicate]; decide)]
    rfl
  · exact hl.symm
  · simp only [Decoder.new, if_true, List.drop_zero, hh, hl, List.nil_append]
    exact hmem
  · show out0.length + (hitsOf (List.drop (if true = true then 0 else 0 + 1) [⟨0, 0, []⟩])
      ++ chunkBytes (lastDoc 0 [⟨0, 0, []⟩]) Bs).length = out0.length + (chunkBytes 0 Bs).length
    simp only [if_true, List.drop_zero, hh, hl, List.nil_append]
  · refine ⟨?_, ?_, ?_, ?_⟩
    · simp only [List.singleton_append, List.pairwise_cons]
      exact ⟨fun a ha => by have := hpos a ha; show 0 < a.docID; omega, wf.sorted⟩
    · intro d hd
      simp only [List.singleton_append, List.mem_cons] at hd
      rcases hd with rfl | hd
      · simp [UINT32_MAX]
      · exact wf.doc_lt d hd
    · intro d hd
      simp only [List.singleton_append, List.mem_cons] at hd
      rcases hd with rfl | hd
      · rfl
      · exact wf.freq_eq d hd
    · intro d hd
      simp only [List.singleton_append, List.mem_cons] at hd
      rcases hd with rfl | hd
      · simp
      · exact wf.freq_lt d hd

/-- On the state left by `init`, `begin()` does what `next()` does. -/
theorem begin_eq_next {d : Decoder} {B : List Posting} {R : List (List Posting)}
    (h : DecInv d true B R) (hB : B.length = 1) (hR : R ≠ []) (hh : hitsOf B = []) :
    d.begin = d.next.map fun r => (r.2.cur_document, r.2) := by
  have hidx : d.blockDocIdx = 0 := by have := h.idx_lt; omega
  have hat := h.at_last_iff.mpr (by omega)
  obtain ⟨hb, he, -⟩ := h.skip_cur
  have hb0 := h.bytes
  have he0 := h.p_end
  simp only [if_true, hidx, List.drop_zero, hh, List.nil_append] at he0
  have hpos := chunkBytes_length_pos (lastDoc 0 B) hR
  have hne : d.p ≠ d.chunkEnd := by omega
  obtain ⟨x, hx⟩ := h.cur_ex
  have hf := getD_of_getElem? (h.cur_freq _ hx)
  have hdrop : B.drop (d.blockDocIdx + 1) = [] := List.drop_eq_nil_of_le (by omega)
  rw [hdrop, hitsOf_nil, List.nil_append] at he
  have hp : skipVarints d.mem (d.freqs.getD d.blockDocIdx 0) d.p = d.p := by omega
  have hne2 : d.skip_block_doc.p ≠ d.skip_block_doc.chunkEnd := by
    simp only [Decoder.skip_block_doc, hp]; exact hne
  have hun : d.skip_block_doc.unpack_next_block = d.unpack_next_block := by
    simp only [Decoder.unpack_next_block, Decoder.unpack_block, Decoder.skip_block_doc, hp]
  simp only [Decoder.begin, Decoder.next, hat, if_true, if_pos hne, if_pos hne2, hun]
  cases d.unpack_next_block <;> rfl

theorem nextTrace_spec (rest : List Posting) :
    ∀ (d : Decoder) (fresh : Bool) (x : Posting), DecState d fresh (x :: rest) →
    ∃ f dk, nextTrace (rest.length + 1) d =
        some (rest.map (fun s => (true, s.docID, s.freq)) ++ [(false, UINT32_MAX, f)], dk) ∧
      DecTerm dk := by
  induction rest with
  | nil =>
    intro d fresh x h
    obtain ⟨b, d1, h1, h2, h3, -⟩ := h.next_state
    have hb : b = false := by
      cases b with
      | false => rfl
      | true => exact absurd rfl (h3.mp rfl)
    subst hb
    refine ⟨d1.cur_freq, d1, ?_, h2.terminal⟩
    simp [nextTrace, h1, h2.terminal.cur_document_max]
  | cons y ys ih =>
    intro d fresh x h
    obtain ⟨b, d1, h1, h2, h3, -⟩ := h.next_state
    have hb : b = true := h3.mpr (by simp)
    subst hb
    obtain ⟨f, dk, g1, g2⟩ := ih d1 true y h2
    refine ⟨f, dk, ?_, g2⟩
    obtain ⟨c1, c2⟩ := h2.cur_head
    rw [List.length_cons, nextTrace]
    simp [h1, g1, c1, c2]


/-- Encoding a non-empty well-formed posting list and opening a decoder on the
chunk: the encoder succeeds and the decoder stands before the first block. -/
theorem encode_decode_setup (st : Nat) (e : Encoder) (S : List Posting)
    (hd : e.docDeltas.length = N) (hf : e.blockFreqs.length = N) (wf : WellFormed S)
    (hpos : ∀ d ∈ S, 1 ≤ d.docID) (hne : S ≠ []) :
    ∃ e1 tctx Bs, encodeTerm st e S = some (e1, tctx) ∧ Bs.flatten = S ∧
      tctx = ⟨S.length, e.indexOut.length, (chunkBytes 0 Bs).length⟩ ∧
      e1.indexOut = e.indexOut ++ chunkBytes 0 Bs ∧
      DecInv (new_decoder tctx e1.indexOut) true [⟨0, 0, []⟩] Bs := by
  obtain ⟨e1, Bs, h1, h2, h3, h4, -, -⟩ := encodeTerm_layout st e S hd hf
  have hBs : Bs ≠ [] := by
    intro hc
    rw [hc] at h3
    exact hne h3.symm
  refine ⟨e1, _, Bs, h1, h3, rfl, h2, ?_⟩
  refine init_inv e1.indexOut e.indexOut Bs S.length hBs ?_ h4 (h3 ▸ wf) (h3 ▸ hpos)
  rw [h2, List.drop_left, ← List.length_append, List.drop_length, List.append_nil]

/-- The state after `begin()` on the chunk of a non-empty posting list. -/
theorem begin_state {d : Decoder} {Bs : List (List Posting)} {x : Posting} {rest : List Posting}
    (h : DecInv d true [⟨0, 0, []⟩] Bs) (hfl : Bs.flatten = x :: rest) :
    ∃ d1, d.begin = some (x.docID, d1) ∧ DecState d1 true (x :: rest) ∧ d1.mem = d.mem ∧
      d1.chunkEnd = d.chunkEnd ∧ d1.base = d.base ∧ d1.skipListIdx = d.skipListIdx := by
  have hBs : Bs ≠ [] := by
    intro hc
    rw [hc] at hfl
    cases hfl
  have hh : hitsOf [(⟨0, 0, []⟩ : Posting)] = [] := by
    simp [hitsOf, Posting.hits, posDeltas, varints]
  have hidx : d.blockDocIdx = 0 := by have := h.idx_lt; simp at this; exact this
  obtain ⟨b, d1, g1, g2, -, g4, g5, g6, g7⟩ := h.next_step
  rw [hidx] at g2
  simp only [List.drop_succ_cons, List.drop_nil, List.nil_append, hfl, Nat.zero_add] at g2
  refine ⟨d1, ?_, g2, g4, g5, g6, g7⟩
  rw [begin_eq_next h rfl hBs hh, g1]
  simp [g2.cur_head.1]

/-- C1: Round trip of documents and frequencies. For a posting list with
document IDs strictly increasing in `[1, UINT32_MAX)` whose frequencies are
32-bit values equal to the number of positions, the encoder produces a chunk
on which `Decoder::init` followed by `begin()` returns the first document with
its frequency, the following calls of `next()` return `true` and visit the
other documents in order with their frequencies, and the last call returns
`false` with the current document at `UINT32_MAX`. -/
theorem roundtrip_documents_frequencies (st : Nat) (e : Encoder) (x : Posting)
    (rest : List Posting) (hd : e.docDeltas.length = N) (hf : e.blockFreqs.length = N)
    (wf : WellFormed (x :: rest)) (hpos : ∀ d ∈ x :: rest, 1 ≤ d.docID) :
    ∃ e1 tctx d1 f dk, encodeTerm st e (x :: rest) = some (e1, tctx) ∧
      (new_decoder tctx e1.indexOut).begin = some (x.docID, d1) ∧ d1.cur_freq = x.freq ∧
      nextTrace (rest.length + 1) d1 =
        some (rest.map (fun s => (true, s.docID, s.freq)) ++ [(false, UINT32_MAX, f)], dk) ∧
      dk.cur_document = UINT32_MAX := by
  obtain ⟨e1, tctx, Bs, h1, h2, -, -, h5⟩ :=
    encode_decode_setup st e (x :: rest) hd hf wf hpos (by simp)
  obtain ⟨d1, g1, g2, -⟩ := begin_state h5 h2
  obtain ⟨f, dk, k1, k2⟩ := nextTrace_spec rest d1 true x g2
  exact ⟨e1, tctx, d1, f, dk, h1, g1, g2.cur_head.2, k1, k2.cur_document_max⟩

/-- C10: Block layout. With `1 ≤ curBlockSize = n ≤ N`, `commit_block`
appends to the session output the varint of `curDocID - prevBlockLastDocumentID`,
the varint of the body length, the byte `n`, and the body: the varints of
`docDeltas[0 .. n-2]`, the varints of `blockFreqs[0 .. n-1]` and `hitsData`. -/
theorem commit_block_layout (st : Nat) (e : Encoder) (h1 : 1 ≤ e.curBlockSize)
    (hN : e.curBlockSize ≤ N) (hd : e.docDeltas.length = N) (hf : e.blockFreqs.length = N) :
    ∃ e1, e.commit_block st = some e1 ∧
      e1.indexOut = e.indexOut
        ++ encode_varuint32 (sub32 e.curDocID e.prevBlockLastDocumentID)
        ++ encode_varuint32 (varints (e.docDeltas.take (e.curBlockSize - 1))
              ++ varints (e.blockFreqs.take e.curBlockSize) ++ e.hitsData).length
        ++ [e.curBlockSize]
        ++ (varints (e.docDeltas.take (e.curBlockSize - 1))
              ++ varints (e.blockFreqs.take e.curBlockSize) ++ e.hitsData) ∧
      (e.docDeltas.take (e.curBlockSize - 1)).length = e.curBlockSize - 1 ∧
      (e.blockFreqs.take e.curBlockSize).length = e.curBlockSize := by
  have hne : e.curBlockSize ≠ 0 := by omega
  cases hc : e.commit_block st with
  | none => simp [Encoder.commit_block, hne] at hc
  | some e1 =>
  simp only [Encoder.commit_block, hne, if_false, Option.some.injEq] at hc
  subst hc
  refine ⟨_, rfl, ?_, by rw [List.length_take, hd]; omega, by rw [List.length_take, hf]; omega⟩
  have hmod : e.curBlockSize % 256 = e.curBlockSize :=
    Nat.mod_eq_of_lt (by unfold N at hN; omega)
  simp only [hmod]
  rw [encodeArray_eq _ _ _ _ (by omega), encodeArray_eq _ _ _ _ (by omega)]
  simp [List.append_assoc, Nat.add_assoc]


/-! ## Decoder: seek -/

theorem dropWhile_append_all {α : Type} (p : α → Bool) (l1 l2 : List α)
    (h : ∀ a ∈ l1, p a = true) : (l1 ++ l2).dropWhile p = l2.dropWhile p := by
  induction l1 with
  | nil => rfl
  | cons a l ih =>
    rw [List.cons_append, List.dropWhile_cons, if_pos (h a (List.mem_cons_self _ _))]
    exact ih fun b hb => h b (List.mem_cons_of_mem _ hb)

/-- The final loop of `seek` on a block whose last document is not below the target. -/
theorem DecInv.seek_scan {B : List Posting} {R : List (List Posting)} (t : Nat) :
    ∀ (n : Nat) (d : Decoder) (fresh : Bool), DecInv d fresh B R → t ≤ d.blockLastDocID →
      B.length - d.blockDocIdx = n → ∀ fuel, n < fuel →
      ∃ b d1 fresh1, d.seek_scan fuel t = some (b, d1) ∧ DecInv d1 fresh1 B R ∧
        B.drop d1.blockDocIdx ++ R.flatten
          = (B.drop d.blockDocIdx ++ R.flatten).dropWhile (below t) ∧
        (b = true ↔ ∃ x, B[d1.blockDocIdx]? = some x ∧ x.docID = t) ∧
        (∃ x, B[d1.blockDocIdx]? = some x ∧ t ≤ x.docID) ∧
        d1.mem = d.mem ∧ d1.chunkEnd = d.chunkEnd ∧ d1.base = d.base ∧
        d1.skipListIdx = d.skipListIdx ∧ d1.blockLastDocID = d.blockLastDocID := by
  intro n
  induction n with
  | zero =>
    intro d fresh h _ hn
    have := h.idx_lt
    omega
  | succ n ih =>
    intro d fresh h ht hn fuel hfuel
    obtain ⟨x, hx⟩ := h.cur_ex
    have hdoc := h.cur_doc hx
    have hdrop := drop_eq_cons_of_getElem? hx
    cases fuel with
    | zero => omega
    | succ f =>
    rw [Decoder.seek_scan]
    simp only [hdoc]
    by_cases h1 : x.docID > t
    · refine ⟨false, d, fresh, by rw [if_pos h1], h, ?_, ?_, ⟨x, hx, by omega⟩, rfl, rfl, rfl, rfl,
        rfl⟩
      · rw [hdrop, List.cons_append, List.dropWhile_cons, if_neg]
        simp only [below, decide_eq_true_eq]; omega
      · constructor
        · intro hc; cases hc
        · rintro ⟨y, hy, hyt⟩
          rw [hx] at hy
          simp only [Option.some.injEq] at hy
          subst hy
          omega
    · by_cases h2 : x.docID = t
      · refine ⟨true, d, fresh, by rw [if_neg h1, if_pos h2], h, ?_, ?_, ⟨x, hx, by omega⟩, rfl, rfl,
          rfl, rfl, rfl⟩
        · rw [hdrop, List.cons_append, List.dropWhile_cons, if_neg]
          simp only [below, decide_eq_true_eq]; omega
        · simp only [true_iff]
          exact ⟨x, hx, h2⟩
      · have h3 : ¬ x.docID = d.blockLastDocID := by omega
        have hnl : d.blockDocIdx + 1 < B.length := by
          have hi := h.idx_lt
          by_contra hc
          have := h.at_last_iff.mpr (by omega)
          rw [hdoc] at this
          exact h3 this
        have hinv := h.skip_block_doc hnl
        obtain ⟨b, d1, fresh1, g1, g2, g3, g4, g5, g6, g7, g8, g9, g10⟩ :=
          ih d.skip_block_doc true hinv ht
            (by simp only [Decoder.skip_block_doc]; omega) f (by omega)
        refine ⟨b, d1, fresh1, by rw [if_neg h1, if_neg h2, if_neg h3]; exact g1, g2, ?_, g4, g5,
          g6, g7, g8, g9, g10⟩
        rw [g3, hdrop, List.cons_append, List.dropWhile_cons, if_pos]
        · rfl
        · simp only [below, decide_eq_true_eq]; omega

/-- The loop of `skip_remaining_block_documents`: the read pointer moves to
the end of the current block. -/
theorem DecInv.skip_remaining {B : List Posting} {R : List (List Posting)} :
    ∀ (n : Nat) (d : Decoder) (fresh : Bool), DecInv d fresh B R →
      B.length - d.blockDocIdx = n → ∀ fuel, n < fuel →
      ∃ d1, d.skip_remaining_block_documents fuel = some d1 ∧
        d1.mem.drop d1.p = chunkBytes (lastDoc 0 B) R ++ d.mem.drop d.chunkEnd ∧
        d1.p + (chunkBytes (lastDoc 0 B) R).length = d.chunkEnd ∧ d.base ≤ d1.p ∧
        d1.mem = d.mem ∧ d1.chunkEnd = d.chunkEnd ∧ d1.base = d.base ∧
        d1.skiplist = d.skiplist ∧ d1.skipListIdx = d.skipListIdx ∧
        d1.blockLastDocID = d.blockLastDocID ∧ d1.documents.length = N ∧
        d1.freqs.length = N := by
  intro n
  induction n with
  | zero =>
    intro d fresh h hn
    have := h.idx_lt
    omega
  | succ n ih =>
    intro d fresh h hn fuel hfuel
    obtain ⟨hb, he, hp⟩ := h.skip_cur
    cases fuel with
    | zero => omega
    | succ f =>
    rw [Decoder.skip_remaining_block_documents]
    by_cases hat : d.documents.getD d.blockDocIdx 0 = d.blockLastDocID
    · have hlast := h.at_last_iff.mp hat
      have hdrop : B.drop (d.blockDocIdx + 1) = [] := List.drop_eq_nil_of_le (by omega)
      rw [hdrop, hitsOf_nil, List.nil_append] at hb he
      simp only [hat, if_true]
      exact ⟨_, rfl, hb, he, Nat.le_trans h.base_le hp, rfl, rfl, rfl, rfl, rfl, rfl, h.docs_len,
        h.freqs_len⟩
    · have hnl : d.blockDocIdx + 1 < B.length := by
        have hi := h.idx_lt
        by_contra hc
        exact hat (h.at_last_iff.mpr (by omega))
      have hinv := h.skip_block_doc hnl
      obtain ⟨d1, g1, g2, g3, g4, g5, g6, g7, g8, g9, g10, g11, g12⟩ :=
        ih d.skip_block_doc true hinv (by simp only [Decoder.skip_block_doc]; omega) f (by omega)
      simp only [hat, if_false]
      exact ⟨d1, g1, g2, g3, g4, g5, g6, g7, g8, g9, g10, g11, g12⟩


theorem WellFormed.le_lastDoc {B T : List Posting} (wf : WellFormed (B ++ T)) (prev : Nat)
    {x : Posting} (hx : x ∈ B) : x.docID ≤ Trinity.lastDoc prev B := by
  obtain ⟨i, hi⟩ := List.mem_iff_getElem?.mp hx
  have hlt : i < B.length := (List.getElem?_eq_some_iff.mp hi).1
  have hy := List.getElem?_eq_getElem (show B.length - 1 < B.length by omega)
  rw [WellFormed.lastDoc wf prev hy]
  by_cases hc : i = B.length - 1
  · rw [hc, hy] at hi
    simp only [Option.some.injEq] at hi
    rw [hi]
  · have := pairwise_getElem? (List.pairwise_append.mp wf.sorted).1 (show i < B.length - 1 by omega)
      hi hy
    omega

/-- The loop of `seek_block`: blocks ending below the target are skipped; the
first other block is unpacked, and without one the decoder is finalized. -/
theorem seek_block_spec (t : Nat) :
    ∀ (R : List (List Posting)) (d : Decoder), R ≠ [] →
      d.mem.drop d.p = chunkBytes d.blockLastDocID R ++ d.mem.drop d.chunkEnd →
      d.p + (chunkBytes d.blockLastDocID R).length = d.chunkEnd →
      (∀ B1 ∈ R, 0 < B1.length ∧ B1.length ≤ N) → d.blockLastDocID < 4294967296 →
      WellFormed R.flatten → d.documents.length = N → d.freqs.length = N →
      d.skiplist = [] → d.base ≤ d.p → (chunkBytes d.blockLastDocID R).length < 4294967296 →
      ∀ fuel, R.length < fuel →
      ∃ d1, d.seek_block fuel t = some d1 ∧ d1.mem = d.mem ∧ d1.chunkEnd = d.chunkEnd ∧
        d1.base = d.base ∧ d1.skipListIdx = d.skipListIdx ∧
        ((∃ B1 R1, DecInv d1 true B1 R1 ∧ d1.blockDocIdx = 0 ∧ t ≤ d1.blockLastDocID ∧
            (B1 ++ R1.flatten).dropWhile (below t) = R.flatten.dropWhile (below t)) ∨
          (DecTerm d1 ∧ R.flatten.dropWhile (below t) = [])) := by
  intro R
  induction R with
  | nil => intro d h; exact absurd rfl h
  | cons B1 R1 ih =>
    intro d _ hbytes hend hblocks hprev wf hdl hfl hskip hbase hsz fuel hfuel
    cases fuel with
    | zero => omega
    | succ f =>
    have hB1 := hblocks B1 (List.mem_cons_self _ _)
    have hbytes0 := hbytes
    simp only [chunkBytes, List.append_assoc] at hbytes
    obtain ⟨h1, h2, h3, h4, h5⟩ := header_eq hbytes hprev
    have wf1 : WellFormed (B1 ++ R1.flatten) := by simpa using wf
    have hbody : u32 (blockBody d.blockLastDocID B1).length = (blockBody d.blockLastDocID B1).length := by
      apply u32_of_lt
      simp only [chunkBytes, blockBytes, List.length_append] at hsz
      omega
    rw [hbody] at h2
    rw [Decoder.seek_block]
    simp only [h1, h2, h3]
    by_cases hgt : t > lastDoc d.blockLastDocID B1
    · rw [if_pos hgt]
      have hall : ∀ a ∈ B1, below t a = true := by
        intro a ha
        have := wf1.le_lastDoc d.blockLastDocID ha
        simp only [below, decide_eq_true_eq]
        omega
      have hdw : (B1 :: R1).flatten.dropWhile (below t) = R1.flatten.dropWhile (below t) := by
        rw [List.flatten_cons, dropWhile_append_all _ _ _ hall]
      have hend1 : (decode_varuint32 d.mem (decode_varuint32 d.mem d.p).2).2 + 1
          + (blockBody d.blockLastDocID B1).length
          + (chunkBytes (lastDoc d.blockLastDocID B1) R1).length = d.chunkEnd := by
        rw [h5, ← hend]
        simp only [chunkBytes, List.length_append]
        omega
      by_cases hR1 : R1 = []
      · subst hR1
        simp only [chunkBytes, List.length_nil, Nat.add_zero] at hend1
        rw [if_pos hend1]
        refine ⟨_, rfl, rfl, rfl, rfl, rfl, Or.inr ⟨DecTerm.finalize hend1 hdl hfl hskip, ?_⟩⟩
        rw [hdw]; rfl
      · have hpos := chunkBytes_length_pos (lastDoc d.blockLastDocID B1) hR1
        rw [if_neg (by omega)]
        have hb1 := drop_add_of_drop_eq h4
        obtain ⟨d1, g1, g2, g3, g4, g5, g6⟩ := ih
          { d with
            p := (decode_varuint32 d.mem (decode_varuint32 d.mem d.p).2).2 + 1
              + (blockBody d.blockLastDocID B1).length
            blockLastDocID := lastDoc d.blockLastDocID B1 }
          hR1 hb1 hend1 (fun B2 hB2 => hblocks B2 (List.mem_cons_of_mem _ hB2))
          (lastDoc_lt _ _ hprev) wf1.right hdl hfl hskip (by simp only; omega)
          (by simp only [chunkBytes, List.length_append] at hsz ⊢; omega) f
          (by simp only [List.length_cons] at hfuel; omega)
        refine ⟨d1, g1, g2, g3, g4, g5, ?_⟩
        rw [hdw]
        exact g6
    · rw [if_neg hgt]
      obtain ⟨d1, g1, g2, g3, g4, g5, g6, g7⟩ := unpack_next_block_inv d B1 R1 hB1.1 hB1.2 hdl hfl
        hprev hbytes0 hend (fun B2 hB2 => hblocks B2 (List.mem_cons_of_mem _ hB2)) wf1 hskip hbase
      simp only [Decoder.unpack_next_block, h1, h3] at g1
      refine ⟨d1, g1, g6, g7, g5, g4, Or.inl ⟨B1, R1, g2, g3, ?_, ?_⟩⟩
      · rw [g2.last, lastDoc_congr 0 d.blockLastDocID hB1.1]
        omega
      · rw [List.flatten_cons]


theorem skiplist_search_nil {d : Decoder} (h : d.skiplist = []) (t : Nat) :
    d.skiplist_search t = UINT32_MAX := by
  unfold Decoder.skiplist_search
  rw [h]
  simp only [List.length_nil, Nat.zero_add, skiplistSearchLoop]
  rw [if_neg]
  simp only [Nat.cast_zero, zero_sub]
  omega

/-- Embeds `seek` in the terminal state leaves the state as it is. -/
theorem DecTerm.seek_term {d : Decoder} (h : DecTerm d) (t : Nat) (ht : t ≤ UINT32_MAX) (fuel : Nat)
    (hfuel : 0 < fuel) :
    ∃ b, d.seek fuel t = some (b, d) ∧ (t < UINT32_MAX → b = false) ∧
      (t = UINT32_MAX → b = true) := by
  have hdoc : d.documents.getD d.blockDocIdx 0 = UINT32_MAX := by
    rw [h.idx]; exact getD_of_getElem? h.doc
  cases fuel with
  | zero => omega
  | succ f =>
  rw [Decoder.seek, if_neg (by rw [h.last]; omega), Decoder.seek_scan]
  simp only [hdoc]
  by_cases h1 : UINT32_MAX > t
  · exact ⟨false, by rw [if_pos h1], fun _ => rfl, fun hc => by omega⟩
  · have h2 : UINT32_MAX = t := by omega
    exact ⟨true, by rw [if_neg h1, if_pos h2], fun hc => by omega, fun _ => rfl⟩

theorem length_le_flatten_length (R : List (List Posting)) (h : ∀ B ∈ R, 0 < B.length) :
    R.length ≤ R.flatten.length := by
  induction R with
  | nil => simp
  | cons B R ih =>
    have h1 := h B (List.mem_cons_self _ _)
    have h2 := ih fun B1 hB1 => h B1 (List.mem_cons_of_mem _ hB1)
    simp only [List.length_cons, List.flatten_cons, List.length_append]
    omega

/-- One call of `seek` from a block: the decoder moves to the first document
that is not below the target, or to the terminal state. -/
theorem DecInv.seek_inv {d : Decoder} {fresh : Bool} {B : List Posting} {R : List (List Posting)}
    (h : DecInv d fresh B R) (t : Nat) (ht : t ≤ UINT32_MAX)
    (hsz : d.chunkEnd < d.base + 4294967296) (fuel : Nat) (hfuel : N + R.length < fuel) :
    ∃ b d1 fresh1, d.seek fuel t = some (b, d1) ∧
      DecState d1 fresh1 ((B.drop d.blockDocIdx ++ R.flatten).dropWhile (below t)) ∧
      (t < UINT32_MAX → (b = true ↔
        ∃ x, ((B.drop d.blockDocIdx ++ R.flatten).dropWhile (below t)).head? = some x ∧
          x.docID = t)) ∧
      d1.mem = d.mem ∧ d1.chunkEnd = d.chunkEnd ∧ d1.base = d.base ∧
      d1.skipListIdx = d.skipListIdx := by
  have hidx := h.idx_lt
  have hlen := h.len_le
  by_cases hgt : t > d.blockLastDocID
  · -- the target lies beyond the current block
    obtain ⟨d1, g1, g2, g3, g4, g5, g6, g7, g8, g9, g10, g11, g12⟩ :=
      DecInv.skip_remaining (B.length - d.blockDocIdx) d fresh h rfl fuel (by omega)
    have hall : ∀ a ∈ B.drop d.blockDocIdx, below t a = true := by
      intro a ha
      have := h.wf.le_lastDoc 0 (List.mem_of_mem_drop ha)
      rw [← h.last] at this
      simp only [below, decide_eq_true_eq]
      omega
    have hdw := dropWhile_append_all (below t) _ R.flatten hall
    rw [hdw]
    rw [Decoder.seek, if_pos hgt, g1, Option.some_bind]
    by_cases hR : R = []
    · subst hR
      simp only [chunkBytes, List.length_nil, Nat.add_zero] at g3
      rw [if_pos (by rw [g6]; exact g3)]
      refine ⟨false, d1.finalize, true, rfl, Or.inr ⟨rfl, ?_⟩, ?_, g5, g6, g7, g9⟩
      · exact DecTerm.finalize (by rw [g6]; exact g3) g11 g12 (by rw [g8]; exact h.skiplist)
      · intro _
        simp
    · have hpos := chunkBytes_length_pos (lastDoc 0 B) hR
      rw [if_neg (by rw [g6]; omega)]
      have hsk : d1.skiplist = [] := by rw [g8]; exact h.skiplist
      have hd2 : (if d1.skipListIdx ≠ d1.skiplist.length then
          if d1.skiplist_search t ≠ UINT32_MAX then
            { d1 with
              blockLastDocID := (d1.skiplist.getD (d1.skiplist_search t) (0, 0)).1
              p := d1.base + (d1.skiplist.getD (d1.skiplist_search t) (0, 0)).2
              skipListIdx := d1.skiplist_search t + 1 }
          else d1
        else d1) = d1 := by
        rw [skiplist_search_nil hsk]
        simp
      simp only [hd2]
      have hl32 : d1.blockLastDocID < 4294967296 := by
        rw [g10]
        have := h.last_lt
        unfold UINT32_MAX at this
        omega
      obtain ⟨d3, k1, k2, k3, k4, k5, k6⟩ := seek_block_spec t R d1 hR
        (by rw [g10, h.last, g6, g5]; rw [g5] at g2; exact g2) (by rw [g10, h.last, g6]; exact g3)
        h.blocks hl32 h.wf.right g11 g12 hsk (by rw [g7]; exact g4)
        (by rw [g10, h.last]; omega) fuel (by omega)
      rw [k1, Option.some_bind]
      rcases k6 with ⟨B1, R1, inv, i0, hle, hdw1⟩ | ⟨term, hdw1⟩
      · obtain ⟨b, d4, fresh4, m1, m2, m3, m4, m5, m6, m7, m8, m9, -⟩ :=
          DecInv.seek_scan t (B1.length - d3.blockDocIdx) d3 true inv hle rfl fuel
            (by have := inv.len_le; omega)
        rw [i0, List.drop_zero, hdw1] at m3
        refine ⟨b, d4, fresh4, m1, Or.inl ⟨B1, R1, m2, m3.symm⟩, ?_, by rw [m6, k2, g5],
          by rw [m7, k3, g6], by rw [m8, k4, g7], by rw [m9, k5, g9]⟩
        intro _
        rw [m4, ← m3]
        obtain ⟨y, hy, -⟩ := m5
        rw [drop_eq_cons_of_getElem? hy]
        simp only [List.cons_append, List.head?_cons, Option.some.injEq, hy]
      · obtain ⟨b, m1, m2, -⟩ := term.seek_term t ht fuel (by omega)
        have hfuel0 : 0 < fuel := by omega
        cases fuel with
        | zero => omega
        | succ f =>
        have hdoc : d3.documents.getD d3.blockDocIdx 0 = UINT32_MAX := by
          rw [term.idx]; exact getD_of_getElem? term.doc
        rw [hdw1, Decoder.seek_scan]
        simp only [hdoc]
        by_cases h1 : UINT32_MAX > t
        · rw [if_pos h1]
          exact ⟨false, d3, true, rfl, Or.inr ⟨rfl, term⟩, fun _ => by simp,
            by rw [k2, g5], by rw [k3, g6], by rw [k4, g7], by rw [k5, g9]⟩
        · have h2 : UINT32_MAX = t := by omega
          rw [if_neg h1, if_pos h2]
          exact ⟨true, d3, true, rfl, Or.inr ⟨rfl, term⟩, fun hc => by omega,
            by rw [k2, g5], by rw [k3, g6], by rw [k4, g7], by rw [k5, g9]⟩
  · -- the target lies in the current block
    obtain ⟨b, d1, fresh1, m1, m2, m3, m4, m5, m6, m7, m8, m9, -⟩ :=
      DecInv.seek_scan t (B.length - d.blockDocIdx) d fresh h (by omega) rfl fuel (by omega)
    refine ⟨b, d1, fresh1, by rw [Decoder.seek, if_neg hgt]; exact m1,
      Or.inl ⟨B, R, m2, m3.symm⟩, ?_, m6, m7, m8, m9⟩
    intro _
    rw [m4, ← m3]
    obtain ⟨y, hy, -⟩ := m5
    rw [drop_eq_cons_of_getElem? hy]
    simp only [List.cons_append, List.head?_cons, Option.some.injEq, hy]


theorem DecState.cur_document_eq {d : Decoder} {fresh : Bool} {rem : List Posting}
    (h : DecState d fresh rem) : d.cur_document = curOf rem := by
  rcases h with ⟨B, R, inv, hrem⟩ | ⟨hc, term⟩
  · obtain ⟨y, hy⟩ := inv.cur_ex
    rw [hrem, drop_eq_cons_of_getElem? hy]
    exact inv.cur_doc hy
  · rw [hc]; exact term.cur_document_max

/-- One call of `seek` from any state of the decoder. -/
theorem DecState.seek_state {d : Decoder} {fresh : Bool} {rem : List Posting}
    (h : DecState d fresh rem) (t : Nat) (ht : t ≤ UINT32_MAX)
    (hsz : d.chunkEnd < d.base + 4294967296) (fuel : Nat) (hfuel : N + rem.length < fuel) :
    ∃ b d1 fresh1, d.seek fuel t = some (b, d1) ∧
      DecState d1 fresh1 (rem.dropWhile (below t)) ∧
      (t < UINT32_MAX → (b = true ↔
        ∃ x, (rem.dropWhile (below t)).head? = some x ∧ x.docID = t)) ∧
      d1.mem = d.mem ∧ d1.chunkEnd = d.chunkEnd ∧ d1.base = d.base ∧
      d1.skipListIdx = d.skipListIdx := by
  rcases h with ⟨B, R, inv, hrem⟩ | ⟨hc, term⟩
  · subst hrem
    have := length_le_flatten_length R fun B1 hB1 => (inv.blocks B1 hB1).1
    exact inv.seek_inv t ht hsz fuel (by simp only [List.length_append] at hfuel; omega)
  · subst hc
    obtain ⟨b, h1, h2, -⟩ := term.seek_term t ht fuel (by omega)
    refine ⟨b, d, fresh, h1, Or.inr ⟨rfl, term⟩, ?_, rfl, rfl, rfl, rfl⟩
    intro hlt
    rw [h2 hlt]
    simp

theorem curOf_le_of_append {a rem : List Posting} (wf : WellFormed (a ++ rem)) :
    curOf (a ++ rem) ≤ curOf rem := by
  cases a with
  | nil => exact Nat.le_refl _
  | cons x a =>
    cases rem with
    | nil =>
      have := wf.doc_lt x (List.mem_cons_self _ _)
      simp only [curOf, List.cons_append, List.head?_cons, Option.map_some', Option.getD_some,
        List.head?_nil, Option.map_none', Option.getD_none]
      omega
    | cons y rem =>
      have hs := wf.sorted
      rw [List.cons_append, List.pairwise_cons] at hs
      have := hs.1 y (by simp)
      simp only [curOf, List.cons_append, List.head?_cons, Option.map_some', Option.getD_some]
      omega

theorem lt_curOf_of_mem_pre {pre rem : List Posting} (wf : WellFormed (pre ++ rem)) {y : Posting}
    (hy : y ∈ pre) : y.docID < curOf rem := by
  cases rem with
  | nil => exact wf.doc_lt y (List.mem_append_left _ hy)
  | cons x rem =>
    have := (List.pairwise_append.mp wf.sorted).2.2 y hy x (List.mem_cons_self _ _)
    simpa [curOf] using this

theorem head_dropWhile_ge (t : Nat) (rem : List Posting) {x : Posting}
    (h : (rem.dropWhile (below t)).head? = some x) : t ≤ x.docID := by
  induction rem with
  | nil => simp at h
  | cons a l ih =>
    rw [List.dropWhile_cons] at h
    split at h
    · exact ih h
    · rename_i hb
      simp only [List.head?_cons, Option.some.injEq] at h
      subst h
      simpa [below] using hb

theorem mem_dropWhile_of_ge (t : Nat) (rem : List Posting) {y : Posting} (hy : y ∈ rem)
    (hge : t ≤ y.docID) : y ∈ rem.dropWhile (below t) := by
  induction rem with
  | nil => cases hy
  | cons a l ih =>
    rw [List.dropWhile_cons]
    split
    · rename_i hb
      rcases List.mem_cons.mp hy with rfl | h1
      · simp only [below, decide_eq_true_eq] at hb; omega
      · exact ih h1
    · exact hy

theorem dropWhile_suffix {α : Type} (p : α → Bool) (l : List α) :
    l = l.takeWhile p ++ l.dropWhile p := (List.takeWhile_append_dropWhile p l).symm

/-- The invariant of the decoder along calls of `next()` made while it is not
exhausted and calls of `seek()`; its current document never decreases. -/
theorem SeekInv.reach {full : List Posting} (wf : WellFormed full) {d d2 : Decoder}
    (h : SeekInv full d) {m : Nat} (hm : N + full.length + 1 ≤ m) (hr : Reach m d d2) :
    SeekInv full d2 ∧ d.cur_document ≤ d2.cur_document := by
  induction hr with
  | refl => exact ⟨h, Nat.le_refl _⟩
  | @next da db b hra hcur hnext ih =>
    obtain ⟨⟨fresh, pre, rem, hs, hfull, hsz⟩, hle⟩ := ih
    cases rem with
    | nil => exact absurd hs.terminal.cur_document_max hcur
    | cons x rest =>
      obtain ⟨b1, d1, g1, g2, -, -, g5, g6, -⟩ := hs.next_state
      rw [hnext] at g1
      simp only [Option.some.injEq, Prod.mk.injEq] at g1
      obtain ⟨-, rfl⟩ := g1
      refine ⟨⟨true, pre ++ [x], rest, g2, by rw [hfull]; simp, by rw [g5, g6]; exact hsz⟩, ?_⟩
      rw [g2.cur_document_eq]
      rw [hs.cur_document_eq] at hle
      have : WellFormed ([x] ++ rest) := by
        have := (hfull ▸ wf).right
        simpa using this
      have := curOf_le_of_append this
      simp only [List.singleton_append] at this
      omega
  | @seek da db fuel t b hra hfuel ht hseek ih =>
    obtain ⟨⟨fresh, pre, rem, hs, hfull, hsz⟩, hle⟩ := ih
    have hlen : rem.length ≤ full.length := by rw [hfull]; simp
    obtain ⟨b1, d1, fresh1, g1, g2, -, -, g5, g6, -⟩ := hs.seek_state t ht hsz fuel (by omega)
    rw [hseek] at g1
    simp only [Option.some.injEq, Prod.mk.injEq] at g1
    obtain ⟨-, rfl⟩ := g1
    refine ⟨⟨fresh1, pre ++ rem.takeWhile (below t), rem.dropWhile (below t), g2, ?_,
      by rw [g5, g6]; exact hsz⟩, ?_⟩
    · rw [List.append_assoc, ← dropWhile_suffix]; exact hfull
    · rw [g2.cur_document_eq]
      rw [hs.cur_document_eq] at hle
      have hwf : WellFormed (rem.takeWhile (below t) ++ rem.dropWhile (below t)) := by
        rw [← dropWhile_suffix]; exact (hfull ▸ wf).right
      have := curOf_le_of_append hwf
      rw [← dropWhile_suffix] at this
      omega


/-- One call of `seek` with a target not below the current document, from a
state that satisfies the invariant. -/
theorem SeekInv.seek_step {full : List Posting} (wf : WellFormed full) {d : Decoder}
    (h : SeekInv full d) (t : Nat) (ht1 : d.cur_document ≤ t) (ht2 : t ≤ UINT32_MAX)
    (fuel : Nat) (hfuel : N + full.length < fuel) :
    ∃ b d2, d.seek fuel t = some (b, d2) ∧ SeekInv full d2 ∧
      d2.cur_document = curOf (full.dropWhile (below t)) ∧
      (t < UINT32_MAX → (b = true ↔
        ∃ x, (full.dropWhile (below t)).head? = some x ∧ x.docID = t)) := by
  obtain ⟨fresh, pre, rem, hs, hfull, hsz⟩ := h
  have hlen : rem.length ≤ full.length := by rw [hfull]; simp
  obtain ⟨b, d1, fresh1, g1, g2, g3, -, g5, g6, -⟩ := hs.seek_state t ht2 hsz fuel (by omega)
  have hdw : full.dropWhile (below t) = rem.dropWhile (below t) := by
    rw [hfull]
    refine dropWhile_append_all _ _ _ fun a ha => ?_
    have := lt_curOf_of_mem_pre (hfull ▸ wf) ha
    rw [← hs.cur_document_eq] at this
    simp only [below, decide_eq_true_eq]
    omega
  refine ⟨b, d1, g1, ⟨fresh1, pre ++ rem.takeWhile (below t), rem.dropWhile (below t), g2, ?_,
    by rw [g5, g6]; exact hsz⟩, ?_, ?_⟩
  · rw [List.append_assoc, ← dropWhile_suffix]; exact hfull
  · rw [g2.cur_document_eq, hdw]
  · rw [hdw]; exact g3

/-- The decoder opened on the chunk of a posting list, before and after
`begin()`: the invariant holds for the list, preceded before `begin()` by the
slot of document `0` that `init` leaves in the block arrays. -/
theorem init_seekInv (st : Nat) (e : Encoder) (S : List Posting)
    (hd : e.docDeltas.length = N) (hf : e.blockFreqs.length = N) (wf : WellFormed S)
    (hpos : ∀ d ∈ S, 1 ≤ d.docID) {e1 : Encoder} {tctx : term_index_ctx}
    (henc : encodeTerm st e S = some (e1, tctx)) (hsz : tctx.size < 4294967296) :
    (∃ pre0, SeekInv (pre0 ++ S) (new_decoder tctx e1.indexOut) ∧ WellFormed (pre0 ++ S) ∧
        pre0.length ≤ 1 ∧ ∀ x ∈ pre0, x.docID = 0) ∧
      ∃ x0 d1, (new_decoder tctx e1.indexOut).begin = some (x0, d1) ∧ SeekInv S d1 := by
  have hce : ∀ (t : term_index_ctx) (m : List Nat), t.size < 4294967296 →
      (new_decoder t m).chunkEnd < (new_decoder t m).base + 4294967296 := by
    intro t m ht
    simp only [new_decoder, Decoder.init]
    split <;> simp only [Decoder.finalize] <;> omega
  cases S with
  | nil =>
    obtain ⟨e2, Bs, h1, h2, h3, h4, -, -⟩ := encodeTerm_layout st e [] hd hf
    rw [henc] at h1
    simp only [Option.some.injEq, Prod.mk.injEq] at h1
    obtain ⟨rfl, rfl⟩ := h1
    have hBs : Bs = [] := by
      cases Bs with
      | nil => rfl
      | cons B Bs =>
        have := (h4 B (List.mem_cons_self _ _)).1
        have h5 : B = [] := by
          have := congrArg List.length h3
          simp only [List.flatten_cons, List.length_append, List.length_nil] at this
          omega
        rw [h5] at this
        simp at this
    subst hBs
    have hterm : DecTerm (new_decoder ⟨0, e.indexOut.length, 0⟩ e1.indexOut) := by
      simp only [new_decoder, Decoder.init, chunkBytes, List.length_nil, if_true]
      exact DecTerm.finalize rfl (by simp [Decoder.new]) (by simp [Decoder.new]) rfl
    have hterm2 : DecTerm (new_decoder ⟨0, e.indexOut.length, 0⟩ e1.indexOut).finalize :=
      DecTerm.finalize hterm.p_end hterm.docs_len hterm.freqs_len hterm.skiplist
    simp only [List.length_nil, chunkBytes] at hce hsz ⊢
    refine ⟨⟨[], ⟨true, [], [], Or.inr ⟨rfl, hterm⟩, rfl,
      hce ⟨0, e.indexOut.length, 0⟩ e1.indexOut (Nat.zero_lt_succ _)⟩, wf, by simp,
      by simp⟩, ?_⟩
    refine ⟨(new_decoder ⟨0, e.indexOut.length, 0⟩ e1.indexOut).finalize.cur_document,
      (new_decoder ⟨0, e.indexOut.length, 0⟩ e1.indexOut).finalize, ?_,
      ⟨true, [], [], Or.inr ⟨rfl, hterm2⟩, rfl, ?_⟩⟩
    · simp only [Decoder.begin, hterm.p_end, ne_eq, not_true_eq_false, if_false]
    · have := hce ⟨0, e.indexOut.length, 0⟩ e1.indexOut (Nat.zero_lt_succ _)
      simpa [Decoder.finalize] using this
  | cons x rest =>
    obtain ⟨e2, tctx2, Bs, h1, h2, -, -, h5⟩ :=
      encode_decode_setup st e (x :: rest) hd hf wf hpos (by simp)
    rw [henc] at h1
    simp only [Option.some.injEq, Prod.mk.injEq] at h1
    obtain ⟨rfl, rfl⟩ := h1
    have hc := hce tctx e1.indexOut hsz
    have hidx : (new_decoder tctx e1.indexOut).blockDocIdx = 0 := by
      have := h5.idx_lt; simp at this; exact this
    refine ⟨⟨[⟨0, 0, []⟩], ⟨true, [], ⟨0, 0, []⟩ :: x :: rest, Or.inl ⟨_, _, h5, ?_⟩, rfl, hc⟩,
      h2 ▸ h5.wf, by simp, by simp⟩, ?_⟩
    · rw [hidx, h2]; rfl
    · obtain ⟨d1, g1, g2, -, g4, g5, -⟩ := begin_state h5 h2
      exact ⟨_, d1, g1, ⟨true, [], x :: rest, g2, rfl, by rw [g4, g5]; exact hc⟩⟩


theorem head_dropWhile_iff_mem {full : List Posting} (wf : WellFormed full) (t : Nat) :
    (∃ x, (full.dropWhile (below t)).head? = some x ∧ x.docID = t) ↔
      ∃ x ∈ full, x.docID = t := by
  constructor
  · rintro ⟨x, hx, hxt⟩
    refine ⟨x, ?_, hxt⟩
    exact (List.dropWhile_sublist _).subset (List.mem_of_mem_head? hx)
  · rintro ⟨x, hx, hxt⟩
    have hmem := mem_dropWhile_of_ge t full hx (by omega)
    cases hdw : full.dropWhile (below t) with
    | nil => rw [hdw] at hmem; cases hmem
    | cons y l =>
      rw [hdw] at hmem
      refine ⟨y, rfl, ?_⟩
      have hge := head_dropWhile_ge t full (x := y) (by rw [hdw]; rfl)
      rcases List.mem_cons.mp hmem with rfl | h1
      · exact hxt
      · have hsub : (y :: l).Sublist full := hdw ▸ List.dropWhile_sublist _
        have hp := wf.sorted.sublist hsub
        rw [List.pairwise_cons] at hp
        have := hp.1 x h1
        omega

/-- Counterexample to C7 as stated: right after `init` on the chunk of the
documents 10, 11, 15, 25, 50 the current document is 0, and `seek(0)` returns
`true` although 0 is not a document of the list. -/
theorem seek_zero_after_init_returns_true :
    encodeTerm 1 (Encoder.new []) applePostings = some appleChunk ∧
      appleDecoder = new_decoder appleChunk.2 appleChunk.1.indexOut ∧
      appleDecoder.cur_document ≤ 0 ∧
      appleDecoder.seek 200 0 = some (true, appleDecoder) ∧
      ∀ x ∈ applePostings, x.docID ≠ 0 :=
  ⟨rfl, rfl, by decide, rfl, by decide⟩

/-- C7 (amended): Seek return value. Let `S` be a posting list with strictly
increasing document IDs in `[1, UINT32_MAX)`, encoded by the encoder into a
chunk shorter than `2^32` bytes, and let `d` be a decoder state reached after
`init` by an optional first call of `begin()` followed by calls of `next()`
(made while the decoder is not exhausted) and of `seek()`, the exhausted state
included. For every target `t` with `0 < t < UINT32_MAX` not below the current
document, `seek(t)` returns `true` if and only if `t` is a document ID of `S`. -/
theorem seek_returns_true_iff_member (st : Nat) (e : Encoder) (S : List Posting)
    (hd : e.docDeltas.length = N) (hf : e.blockFreqs.length = N) (wf : WellFormed S)
    (hpos : ∀ s ∈ S, 1 ≤ s.docID) (e1 : Encoder) (tctx : term_index_ctx)
    (henc : encodeTerm st e S = some (e1, tctx)) (hsz : tctx.size < 4294967296)
    (d : Decoder)
    (hreach : Reach (N + S.length + 2) (new_decoder tctx e1.indexOut) d ∨
      ∃ x0 d1, (new_decoder tctx e1.indexOut).begin = some (x0, d1) ∧
        Reach (N + S.length + 2) d1 d)
    (t : Nat) (ht1 : d.cur_document ≤ t) (h0 : 0 < t) (hmax : t < UINT32_MAX) (fuel : Nat)
    (hfuel : N + S.length + 2 ≤ fuel) :
    ∃ b d2, d.seek fuel t = some (b, d2) ∧ (b = true ↔ ∃ x ∈ S, x.docID = t) := by
  obtain ⟨⟨pre0, hinv0, wf0, hlen0, hpre0⟩, x1, d1a, hb, hinv1⟩ :=
    init_seekInv st e S hd hf wf hpos henc hsz
  have key : ∀ pre, WellFormed (pre ++ S) → pre.length ≤ 1 → (∀ x ∈ pre, x.docID = 0) →
      SeekInv (pre ++ S) d →
      ∃ b d2, d.seek fuel t = some (b, d2) ∧ (b = true ↔ ∃ x ∈ S, x.docID = t) := by
    intro pre wfp hlen hpre hinv
    obtain ⟨b, d2, g1, -, -, g4⟩ :=
      hinv.seek_step wfp t ht1 (Nat.le_of_lt hmax) fuel
        (by simp only [List.length_append]; omega)
    refine ⟨b, d2, g1, ?_⟩
    rw [g4 hmax, head_dropWhile_iff_mem wfp t]
    constructor
    · rintro ⟨x, hx, hxt⟩
      rcases List.mem_append.mp hx with h1 | h1
      · have := hpre x h1; omega
      · exact ⟨x, h1, hxt⟩
    · rintro ⟨x, hx, hxt⟩
      exact ⟨x, List.mem_append_right _ hx, hxt⟩
  rcases hreach with hr | ⟨x0, d1, hbegin, hr⟩
  · exact key pre0 wf0 hlen0 hpre0
      (hinv0.reach wf0 (by simp only [List.length_append]; omega) hr).1
  · rw [hbegin] at hb
    simp only [Option.some.injEq, Prod.mk.injEq] at hb
    obtain ⟨-, rfl⟩ := hb
    exact key [] wf (by simp) (by simp) (hinv1.reach wf (by omega) hr).1

/-- Witness of the amended C7 on the documents 10, 11, 15, 25, 50, in the
state after `begin()` and one `next()`, with target 15. -/
theorem seek_returns_true_iff_member_witness :
    ∃ b d2, appleSecond.seek 200 15 = some (b, d2) ∧
      (b = true ↔ ∃ x ∈ applePostings, x.docID = 15) :=
  seek_returns_true_iff_member 1 (Encoder.new []) applePostings rfl rfl
    ⟨by decide, by decide, by decide, by decide⟩ (by decide) appleChunk.1 appleChunk.2 rfl
    (by decide) appleSecond
    (Or.inr ⟨10, appleBegun, rfl, Reach.next (b := true) Reach.refl (by decide) rfl⟩)
    15 (by decide) (by decide) (by decide) 200 (by decide)

/-- C6: on the one-document list `[(1, 1, [65536])]`, `materialize_hits` called
on document 1 stores the hit position `0` and records `(termID, 0)` in the
word space: the position `65536` given to the encoder is cut to 16 bits by the
`uint16_t` accumulator. -/
theorem materialize_hits_truncates_position :
    encodeTerm 1 (Encoder.new []) widePostings = some wideChunk ∧
      (new_decoder wideChunk.2 wideChunk.1.indexOut).begin = some (1, wideBegun) ∧
      wideBegun.cur_freq = 1 ∧
      (wideBegun.materialize_hits 7 []).map (fun r => (r.2.1, r.2.2))
        = some ([(7, 0)], [⟨0, 0, 0⟩]) :=
  ⟨rfl, rfl, rfl, rfl⟩


/-- Witness of C1 on the documents 10, 11, 15, 25, 50 of the scenario of `app.cpp`. -/
theorem roundtrip_documents_frequencies_witness :
    ∃ e1 tctx d1 f dk,
      encodeTerm 1 (Encoder.new []) ((⟨10, 2, [1, 2]⟩ : Posting) ::
        [⟨11, 5, [15, 20, 21, 50, 55]⟩, ⟨15, 1, [20]⟩, ⟨25, 1, [18]⟩, ⟨50, 1, [20]⟩])
          = some (e1, tctx) ∧
      (new_decoder tctx e1.indexOut).begin = some (10, d1) ∧ d1.cur_freq = 2 ∧
      nextTrace 5 d1 = some ([(true, 11, 5), (true, 15, 1), (true, 25, 1), (true, 50, 1),
        (false, UINT32_MAX, f)], dk) ∧
      dk.cur_document = UINT32_MAX :=
  roundtrip_documents_frequencies 1 (Encoder.new []) ⟨10, 2, [1, 2]⟩
    [⟨11, 5, [15, 20, 21, 50, 55]⟩, ⟨15, 1, [20]⟩, ⟨25, 1, [18]⟩, ⟨50, 1, [20]⟩] rfl rfl
    ⟨by decide, by decide, by decide, by decide⟩ (by decide)

/-- Witness of C10 on the open block of five documents of `appleOpen`. -/
theorem commit_block_layout_witness :
    ∃ e1, appleOpen.commit_block 1 = some e1 ∧
      e1.indexOut = appleOpen.indexOut
        ++ encode_varuint32 (sub32 appleOpen.curDocID appleOpen.prevBlockLastDocumentID)
        ++ encode_varuint32 (varints (appleOpen.docDeltas.take (appleOpen.curBlockSize - 1))
              ++ varints (appleOpen.blockFreqs.take appleOpen.curBlockSize)
              ++ appleOpen.hitsData).length
        ++ [appleOpen.curBlockSize]
        ++ (varints (appleOpen.docDeltas.take (appleOpen.curBlockSize - 1))
              ++ varints (appleOpen.blockFreqs.take appleOpen.curBlockSize)
              ++ appleOpen.hitsData) ∧
      (appleOpen.docDeltas.take (appleOpen.curBlockSize - 1)).length
        = appleOpen.curBlockSize - 1 ∧
      (appleOpen.blockFreqs.take appleOpen.curBlockSize).length = appleOpen.curBlockSize :=
  commit_block_layout 1 appleOpen (by decide) (by decide) rfl rfl


/-- Refilling a chunk at the header of block `B` puts it on the first document of `B`. -/
theorem refill_inv (c : Chunk) (B : List Posting) (R : List (List Posting))
    (hB : 0 < B.length) (hle : B.length ≤ N) (hdl : c.documents.length = N)
    (hfl : c.freqs.length = N) (hprev : c.documents.getD (c.size - 1) 0 < 4294967296)
    (hbytes : c.mem.drop c.p
      = chunkBytes (c.documents.getD (c.size - 1) 0) (B :: R) ++ c.mem.drop c.e)
    (hend : c.p + (chunkBytes (c.documents.getD (c.size - 1) 0) (B :: R)).length = c.e)
    (hblocks : ∀ B1 ∈ R, 0 < B1.length ∧ B1.length ≤ N) (hwf : WellFormed (B ++ R.flatten)) :
    ∃ c1, c.refill = some c1 ∧ ChunkInv c1 true B R ∧ c1.idx = 0 ∧
      c1.maskedDocsReg = c.maskedDocsReg := by
  obtain ⟨d1, g1, g2, g3, -⟩ := unpack_next_block_inv c.toDecoder B R hB hle hdl hfl hprev
    hbytes hend hblocks hwf rfl (Nat.zero_le _)
  have hb2 := hbytes
  simp only [chunkBytes, List.append_assoc] at hb2
  obtain ⟨-, -, h3, -, -⟩ := header_eq hb2 hprev
  have hn : c.mem.getD (decode_varuint32 c.mem (decode_varuint32 c.mem c.p).2).2 0 ≠ 0 := by
    rw [h3]; omega
  simp only [Decoder.unpack_next_block, Decoder.unpack_block, Chunk.toDecoder, hn, if_false,
    Option.some.injEq] at g1
  have hdl1 := g2.docs_len
  rw [← g1] at hdl1
  simp only [List.length_set] at hdl1
  cases hc : c.refill with
  | none => simp only [Chunk.refill, hn, if_false, reduceCtorEq] at hc
  | some c1 =>
  simp only [Chunk.refill, hn, if_false, Option.some.injEq] at hc
  subst hc
  refine ⟨_, rfl, ⟨?_, h3⟩, rfl, rfl⟩
  have hlast : ((unpackDocs c.mem
        (c.mem.getD (decode_varuint32 c.mem (decode_varuint32 c.mem c.p).2).2 0 - 1) 0
        (c.documents.getD (c.size - 1) 0)
        ((decode_varuint32 c.mem (decode_varuint32 c.mem c.p).2).2 + 1) c.documents).1.set
        (c.mem.getD (decode_varuint32 c.mem (decode_varuint32 c.mem c.p).2).2 0 - 1)
        (u32 (c.documents.getD (c.size - 1) 0 + (decode_varuint32 c.mem c.p).1))).getD
        (c.mem.getD (decode_varuint32 c.mem (decode_varuint32 c.mem c.p).2).2 0 - 1) 0
      = u32 (c.documents.getD (c.size - 1) 0 + (decode_varuint32 c.mem c.p).1) := by
    apply getD_of_getElem?
    rw [List.getElem?_set_self (by rw [hdl1, h3]; omega)]
  rw [← g1] at g2
  simpa only [Chunk.toDecoder, hlast] using g2


theorem appendPositions_eq (mem : List Nat) (ps : List Nat) :
    ∀ (prev p : Nat) (acc : List EncCall) (rest : List Nat), prev < 4294967296 →
      (∀ q ∈ ps, q < 4294967296) → mem.drop p = varints (posDeltas prev ps) ++ rest →
      appendPositions mem ps.length p prev acc
        = (acc ++ ps.map EncCall.new_position, p + (varints (posDeltas prev ps)).length) := by
  induction ps with
  | nil => intro prev p acc rest _ _ _; simp [appendPositions, posDeltas, varints]
  | cons q qs ih =>
    intro prev p acc rest hprev hq h
    have hq1 := hq q (List.mem_cons_self _ _)
    rw [posDeltas, varints_cons, List.append_assoc] at h
    obtain ⟨h1, h2, h3⟩ := decode_at h
    rw [u32_of_lt hq1] at h3
    rw [List.length_cons, appendPositions]
    simp only [h1, h2, u32_of_lt (sub32_lt _ _), u32_add_sub32 _ _ hprev, u32_of_lt hq1]
    rw [h2] at h3
    rw [ih q _ _ rest hq1 (fun r hr => hq r (List.mem_cons_of_mem _ hr)) h3]
    simp only [posDeltas, varints_cons, List.length_append, u32_of_lt hq1, List.map_cons,
      List.append_assoc, List.singleton_append, Prod.mk.injEq, true_and]
    omega

/-- The lambda `append_from` on a chunk whose current document `x` has its
positions unread: the calls made are those that indexed `x`. -/
theorem ChunkInv.append {c : Chunk} {B : List Posting} {R : List (List Posting)}
    (h : ChunkInv c true B R) {x : Posting} (hx : B[c.idx]? = some x)
    (hpos : ∀ q ∈ x.positions, q < 4294967296) :
    c.append_from.1 = x.calls ∧ ChunkInv c.append_from.2 false B R ∧
      c.append_from.2.idx = c.idx ∧ c.append_from.2.maskedDocsReg = c.maskedDocsReg := by
  have hi := h.inv
  have hxm : x ∈ B ++ R.flatten := List.mem_append_left _ (mem_of_getElem? hx)
  have hdoc : c.documents.getD c.idx 0 = x.docID := hi.cur_doc hx
  have hfreq : c.freqs.getD c.idx 0 = x.freq := by
    have := getD_of_getElem? (hi.cur_freq _ hx)
    simpa using this
  have hfl : x.freq = x.positions.length := hi.wf.freq_eq x hxm
  have hb := hi.bytes
  have he := hi.p_end
  simp only [if_true] at hb he
  have hdrop : B.drop c.idx = x :: B.drop (c.idx + 1) := drop_eq_cons_of_getElem? hx
  have hb1 : c.mem.drop c.p = varints (posDeltas 0 x.positions)
      ++ (hitsOf (B.drop (c.idx + 1)) ++ chunkBytes (lastDoc 0 B) R ++ c.mem.drop c.e) := by
    have : c.toDecoder.blockDocIdx = c.idx := rfl
    rw [this, hdrop, hitsOf_cons] at hb
    simpa [Posting.hits, List.append_assoc, Chunk.toDecoder] using hb
  have hap := appendPositions_eq c.mem x.positions 0 c.p
    [EncCall.begin_document x.docID x.positions.length] _ (by decide) hpos hb1
  have hcalls : c.append_from = (x.calls, { c with
      p := c.p + (varints (posDeltas 0 x.positions)).length, freqs := c.freqs.set c.idx 0 }) := by
    simp only [Chunk.append_from, hdoc, hfreq, hfl, hap]
    simp [Posting.calls, hfl]
  rw [hcalls]
  refine ⟨rfl, ⟨?_, h.size⟩, rfl, rfl⟩
  have hidx : c.toDecoder.blockDocIdx = c.idx := rfl
  have hlen : c.idx < c.freqs.length := by
    have h1 := hi.idx_lt
    have h2 := hi.len_le
    have h3 := hi.freqs_len
    simp only [Chunk.toDecoder] at h1 h3
    omega
  have he2 : c.p + (x.hits ++ hitsOf (B.drop (c.idx + 1)) ++ chunkBytes (lastDoc 0 B) R).length
      = c.e := by
    rw [hidx, hdrop, hitsOf_cons] at he
    exact he
  refine ⟨hi.idx_lt, hi.len_le, hi.docs_len, ?_, hi.docs, ?_, ?_, hi.last, ?_, ?_, hi.blocks,
    hi.wf, hi.skiplist, Nat.zero_le _⟩
  · simp only [Chunk.toDecoder, List.length_set]; exact hi.freqs_len
  · intro j y hj hy
    have := hi.freqs j y hj hy
    simp only [Chunk.toDecoder] at hj this ⊢
    rw [List.getElem?_set_ne (by omega)]
    exact this
  · intro y hy
    simp only [Chunk.toDecoder, Bool.false_eq_true, if_false]
    rw [List.getElem?_set_self hlen]
  · simp only [Chunk.toDecoder, Bool.false_eq_true, if_false]
    have := drop_add_of_drop_eq hb1
    rw [this]
  · simp only [Chunk.toDecoder, Bool.false_eq_true, if_false]
    simp only [Posting.hits, List.length_append] at he2 ⊢
    omega


/-- Advancing a chunk past its current document, as the `do ... while` loop of
`merge` does: either the participant is exhausted, or the chunk (refilled
when its block is used up) stands on the following document. -/
theorem ChunkInv.advance {c : Chunk} {fresh : Bool} {B : List Posting}
    {R : List (List Posting)} (h : ChunkInv c fresh B R) :
    (B.drop (c.idx + 1) ++ R.flatten = [] ∧ c.skip_current.1 = true ∧
        c.skip_current.2.p = c.skip_current.2.e) ∨
      (B.drop (c.idx + 1) ++ R.flatten ≠ [] ∧
        ∃ c1, ChunkRel c1 (c.maskedDocsReg, B.drop (c.idx + 1) ++ R.flatten) ∧
          ((c.skip_current.1 = false ∧ c1 = c.skip_current.2) ∨
            (c.skip_current.1 = true ∧ c.skip_current.2.p ≠ c.skip_current.2.e ∧
              c.skip_current.2.refill = some c1))) := by
  have hi := h.inv
  have hidx : c.idx < B.length := hi.idx_lt
  have hle : B.length ≤ 128 := hi.len_le
  have hmod : (c.idx + 1) % 256 = c.idx + 1 := Nat.mod_eq_of_lt (by omega)
  obtain ⟨hb, he, hp⟩ := hi.skip_cur
  have hsk : c.skip_current = (decide (c.idx + 1 = B.length),
      { c with p := skipVarints c.mem (c.freqs.getD c.idx 0) c.p, idx := c.idx + 1 }) := by
    simp only [Chunk.skip_current, hmod, h.size]
  rw [hsk]
  by_cases hlast : c.idx + 1 = B.length
  · have hdrop : B.drop (c.idx + 1) = [] := List.drop_eq_nil_of_le (by omega)
    have hdrop2 : B.drop (c.toDecoder.blockDocIdx + 1) = [] := hdrop
    rw [hdrop2, hitsOf_nil, List.nil_append] at hb he
    cases R with
    | nil =>
      left
      simp only [chunkBytes, List.length_nil, Nat.add_zero] at he
      exact ⟨by simp [hdrop], by simp [hlast], he⟩
    | cons B1 R1 =>
      right
      have hB1 := hi.blocks B1 (List.mem_cons_self _ _)
      have hne1 : B1 ≠ [] := List.length_pos.mp hB1.1
      have hlt32 : c.documents.getD (c.size - 1) 0 < 4294967296 := by
        have := hi.last_lt
        unfold UINT32_MAX at this
        simp only [Chunk.toDecoder] at this
        omega
      have hlastdoc : c.documents.getD (c.size - 1) 0 = lastDoc 0 B := hi.last
      obtain ⟨c1, g1, g2, g3, g4⟩ := refill_inv
        { c with p := skipVarints c.mem (c.freqs.getD c.idx 0) c.p, idx := c.idx + 1 } B1 R1
        hB1.1 hB1.2 hi.docs_len hi.freqs_len hlt32
        (by simp only [hlastdoc]; exact hb) (by simp only [hlastdoc]; exact he)
        (fun B2 hB2 => hi.blocks B2 (List.mem_cons_of_mem _ hB2))
        (by have := hi.wf.right; simpa using this)
      refine ⟨by simp [hdrop, hne1], c1, ⟨g4, B1, R1, g2, ?_⟩, Or.inr ⟨by simp [hlast], ?_, g1⟩⟩
      · rw [g3, hdrop]; simp
      · have := blockBytes_length_pos (lastDoc 0 B) B1
        simp only [chunkBytes, List.length_append] at he
        simp only [Chunk.toDecoder] at he
        simp only [ne_eq]
        omega
  · right
    have hlt : c.idx + 1 < B.length := by omega
    have hne : B.drop (c.idx + 1) ≠ [] := by
      intro hc
      have := List.drop_eq_nil_iff.mp hc
      omega
    refine ⟨by simp [hne],
      { c with p := skipVarints c.mem (c.freqs.getD c.idx 0) c.p, idx := c.idx + 1 },
      ⟨rfl, B, R, ⟨?_, h.size⟩, rfl⟩, Or.inl ⟨by simp [hlast], rfl⟩⟩
    exact hi.skip_block_doc hlt


theorem idxs_append (d : Nat) (cs cs2 : List Nat) :
    ∀ i, idxs d (cs ++ cs2) i = idxs d cs i ++ idxs d cs2 (i + cs.length) := by
  induction cs with
  | nil => intro i; simp [idxs]
  | cons c cs ih =>
    intro i
    have : i + 1 + cs.length = i + (cs.length + 1) := by omega
    have h2 := ih (i + 1)
    rw [this] at h2
    rw [List.cons_append, idxs, idxs, h2, List.length_cons]
    split <;> simp

theorem idxs_of_not_mem (d : Nat) (cs : List Nat) (h : d ∉ cs) : ∀ i, idxs d cs i = [] := by
  induction cs with
  | nil => intro i; rfl
  | cons c cs ih =>
    intro i
    have hc : c ≠ d := fun hc => h (hc ▸ List.mem_cons_self _ _)
    simp only [idxs, hc, if_false]
    exact ih (fun hm => h (List.mem_cons_of_mem _ hm)) _

theorem foldl_min_le (cs : List Nat) : ∀ low, cs.foldl min low ≤ low := by
  induction cs with
  | nil => intro low; exact Nat.le_refl _
  | cons c cs ih =>
    intro low
    exact Nat.le_trans (ih _) (Nat.min_le_left _ _)

theorem foldl_min_le_of_mem (cs : List Nat) : ∀ low, ∀ c ∈ cs, cs.foldl min low ≤ c := by
  induction cs with
  | nil => intro low c hc; cases hc
  | cons c0 cs ih =>
    intro low c hc
    rcases List.mem_cons.mp hc with rfl | h1
    · exact Nat.le_trans (foldl_min_le cs _) (Nat.min_le_right _ _)
    · exact ih _ c h1

theorem foldl_min_mem (cs : List Nat) : ∀ low, cs.foldl min low = low ∨ cs.foldl min low ∈ cs := by
  induction cs with
  | nil => intro low; exact Or.inl rfl
  | cons c cs ih =>
    intro low
    rcases ih (min low c) with h | h
    · rw [List.foldl_cons, h]
      rcases Nat.le_total low c with h1 | h1
      · left; exact Nat.min_eq_left h1
      · right; rw [Nat.min_eq_right h1]; exact List.mem_cons_self _ _
    · right; exact List.mem_cons_of_mem _ h

theorem chunk_getD_of_drop {chunks : List Chunk} {i : Nat} {c : Chunk} {t : List Chunk}
    (h : chunks.drop i = c :: t) : chunks.getD i default = c ∧ chunks.drop (i + 1) = t := by
  constructor
  · rw [List.getD_eq_getElem?_getD, ← List.head?_drop, h]; rfl
  · rw [← List.drop_drop, h]; rfl

/-- The scan of `merge` for the lowest current document, from index `i` on. -/
theorem findLowest_eq (chunks : List Chunk) (Cr : List Chunk) :
    ∀ (G : List Chunk) (i low : Nat) (adv : List Nat), chunks.drop i = Cr ++ G →
      findLowest chunks Cr.length i low adv =
        ((Cr.map Chunk.cur_document).foldl min low,
          (if (Cr.map Chunk.cur_document).foldl min low = low then adv else [])
            ++ idxs ((Cr.map Chunk.cur_document).foldl min low) (Cr.map Chunk.cur_document) i) := by
  induction Cr with
  | nil => intro G i low adv _; simp [findLowest, idxs]
  | cons c Cr ih =>
    intro G i low adv h
    obtain ⟨h1, h2⟩ := chunk_getD_of_drop (by simpa using h)
    have hle := foldl_min_le (Cr.map Chunk.cur_document) (min low c.cur_document)
    have hl := Nat.min_le_left low c.cur_document
    have hr := Nat.min_le_right low c.cur_document
    rw [List.length_cons, findLowest]
    simp only [h1, List.map_cons, List.foldl_cons, idxs]
    by_cases hlt : c.cur_document < low
    · have hmin : min low c.cur_document = c.cur_document := Nat.min_eq_right (Nat.le_of_lt hlt)
      rw [if_pos hlt, ih G (i + 1) _ _ h2]
      simp only [hmin] at hle ⊢
      have hne : ¬ (List.foldl min c.cur_document (Cr.map Chunk.cur_document) = low) := by omega
      simp only [hne, if_false, List.nil_append]
      by_cases he : List.foldl min c.cur_document (Cr.map Chunk.cur_document) = c.cur_document
      · simp [he]
      · have he2 : ¬ (c.cur_document
            = List.foldl min c.cur_document (Cr.map Chunk.cur_document)) := fun hc => he hc.symm
        simp [he, he2]
    · rw [if_neg hlt]
      have hmin : min low c.cur_document = low := Nat.min_eq_left (by omega)
      simp only [hmin] at hle ⊢
      by_cases heq : c.cur_document = low
      · rw [if_pos heq, ih G (i + 1) _ _ h2]
        by_cases he : List.foldl min low (Cr.map Chunk.cur_document) = low
        · simp [he, heq]
        · have he2 : ¬ (c.cur_document = List.foldl min low (Cr.map Chunk.cur_document)) := by
            omega
          simp [he, he2]
      · rw [if_neg heq, ih G (i + 1) _ _ h2]
        have he2 : ¬ (c.cur_document = List.foldl min low (Cr.map Chunk.cur_document)) := by
          omega
        simp [he2]


theorem ChunkRelAt.head {d : Nat} {c : Chunk} {a : Part} (h : ChunkRelAt d c a) :
    ∃ x tl, a.2 = x :: tl ∧ c.cur_document = x.docID ∧ headOf a = some x.docID := by
  obtain ⟨-, fresh, B, R, hinv, ha, -⟩ := h
  obtain ⟨x, hx⟩ := hinv.inv.cur_ex
  have hx2 : B[c.idx]? = some x := hx
  rw [drop_eq_cons_of_getElem? hx2, List.cons_append] at ha
  exact ⟨x, _, ha, hinv.inv.cur_doc hx, by simp [headOf, ha]⟩

theorem ChunkRel.toAt (d : Nat) {c : Chunk} {a : Part} (h : ChunkRel c a) : ChunkRelAt d c a := by
  obtain ⟨h1, B, R, h2, h3⟩ := h
  exact ⟨h1, true, B, R, h2, h3, fun hc => by cases hc⟩

theorem heads_of_rel {d : Nat} {C : List Chunk} {A : List Part}
    (h : List.Forall₂ (ChunkRelAt d) C A) : heads A = C.map Chunk.cur_document := by
  induction h with
  | nil => rfl
  | cons hca _ ih =>
    obtain ⟨x, tl, -, h2, h3⟩ := hca.head
    simp only [heads, List.filterMap_cons, h3, List.map_cons, h2]
    exact congrArg _ ih

theorem live_of_rel {d : Nat} {C : List Chunk} {A : List Part}
    (h : List.Forall₂ (ChunkRelAt d) C A) : live A = A := by
  induction h with
  | nil => rfl
  | cons hca _ ih =>
    obtain ⟨x, tl, h1, -, -⟩ := hca.head
    simp only [live, List.filter_cons, h1, List.isEmpty_cons, Bool.not_false, if_true]
    exact congrArg _ ih

theorem forall₂_append_singleton {α β : Type} {R : α → β → Prop} {C : List α} {A : List β}
    {a : β} (h : List.Forall₂ R C (A ++ [a])) :
    ∃ C1 c, C = C1 ++ [c] ∧ List.Forall₂ R C1 A ∧ R c a := by
  have h1 := List.forall₂_take_append C A [a] h
  have h2 := List.forall₂_drop_append C A [a] h
  obtain ⟨c, l, hc, hl, he⟩ := List.forall₂_cons_right_iff.mp h2
  rw [List.forall₂_nil_right_iff] at hl
  subst hl
  exact ⟨_, c, by rw [← he, List.take_append_drop], h1, hc⟩

theorem heads_append (A B : List Part) : heads (A ++ B) = heads A ++ heads B := by
  simp [heads]

theorem advanceS_append (d : Nat) (A B : List Part) :
    advanceS d (A ++ B) = advanceS d A ++ advanceS d B := by
  simp [advanceS]

theorem live_append (A B : List Part) : live (A ++ B) = live A ++ live B := by
  simp [live]

theorem memmove_remove (C1 C2 G : List Chunk) (c : Chunk) :
    ∃ G1, memmoveChunks (C1 ++ [c] ++ C2 ++ G) C1.length (C1.length + 1) C2.length
      = C1 ++ C2 ++ G1 := by
  refine ⟨(C1 ++ [c] ++ C2 ++ G).drop (C1.length + C2.length), ?_⟩
  unfold memmoveChunks
  have h1 : (C1 ++ [c] ++ C2 ++ G).take C1.length = C1 := by
    simp [List.append_assoc, List.take_append_eq_append_take]
  have h2 : (C1 ++ [c] ++ C2 ++ G).drop (C1.length + 1) = C2 ++ G := by
    have : C1 ++ [c] ++ C2 ++ G = (C1 ++ [c]) ++ (C2 ++ G) := by simp
    rw [this, List.drop_append_eq_append_drop]
    simp
  rw [h1, h2, List.take_left' rfl]


theorem chunk_getD_mid (C1 C2 : List Chunk) (c : Chunk) :
    (C1 ++ [c] ++ C2).getD C1.length default = c := by
  rw [List.getD_eq_getElem?_getD, List.append_assoc,
    List.getElem?_append_right (Nat.le_refl _)]
  simp

theorem chunk_set_mid (C1 C2 : List Chunk) (c c1 : Chunk) :
    (C1 ++ [c] ++ C2).set C1.length c1 = C1 ++ (c1 :: C2) := by
  rw [List.append_assoc, List.set_append_right _ _ (Nat.le_refl _)]
  simp

/-- The `do ... while` loop of `merge` over the participants standing on the
lowest document `d`, taken from the last to the first: each one moves to its
following document, and those left without a document are removed. -/
theorem advanceLoop_spec (d : Nat) (A1 : List Part) :
    ∀ (C1 : List Chunk) (A2 : List Part) (C2 G : List Chunk) (rem : Nat),
      rem = C1.length + C2.length → List.Forall₂ (ChunkRelAt d) C1 A1 →
      List.Forall₂ ChunkRel C2 A2 →
      ∃ chunks1 rem1 done,
        advanceLoop (idxs d (heads A1) 0).reverse (C1 ++ C2 ++ G) rem
          = some (chunks1, rem1, done) ∧
        ((done = true ∧ live (advanceS d A1) ++ A2 = []) ∨
          (done = false ∧ ∃ C G1, chunks1 = C ++ G1 ∧ rem1 = C.length ∧
            List.Forall₂ ChunkRel C (live (advanceS d A1) ++ A2) ∧ (0 < rem → 0 < rem1))) := by
  induction A1 using List.reverseRecOn with
  | nil =>
    intro C1 A2 C2 G rem hrem h1 h2
    rw [List.forall₂_nil_right_iff] at h1
    subst h1
    refine ⟨[] ++ C2 ++ G, rem, false, by simp [heads, idxs, advanceLoop],
      Or.inr ⟨rfl, C2, G, by simp, ?_, ?_, fun h => h⟩⟩
    · simpa using hrem
    · simpa [advanceS, live] using h2
  | append_singleton A1p a ih =>
    intro C1 A2 C2 G rem hrem h1 h2
    obtain ⟨C1p, c, rfl, h1p, hca⟩ := forall₂_append_singleton h1
    obtain ⟨x, tl, ha2, hcur, hhead⟩ := hca.head
    have hheads := heads_of_rel h1p
    have hlen : (heads A1p).length = C1p.length := by rw [hheads, List.length_map]
    have hchunks : C1p ++ [c] ++ C2 ++ G = C1p ++ [c] ++ (C2 ++ G) := by simp
    have hhs : heads (A1p ++ [a]) = heads A1p ++ [x.docID] := by
      rw [heads_append]; simp [heads, hhead]
    rw [hhs, idxs_append, hlen, Nat.zero_add, advanceS_append, live_append]
    by_cases hd : x.docID = d
    · have hidx : idxs d [x.docID] C1p.length = [C1p.length] := by simp [idxs, hd]
      have hadv : advanceS d [a] = [(a.1, tl)] := by
        simp [advanceS, hhead, hd, ha2]
      rw [hidx, List.reverse_append, List.reverse_singleton, List.singleton_append, advanceLoop,
        hadv]
      simp only [hchunks, chunk_getD_mid, chunk_set_mid]
      obtain ⟨hmask, fresh, B, R, hinv, hrem2, -⟩ := hca
      obtain ⟨y, hy⟩ := hinv.inv.cur_ex
      have hy2 : B[c.idx]? = some y := hy
      have htl : B.drop (c.idx + 1) ++ R.flatten = tl := by
        rw [drop_eq_cons_of_getElem? hy2, ha2, List.cons_append] at hrem2
        exact (List.cons.inj hrem2).2.symm
      rcases hinv.advance with ⟨k1, k2, k3⟩ | ⟨k1, c1, k2, k3⟩
      · rw [htl] at k1
        subst k1
        have hl0 : live [(a.1, ([] : List Posting))] = [] := by simp [live]
        rw [hl0, List.append_nil]
        simp only [k2, k3, if_true, ne_eq, not_true_eq_false, if_false]
        by_cases hr1 : rem - 1 = 0
        · rw [if_pos hr1]
          refine ⟨_, _, true, rfl, Or.inl ⟨rfl, ?_⟩⟩
          have hC1 : C1p = [] := List.length_eq_zero.mp (by simp at hrem; omega)
          have hC2 : C2 = [] := List.length_eq_zero.mp (by simp at hrem; omega)
          subst hC1 hC2
          rw [List.forall₂_nil_left_iff] at h1p h2
          subst h1p h2
          simp [advanceS, live]
        · rw [if_neg hr1]
          have hcnt : rem - 1 - C1p.length = C2.length := by simp at hrem; omega
          obtain ⟨G1, hG1⟩ := memmove_remove C1p C2 G c.skip_current.2
          have hmm : memmoveChunks (C1p ++ c.skip_current.2 :: (C2 ++ G)) C1p.length
              (C1p.length + 1) (rem - 1 - C1p.length) = C1p ++ C2 ++ G1 := by
            rw [hcnt, ← hG1]; simp
          rw [hmm]
          obtain ⟨chunks1, rem1, done, e1, e2⟩ := ih C1p A2 C2 G1 (rem - 1)
            (by simp at hrem; omega) h1p h2
          refine ⟨chunks1, rem1, done, e1, ?_⟩
          rcases e2 with e2 | ⟨e3, C, G2, e4, e5, e6, e7⟩
          · exact Or.inl e2
          · exact Or.inr ⟨e3, C, G2, e4, e5, e6, fun _ => e7 (by omega)⟩
      · rw [htl] at k1 k2
        have hl1 : live [(a.1, tl)] = [(a.1, tl)] := by
          cases tl with
          | nil => exact absurd rfl k1
          | cons t ts => simp [live]
        rw [hl1]
        have hrel : ChunkRel c1 (a.1, tl) := hmask ▸ k2
        have hih := ih C1p ((a.1, tl) :: A2) (c1 :: C2) G rem
          (by simp at hrem ⊢; omega) h1p (List.Forall₂.cons hrel h2)
        have hassoc : C1p ++ c1 :: (C2 ++ G) = C1p ++ c1 :: C2 ++ G := by simp
        have hassoc2 : live (advanceS d A1p) ++ [(a.1, tl)] ++ A2
            = live (advanceS d A1p) ++ (a.1, tl) :: A2 := by simp
        rw [hassoc2]
        rcases k3 with ⟨k4, k5⟩ | ⟨k4, k5, k6⟩
        · simp only [k4, Bool.false_eq_true, if_false, ← k5, hassoc]
          exact hih
        · simp only [k4, if_true, k5, ne_eq, not_false_eq_true, k6, hassoc]
          exact hih
    · have hidx : idxs d [x.docID] C1p.length = [] := by simp [idxs, hd]
      have hne : ¬ (headOf a = some d) := by
        rw [hhead]; intro hc; exact hd (Option.some.inj hc)
      have hadv : advanceS d [a] = [a] := by simp [advanceS, hne]
      have hl1 : live [a] = [a] := by simp [live, ha2]
      rw [hidx, List.append_nil, hadv, hl1]
      have hrel : ChunkRel c a := by
        obtain ⟨hmask, fresh, B, R, hinv, hrem2, hf⟩ := hca
        cases fresh with
        | true => exact ⟨hmask, B, R, hinv, hrem2⟩
        | false =>
          have h3 := hf rfl
          exact absurd h3 (fun hc => hne (by simpa [headOf] using hc))
      have hih := ih C1p (a :: A2) (c :: C2) G rem (by simp at hrem ⊢; omega) h1p
        (List.Forall₂.cons hrel h2)
      have hassoc : C1p ++ [c] ++ C2 ++ G = C1p ++ c :: C2 ++ G := by simp
      have hassoc2 : live (advanceS d A1p) ++ [a] ++ A2 = live (advanceS d A1p) ++ a :: A2 := by
        simp
      rw [hassoc, hassoc2]
      exact hih


theorem postingCalls_append (A B : List Posting) :
    postingCalls (A ++ B) = postingCalls A ++ postingCalls B := by
  induction A with
  | nil => rfl
  | cons a A ih => simp [postingCalls, ih]

theorem idxs_head (d : Nat) (pre post : List Nat) (h : d ∉ pre) :
    (idxs d (pre ++ d :: post) 0).getD 0 0 = pre.length := by
  rw [idxs_append, idxs_of_not_mem d pre h]
  simp [idxs]

theorem find?_first {α : Type} (p : α → Bool) (pre post : List α) (a : α)
    (hpre : ∀ b ∈ pre, p b = false) (ha : p a = true) : (pre ++ a :: post).find? p = some a := by
  induction pre with
  | nil => simp [List.find?, ha]
  | cons b pre ih =>
    rw [List.cons_append, List.find?_cons, hpre b (List.mem_cons_self _ _)]
    exact ih fun c hc => hpre c (List.mem_cons_of_mem _ hc)

theorem headOf_mem_heads {A : List Part} {b : Part} {y : Nat} (hb : b ∈ A)
    (hy : headOf b = some y) : y ∈ heads A :=
  List.mem_filterMap.mpr ⟨b, hb, hy⟩

/-- The first part of an iteration of `merge`: the scan finds the lowest
current document `d` and the participants standing on it, and the first of
them passes its document to the encoder unless its registry masks `d`. -/
theorem merge_scan_emit (C G : List Chunk) (A : List Part) (hrel : List.Forall₂ ChunkRel C A)
    (hne : A ≠ [])
    (hpos : ∀ a ∈ A, ∀ x ∈ a.2, ∀ q ∈ x.positions, q < 4294967296) :
    ∃ d first c1 calls, lowest A = some d ∧
      findLowest (C ++ G) (C.length - 1) 1 ((C ++ G).getD 0 default).cur_document [0]
        = (d, idxs d (heads A) 0) ∧
      first = (idxs d (heads A) 0).getD 0 0 ∧ first < C.length ∧
      (if !((C ++ G).getD first default).maskedDocsReg d
        then ((C ++ G).getD first default).append_from
        else ([], (C ++ G).getD first default)) = (calls, c1) ∧
      calls = postingCalls (emitS d A) ∧
      List.Forall₂ (ChunkRelAt d) (C.set first c1) A := by
  have hrelAt : List.Forall₂ (ChunkRelAt 0) C A := hrel.imp fun c a h => h.toAt 0
  have hheads := heads_of_rel hrelAt
  cases hrel with
  | nil => exact absurd rfl hne
  | @cons c0 a0 Cr Ar h0 hr =>
  have hC : heads (a0 :: Ar) = c0.cur_document :: Cr.map Chunk.cur_document := hheads
  have hlow : lowest (a0 :: Ar)
      = some ((Cr.map Chunk.cur_document).foldl min c0.cur_document) := by
    simp only [lowest, hC]
  have hfl := findLowest_eq (c0 :: Cr ++ G) Cr G 1 c0.cur_document [0] (by simp)
  have hscan : findLowest (c0 :: Cr ++ G) ((c0 :: Cr).length - 1) 1
      ((c0 :: Cr ++ G).getD 0 default).cur_document [0]
      = ((Cr.map Chunk.cur_document).foldl min c0.cur_document,
          idxs ((Cr.map Chunk.cur_document).foldl min c0.cur_document)
            (heads (a0 :: Ar)) 0) := by
    have h1 : (c0 :: Cr).length - 1 = Cr.length := by simp
    have h2 : (c0 :: Cr ++ G).getD 0 default = c0 := rfl
    rw [h1, h2, hfl, hC, idxs]
    by_cases he : (Cr.map Chunk.cur_document).foldl min c0.cur_document = c0.cur_document
    · simp [he]
    · have he2 : ¬ (c0.cur_document
          = (Cr.map Chunk.cur_document).foldl min c0.cur_document) := fun hc => he hc.symm
      simp [he, he2]
  generalize hd : (Cr.map Chunk.cur_document).foldl min c0.cur_document = d at hlow hscan
  have hmem : d ∈ heads (a0 :: Ar) := by
    rw [hC, ← hd]
    rcases foldl_min_mem (Cr.map Chunk.cur_document) c0.cur_document with h | h
    · rw [h]; exact List.mem_cons_self _ _
    · exact List.mem_cons_of_mem _ h
  obtain ⟨pre, post, hsplit, hnot⟩ := List.eq_append_cons_of_mem hmem
  have hfirst := idxs_head d pre post hnot
  rw [← hsplit] at hfirst
  have hrel2 : List.Forall₂ ChunkRel (c0 :: Cr) (a0 :: Ar) := List.Forall₂.cons h0 hr
  have hlenC : (c0 :: Cr).length = (heads (a0 :: Ar)).length := by
    rw [hC]; simp
  have hprelt : pre.length < (c0 :: Cr).length := by
    rw [hlenC, hsplit]; simp
  -- split the chunks and the participants at the first one standing on `d`
  have hCsplit : c0 :: Cr = (c0 :: Cr).take pre.length ++ (c0 :: Cr).drop pre.length :=
    (List.take_append_drop _ _).symm
  have hAsplit : a0 :: Ar = (a0 :: Ar).take pre.length ++ (a0 :: Ar).drop pre.length :=
    (List.take_append_drop _ _).symm
  have hrt := List.forall₂_take pre.length hrel2
  have hrd := List.forall₂_drop pre.length hrel2
  have hpreheads : heads ((a0 :: Ar).take pre.length) = pre := by
    have h1 := heads_of_rel (hrt.imp fun c a h => h.toAt 0)
    rw [h1, List.map_take, ← hheads, hsplit]
    simp
  cases hdc : (c0 :: Cr).drop pre.length with
  | nil =>
    have := congrArg List.length hdc
    simp only [List.length_drop, List.length_nil] at this
    omega
  | cons c Cpost =>
  rw [hdc] at hrd hCsplit
  obtain ⟨a, Apost, hca, hpost, hda⟩ := List.forall₂_cons_left_iff.mp hrd
  rw [hda] at hAsplit
  have hlt : ((c0 :: Cr).take pre.length).length = pre.length := by
    rw [List.length_take]; omega
  have hgetc : (c0 :: Cr ++ G).getD pre.length default = c := by
    have : c0 :: Cr ++ G = (c0 :: Cr).take pre.length ++ [c] ++ (Cpost ++ G) := by
      conv_lhs => rw [hCsplit]
      simp
    rw [this]
    have h3 := chunk_getD_mid ((c0 :: Cr).take pre.length) (Cpost ++ G) c
    rw [hlt] at h3
    exact h3
  obtain ⟨x, tl, ha2, hcur, hhead⟩ := (hca.toAt 0).head
  have hxd : x.docID = d := by
    have h1 : heads (a0 :: Ar) = pre ++ x.docID :: heads Apost := by
      conv_lhs => rw [hAsplit]
      rw [heads_append, hpreheads]
      simp [heads, hhead]
    rw [hsplit] at h1
    have h2 := List.append_inj_right h1 rfl
    exact (List.cons.inj h2).1.symm
  have hemit : emitS d (a0 :: Ar) = if a.1 d then [] else [x] := by
    have hf : (a0 :: Ar).find? (fun b => headOf b == some d) = some a := by
      conv_lhs => rw [hAsplit]
      refine find?_first _ _ _ _ (fun b hb => ?_) (by simp [hhead, hxd])
      cases hb2 : headOf b with
      | none => simp
      | some y =>
        have hy := headOf_mem_heads hb hb2
        rw [hpreheads] at hy
        have : y ≠ d := fun hc => hnot (hc ▸ hy)
        simp [this]
    simp only [emitS, hf, ha2, List.take_succ_cons, List.take_zero]
  have hset : ∀ c1, (c0 :: Cr).set pre.length c1
      = (c0 :: Cr).take pre.length ++ c1 :: Cpost := by
    intro c1
    conv_lhs => rw [hCsplit]
    have h3 := chunk_set_mid ((c0 :: Cr).take pre.length) Cpost c c1
    rw [hlt] at h3
    simpa using h3
  have hrelset : ∀ c1, ChunkRelAt d c1 a →
      List.Forall₂ (ChunkRelAt d) ((c0 :: Cr).set pre.length c1) (a0 :: Ar) := by
    intro c1 h1
    rw [hset c1]
    conv => rhs; rw [hAsplit]
    exact List.rel_append (hrt.imp fun c a h => h.toAt d)
      (List.Forall₂.cons h1 (hpost.imp fun c a h => h.toAt d))
  obtain ⟨hmask, B, R, hinv, hrem⟩ := hca
  by_cases hm : a.1 d = true
  · refine ⟨d, pre.length, c, [], hlow, hscan, hfirst.symm, hprelt, ?_, ?_,
      hrelset c (ChunkRel.toAt d ⟨hmask, B, R, hinv, hrem⟩)⟩
    · rw [hgetc, hmask, hm]; rfl
    · rw [hemit, if_pos hm]; rfl
  · have hm2 : a.1 d = false := by simpa using hm
    obtain ⟨y, hy⟩ := hinv.inv.cur_ex
    have hy2 : B[c.idx]? = some y := hy
    have hyx : y = x := by
      rw [drop_eq_cons_of_getElem? hy2, ha2, List.cons_append] at hrem
      exact ((List.cons.inj hrem).1).symm
    subst hyx
    have hamem : a ∈ a0 :: Ar := by
      rw [hAsplit]; simp
    obtain ⟨k1, k2, k3, k4⟩ := hinv.append hy2
      (hpos a hamem y (by rw [ha2]; exact List.mem_cons_self _ _))
    refine ⟨d, pre.length, c.append_from.2, y.calls, hlow, hscan, hfirst.symm, hprelt, ?_, ?_,
      hrelset _ ⟨k4.trans hmask, false, B, R, k2, by rw [k3]; exact hrem,
        fun _ => by rw [← hxd]; exact hhead⟩⟩
    · rw [hgetc, hmask, hm2, ← k1]; rfl
    · rw [hemit, if_neg hm]; simp [postingCalls]


theorem heads_live (S : List Part) : heads (live S) = heads S := by
  induction S with
  | nil => rfl
  | cons a S ih =>
    obtain ⟨m, L⟩ := a
    cases L with
    | nil => simpa [heads, live, headOf] using ih
    | cons x L =>
      simp only [heads, live, List.filter_cons, List.isEmpty_cons, Bool.not_false, if_true,
        List.filterMap_cons, headOf, List.head?_cons, Option.map_some'] at ih ⊢
      exact congrArg _ ih

theorem lowest_live (S : List Part) : lowest (live S) = lowest S := by
  simp only [lowest, heads_live]

theorem emitS_live (d : Nat) (S : List Part) : emitS d (live S) = emitS d S := by
  have h : (live S).find? (fun a => headOf a == some d)
      = S.find? (fun a => headOf a == some d) := by
    induction S with
    | nil => rfl
    | cons a S ih =>
      obtain ⟨m, L⟩ := a
      cases L with
      | nil => simpa [live, headOf] using ih
      | cons x L =>
        simp only [live, List.filter_cons, List.isEmpty_cons, Bool.not_false, if_true,
          List.find?_cons] at ih ⊢
        split
        · rfl
        · exact ih
  simp only [emitS, h]

theorem live_advanceS_live (d : Nat) (S : List Part) :
    live (advanceS d (live S)) = live (advanceS d S) := by
  induction S with
  | nil => rfl
  | cons a S ih =>
    obtain ⟨m, L⟩ := a
    cases L with
    | nil => simpa [live, advanceS, headOf] using ih
    | cons x L =>
      have h1 : live ((m, x :: L) :: S) = (m, x :: L) :: live S := by simp [live]
      rw [h1]
      have h2 : ∀ T, advanceS d ((m, x :: L) :: T) = advanceS d [(m, x :: L)] ++ advanceS d T :=
        fun T => advanceS_append d [(m, x :: L)] T
      rw [h2 (live S), live_append, ih, h2 S, live_append]

theorem totalLen_cons (a : Part) (S : List Part) : totalLen (a :: S) = a.2.length + totalLen S := by
  simp [totalLen]

theorem totalLen_advanceS_le (d : Nat) (S : List Part) : totalLen (advanceS d S) ≤ totalLen S := by
  induction S with
  | nil => exact Nat.le_refl _
  | cons a S ih =>
    have h2 : advanceS d (a :: S) = advanceS d [a] ++ advanceS d S := advanceS_append d [a] S
    rw [h2, totalLen_cons]
    simp only [advanceS, List.map_cons, List.map_nil, List.singleton_append, totalLen_cons]
    simp only [advanceS] at ih
    split
    · simp only [List.length_tail]; omega
    · omega

theorem totalLen_advanceS_lt (d : Nat) (S : List Part) (h : d ∈ heads S) :
    totalLen (advanceS d S) < totalLen S := by
  induction S with
  | nil => simp [heads] at h
  | cons a S ih =>
    have h2 : advanceS d (a :: S) = advanceS d [a] ++ advanceS d S := advanceS_append d [a] S
    have hle := totalLen_advanceS_le d S
    rw [h2, totalLen_cons]
    simp only [advanceS, List.map_cons, List.map_nil, List.singleton_append, totalLen_cons]
    simp only [advanceS] at ih hle
    by_cases ha : headOf a = some d
    · rw [if_pos ha]
      have hne : a.2 ≠ [] := by
        intro hc
        simp [headOf, hc] at ha
      have := List.length_pos.mpr hne
      simp only [List.length_tail]
      omega
    · rw [if_neg ha]
      have hd : d ∈ heads S := by
        simp only [heads, List.filterMap_cons] at h
        cases hh : headOf a with
        | none => simpa [heads, hh] using h
        | some y =>
          rw [hh] at h ha
          rcases List.mem_cons.mp h with h1 | h1
          · exact absurd (congrArg some h1.symm) ha
          · exact h1
      have := ih hd
      omega

theorem lowest_mem {S : List Part} {d : Nat} (h : lowest S = some d) : d ∈ heads S := by
  unfold lowest at h
  cases hh : heads S with
  | nil => simp [hh] at h
  | cons c cs =>
    simp only [hh, Option.some.injEq] at h
    rw [← h]
    rcases foldl_min_mem cs c with h1 | h1
    · rw [h1]; exact List.mem_cons_self _ _
    · exact List.mem_cons_of_mem _ h1

theorem lowest_le {S : List Part} {d : Nat} (h : lowest S = some d) : ∀ y ∈ heads S, d ≤ y := by
  unfold lowest at h
  cases hh : heads S with
  | nil => simp [hh] at h
  | cons c cs =>
    simp only [hh, Option.some.injEq] at h
    intro y hy
    rw [← h]
    rcases List.mem_cons.mp hy with rfl | h1
    · exact foldl_min_le cs _
    · exact foldl_min_le_of_mem cs _ y h1

theorem mergeS_of_live_nil (fuel : Nat) (S : List Part) (h : live S = []) : mergeS fuel S = [] := by
  cases fuel with
  | zero => rfl
  | succ f =>
    have : lowest S = none := by
      rw [← lowest_live, h]; rfl
    simp only [mergeS, this]

theorem mem_advanceS {d : Nat} {S : List Part} {b : Part} (h : b ∈ advanceS d S) :
    ∃ a ∈ S, b.1 = a.1 ∧ ∀ x ∈ b.2, x ∈ a.2 := by
  simp only [advanceS, List.mem_map] at h
  obtain ⟨a, ha, hb⟩ := h
  refine ⟨a, ha, ?_⟩
  split at hb
  · subst hb
    exact ⟨rfl, fun x hx => List.mem_of_mem_tail hx⟩
  · subst hb
    exact ⟨rfl, fun x hx => hx⟩

/-- The `for (;;)` loop of `merge`: with enough fuel it returns, and the calls
it makes on the encoder are those indexing the merged list. -/
theorem mergeLoop_spec : ∀ (fuel : Nat) (S : List Part) (C G : List Chunk) (calls : List EncCall),
    List.Forall₂ ChunkRel C (live S) → live S ≠ [] →
    (∀ a ∈ S, ∀ x ∈ a.2, ∀ q ∈ x.positions, q < 4294967296) → totalLen S ≤ fuel →
    mergeLoop fuel (C ++ G) C.length calls = some (calls ++ postingCalls (mergeS fuel S)) := by
  intro fuel
  induction fuel with
  | zero =>
    intro S C G calls hrel hne hpos hfuel
    exfalso
    obtain ⟨d, hd⟩ : ∃ d, lowest S = some d := by
      rw [← lowest_live]
      cases hl : live S with
      | nil => exact absurd hl hne
      | cons a A =>
        rw [hl] at hrel
        obtain ⟨x, tl, -, -, h3⟩ := ((List.forall₂_cons_right_iff.mp hrel).choose_spec.choose_spec.1.toAt 0).head
        simp [lowest, heads, h3]
    have := totalLen_advanceS_lt d S (lowest_mem hd)
    omega
  | succ f ih =>
    intro S C G calls hrel hne hpos hfuel
    have hposl : ∀ a ∈ live S, ∀ x ∈ a.2, ∀ q ∈ x.positions, q < 4294967296 :=
      fun a ha => hpos a (List.mem_of_mem_filter ha)
    obtain ⟨d, first, c1, em, h1, h2, h3, h4, h5, h6, h7⟩ := merge_scan_emit C G (live S) hrel hne hposl
    rw [lowest_live] at h1
    rw [emitS_live] at h6
    obtain ⟨chunks1, rem1, done, e1, e2⟩ := advanceLoop_spec d (live S) (C.set first c1) [] [] G
      C.length (by simp) h7 List.Forall₂.nil
    simp only [List.append_nil] at e1 e2
    have hset : (C ++ G).set first c1 = C.set first c1 ++ G := List.set_append_left _ _ h4
    have hC0 : 0 < C.length := by
      have := hrel.length_eq
      have := List.length_pos.mpr hne
      omega
    rw [live_advanceS_live] at e2
    rw [mergeLoop]
    simp only [h2, ← h3, h5, hset, e1, mergeS, h1, postingCalls_append]
    rcases e2 with ⟨rfl, e3⟩ | ⟨rfl, C1, G1, rfl, rfl, e5, e6⟩
    · simp only [if_true, mergeS_of_live_nil f _ e3, h6, postingCalls, List.append_nil]
    · simp only [Bool.false_eq_true, if_false]
      have hne1 : live (advanceS d S) ≠ [] := by
        intro hc
        rw [hc, List.forall₂_nil_right_iff] at e5
        have := e6 hC0
        rw [e5] at this
        simp at this
      have hpos1 : ∀ a ∈ advanceS d S, ∀ x ∈ a.2, ∀ q ∈ x.positions, q < 4294967296 := by
        intro b hb x hx
        obtain ⟨a, ha, -, hsub⟩ := mem_advanceS hb
        exact hpos a ha x (hsub x hx)
      have hlt := totalLen_advanceS_lt d S (lowest_mem h1)
      rw [ih (advanceS d S) C1 G1 _ e5 hne1 hpos1 (by omega), h6, List.append_assoc]


theorem advanceS_eq_map (d : Nat) (S : List Part) : advanceS d S = S.map (advanceOne d) := rfl

theorem advanceOne_fst (d : Nat) (a : Part) : (advanceOne d a).1 = a.1 := by
  unfold advanceOne; split <;> rfl

/-- Every document of a participant is at or above the lowest current document. -/
theorem lowest_le_mem {S : List Part} {d : Nat} (hs : SortedParts S) (hl : lowest S = some d)
    {a : Part} (ha : a ∈ S) {y : Posting} (hy : y ∈ a.2) : d ≤ y.docID := by
  cases h2 : a.2 with
  | nil => rw [h2] at hy; cases hy
  | cons h t =>
    have hh : headOf a = some h.docID := by simp [headOf, h2]
    have h1 := lowest_le hl _ (headOf_mem_heads ha hh)
    have hp := hs a ha
    rw [h2] at hp hy
    rcases List.mem_cons.mp hy with rfl | h3
    · exact h1
    · have := (List.pairwise_cons.mp hp).1 y h3
      omega

/-- A document with the lowest ID is the current document of its participant. -/
theorem head_of_lowest {S : List Part} {d : Nat} (hs : SortedParts S) (hl : lowest S = some d)
    {a : Part} (ha : a ∈ S) {y : Posting} (hy : y ∈ a.2) (hyd : y.docID = d) :
    ∃ t, a.2 = y :: t := by
  cases h2 : a.2 with
  | nil => rw [h2] at hy; cases hy
  | cons h t =>
    have hp := hs a ha
    rw [h2] at hp hy
    rcases List.mem_cons.mp hy with rfl | h3
    · exact ⟨t, rfl⟩
    · have h4 := (List.pairwise_cons.mp hp).1 y h3
      have h5 : d ≤ h.docID := lowest_le_mem hs hl ha (by rw [h2]; exact List.mem_cons_self _ _)
      omega

theorem mem_advanceOne_iff {S : List Part} {d : Nat} (hs : SortedParts S)
    (hl : lowest S = some d) {a : Part} (ha : a ∈ S) (y : Posting) :
    y ∈ (advanceOne d a).2 ↔ y ∈ a.2 ∧ y.docID ≠ d := by
  have hp := hs a ha
  unfold advanceOne
  split
  · rename_i hh
    cases h2 : a.2 with
    | nil => simp [headOf, h2] at hh
    | cons h t =>
      have hhd : h.docID = d := by simpa [headOf, h2] using hh
      rw [h2] at hp
      have hlt := (List.pairwise_cons.mp hp).1
      simp only [List.tail_cons, List.mem_cons]
      constructor
      · intro hy
        have := hlt y hy
        exact ⟨Or.inr hy, by omega⟩
      · rintro ⟨rfl | hy, hne⟩
        · exact absurd hhd hne
        · exact hy
  · rename_i hh
    constructor
    · intro hy
      refine ⟨hy, fun hyd => hh ?_⟩
      obtain ⟨t, ht⟩ := head_of_lowest hs hl ha hy hyd
      simp [headOf, ht, hyd]
    · exact fun h => h.1

theorem sortedParts_advanceS {S : List Part} (d : Nat) (hs : SortedParts S) :
    SortedParts (advanceS d S) := by
  intro b hb
  rw [advanceS_eq_map, List.mem_map] at hb
  obtain ⟨a, ha, rfl⟩ := hb
  have hp := hs a ha
  unfold advanceOne
  split
  · exact hp.sublist (List.tail_sublist _)
  · exact hp

theorem mem_emitS {S : List Part} {d : Nat} {x : Posting} (hx : x ∈ emitS d S) :
    x.docID = d ∧ ∃ pre a post, S = pre ++ a :: post ∧ (∃ t, a.2 = x :: t) ∧ a.1 d = false ∧
      ∀ b ∈ pre, headOf b ≠ some d := by
  unfold emitS at hx
  cases hf : S.find? (fun a => headOf a == some d) with
  | none => simp [hf] at hx
  | some a =>
    simp only [hf] at hx
    obtain ⟨hpa, pre, post, hS, hpre⟩ := List.find?_eq_some.mp hf
    have hm : a.1 d = false := by
      cases h : a.1 d with
      | false => rfl
      | true => simp [h] at hx
    simp only [hm, Bool.false_eq_true, if_false] at hx
    cases h2 : a.2 with
    | nil => simp [h2] at hx
    | cons h t =>
      simp only [h2, List.take_succ_cons, List.take_zero, List.mem_singleton] at hx
      subst hx
      have hxd : x.docID = d := by simpa [headOf, h2] using hpa
      refine ⟨hxd, pre, a, post, hS, ⟨t, h2⟩, hm, fun b hb => ?_⟩
      have := hpre b hb
      simpa using this

theorem emitS_of_owner {S : List Part} {d : Nat} (hs : SortedParts S) (hl : lowest S = some d)
    {x : Posting} (ho : Owner S x) (hxd : x.docID = d) : emitS d S = [x] := by
  obtain ⟨pre, a, post, hS, hxa, hm, hpre⟩ := ho
  have ha : a ∈ S := by rw [hS]; simp
  obtain ⟨t, ht⟩ := head_of_lowest hs hl ha hxa hxd
  have hf : S.find? (fun a => headOf a == some d) = some a := by
    rw [hS]
    refine find?_first _ _ _ _ (fun b hb => ?_) (by simp [headOf, ht, hxd])
    cases hh : headOf b with
    | none => simp
    | some y =>
      have hne : y ≠ d := by
        intro hc
        cases h2 : b.2 with
        | nil => simp [headOf, h2] at hh
        | cons h t2 =>
          have : h.docID = y := by simpa [headOf, h2] using hh
          exact hpre b hb h (by rw [h2]; exact List.mem_cons_self _ _) (by omega)
      simp [hne]
  rw [hxd] at hm
  simp [emitS, hf, hm, ht]

theorem owner_lift {S : List Part} {d : Nat} (hs : SortedParts S) (hl : lowest S = some d)
    {x : Posting} (ho : Owner (advanceS d S) x) : Owner S x ∧ d < x.docID := by
  obtain ⟨pre1, a1, post1, hS, hxa, hm, hpre⟩ := ho
  rw [advanceS_eq_map] at hS
  obtain ⟨pre, rest, hS2, hp1, hr1⟩ := List.map_eq_append_iff.mp hS
  obtain ⟨a, post, hr2, ha1, -⟩ := List.map_eq_cons_iff.mp hr1
  subst hr2 hp1 ha1
  have ha : a ∈ S := by rw [hS2]; simp
  obtain ⟨hx1, hx2⟩ := (mem_advanceOne_iff hs hl ha x).mp hxa
  have hge := lowest_le_mem hs hl ha hx1
  refine ⟨⟨pre, a, post, hS2, hx1, by rw [← advanceOne_fst d a]; exact hm, fun b hb y hy hyx => ?_⟩,
    by omega⟩
  have hbS : b ∈ S := by rw [hS2]; exact List.mem_append_left _ hb
  have : y ∈ (advanceOne d b).2 := (mem_advanceOne_iff hs hl hbS y).mpr ⟨hy, by omega⟩
  exact hpre _ (List.mem_map_of_mem _ hb) y this hyx

theorem owner_lower {S : List Part} {d : Nat} (hs : SortedParts S) (hl : lowest S = some d)
    {x : Posting} (ho : Owner S x) (hxd : x.docID ≠ d) : Owner (advanceS d S) x := by
  obtain ⟨pre, a, post, hS, hxa, hm, hpre⟩ := ho
  have ha : a ∈ S := by rw [hS]; simp
  refine ⟨pre.map (advanceOne d), advanceOne d a, post.map (advanceOne d), ?_,
    (mem_advanceOne_iff hs hl ha x).mpr ⟨hxa, hxd⟩, by rw [advanceOne_fst]; exact hm, ?_⟩
  · rw [advanceS_eq_map, hS]; simp
  · intro b1 hb1 y hy
    obtain ⟨b, hb, rfl⟩ := List.mem_map.mp hb1
    have hbS : b ∈ S := by rw [hS]; exact List.mem_append_left _ hb
    exact hpre b hb y ((mem_advanceOne_iff hs hl hbS y).mp hy).1

/-- The merged list holds only documents taken from their owner. -/
theorem mergeS_sound : ∀ (fuel : Nat) (S : List Part), SortedParts S →
    ∀ x ∈ mergeS fuel S, Owner S x := by
  intro fuel
  induction fuel with
  | zero => intro S _ x hx; cases hx
  | succ f ih =>
    intro S hs x hx
    rw [mergeS] at hx
    cases hl : lowest S with
    | none => simp [hl] at hx
    | some d =>
      simp only [hl, List.mem_append] at hx
      rcases hx with hx | hx
      · obtain ⟨hxd, pre, a, post, hS, ⟨t, ht⟩, hm, hpre⟩ := mem_emitS hx
        refine ⟨pre, a, post, hS, by rw [ht]; exact List.mem_cons_self _ _, by rw [hxd]; exact hm,
          fun b hb y hy hyd => hpre b hb ?_⟩
        have hbS : b ∈ S := by rw [hS]; exact List.mem_append_left _ hb
        obtain ⟨t2, ht2⟩ := head_of_lowest hs hl hbS hy (by omega)
        simp [headOf, ht2]; omega
      · exact (owner_lift hs hl (ih _ (sortedParts_advanceS d hs) x hx)).1

/-- Every document of an owner whose registry does not mask it is in the merged list. -/
theorem mergeS_complete : ∀ (fuel : Nat) (S : List Part), SortedParts S → totalLen S ≤ fuel →
    ∀ x, Owner S x → x ∈ mergeS fuel S := by
  intro fuel
  induction fuel with
  | zero =>
    intro S _ hfuel x ho
    obtain ⟨pre, a, post, hS, hxa, -, -⟩ := ho
    have : 0 < totalLen S := by
      rw [hS]
      simp only [totalLen, List.map_append, List.map_cons, List.sum_append, List.sum_cons]
      have := List.length_pos_of_mem hxa
      omega
    omega
  | succ f ih =>
    intro S hs hfuel x ho
    have hmem : ∃ a ∈ S, x ∈ a.2 := by
      obtain ⟨pre, a, post, hS, hxa, -, -⟩ := ho
      exact ⟨a, by rw [hS]; simp, hxa⟩
    obtain ⟨a, ha, hxa⟩ := hmem
    cases hl : lowest S with
    | none =>
      exfalso
      cases h2 : a.2 with
      | nil => rw [h2] at hxa; cases hxa
      | cons h t =>
        have := headOf_mem_heads ha (y := h.docID) (by simp [headOf, h2])
        unfold lowest at hl
        cases hh : heads S with
        | nil => rw [hh] at this; cases this
        | cons c cs => simp [hh] at hl
    | some d =>
      rw [mergeS]
      simp only [hl, List.mem_append]
      by_cases hxd : x.docID = d
      · left
        rw [emitS_of_owner hs hl ho hxd]
        exact List.mem_singleton_self _
      · right
        have hlt := totalLen_advanceS_lt d S (lowest_mem hl)
        exact ih _ (sortedParts_advanceS d hs) (by omega) x (owner_lower hs hl ho hxd)

/-- The merged list has strictly increasing document IDs. -/
theorem mergeS_sorted : ∀ (fuel : Nat) (S : List Part), SortedParts S →
    (mergeS fuel S).Pairwise fun u v => u.docID < v.docID := by
  intro fuel
  induction fuel with
  | zero => intro S _; exact List.Pairwise.nil
  | succ f ih =>
    intro S hs
    rw [mergeS]
    cases hl : lowest S with
    | none => exact List.Pairwise.nil
    | some d =>
      simp only [hl]
      have hs1 := sortedParts_advanceS d hs
      refine List.pairwise_append.mpr ⟨?_, ih _ hs1, fun u hu v hv => ?_⟩
      · unfold emitS
        split
        · split
          · exact List.Pairwise.nil
          · rename_i a _ _
            cases a.2 <;> simp
        · exact List.Pairwise.nil
      · have h1 := (mem_emitS hu).1
        have h2 := (owner_lift hs hl (mergeS_sound f _ hs1 v hv)).2
        omega


theorem beginDocs_postingCalls (M : List Posting) :
    beginDocs (postingCalls M) = M.map Posting.docID := by
  induction M with
  | nil => rfl
  | cons x M ih =>
    have h1 : beginDocs (x.positions.map EncCall.new_position) = [] := by
      unfold beginDocs
      induction x.positions with
      | nil => rfl
      | cons q qs ih2 => simp [List.filterMap_cons]
    have happ : ∀ a b, beginDocs (a ++ b) = beginDocs a ++ beginDocs b := by
      intro a b; simp [beginDocs]
    rw [postingCalls, happ, ih, Posting.calls]
    have h2 : beginDocs (EncCall.begin_document x.docID x.freq ::
        (x.positions.map EncCall.new_position ++ [EncCall.end_document])) = [x.docID] := by
      have h3 : EncCall.begin_document x.docID x.freq ::
          (x.positions.map EncCall.new_position ++ [EncCall.end_document])
          = [EncCall.begin_document x.docID x.freq] ++ x.positions.map EncCall.new_position
            ++ [EncCall.end_document] := by simp
      rw [h3, happ, happ, h1]
      rfl
    rw [h2]
    rfl

/-- The first refill of the chunk of a participant puts it on the first
document of the posting list. -/
theorem refill_first {m : merge_participant} {L : List Posting} (h : MergeInput m L) :
    ∃ c1, (Chunk.ofParticipant m).refill = some c1 ∧ ChunkRel c1 (m.maskedDocsReg, L) := by
  obtain ⟨st, e, e1, tctx, hd, hf, henc, hm1, hm2, hm3⟩ := h.enc
  obtain ⟨e2, Bs, k1, k2, k3, k4, -, -⟩ := encodeTerm_layout st e L hd hf
  rw [henc] at k1
  simp only [Option.some.injEq, Prod.mk.injEq] at k1
  obtain ⟨rfl, rfl⟩ := k1
  simp only at hm2 hm3
  cases Bs with
  | nil => exact absurd k3.symm h.ne
  | cons B R =>
  have hB := k4 B (List.mem_cons_self _ _)
  have hdoc0 : (Chunk.ofParticipant m).documents.getD ((Chunk.ofParticipant m).size - 1) 0 = 0 := by
    apply getD_of_getElem?
    show ((List.replicate N 0).set 0 0)[0]? = some 0
    rw [List.getElem?_set_self (by rw [List.length_replicate]; decide)]
  have hmem : (Chunk.ofParticipant m).mem.drop (Chunk.ofParticipant m).p
      = chunkBytes 0 (B :: R) ++ (Chunk.ofParticipant m).mem.drop (Chunk.ofParticipant m).e := by
    show m.indexPtr.drop m.offset = chunkBytes 0 (B :: R) ++ m.indexPtr.drop (m.offset + m.size)
    rw [hm1, hm2, hm3, k2, List.drop_left, ← List.length_append, List.drop_length,
      List.append_nil]
  obtain ⟨c1, g1, g2, g3, g4⟩ := refill_inv (Chunk.ofParticipant m) B R hB.1 hB.2
    (by show ((List.replicate N 0).set 0 0).length = N; simp)
    (by show (List.replicate N 0).length = N; simp)
    (by rw [hdoc0]; decide) (by rw [hdoc0]; exact hmem)
    (by rw [hdoc0]; show m.offset + _ = m.offset + m.size; rw [hm3])
    (fun B1 hB1 => k4 B1 (List.mem_cons_of_mem _ hB1))
    (by have := h.wf; rw [← k3] at this; simpa using this)
  refine ⟨c1, g1, g4, B, R, g2, ?_⟩
  rw [g3, ← k3]
  simp

theorem refillAll_spec (inputs : List (merge_participant × List Posting))
    (h : ∀ i ∈ inputs, MergeInput i.1 i.2) :
    ∃ C, refillAll ((inputs.map Prod.fst).map Chunk.ofParticipant) = some C ∧
      List.Forall₂ ChunkRel C (partsOf inputs) := by
  induction inputs with
  | nil => exact ⟨[], rfl, List.Forall₂.nil⟩
  | cons i inputs ih =>
    obtain ⟨C, h1, h2⟩ := ih fun j hj => h j (List.mem_cons_of_mem _ hj)
    obtain ⟨c1, g1, g2⟩ := refill_first (h i (List.mem_cons_self _ _))
    refine ⟨c1 :: C, ?_, List.Forall₂.cons g2 h2⟩
    simp only [List.map_cons, refillAll, g1, h1, Option.map_some']

theorem live_partsOf (inputs : List (merge_participant × List Posting))
    (h : ∀ i ∈ inputs, MergeInput i.1 i.2) : live (partsOf inputs) = partsOf inputs := by
  induction inputs with
  | nil => rfl
  | cons i inputs ih =>
    have hne := (h i (List.mem_cons_self _ _)).ne
    have := ih fun j hj => h j (List.mem_cons_of_mem _ hj)
    simp only [partsOf, live, List.map_cons, List.filter_cons] at this ⊢
    cases h2 : i.2 with
    | nil => exact absurd h2 hne
    | cons x t =>
      simp only [List.isEmpty_cons, Bool.not_false, if_true]
      exact congrArg _ this

theorem sortedParts_partsOf (inputs : List (merge_participant × List Posting))
    (h : ∀ i ∈ inputs, MergeInput i.1 i.2) : SortedParts (partsOf inputs) := by
  intro a ha
  simp only [partsOf, List.mem_map] at ha
  obtain ⟨i, hi, rfl⟩ := ha
  exact (h i hi).wf.sorted

/-- The function `merge` on 1 to 128 participants: with enough fuel it returns, and the
calls it makes on the encoder are those that index the merged list. -/
theorem merge_eq (inputs : List (merge_participant × List Posting))
    (h : ∀ i ∈ inputs, MergeInput i.1 i.2) (h1 : inputs ≠ []) (h128 : inputs.length ≤ 128)
    (fuel : Nat) (hfuel : totalLen (partsOf inputs) ≤ fuel) :
    merge fuel (inputs.map Prod.fst) = some (postingCalls (mergeS fuel (partsOf inputs))) := by
  obtain ⟨C, g1, g2⟩ := refillAll_spec inputs h
  have hlen : (inputs.map Prod.fst).length = inputs.length := List.length_map _ _
  have hpos : 0 < inputs.length := List.length_pos.mpr h1
  have hcond : ¬ (inputs.length = 0 ∨ 128 < inputs.length) := by omega
  have hC : C.length = inputs.length := by
    rw [g2.length_eq]; simp [partsOf]
  have hl := live_partsOf inputs h
  have hspec := mergeLoop_spec fuel (partsOf inputs) C [] [] (by rw [hl]; exact g2)
    (by rw [hl]; intro hc; simp [partsOf] at hc; exact h1 hc)
    (by
      intro a ha x hx
      simp only [partsOf, List.mem_map] at ha
      obtain ⟨i, hi, rfl⟩ := ha
      exact (h i hi).pos32 x hx)
    hfuel
  simp only [List.append_nil, List.nil_append, hC] at hspec
  simp only [merge, hlen, hcond, if_false, g1]
  exact hspec


theorem mergeInputsD_ok : ∀ i ∈ mergeInputsD, MergeInput i.1 i.2 := by
  intro i hi
  simp only [mergeInputsD, List.mem_cons, List.mem_singleton, List.not_mem_nil, or_false] at hi
  rcases hi with rfl | rfl
  · exact ⟨⟨1, Encoder.new [], _, _, rfl, rfl, rfl, rfl, rfl, rfl⟩,
      ⟨by decide, by decide, by decide, by decide⟩, by decide, by decide⟩
  · exact ⟨⟨1, Encoder.new [], _, _, rfl, rfl, rfl, rfl, rfl, rfl⟩,
      ⟨by decide, by decide, by decide, by decide⟩, by decide, by decide⟩

/-- C3: Merged document set. For 1 to 128 participants given most recent
first, each holding the encoded chunk of a well-formed non-empty posting list
with 32-bit positions, `merge` returns, and a document ID is passed to
`begin_document` if and only if it is the ID of a posting of the first
participant that contains this ID and the registry of that participant does
not mask it. -/
theorem merge_document_set (inputs : List (merge_participant × List Posting))
    (h : ∀ i ∈ inputs, MergeInput i.1 i.2) (h1 : inputs ≠ []) (h128 : inputs.length ≤ 128)
    (fuel : Nat) (hfuel : totalLen (partsOf inputs) ≤ fuel) :
    ∃ calls, merge fuel (inputs.map Prod.fst) = some calls ∧
      ∀ d, d ∈ beginDocs calls ↔
        ∃ (x : Posting) (pre : List Part) (a : Part) (post : List Part),
          x.docID = d ∧ partsOf inputs = pre ++ a :: post ∧ x ∈ a.2 ∧ a.1 d = false ∧
          ∀ b ∈ pre, ∀ y ∈ b.2, y.docID ≠ d := by
  refine ⟨_, merge_eq inputs h h1 h128 fuel hfuel, fun d => ?_⟩
  have hs := sortedParts_partsOf inputs h
  rw [beginDocs_postingCalls, List.mem_map]
  constructor
  · rintro ⟨x, hx, rfl⟩
    obtain ⟨pre, a, post, k1, k2, k3, k4⟩ := mergeS_sound fuel _ hs x hx
    exact ⟨x, pre, a, post, rfl, k1, k2, k3, k4⟩
  · rintro ⟨x, pre, a, post, rfl, k1, k2, k3, k4⟩
    exact ⟨x, mergeS_complete fuel _ hs hfuel x ⟨pre, a, post, k1, k2, k3, k4⟩, rfl⟩

/-- Witness of C3 on the merge scenario with a deletion. -/
theorem merge_document_set_witness :
    ∃ calls, merge 10 (mergeInputsD.map Prod.fst) = some calls ∧
      ∀ d, d ∈ beginDocs calls ↔
        ∃ (x : Posting) (pre : List Part) (a : Part) (post : List Part),
          x.docID = d ∧ partsOf mergeInputsD = pre ++ a :: post ∧ x ∈ a.2 ∧ a.1 d = false ∧
          ∀ b ∈ pre, ∀ y ∈ b.2, y.docID ≠ d :=
  merge_document_set mergeInputsD mergeInputsD_ok (List.cons_ne_nil _ _) (by decide) 10 (by decide)

/-- C4: Most recent participant wins. For 1 to 128 participants given most
recent first, each holding the encoded chunk of a well-formed non-empty
posting list with 32-bit positions, the calls `merge` makes on the encoder are
`begin_document(d, freq)`, `new_position` for each position and `end_document`
for the postings of a list `M` with strictly increasing document IDs, and
every posting of `M` is the one stored, with its frequency and positions, in
the first participant that contains its document ID. -/
theorem merge_most_recent_wins (inputs : List (merge_participant × List Posting))
    (h : ∀ i ∈ inputs, MergeInput i.1 i.2) (h1 : inputs ≠ []) (h128 : inputs.length ≤ 128)
    (fuel : Nat) (hfuel : totalLen (partsOf inputs) ≤ fuel) :
    ∃ M, merge fuel (inputs.map Prod.fst) = some (postingCalls M) ∧
      M.Pairwise (fun u v => u.docID < v.docID) ∧
      ∀ x ∈ M, ∃ (pre : List Part) (a : Part) (post : List Part),
        partsOf inputs = pre ++ a :: post ∧ x ∈ a.2 ∧
        ∀ b ∈ pre, ∀ y ∈ b.2, y.docID ≠ x.docID := by
  have hs := sortedParts_partsOf inputs h
  refine ⟨_, merge_eq inputs h h1 h128 fuel hfuel, mergeS_sorted fuel _ hs, fun x hx => ?_⟩
  obtain ⟨pre, a, post, k1, k2, -, k4⟩ := mergeS_sound fuel _ hs x hx
  exact ⟨pre, a, post, k1, k2, k4⟩

/-- Witness of C4 on the merge scenario with a deletion. -/
theorem merge_most_recent_wins_witness :
    ∃ M, merge 10 (mergeInputsD.map Prod.fst) = some (postingCalls M) ∧
      M.Pairwise (fun u v => u.docID < v.docID) ∧
      ∀ x ∈ M, ∃ (pre : List Part) (a : Part) (post : List Part),
        partsOf mergeInputsD = pre ++ a :: post ∧ x ∈ a.2 ∧
        ∀ b ∈ pre, ∀ y ∈ b.2, y.docID ≠ x.docID :=
  merge_most_recent_wins mergeInputsD mergeInputsD_ok (List.cons_ne_nil _ _) (by decide) 10 (by decide)

/-- C8: Merge emission order. For 1 to 128 participants, each holding the
encoded chunk of a well-formed non-empty posting list with strictly increasing
document IDs, `merge` returns, and the document IDs it passes to
`begin_document` are strictly increasing. -/
theorem merge_emission_order (inputs : List (merge_participant × List Posting))
    (h : ∀ i ∈ inputs, MergeInput i.1 i.2) (h1 : inputs ≠ []) (h128 : inputs.length ≤ 128)
    (fuel : Nat) (hfuel : totalLen (partsOf inputs) ≤ fuel) :
    ∃ calls, merge fuel (inputs.map Prod.fst) = some calls ∧
      (beginDocs calls).Pairwise (fun u v => u < v) := by
  refine ⟨_, merge_eq inputs h h1 h128 fuel hfuel, ?_⟩
  rw [beginDocs_postingCalls, List.pairwise_map]
  exact mergeS_sorted fuel _ (sortedParts_partsOf inputs h)

/-- Witness of C8 on the merge scenario with a deletion. -/
theorem merge_emission_order_witness :
    ∃ calls, merge 10 (mergeInputsD.map Prod.fst) = some calls ∧
      (beginDocs calls).Pairwise (fun u v => u < v) :=
  merge_emission_order mergeInputsD mergeInputsD_ok (List.cons_ne_nil _ _) (by decide) 10 (by decide)


/-- The block partition the encoder produces: every block but the last holds
`N` documents, the last one between 1 and `N`. -/
theorem encodeTerm_blocks (st : Nat) (e : Encoder) (S : List Posting)
    (hd : e.docDeltas.length = N) (hf : e.blockFreqs.length = N) :
    ∃ e1 Bs, encodeTerm st e S =
        some (e1, ⟨S.length, e.indexOut.length, (chunkBytes 0 Bs).length⟩) ∧
      e1.indexOut = e.indexOut ++ chunkBytes 0 Bs ∧ Bs.flatten = S ∧
      (∀ B ∈ Bs, 1 ≤ B.length ∧ B.length ≤ N) ∧ (∀ B ∈ Bs.dropLast, B.length = N) := by
  obtain ⟨e1, Bs1, B1, h1, inv, hfl⟩ := (EncInv.begin_term st e hd hf).postings st S
  simp only [List.flatten_nil, List.nil_append] at hfl
  have hlenS : S.length = Bs1.flatten.length + B1.length := by rw [← hfl]; simp
  by_cases hB : B1.length = 0
  · have hB1 : B1 = [] := List.length_eq_zero.mp hB
    subst hB1
    refine ⟨e1, Bs1, ?_, inv.out, by simpa using hfl, ?_, ?_⟩
    · simp only [encodeTerm, h1, Option.some_bind, Encoder.end_term, inv.size, List.length_nil,
        if_true, inv.count, inv.offset, inv.out, List.length_append]
      simp [hlenS]
    · intro B hBm
      rw [inv.full B hBm]; simp [N]
    · intro B hBm
      exact inv.full B (List.mem_of_mem_dropLast hBm)
  · have hpos : 0 < B1.length := Nat.pos_of_ne_zero hB
    obtain ⟨e2, he2, g1, g2, g3, g4, g5, g6, g7, g8, g9⟩ :=
      commit_block_layout_aux st inv.out inv.prev inv.cur inv.size hpos (Nat.le_of_lt inv.size_lt)
        inv.deltas inv.freqs inv.hits inv.deltas_len inv.freqs_len
    refine ⟨e2, Bs1 ++ [B1], ?_, g1, by simpa using hfl, ?_, ?_⟩
    · have hne : e1.curBlockSize ≠ 0 := by rw [inv.size]; exact hB
      simp only [encodeTerm, h1, Option.some_bind, Encoder.end_term, hne, if_false, he2,
        Option.map_some', g8, g9, inv.count, inv.offset, g1, List.length_append]
      simp [hlenS]
    · intro B hBm
      simp only [List.mem_append, List.mem_singleton] at hBm
      rcases hBm with h | h
      · rw [inv.full B h]; simp [N]
      · subst h; exact ⟨hpos, Nat.le_of_lt inv.size_lt⟩
    · intro B hBm
      rw [List.dropLast_concat] at hBm
      exact inv.full B hBm

theorem length_flatten_eq_sum {α : Type} (Bs : List (List α)) :
    Bs.flatten.length = (Bs.map List.length).sum := by
  induction Bs with
  | nil => rfl
  | cons B Bs ih => simp [ih]

/-- C11: Block size invariant. For a posting list of at least one document
passed through the encoder (`begin_term`, the calls of every document,
`end_term`), every call of `commit_block` succeeds (its `require(curBlockSize)`
holds) and the chunk written is `chunkBytes 0 Bs`, the bytes of the blocks
`Bs`, in which the count byte of a block is its number of documents: that
number is between 1 and `N = 128`, it is `N` for every block but the last, and
the counts sum to the number of documents. -/
theorem block_size_invariant (st : Nat) (e : Encoder) (S : List Posting)
    (hd : e.docDeltas.length = N) (hf : e.blockFreqs.length = N) (hS : 1 ≤ S.length) :
    ∃ e1 tctx Bs, encodeTerm st e S = some (e1, tctx) ∧
      e1.indexOut = e.indexOut ++ chunkBytes 0 Bs ∧ Bs ≠ [] ∧
      (∀ B ∈ Bs, 1 ≤ B.length ∧ B.length ≤ N) ∧
      (∀ B ∈ Bs.dropLast, B.length = N) ∧ (Bs.map List.length).sum = S.length := by
  obtain ⟨e1, Bs, h1, h2, h3, h4, h5⟩ := encodeTerm_blocks st e S hd hf
  refine ⟨e1, _, Bs, h1, h2, ?_, h4, h5, ?_⟩
  · intro hc
    rw [hc] at h3
    rw [← h3] at hS
    simp at hS
  · rw [← length_flatten_eq_sum, h3]

/-- Witness of C11 on the documents 10, 11, 15, 25, 50. -/
theorem block_size_invariant_witness :
    ∃ e1 tctx Bs, encodeTerm 1 (Encoder.new []) applePostings = some (e1, tctx) ∧
      e1.indexOut = (Encoder.new []).indexOut ++ chunkBytes 0 Bs ∧ Bs ≠ [] ∧
      (∀ B ∈ Bs, 1 ≤ B.length ∧ B.length ≤ N) ∧
      (∀ B ∈ Bs.dropLast, B.length = N) ∧ (Bs.map List.length).sum = applePostings.length :=
  block_size_invariant 1 (Encoder.new []) applePostings rfl rfl (by decide)


/-- C12: Empty posting list. For a term context whose chunk range has length
0, whatever the index memory holds, `Decoder::init` puts the decoder in the
terminal state (current document `UINT32_MAX`), `begin()` returns
`UINT32_MAX`, and the first call of `next()`, made right after `init` or after
`begin()`, returns `false`: the frequency slot it skips holds 0, so no varint
is decoded, the result is the same for every memory content and the stream
pointer stays at the start of the range. -/
theorem empty_posting_list (documents offset : Nat) (mem : List Nat) :
    DecTerm (new_decoder ⟨documents, offset, 0⟩ mem) ∧
      (new_decoder ⟨documents, offset, 0⟩ mem).cur_document = UINT32_MAX ∧
      (new_decoder ⟨documents, offset, 0⟩ mem).cur_freq = 0 ∧
      (∃ d1, (new_decoder ⟨documents, offset, 0⟩ mem).begin = some (UINT32_MAX, d1) ∧
        d1.cur_freq = 0 ∧
        ∃ d2, d1.next = some (false, d2) ∧ d2.p = offset ∧ d2.cur_document = UINT32_MAX) ∧
      ∃ d2, (new_decoder ⟨documents, offset, 0⟩ mem).next = some (false, d2) ∧ d2.p = offset ∧
        d2.cur_document = UINT32_MAX := by
  have hterm : DecTerm (new_decoder ⟨documents, offset, 0⟩ mem) := by
    simp only [new_decoder, Decoder.init, if_true]
    exact DecTerm.finalize rfl (by simp [Decoder.new]) (by simp [Decoder.new]) rfl
  have hf0 : ∀ d : Decoder, d.freqs[0]? = some 0 → d.blockDocIdx = 0 → d.cur_freq = 0 := by
    intro d h1 h2
    unfold Decoder.cur_freq
    rw [h2]
    exact getD_of_getElem? h1
  have hfreq : (new_decoder ⟨documents, offset, 0⟩ mem).freqs[0]? = some 0 := by
    show ((List.replicate N 0).set 0 0)[0]? = some 0
    rw [List.getElem?_set_self (by rw [List.length_replicate]; decide)]
  have hp : (new_decoder ⟨documents, offset, 0⟩ mem).p = offset := by
    simp [new_decoder, Decoder.init, Decoder.finalize]
  have key : ∀ d : Decoder, DecTerm d → d.freqs[0]? = some 0 → d.p = offset →
      ∃ d2, d.next = some (false, d2) ∧ d2.p = offset ∧ d2.cur_document = UINT32_MAX := by
    intro d ht hfr hpd
    have hdoc : d.documents.getD d.blockDocIdx 0 = d.blockLastDocID := by
      rw [ht.idx, ht.last]; exact getD_of_getElem? ht.doc
    have hsk : skipVarints d.mem (d.freqs.getD d.blockDocIdx 0) d.p = d.p := by
      rw [ht.idx, getD_of_getElem? hfr]; rfl
    have hpe : d.skip_block_doc.p = d.skip_block_doc.chunkEnd := by
      simp only [Decoder.skip_block_doc, hsk]; exact ht.p_end
    refine ⟨d.skip_block_doc.finalize, ?_, ?_, ?_⟩
    · simp only [Decoder.next, hdoc, if_true, hpe, ne_eq, not_true_eq_false, if_false]
    · simp only [Decoder.finalize, Decoder.skip_block_doc, hsk]; exact hpd
    · exact (DecTerm.finalize hpe (by simpa [Decoder.skip_block_doc] using ht.docs_len)
        (by simpa [Decoder.skip_block_doc] using ht.freqs_len)
        (by simpa [Decoder.skip_block_doc] using ht.skiplist)).cur_document_max
  have hterm2 : DecTerm (new_decoder ⟨documents, offset, 0⟩ mem).finalize :=
    DecTerm.finalize hterm.p_end hterm.docs_len hterm.freqs_len hterm.skiplist
  refine ⟨hterm, hterm.cur_document_max, hf0 _ hfreq hterm.idx, ?_, key _ hterm hfreq hp⟩
  refine ⟨(new_decoder ⟨documents, offset, 0⟩ mem).finalize, ?_, hf0 _ hfreq rfl,
    key _ hterm2 hfreq hp⟩
  simp only [Decoder.begin, hterm.p_end, ne_eq, not_true_eq_false, if_false,
    hterm2.cur_document_max]


theorem begin_fst {d d1 : Decoder} {x0 : Nat} (h : d.begin = some (x0, d1)) :
    x0 = d1.cur_document := by
  unfold Decoder.begin at h
  split at h
  · cases hu : d.unpack_next_block with
    | none => simp [hu] at h
    | some d2 =>
      simp only [hu, Option.map_some', Option.some.injEq, Prod.mk.injEq] at h
      obtain ⟨h1, h2⟩ := h
      rw [← h1, ← h2]
  · simp only [Option.some.injEq, Prod.mk.injEq] at h
    obtain ⟨h1, h2⟩ := h
    rw [← h1, ← h2]

/-- C13: Single-document term. For a document ID in `[1, UINT32_MAX)` with a
32-bit frequency equal to its number of positions, the encoder writes one
block: the varint of the document ID, the varint of the body length, the
count byte 1, and a body made of the frequency and the positions, with no
document delta. After `init` and `begin()` (chunk shorter than `2^32` bytes),
`seek` to the document returns `true` and stays on it, and `seek(t)` for every
`t` above it and below `UINT32_MAX` returns `false` and leaves the decoder
exhausted. -/
theorem single_document_term (st : Nat) (e : Encoder) (x : Posting)
    (hd : e.docDeltas.length = N) (hf : e.blockFreqs.length = N) (wf : WellFormed [x])
    (hpos : 1 ≤ x.docID) (hsz : (blockBytes 0 [x]).length < 4294967296) :
    ∃ e1 tctx d1, encodeTerm st e [x] = some (e1, tctx) ∧
      e1.indexOut = e.indexOut ++ (encode_varuint32 x.docID
        ++ encode_varuint32 (encode_varuint32 x.freq ++ x.hits).length ++ [1]
        ++ (encode_varuint32 x.freq ++ x.hits)) ∧
      (new_decoder tctx e1.indexOut).begin = some (x.docID, d1) ∧
      (∀ fuel, N + 2 ≤ fuel → ∃ d2, d1.seek fuel x.docID = some (true, d2) ∧
        d2.cur_document = x.docID) ∧
      ∀ t fuel, x.docID < t → t < UINT32_MAX → N + 2 ≤ fuel →
        ∃ d2, d1.seek fuel t = some (false, d2) ∧ d2.cur_document = UINT32_MAX := by
  obtain ⟨e1, Bs, k1, k2, k3, k4, -, -⟩ := encodeTerm_layout st e [x] hd hf
  have hBs : Bs = [[x]] := by
    cases Bs with
    | nil => cases k3
    | cons B R =>
      have hB := (k4 B (List.mem_cons_self _ _)).1
      cases B with
      | nil => simp at hB
      | cons y B =>
        have h5 := congrArg List.length k3
        simp only [List.flatten_cons, List.length_append, List.length_cons,
          List.length_nil] at h5
        have hB0 : B = [] := List.length_eq_zero.mp (by omega)
        have hR0 : R.flatten = [] := List.length_eq_zero.mp (by omega)
        subst hB0
        cases R with
        | nil => simpa using k3
        | cons B2 R2 =>
          have hB2 := (k4 B2 (by simp)).1
          have h6 := congrArg List.length hR0
          simp only [List.flatten_cons, List.length_append, List.length_nil] at h6
          omega
  subst hBs
  have hx : x ∈ [x] := List.mem_singleton_self _
  have hbytes : chunkBytes 0 [[x]] = encode_varuint32 x.docID
      ++ encode_varuint32 (encode_varuint32 x.freq ++ x.hits).length ++ [1]
      ++ (encode_varuint32 x.freq ++ x.hits) := by
    have hl : lastDoc 0 [x] = x.docID := by
      simp [lastDoc, wf.u32_doc hx]
    have hs : sub32 x.docID 0 = x.docID := by
      have := wf.doc_lt x hx
      unfold UINT32_MAX at this
      unfold sub32
      omega
    simp [chunkBytes, blockBytes, blockBody, hl, hs, varints, docDeltasOf, wf.u32_freq hx]
  have hsz2 : (⟨[x].length, e.indexOut.length, (chunkBytes 0 [[x]]).length⟩ :
      term_index_ctx).size < 4294967296 := by
    dsimp only
    simpa [chunkBytes] using hsz
  have hpos1 : ∀ s ∈ [x], 1 ≤ s.docID := fun s hs => by
    rw [List.mem_singleton.mp hs]; exact hpos
  obtain ⟨-, x0, d1, hb, hinv⟩ := init_seekInv st e [x] hd hf wf hpos1 k1 hsz2
  have hcur : d1.cur_document = x.docID := by
    obtain ⟨e2, tctx2, Bs2, j1, j2, -, -, j5⟩ :=
      encode_decode_setup st e [x] hd hf wf
        (fun s hs => by rw [List.mem_singleton.mp hs]; exact hpos) (by simp)
    rw [k1] at j1
    simp only [Option.some.injEq, Prod.mk.injEq] at j1
    obtain ⟨rfl, rfl⟩ := j1
    obtain ⟨d1b, g1, g2, -⟩ := begin_state j5 j2
    rw [hb] at g1
    simp only [Option.some.injEq, Prod.mk.injEq] at g1
    obtain ⟨-, rfl⟩ := g1
    rw [g2.cur_document_eq]
    rfl
  have hx0 : x0 = x.docID := by rw [begin_fst hb, hcur]
  subst hx0
  refine ⟨e1, _, d1, k1, by rw [k2, hbytes], hb, ?_, ?_⟩
  · intro fuel hfuel
    have hlt : x.docID < UINT32_MAX := wf.doc_lt x hx
    obtain ⟨b, d2, g1, -, g3, g4⟩ := hinv.seek_step wf x.docID (by rw [hcur])
      (Nat.le_of_lt hlt) fuel (by simp only [List.length_singleton]; omega)
    have hdw : [x].dropWhile (below x.docID) = [x] := by simp [below]
    rw [hdw] at g3 g4
    have hb1 : b = true := (g4 hlt).mpr ⟨x, rfl, rfl⟩
    subst hb1
    exact ⟨d2, g1, by rw [g3]; rfl⟩
  · intro t fuel h1 h2 hfuel
    obtain ⟨b, d2, g1, -, g3, g4⟩ := hinv.seek_step wf t (by rw [hcur]; omega)
      (Nat.le_of_lt h2) fuel (by simp only [List.length_singleton]; omega)
    have hdw : [x].dropWhile (below t) = [] := by simp [below, h1]
    rw [hdw] at g3 g4
    have hb1 : b = false := by
      cases b with
      | false => rfl
      | true =>
        obtain ⟨y, hy, -⟩ := (g4 h2).mp rfl
        cases hy
    subst hb1
    exact ⟨d2, g1, by rw [g3]; rfl⟩

/-- Witness of C13 on the document 7 with positions 3 and 9. -/
theorem single_document_term_witness :
    ∃ e1 tctx d1, encodeTerm 1 (Encoder.new []) [(⟨7, 2, [3, 9]⟩ : Posting)] = some (e1, tctx) ∧
      e1.indexOut = (Encoder.new []).indexOut ++ (encode_varuint32 7
        ++ encode_varuint32 (encode_varuint32 2 ++ Posting.hits ⟨7, 2, [3, 9]⟩).length ++ [1]
        ++ (encode_varuint32 2 ++ Posting.hits ⟨7, 2, [3, 9]⟩)) ∧
      (new_decoder tctx e1.indexOut).begin = some (7, d1) ∧
      (∀ fuel, N + 2 ≤ fuel → ∃ d2, d1.seek fuel 7 = some (true, d2) ∧
        d2.cur_document = 7) ∧
      ∀ t fuel, 7 < t → t < UINT32_MAX → N + 2 ≤ fuel →
        ∃ d2, d1.seek fuel t = some (false, d2) ∧ d2.cur_document = UINT32_MAX :=
  single_document_term 1 (Encoder.new []) ⟨7, 2, [3, 9]⟩ rfl rfl
    ⟨by decide, by decide, by decide, by decide⟩ (by decide) (by decide)


/-- The loop of `skiplist_search`: with keys strictly increasing it keeps in
`idx` the last index of `[skipListIdx, btm)` whose key is below the target. -/
theorem skiplistSearchLoop_spec (sl : List (Nat × Nat)) (sidx target : Nat)
    (hlen : sl.length < 1073741824)
    (hsorted : ∀ i j, i < j → j < sl.length → (sl.getD i (0, 0)).1 < (sl.getD j (0, 0)).1) :
    ∀ (fuel : Nat) (top btm : Int) (idx : Nat), (sidx : Int) ≤ btm → top < sl.length →
      btm ≤ top + 1 → top - btm + 1 ≤ fuel →
      (∀ j, sidx ≤ j → (j : Int) < btm → (sl.getD j (0, 0)).1 ≤ target) →
      (∀ j : Nat, top < (j : Int) → j < sl.length → target < (sl.getD j (0, 0)).1) →
      ((idx = UINT32_MAX ∧ ∀ j, sidx ≤ j → (j : Int) < btm → target ≤ (sl.getD j (0, 0)).1) ∨
        (sidx ≤ idx ∧ (idx : Int) < btm ∧ (sl.getD idx (0, 0)).1 < target ∧
          ∀ j, idx < j → (j : Int) < btm → target ≤ (sl.getD j (0, 0)).1)) →
      ((skiplistSearchLoop sl sidx target fuel top btm idx = UINT32_MAX ∧
          ∀ j, sidx ≤ j → j < sl.length → target ≤ (sl.getD j (0, 0)).1) ∨
        (sidx ≤ skiplistSearchLoop sl sidx target fuel top btm idx ∧
          skiplistSearchLoop sl sidx target fuel top btm idx < sl.length ∧
          (sl.getD (skiplistSearchLoop sl sidx target fuel top btm idx) (0, 0)).1 < target ∧
          ∀ j, skiplistSearchLoop sl sidx target fuel top btm idx < j → j < sl.length →
            target ≤ (sl.getD j (0, 0)).1)) := by
  intro fuel
  induction fuel with
  | zero =>
    intro top btm idx h1 h2 h3 h4 i1 i2 i3
    have hbt : btm = top + 1 := by omega
    rw [skiplistSearchLoop]
    rcases i3 with ⟨k1, k2⟩ | ⟨k1, k2, k3, k4⟩
    · left
      refine ⟨k1, fun j hj1 hj2 => ?_⟩
      by_cases hj : (j : Int) < btm
      · exact k2 j hj1 hj
      · exact Nat.le_of_lt (i2 j (by omega) hj2)
    · right
      refine ⟨k1, by omega, k3, fun j hj1 hj2 => ?_⟩
      by_cases hj : (j : Int) < btm
      · exact k4 j hj1 hj
      · exact Nat.le_of_lt (i2 j (by omega) hj2)
  | succ f ih =>
    intro top btm idx h1 h2 h3 h4 i1 i2 i3
    rw [skiplistSearchLoop]
    by_cases hbt : btm ≤ top
    · rw [if_pos hbt]
      have hm0 : (0 : Int) ≤ (btm + top) / 2 := by omega
      have hmb : btm ≤ (btm + top) / 2 := by omega
      have hmt : (btm + top) / 2 ≤ top := by omega
      generalize hmid : (btm + top) / 2 = mid at hm0 hmb hmt
      have hmn : (mid.toNat : Int) = mid := Int.toNat_of_nonneg hm0
      have hmlen : mid.toNat < sl.length := by omega
      simp only []
      by_cases hv : target < (sl.getD mid.toNat (0, 0)).1
      · rw [if_pos hv]
        refine ih (mid - 1) btm idx h1 (by omega) (by omega) (by omega) i1 (fun j hj1 hj2 => ?_) i3
        by_cases hj : j = mid.toNat
        · rw [hj]; exact hv
        · have := hsorted mid.toNat j (by omega) hj2
          omega
      · rw [if_neg hv]
        refine ih top (mid + 1) _ (by omega) h2 (by omega) (by omega) (fun j hj1 hj2 => ?_) i2 ?_
        · by_cases hj : j = mid.toNat
          · rw [hj]; omega
          · have := hsorted j mid.toNat (by omega) hmlen
            omega
        · by_cases hne : (sl.getD mid.toNat (0, 0)).1 ≠ target
          · rw [if_pos hne]
            right
            refine ⟨by omega, by omega, by omega, fun j hj1 hj2 => ?_⟩
            omega
          · rw [if_neg hne]
            have heq : (sl.getD mid.toNat (0, 0)).1 = target := by simpa using hne
            by_cases hms : mid ≠ (sidx : Int)
            · rw [if_pos hms]
              have hlt30 : mid < 4294967296 ∨ 4294967296 ≤ mid := by omega
              have hm1 : 1 ≤ mid := by omega
              by_cases hbig : mid - 1 < 4294967296
              · have hmod : ((mid - 1) % 4294967296).toNat = mid.toNat - 1 := by omega
                rw [hmod]
                right
                have hk := hsorted (mid.toNat - 1) mid.toNat (by omega) hmlen
                refine ⟨by omega, by omega, by omega, fun j hj1 hj2 => ?_⟩
                have : j = mid.toNat := by omega
                rw [this, heq]
              · omega
            · rw [if_neg hms]
              have hms2 : mid = (sidx : Int) := by simpa using hms
              rcases i3 with ⟨k1, k2⟩ | ⟨k1, k2, k3, k4⟩
              · left
                refine ⟨k1, fun j hj1 hj2 => ?_⟩
                have : j = mid.toNat := by omega
                rw [this, heq]
              · omega
    · rw [if_neg hbt]
      have hbt2 : btm = top + 1 := by omega
      rcases i3 with ⟨k1, k2⟩ | ⟨k1, k2, k3, k4⟩
      · left
        refine ⟨k1, fun j hj1 hj2 => ?_⟩
        by_cases hj : (j : Int) < btm
        · exact k2 j hj1 hj
        · exact Nat.le_of_lt (i2 j (by omega) hj2)
      · right
        refine ⟨k1, by omega, k3, fun j hj1 hj2 => ?_⟩
        by_cases hj : (j : Int) < btm
        · exact k4 j hj1 hj
        · exact Nat.le_of_lt (i2 j (by omega) hj2)

theorem pairwise_getD {sl : List (Nat × Nat)} (h : sl.Pairwise fun a b => a.1 < b.1) :
    ∀ i j, i < j → j < sl.length → (sl.getD i (0, 0)).1 < (sl.getD j (0, 0)).1 := by
  intro i j hij hj
  have hi : i < sl.length := by omega
  rw [List.getD_eq_getElem?_getD, List.getD_eq_getElem?_getD, List.getElem?_eq_getElem hi,
    List.getElem?_eq_getElem hj]
  exact List.pairwise_iff_getElem.mp h i j hi hj hij

/-- C16: Skiplist search. For a skiplist of fewer than `2^30` entries whose
keys are strictly increasing, every `skipListIdx ≤ size` and every target,
`skiplist_search(target)` returns `UINT32_MAX` exactly when no index of
`[skipListIdx, size)` has a key below the target, and otherwise returns the
largest such index: its key is below the target and every later key is not. -/
theorem skiplist_search_spec (d : Decoder) (target : Nat)
    (hsorted : d.skiplist.Pairwise fun a b => a.1 < b.1)
    (hidx : d.skipListIdx ≤ d.skiplist.length) (hlen : d.skiplist.length < 1073741824) :
    (d.skiplist_search target = UINT32_MAX ↔
        ∀ j, d.skipListIdx ≤ j → j < d.skiplist.length →
          target ≤ (d.skiplist.getD j (0, 0)).1) ∧
      (d.skiplist_search target ≠ UINT32_MAX →
        d.skipListIdx ≤ d.skiplist_search target ∧
        d.skiplist_search target < d.skiplist.length ∧
        (d.skiplist.getD (d.skiplist_search target) (0, 0)).1 < target ∧
        ∀ j, d.skiplist_search target < j → j < d.skiplist.length →
          target ≤ (d.skiplist.getD j (0, 0)).1) := by
  have h := skiplistSearchLoop_spec d.skiplist d.skipListIdx target hlen (pairwise_getD hsorted)
    (d.skiplist.length + 1) ((d.skiplist.length : Int) - 1) (d.skipListIdx : Int) UINT32_MAX
    (Int.le_refl _) (by omega) (by omega) (by push_cast; omega)
    (fun j h1 h2 => by omega) (fun j h1 h2 => by omega)
    (Or.inl ⟨rfl, fun j h1 h2 => by omega⟩)
  have hmax : d.skiplist.length < UINT32_MAX := by unfold UINT32_MAX; omega
  unfold Decoder.skiplist_search
  rcases h with ⟨h1, h2⟩ | ⟨h1, h2, h3, h4⟩
  · exact ⟨⟨fun _ => h2, fun _ => h1⟩, fun hc => absurd h1 hc⟩
  · refine ⟨⟨fun hc => ?_, fun hc => ?_⟩, fun _ => ⟨h1, h2, h3, h4⟩⟩
    · omega
    · have := hc _ h1 h2
      omega

/-- Witness of C16: in the skiplist with keys 5, 9, 20 the search for 10 ends on index 1. -/
theorem skiplist_search_spec_witness :
    (searchDecoder.skiplist_search 10 = UINT32_MAX ↔
        ∀ j, searchDecoder.skipListIdx ≤ j → j < searchDecoder.skiplist.length →
          10 ≤ (searchDecoder.skiplist.getD j (0, 0)).1) ∧
      (searchDecoder.skiplist_search 10 ≠ UINT32_MAX →
        searchDecoder.skipListIdx ≤ searchDecoder.skiplist_search 10 ∧
        searchDecoder.skiplist_search 10 < searchDecoder.skiplist.length ∧
        (searchDecoder.skiplist.getD (searchDecoder.skiplist_search 10) (0, 0)).1 < 10 ∧
        ∀ j, searchDecoder.skiplist_search 10 < j → j < searchDecoder.skiplist.length →
          10 ≤ (searchDecoder.skiplist.getD j (0, 0)).1) :=
  skiplist_search_spec searchDecoder 10 (by decide) (by decide) (by decide)


theorem succ_mod_cases (k st : Nat) (h : 1 ≤ st) :
    (k % st + 1 = st → (k + 1) % st = 0) ∧ (k % st + 1 < st → (k + 1) % st = k % st + 1) := by
  have hlt := Nat.mod_lt k (show st > 0 by omega)
  constructor
  · intro h1
    by_cases hs : st = 1
    · subst hs; exact Nat.mod_one _
    · rw [Nat.add_mod]
      rw [Nat.mod_eq_of_lt (show 1 < st by omega), h1, Nat.mod_self]
  · intro h1
    rw [Nat.add_mod, Nat.mod_eq_of_lt (show 1 < st by omega), Nat.mod_eq_of_lt h1]

theorem commit_skiplist (st : Nat) (e e1 : Encoder) (h : e.commit_block st = some e1) :
    (sub32 e.skiplistEntryCountdown 1 = 0 →
        e1.skipListData = e.skipListData ++ pack32 (u32 e.prevBlockLastDocumentID)
          ++ pack32 (u32 e.indexOut.length) ∧ e1.skiplistEntryCountdown = st) ∧
      (sub32 e.skiplistEntryCountdown 1 ≠ 0 →
        e1.skipListData = e.skipListData ∧
        e1.skiplistEntryCountdown = sub32 e.skiplistEntryCountdown 1) := by
  unfold Encoder.commit_block at h
  split at h
  · cases h
  · simp only [Option.some.injEq] at h
    subst h
    constructor
    · intro h0
      simp only [h0, if_true, and_self]
    · intro h0
      simp only [h0, if_false, and_self]

theorem Commits.countdown {st : Nat} {e0 : Encoder} (h1 : 1 ≤ st) (hlt : st < 4294967296)
    (h0 : e0.skiplistEntryCountdown = st) {k : Nat} {e : Encoder} (hc : Commits st e0 k e) :
    e.skiplistEntryCountdown = st - k % st := by
  induction hc with
  | zero => rw [h0, Nat.zero_mod]; rfl
  | @step k e e' e1 _ hs1 hs2 hcommit ih =>
    obtain ⟨c1, c2⟩ := commit_skiplist st e' e1 hcommit
    obtain ⟨m1, m2⟩ := succ_mod_cases k st h1
    have hlt2 := Nat.mod_lt k (show st > 0 by omega)
    have hsub : sub32 e'.skiplistEntryCountdown 1 = st - k % st - 1 := by
      rw [hs2, ih]
      unfold sub32
      omega
    by_cases hz : k % st + 1 = st
    · rw [(c1 (by rw [hsub]; omega)).2, m1 hz]; rfl
    · rw [(c2 (by rw [hsub]; omega)).2, hsub, m2 (by omega)]
      omega

/-- C17: Skiplist cadence and key. Within one term that starts with
`skiplistEntryCountdown = SKIPLIST_STEP` (a 32-bit value, at least 1), the
call number `k + 1` of `commit_block` appends a skiplist entry exactly when
`k + 1` is a multiple of `SKIPLIST_STEP`; the entry is `prevBlockLastDocumentID`
as it stands before the call, followed by the length of the session output
before the call. -/
theorem skiplist_cadence (st : Nat) (h1 : 1 ≤ st) (hlt : st < 4294967296) (e0 : Encoder)
    (h0 : e0.skiplistEntryCountdown = st) (k : Nat) (e e' e1 : Encoder)
    (hc : Commits st e0 k e) (hs1 : e'.skipListData = e.skipListData)
    (hs2 : e'.skiplistEntryCountdown = e.skiplistEntryCountdown)
    (hcommit : e'.commit_block st = some e1) :
    (st ∣ k + 1 → e1.skipListData = e.skipListData
        ++ pack32 (u32 e'.prevBlockLastDocumentID) ++ pack32 (u32 e'.indexOut.length)) ∧
      (¬ st ∣ k + 1 → e1.skipListData = e.skipListData) ∧
      (pack32 (u32 e'.prevBlockLastDocumentID) ++ pack32 (u32 e'.indexOut.length)).length = 8 := by
  obtain ⟨c1, c2⟩ := commit_skiplist st e' e1 hcommit
  obtain ⟨m1, m2⟩ := succ_mod_cases k st h1
  have hcd := Commits.countdown h1 hlt h0 hc
  have hlt2 := Nat.mod_lt k (show st > 0 by omega)
  have hsub : sub32 e'.skiplistEntryCountdown 1 = st - k % st - 1 := by
    rw [hs2, hcd]
    unfold sub32
    omega
  refine ⟨fun hdvd => ?_, fun hdvd => ?_, by simp [pack32]⟩
  · have hmod := Nat.mod_eq_zero_of_dvd hdvd
    have hz : k % st + 1 = st := by
      by_contra hne
      have := m2 (by omega)
      omega
    rw [(c1 (by rw [hsub]; omega)).1, hs1]
  · have hz : k % st + 1 ≠ st := fun hc2 => hdvd (Nat.dvd_of_mod_eq_zero (m1 hc2))
    rw [(c2 (by rw [hsub]; omega)).1, hs1]

/-- Witness of C17 with `SKIPLIST_STEP = 1` on the first `commit_block` of the term of
the documents 10, 11, 15, 25, 50. -/
theorem skiplist_cadence_witness :
    (1 ∣ 0 + 1 → appleCommitted.skipListData = ((Encoder.new []).begin_term 1).skipListData
        ++ pack32 (u32 appleOpen.prevBlockLastDocumentID)
        ++ pack32 (u32 appleOpen.indexOut.length)) ∧
      (¬ 1 ∣ 0 + 1 →
        appleCommitted.skipListData = ((Encoder.new []).begin_term 1).skipListData) ∧
      (pack32 (u32 appleOpen.prevBlockLastDocumentID)
        ++ pack32 (u32 appleOpen.indexOut.length)).length = 8 :=
  skiplist_cadence 1 (by decide) (by decide) ((Encoder.new []).begin_term 1) rfl 0
    ((Encoder.new []).begin_term 1) appleOpen appleCommitted Commits.zero rfl rfl rfl


theorem varints_length_le (l : List Nat) : (varints l).length ≤ 5 * l.length := by
  induction l with
  | nil => simp [varints]
  | cons a l ih =>
    have := encode_varuint32_length_le a
    rw [varints_cons, List.length_append, List.length_cons]
    omega

theorem hitsOf_length_le (B : List Posting) :
    (hitsOf B).length ≤ (B.map fun x => 5 * x.positions.length).sum := by
  induction B with
  | nil => simp [hitsOf]
  | cons x B ih =>
    have h1 := varints_length_le (posDeltas 0 x.positions)
    rw [posDeltas_length] at h1
    rw [hitsOf_cons, List.length_append, List.map_cons, List.sum_cons]
    simp only [Posting.hits]
    omega

theorem sizeBound_cons (x : Posting) (S : List Posting) :
    sizeBound (x :: S) = 21 + 5 * x.positions.length + sizeBound S := by
  simp [sizeBound]

theorem sizeBound_append (A B : List Posting) : sizeBound (A ++ B) = sizeBound A + sizeBound B := by
  simp [sizeBound]

theorem sizeBound_ge (B : List Posting) :
    21 * B.length + (B.map fun x => 5 * x.positions.length).sum = sizeBound B := by
  induction B with
  | nil => rfl
  | cons x B ih =>
    rw [sizeBound_cons, List.length_cons, List.map_cons, List.sum_cons]
    omega

theorem blockBytes_length_le (prev : Nat) (B : List Posting) (hB : 0 < B.length) :
    (blockBytes prev B).length ≤ sizeBound B := by
  have h1 := varints_length_le ((docDeltasOf prev B).take (B.length - 1))
  have h2 := varints_length_le (B.map fun d => u32 d.freq)
  have h3 := hitsOf_length_le B
  have h4 := encode_varuint32_length_le (sub32 (lastDoc prev B) prev)
  have h5 := encode_varuint32_length_le (blockBody prev B).length
  have h6 := sizeBound_ge B
  have h7 : (B.map Posting.hits).flatten = hitsOf B := rfl
  rw [List.length_take, docDeltasOf_length] at h1
  rw [List.length_map] at h2
  simp only [blockBytes, blockBody, List.length_append, List.length_singleton, h7] at h5 ⊢
  omega

theorem chunkBytes_length_le (Bs : List (List Posting)) :
    ∀ prev, (∀ B ∈ Bs, 0 < B.length) → (chunkBytes prev Bs).length ≤ sizeBound Bs.flatten := by
  induction Bs with
  | nil => intro prev _; simp [chunkBytes, sizeBound]
  | cons B Bs ih =>
    intro prev h
    have h1 := blockBytes_length_le prev B (h B (List.mem_cons_self _ _))
    have h2 := ih (lastDoc prev B) fun B1 hB1 => h B1 (List.mem_cons_of_mem _ hB1)
    rw [chunkBytes, List.length_append, List.flatten_cons, sizeBound_append]
    omega

theorem wellFormed_largeList : WellFormed largeList := by
  refine ⟨?_, ?_, ?_, ?_⟩
  · rw [largeList, List.pairwise_map]
    exact (List.pairwise_lt_range 10000).imp fun h => Nat.succ_lt_succ h
  · intro d hd
    obtain ⟨i, hi, rfl⟩ := List.mem_map.mp hd
    have := List.mem_range.mp hi
    show i + 1 < 4294967295
    omega
  · intro d hd
    obtain ⟨i, hi, rfl⟩ := List.mem_map.mp hd
    rfl
  · intro d hd
    obtain ⟨i, hi, rfl⟩ := List.mem_map.mp hd
    show 1 < 4294967296
    omega

theorem sizeBound_largeList : sizeBound largeList = 260000 := by
  have h : ∀ n, sizeBound ((List.range n).map fun i => (⟨i + 1, 1, [1]⟩ : Posting)) = 26 * n := by
    intro n
    induction n with
    | zero => rfl
    | succ n ih =>
      rw [List.range_succ, List.map_append, sizeBound_append, ih]
      simp [sizeBound]
      omega
  exact h 10000


theorem wellFormed_manyPositions : WellFormed [manyPositions] := by
  refine ⟨List.pairwise_singleton _ _, ?_, ?_, ?_⟩
  · intro d hd
    rw [List.mem_singleton.mp hd]
    show 1 < 4294967295
    omega
  · intro d hd
    have hd2 := List.mem_singleton.mp hd
    subst hd2
    simp only [manyPositions, List.length_range]
  · intro d hd
    rw [List.mem_singleton.mp hd]
    show 65536 < 4294967296
    omega

/-- C15: on the list of one document with 65536 positions, the decoder
positioned on that document by `begin()` holds the frequency 65536, and
`materialize_hits` does not return: its `uint16_t` counter never equals the
frequency. -/
theorem materialize_hits_diverges :
    ∃ e1 tctx d1, encodeTerm 1 (Encoder.new []) [manyPositions] = some (e1, tctx) ∧
      (new_decoder tctx e1.indexOut).begin = some (1, d1) ∧ d1.cur_freq = 65536 ∧
      ∀ termID dwspace, d1.materialize_hits termID dwspace = none := by
  obtain ⟨e1, tctx, Bs, h1, h2, -, -, h5⟩ :=
    encode_decode_setup 1 (Encoder.new []) [manyPositions] rfl rfl wellFormed_manyPositions
      (fun d hd => by rw [List.mem_singleton.mp hd]; exact Nat.le_refl 1) (by simp)
  obtain ⟨d1, g1, g2, -⟩ := begin_state h5 h2
  have hf : d1.cur_freq = 65536 := g2.cur_head.2
  refine ⟨e1, tctx, d1, h1, g1, hf, fun termID dwspace => ?_⟩
  have hf2 : d1.freqs.getD d1.blockDocIdx 0 = 65536 := hf
  simp only [Decoder.materialize_hits, hf2]
  rfl

/-- C18: with `SKIPLIST_STEP = 1`, the term encoded second in a session, whose
chunk starts at offset 22 of the session output, gets for its first block the
skiplist entry `(0, 22)`: the offset is counted from the start of the session
output, and added to the start of the chunk it gives 44, beyond the 30 bytes
of the output, while the header of that block is at the start of the chunk. -/
theorem skiplist_offset_is_absolute :
    encodeTerm 1 (Encoder.new []) applePostings = some appleChunk ∧
      encodeTerm 1 appleChunk.1 seg2Postings = some secondChunk ∧
      secondChunk.2.offset = 22 ∧ secondChunk.2.size = 8 ∧
      secondChunk.1.skipListData = pack32 0 ++ pack32 22 ∧
      secondChunk.1.indexOut.length = 30 ∧
      secondChunk.1.indexOut.drop 22 = chunkBytes 0 [seg2Postings] ∧
      secondChunk.2.offset + 22 > secondChunk.1.indexOut.length :=
  ⟨rfl, rfl, rfl, rfl, rfl, rfl, by decide, by decide⟩

/-- C20: on the three-byte chunk `[1, 0, 0]`, whose only block header has the
count byte 0, neither `begin()` nor `next()` returns: `unpack_block` runs its
first loop with the bound `-1`, which the `uint8_t` counter never reaches. No
failure is reported. -/
theorem zero_count_block_not_detected :
    (new_decoder ⟨1, 0, 3⟩ [1, 0, 0]).begin = none ∧
      (new_decoder ⟨1, 0, 3⟩ [1, 0, 0]).next = none ∧
      (new_decoder ⟨1, 0, 3⟩ [1, 0, 0]).seek 10 1 = none :=
  ⟨rfl, rfl, rfl⟩


theorem largeList_mem : (⟨5000, 1, [1]⟩ : Posting) ∈ largeList :=
  List.mem_map.mpr ⟨4999, List.mem_range.mpr (by omega), rfl⟩

/-- C19: on the list of the documents 1 to 10000, each with frequency 1 and
one position, the skiplist of the decoder is empty after `init` (the pointer
`skiplistData` it would be read from is null); after `begin()`, `seek(5000)`
returns `true`, with the skiplist still empty and `skipListIdx` still 0: the
call walks the block headers and is not served through a skiplist entry. -/
theorem large_list_seek_without_skiplist :
    ∃ e1 tctx x0 d1 d2, encodeTerm 1 (Encoder.new []) largeList = some (e1, tctx) ∧
      (new_decoder tctx e1.indexOut).skiplist = [] ∧
      (new_decoder tctx e1.indexOut).begin = some (x0, d1) ∧
      d1.seek 20000 5000 = some (true, d2) ∧ d2.cur_document = 5000 ∧
      d2.skiplist = [] ∧ d2.skipListIdx = 0 := by
  have wf := wellFormed_largeList
  have hpos : ∀ d ∈ largeList, 1 ≤ d.docID := by
    intro d hd
    obtain ⟨i, -, rfl⟩ := List.mem_map.mp hd
    exact Nat.le_add_left 1 i
  have hne : largeList ≠ [] := List.ne_nil_of_mem largeList_mem
  obtain ⟨e1, Bs, k1, k2, k3, k4, -, -⟩ := encodeTerm_layout 1 (Encoder.new []) largeList rfl rfl
  have hsz : (chunkBytes 0 Bs).length < 4294967296 := by
    have h1 := chunkBytes_length_le Bs 0 fun B hB => (k4 B hB).1
    rw [k3, sizeBound_largeList] at h1
    omega
  obtain ⟨⟨pre0, hinv0, -, -, -⟩, x0, d1, hb, hinv1⟩ :=
    init_seekInv 1 (Encoder.new []) largeList rfl rfl wf hpos k1 (by dsimp only; exact hsz)
  have hsk0 : (new_decoder ⟨largeList.length, (Encoder.new []).indexOut.length,
      (chunkBytes 0 Bs).length⟩ e1.indexOut).skiplist = [] := by
    obtain ⟨fresh, pre, rem, hs, -, -⟩ := hinv0
    rcases hs with ⟨B, R, inv, -⟩ | ⟨-, term⟩
    · exact inv.skiplist
    · exact term.skiplist
  have hidx0 : (new_decoder ⟨largeList.length, (Encoder.new []).indexOut.length,
      (chunkBytes 0 Bs).length⟩ e1.indexOut).skipListIdx = 0 := by
    simp only [new_decoder, Decoder.init]
    split <;> rfl
  -- the state after `begin()`
  obtain ⟨e2, tctx2, Bs2, j1, j2, -, -, j5⟩ :=
    encode_decode_setup 1 (Encoder.new []) largeList rfl rfl wf hpos hne
  rw [k1] at j1
  simp only [Option.some.injEq, Prod.mk.injEq] at j1
  obtain ⟨rfl, rfl⟩ := j1
  obtain ⟨x, rest, hl⟩ := List.exists_cons_of_ne_nil hne
  rw [hl] at j2
  obtain ⟨d1b, g1, g2, -, -, -, g7⟩ := begin_state j5 j2
  rw [hb] at g1
  simp only [Option.some.injEq, Prod.mk.injEq] at g1
  obtain ⟨-, rfl⟩ := g1
  have hcur : d1.cur_document ≤ 5000 := by
    rw [g2.cur_document_eq]
    have hx : x ∈ largeList := by rw [hl]; exact List.mem_cons_self _ _
    have h5 : (⟨5000, 1, [1]⟩ : Posting) ∈ x :: rest := hl ▸ largeList_mem
    show x.docID ≤ 5000
    rcases List.mem_cons.mp h5 with h6 | h6
    · rw [← h6]
    · have := (List.pairwise_cons.mp (hl ▸ wf.sorted)).1 _ h6
      exact Nat.le_of_lt this
  have hlen : largeList.length = 10000 := by simp [largeList]
  obtain ⟨b, d2, s1, s2, s3, s4⟩ := hinv1.seek_step wf 5000 hcur (by decide) 20000
    (by rw [hlen]; decide)
  have hbt : b = true := by
    refine (s4 (by decide)).mpr ?_
    exact (head_dropWhile_iff_mem wf 5000).mpr ⟨_, largeList_mem, rfl⟩
  subst hbt
  obtain ⟨y, hy1, hy2⟩ := (s4 (by decide)).mp rfl
  have hcur2 : d2.cur_document = 5000 := by
    rw [s3, curOf, hy1]
    exact hy2
  -- frame: the skiplist fields are not touched
  obtain ⟨fresh, pre, rem, hs, hfull, hsz1⟩ := hinv1
  obtain ⟨b3, d3, fresh3, t1, t2, -, -, -, -, t7⟩ := hs.seek_state 5000 (by decide) hsz1 20000
    (by
      have : rem.length ≤ largeList.length := by rw [hfull]; simp
      rw [hlen] at this
      exact Nat.lt_of_le_of_lt (Nat.add_le_add_left this N) (by decide))
  rw [s1] at t1
  simp only [Option.some.injEq, Prod.mk.injEq] at t1
  obtain ⟨-, rfl⟩ := t1
  have hsk2 : d2.skiplist = [] := by
    rcases t2 with ⟨B, R, inv, -⟩ | ⟨-, term⟩
    · exact inv.skiplist
    · exact term.skiplist
  exact ⟨e1, _, x0, d1, d2, k1, hsk0, hb, s1, hcur2, hsk2, by rw [t7, g7, hidx0]⟩


theorem termLt_irrefl (a : List Nat) : termLt a a = false := by
  induction a with
  | nil => rfl
  | cons x xs ih => simp [termLt, ih]

theorem termLt_trans : ∀ (a b c : List Nat), termLt a b = true → termLt b c = true →
    termLt a c = true := by
  intro a
  induction a with
  | nil =>
    intro b c h1 h2
    cases c with
    | nil => cases b <;> simp [termLt] at h2
    | cons z zs => rfl
  | cons x xs ih =>
    intro b c h1 h2
    cases b with
    | nil => simp [termLt] at h1
    | cons y ys =>
      cases c with
      | nil => simp [termLt] at h2
      | cons z zs =>
        simp only [termLt] at h1 h2 ⊢
        by_cases hxy : x < y
        · by_cases hyz : y < z
          · rw [if_pos (by omega)]
          · rw [if_neg hyz] at h2
            by_cases hyz2 : y = z
            · rw [if_pos (by omega)]
            · simp [hyz2] at h2
        · rw [if_neg hxy] at h1
          by_cases hxy2 : x = y
          · rw [if_pos hxy2] at h1
            subst hxy2
            by_cases hyz : x < z
            · rw [if_pos hyz]
            · rw [if_neg hyz] at h2 ⊢
              by_cases hyz2 : x = z
              · rw [if_pos hyz2] at h2 ⊢
                exact ih ys zs h1 h2
              · simp [hyz2] at h2
          · simp [hxy2] at h1

theorem termLt_total : ∀ (a b : List Nat), termLt a b = true ∨ a = b ∨ termLt b a = true := by
  intro a
  induction a with
  | nil =>
    intro b
    cases b with
    | nil => exact Or.inr (Or.inl rfl)
    | cons y ys => exact Or.inl rfl
  | cons x xs ih =>
    intro b
    cases b with
    | nil => exact Or.inr (Or.inr rfl)
    | cons y ys =>
      simp only [termLt]
      by_cases hxy : x < y
      · left; rw [if_pos hxy]
      · by_cases hyx : y < x
        · right; right; rw [if_pos hyx]
        · have hxy2 : x = y := by omega
          subst hxy2
          simp only [Nat.lt_irrefl, if_false, if_true, List.cons.injEq, true_and]
          exact ih ys

theorem termLt_asymm {a b : List Nat} (h : termLt a b = true) : termLt b a = false := by
  cases h2 : termLt b a with
  | false => rfl
  | true =>
    have := termLt_trans a b a h h2
    rw [termLt_irrefl] at this
    cases this

theorem termLt_ne {a b : List Nat} (h : termLt a b = true) : a ≠ b := by
  intro hc
  rw [hc, termLt_irrefl] at h
  cases h

theorem mem_insertTerm (x y : List Nat × term_index_ctx) (l : List (List Nat × term_index_ctx)) :
    y ∈ insertTerm x l ↔ y = x ∨ y ∈ l := by
  induction l with
  | nil => simp [insertTerm]
  | cons z zs ih =>
    simp only [insertTerm]
    split
    · simp only [List.mem_cons, ih]
      constructor
      · rintro (h | h | h)
        · exact Or.inr (Or.inl h)
        · exact Or.inl h
        · exact Or.inr (Or.inr h)
      · rintro (h | h | h)
        · exact Or.inr (Or.inl h)
        · exact Or.inl h
        · exact Or.inr (Or.inr h)
    · simp only [List.mem_cons]

theorem perm_insertTerm (x : List Nat × term_index_ctx) (l : List (List Nat × term_index_ctx)) :
    (insertTerm x l).Perm (x :: l) := by
  induction l with
  | nil => exact List.Perm.refl _
  | cons z zs ih =>
    simp only [insertTerm]
    split
    · exact (List.Perm.cons z ih).trans (List.Perm.swap x z zs)
    · exact List.Perm.refl _

theorem perm_sortTerms (D : List (List Nat × term_index_ctx)) : (sortTerms D).Perm D := by
  induction D with
  | nil => exact List.Perm.refl _
  | cons x D ih => exact (perm_insertTerm x _).trans (List.Perm.cons x ih)

theorem sorted_insertTerm (x : List Nat × term_index_ctx) (l : List (List Nat × term_index_ctx))
    (hs : l.Pairwise fun a b => termLt a.1 b.1 = true) (hx : ∀ y ∈ l, y.1 ≠ x.1) :
    (insertTerm x l).Pairwise fun a b => termLt a.1 b.1 = true := by
  induction l with
  | nil => exact List.pairwise_singleton _ _
  | cons z zs ih =>
    rw [List.pairwise_cons] at hs
    simp only [insertTerm]
    split
    · rename_i hzx
      rw [List.pairwise_cons]
      refine ⟨fun y hy => ?_, ih hs.2 fun y hy => hx y (List.mem_cons_of_mem _ hy)⟩
      rcases (mem_insertTerm x y zs).mp hy with h | h
      · rw [h]; exact hzx
      · exact hs.1 y h
    · rename_i hzx
      have hxz : termLt x.1 z.1 = true := by
        rcases termLt_total x.1 z.1 with h | h | h
        · exact h
        · exact absurd h.symm (hx z (List.mem_cons_self _ _))
        · exact absurd h hzx
      rw [List.pairwise_cons]
      refine ⟨fun y hy => ?_, List.pairwise_cons.mpr hs⟩
      rcases List.mem_cons.mp hy with h | h
      · rw [h]; exact hxz
      · exact termLt_trans _ _ _ hxz (hs.1 y h)

theorem sorted_sortTerms (D : List (List Nat × term_index_ctx)) (h : (D.map Prod.fst).Nodup) :
    (sortTerms D).Pairwise fun a b => termLt a.1 b.1 = true := by
  induction D with
  | nil => exact List.Pairwise.nil
  | cons x D ih =>
    rw [List.map_cons, List.nodup_cons] at h
    refine sorted_insertTerm x _ (ih h.2) fun y hy hc => h.1 ?_
    have := (perm_sortTerms D).mem_iff.mp hy
    rw [← hc]
    exact List.mem_map_of_mem _ this

theorem commonPrefixLen_le : ∀ (a b : List Nat),
    commonPrefixLen a b ≤ a.length ∧ commonPrefixLen a b ≤ b.length ∧
      a.take (commonPrefixLen a b) = b.take (commonPrefixLen a b) := by
  intro a
  induction a with
  | nil => intro b; simp [commonPrefixLen]
  | cons x xs ih =>
    intro b
    cases b with
    | nil => simp [commonPrefixLen]
    | cons y ys =>
      simp only [commonPrefixLen]
      split
      · rename_i hxy
        obtain ⟨h1, h2, h3⟩ := ih ys
        refine ⟨by simp only [List.length_cons]; omega, by simp only [List.length_cons]; omega, ?_⟩
        rw [List.take_succ_cons, List.take_succ_cons, hxy, h3]
      · simp

theorem commonPrefixLen_nil (t : List Nat) : commonPrefixLen [] t = 0 := by
  cases t <;> rfl


theorem decodeTctx_at {mem : List Nat} {p : Nat} {c : term_index_ctx} {rest : List Nat}
    (h : mem.drop p = tctxBytes c ++ rest) (h1 : c.documents < 4294967296)
    (h2 : c.offset < 4294967296) (h3 : c.size < 4294967296) :
    decodeTctx mem p = (c, p + (tctxBytes c).length) ∧
      mem.drop (p + (tctxBytes c).length) = rest := by
  simp only [tctxBytes, List.append_assoc] at h
  obtain ⟨a1, a2, a3⟩ := decode_at h
  obtain ⟨b1, b2, b3⟩ := decode_at a3
  obtain ⟨c1, c2, c3⟩ := decode_at b3
  rw [u32_of_lt h1] at a1
  rw [u32_of_lt h2] at b1
  rw [u32_of_lt h3] at c1
  have hp : (decode_varuint32 mem (decode_varuint32 mem (decode_varuint32 mem p).2).2).2
      = p + (tctxBytes c).length := by
    rw [c2, b2, a2]
    simp only [tctxBytes, List.length_append]
    omega
  refine ⟨?_, by rw [← hp]; exact c3⟩
  simp only [decodeTctx, a1, b1, c1, hp]

theorem drop_cons_cons {data : List Nat} {p a b : Nat} {t : List Nat}
    (h : data.drop p = a :: b :: t) :
    data.getD p 0 = a ∧ data.getD (p + 1) 0 = b ∧ data.drop (p + 2) = t := by
  obtain ⟨h1, h2⟩ := getD_of_drop_cons h
  obtain ⟨h3, h4⟩ := getD_of_drop_cons h2
  exact ⟨h1, h3, h4⟩

/-- Reading the record of a term gives the term back, its context and the
offset of the following record. -/
theorem decodeTermRecord_at {data : List Nat} {p : Nat} {prev prev1 t : List Nat}
    {c : term_index_ctx} {rest : List Nat}
    (h : data.drop p = termRecord prev1 t c ++ rest) (hlen : t.length ≤ 255)
    (h1 : c.documents < 4294967296) (h2 : c.offset < 4294967296) (h3 : c.size < 4294967296)
    (hprev : prev.take (commonPrefixLen prev1 t) = prev1.take (commonPrefixLen prev1 t)) :
    decodeTermRecord data p prev = (t, c, p + (termRecord prev1 t c).length) ∧
      data.drop (p + (termRecord prev1 t c).length) = rest := by
  obtain ⟨k1, k2, k3⟩ := commonPrefixLen_le prev1 t
  have hm1 : commonPrefixLen prev1 t % 256 = commonPrefixLen prev1 t :=
    Nat.mod_eq_of_lt (by omega)
  have hm2 : (t.length - commonPrefixLen prev1 t) % 256 = t.length - commonPrefixLen prev1 t :=
    Nat.mod_eq_of_lt (by omega)
  simp only [termRecord, hm1, hm2, List.append_assoc, List.cons_append, List.nil_append] at h
  obtain ⟨g1, g2, g3⟩ := drop_cons_cons h
  have hsl : (t.drop (commonPrefixLen prev1 t)).length = t.length - commonPrefixLen prev1 t := by
    simp
  have g4 : (data.drop (p + 2)).take (t.length - commonPrefixLen prev1 t)
      = t.drop (commonPrefixLen prev1 t) := by
    rw [g3, ← hsl, List.take_left]
  have g5 := drop_add_of_drop_eq g3
  rw [hsl] at g5
  have g6 : data.drop (p + 2 + (t.length - commonPrefixLen prev1 t)) = tctxBytes c ++ rest := g5
  obtain ⟨d1, d2⟩ := decodeTctx_at g6 h1 h2 h3
  have hlenrec : p + (termRecord prev1 t c).length
      = p + 2 + (t.length - commonPrefixLen prev1 t) + (tctxBytes c).length := by
    simp only [termRecord, List.length_append, List.length_cons, List.length_nil, hsl]
    omega
  rw [hlenrec]
  refine ⟨?_, d2⟩
  simp only [decodeTermRecord, g1, g2, g4, d1, hprev, k3, List.take_append_drop]

theorem dataOf_zero (STEP : Nat) (L : List (List Nat × term_index_ctx)) (p1 p2 : List Nat) :
    dataOf STEP L p1 0 = dataOf STEP L p2 0 := by
  cases L with
  | nil => rfl
  | cons x rest => simp [dataOf]

/-- The buffers written by the walk of `pack_terms`. -/
theorem packLoop_eq (STEP : Nat) (L : List (List Nat × term_index_ctx)) :
    ∀ (prev : List Nat) (cd : Nat) (data index : List Nat),
      packLoop STEP L prev cd data index =
        (data ++ dataOf STEP L prev cd,
          index ++ ((entriesOf STEP L prev cd data.length).map
            fun e => indexRecord e.term e.blockOffset e.tctx).flatten) := by
  induction L with
  | nil => intro prev cd data index; simp [packLoop, dataOf, entriesOf]
  | cons x rest ih =>
    intro prev cd data index
    by_cases hcd : cd = 0
    · simp only [packLoop, dataOf, entriesOf, hcd, if_true, ih, List.length_append,
        List.map_cons, List.flatten_cons, List.append_assoc]
    · simp only [packLoop, dataOf, entriesOf, hcd, if_false, ih, List.length_append,
        List.append_assoc]

theorem indexRecord_length_pos (t : List Nat) (off : Nat) (c : term_index_ctx) :
    0 < (indexRecord t off c).length := by
  simp [indexRecord]

/-- Parsing the index stream gives back the skiplist entries that were recorded. -/
theorem unpackEntries_eq (index : List Nat) (E : List terms_skiplist_entry) :
    ∀ (p : Nat) (acc : List terms_skiplist_entry) (fuel : Nat),
      index.drop p = (E.map fun e => indexRecord e.term e.blockOffset e.tctx).flatten →
      (∀ e ∈ E, e.term.length ≤ 255 ∧ e.blockOffset < 4294967296 ∧
        e.tctx.documents < 4294967296 ∧ e.tctx.offset < 4294967296 ∧
        e.tctx.size < 4294967296) →
      E.length ≤ fuel → unpackEntries fuel index p acc = acc ++ E := by
  induction E with
  | nil =>
    intro p acc fuel h _ _
    have hp : ¬ p < index.length := by
      intro hc
      have := List.drop_eq_nil_iff.mp (by simpa using h)
      omega
    cases fuel with
    | zero => simp [unpackEntries]
    | succ f => simp [unpackEntries, hp]
  | cons e E ih =>
    intro p acc fuel h hv hfuel
    obtain ⟨v1, v2, v3, v4, v5⟩ := hv e (List.mem_cons_self _ _)
    cases fuel with
    | zero => simp at hfuel
    | succ f =>
    have hm : e.term.length % 256 = e.term.length := Nat.mod_eq_of_lt (by omega)
    rw [List.map_cons, List.flatten_cons] at h
    generalize htail : (E.map fun e => indexRecord e.term e.blockOffset e.tctx).flatten = tail
      at h
    simp only [indexRecord, hm, List.append_assoc, List.cons_append, List.nil_append] at h
    have hp : p < index.length := by
      by_contra hc
      have := List.drop_eq_nil_iff.mpr (show index.length ≤ p by omega)
      rw [this] at h
      cases h
    obtain ⟨g1, g2⟩ := getD_of_drop_cons h
    have g3 : (index.drop (p + 1)).take e.term.length = e.term := by
      rw [g2, List.take_left]
    have g4 := drop_add_of_drop_eq g2
    obtain ⟨a1, a2, a3⟩ := decode_at g4
    rw [u32_of_lt v2] at a1
    obtain ⟨d1, d2⟩ := decodeTctx_at a3 v3 v4 v5
    rw [unpackEntries, if_pos hp]
    simp only [g1, g3, a1, d1]
    rw [ih _ _ f (d2.trans htail.symm) (fun e1 he1 => hv e1 (List.mem_cons_of_mem _ he1))
      (by simp only [List.length_cons] at hfuel; omega)]
    simp


theorem findCtx_none {L : List (List Nat × term_index_ctx)} {q : List Nat}
    (h : ∀ y ∈ L, y.1 ≠ q) : findCtx L q = ⟨0, 0, 0⟩ := by
  have : L.find? (fun x => x.1 == q) = none := by
    rw [List.find?_eq_none]
    intro y hy
    simpa using h y hy
  simp only [findCtx, this]

theorem findCtx_cons_eq (x : List Nat × term_index_ctx) (L : List (List Nat × term_index_ctx)) :
    findCtx (x :: L) x.1 = x.2 := by
  simp [findCtx]

theorem findCtx_cons_ne {x : List Nat × term_index_ctx} {L : List (List Nat × term_index_ctx)}
    {q : List Nat} (h : x.1 ≠ q) : findCtx (x :: L) q = findCtx L q := by
  simp [findCtx, h]

theorem findCtx_append {A B : List (List Nat × term_index_ctx)} {q : List Nat}
    (h : ∀ y ∈ A, y.1 ≠ q) : findCtx (A ++ B) q = findCtx B q := by
  induction A with
  | nil => rfl
  | cons x A ih =>
    rw [List.cons_append, findCtx_cons_ne (h x (List.mem_cons_self _ _))]
    exact ih fun y hy => h y (List.mem_cons_of_mem _ hy)

theorem termRecord_length_pos (prev t : List Nat) (c : term_index_ctx) :
    2 ≤ (termRecord prev t c).length := by
  simp [termRecord]

theorem dataOf_length_ge (STEP : Nat) (L : List (List Nat × term_index_ctx)) :
    ∀ (prev : List Nat) (cd : Nat), L.length ≤ (dataOf STEP L prev cd).length := by
  induction L with
  | nil => intro prev cd; exact Nat.zero_le _
  | cons x rest ih =>
    intro prev cd
    simp only [dataOf]
    split
    · have := termRecord_length_pos [] x.1 x.2
      have := ih x.1 (STEP - 1)
      simp only [List.length_append, List.length_cons]
      omega
    · have := termRecord_length_pos prev x.1 x.2
      have := ih x.1 (cd - 1)
      simp only [List.length_append, List.length_cons]
      omega

/-- The linear scan of the data stream from the start of a record returns the
context paired with the query among the pairs stored from there on. -/
theorem scanTerms_eq (STEP : Nat) (data q : List Nat) (L : List (List Nat × term_index_ctx)) :
    ∀ (prev1 : List Nat) (cd p : Nat) (prev : List Nat) (fuel : Nat),
      data.drop p = dataOf STEP L prev1 cd → (cd ≠ 0 → prev = prev1) →
      L.Pairwise (fun a b => termLt a.1 b.1 = true) →
      (∀ x ∈ L, x.1.length ≤ 255 ∧ x.2.documents < 4294967296 ∧ x.2.offset < 4294967296 ∧
        x.2.size < 4294967296) →
      L.length ≤ fuel → scanTerms data q fuel p prev = findCtx L q := by
  induction L with
  | nil =>
    intro prev1 cd p prev fuel h _ _ _ _
    have hp : ¬ p < data.length := by
      intro hc
      have := List.drop_eq_nil_iff.mp (by simpa [dataOf] using h)
      omega
    cases fuel with
    | zero => rfl
    | succ f => simp only [scanTerms, hp, if_false]; rfl
  | cons x rest ih =>
    intro prev1 cd p prev fuel h hprev hs hv hfuel
    obtain ⟨v1, v2, v3, v4⟩ := hv x (List.mem_cons_self _ _)
    rw [List.pairwise_cons] at hs
    cases fuel with
    | zero => simp at hfuel
    | succ f =>
    have key : ∃ pv cd1, data.drop p = termRecord pv x.1 x.2 ++ dataOf STEP rest x.1 cd1 ∧
        prev.take (commonPrefixLen pv x.1) = pv.take (commonPrefixLen pv x.1) := by
      by_cases hcd : cd = 0
      · refine ⟨[], STEP - 1, by simpa [dataOf, hcd] using h, ?_⟩
        rw [commonPrefixLen_nil]; rfl
      · refine ⟨prev1, cd - 1, by simpa [dataOf, hcd] using h, ?_⟩
        rw [hprev hcd]
    obtain ⟨pv, cd1, hrec, htake⟩ := key
    obtain ⟨d1, d2⟩ := decodeTermRecord_at hrec v1 v2 v3 v4 htake
    have hp : p < data.length := by
      by_contra hc
      have := List.drop_eq_nil_iff.mpr (show data.length ≤ p by omega)
      rw [this] at hrec
      have := termRecord_length_pos pv x.1 x.2
      have h0 := congrArg List.length hrec
      simp only [List.length_nil, List.length_append] at h0
      omega
    rw [scanTerms, if_pos hp]
    simp only [d1]
    by_cases hq : x.1 = q
    · rw [if_pos hq, ← hq, findCtx_cons_eq]
    · rw [if_neg hq, findCtx_cons_ne hq]
      by_cases hlt : termLt q x.1 = true
      · rw [if_pos hlt]
        refine (findCtx_none fun y hy hc => ?_).symm
        have := termLt_trans _ _ _ hlt (hs.1 y hy)
        rw [hc, termLt_irrefl] at this
        cases this
      · rw [if_neg hlt]
        exact ih x.1 cd1 _ x.1 f d2 (fun _ => rfl) hs.2
          (fun y hy => hv y (List.mem_cons_of_mem _ hy))
          (by simp only [List.length_cons] at hfuel; omega)

/-- The binary search of the skiplist: the entries before the index it
returns have terms not above the query, the others have terms above it. -/
theorem searchEntries_spec (E : List terms_skiplist_entry) (q : List Nat)
    (hs : ∀ i j, i < j → j < E.length →
      termLt (E.getD i ⟨[], 0, ⟨0, 0, 0⟩⟩).term (E.getD j ⟨[], 0, ⟨0, 0, 0⟩⟩).term = true) :
    ∀ (fuel lo hi : Nat), lo ≤ hi → hi ≤ E.length → hi - lo ≤ fuel →
      (∀ j, j < lo → termLt q (E.getD j ⟨[], 0, ⟨0, 0, 0⟩⟩).term = false) →
      (∀ j, hi ≤ j → j < E.length → termLt q (E.getD j ⟨[], 0, ⟨0, 0, 0⟩⟩).term = true) →
      searchEntries E q fuel lo hi ≤ E.length ∧
        (∀ j, j < searchEntries E q fuel lo hi →
          termLt q (E.getD j ⟨[], 0, ⟨0, 0, 0⟩⟩).term = false) ∧
        ∀ j, searchEntries E q fuel lo hi ≤ j → j < E.length →
          termLt q (E.getD j ⟨[], 0, ⟨0, 0, 0⟩⟩).term = true := by
  intro fuel
  induction fuel with
  | zero =>
    intro lo hi h1 h2 h3 i1 i2
    have : lo = hi := by omega
    subst this
    exact ⟨h2, i1, i2⟩
  | succ f ih =>
    intro lo hi h1 h2 h3 i1 i2
    rw [searchEntries]
    by_cases hlt : lo < hi
    · rw [if_pos hlt]
      have hm1 : lo ≤ (lo + hi) / 2 := by omega
      have hm2 : (lo + hi) / 2 < hi := by omega
      by_cases hq : termLt q (E.getD ((lo + hi) / 2) ⟨[], 0, ⟨0, 0, 0⟩⟩).term = true
      · rw [if_pos hq]
        refine ih lo ((lo + hi) / 2) hm1 (by omega) (by omega) i1 fun j hj1 hj2 => ?_
        by_cases hj : j = (lo + hi) / 2
        · rw [hj]; exact hq
        · exact termLt_trans _ _ _ hq (hs _ j (by omega) hj2)
      · rw [if_neg hq]
        refine ih ((lo + hi) / 2 + 1) hi (by omega) h2 (by omega) (fun j hj => ?_) i2
        by_cases hj : j = (lo + hi) / 2
        · rw [hj]; simpa using hq
        · cases hc : termLt q (E.getD j ⟨[], 0, ⟨0, 0, 0⟩⟩).term with
          | false => rfl
          | true =>
            exact absurd (termLt_trans _ _ _ hc (hs j _ (by omega) (by omega))) hq
    · rw [if_neg hlt]
      have : lo = hi := by omega
      subst this
      exact ⟨h2, i1, i2⟩

/-- Every skiplist entry recorded by the walk points to the record of its
own term, the first of a bucket. -/
theorem entriesOf_spec (STEP : Nat) (L : List (List Nat × term_index_ctx)) :
    ∀ (prev : List Nat) (cd off j : Nat) (e : terms_skiplist_entry),
      (entriesOf STEP L prev cd off)[j]? = some e →
      ∃ pre Lj, L = pre ++ Lj ∧ Lj.head? = some (e.term, e.tctx) ∧
        e.blockOffset = off + (dataOf STEP pre prev cd).length ∧
        dataOf STEP L prev cd = dataOf STEP pre prev cd ++ dataOf STEP Lj [] 0 := by
  induction L with
  | nil => intro prev cd off j e h; simp [entriesOf] at h
  | cons x rest ih =>
    intro prev cd off j e h
    by_cases hcd : cd = 0
    · simp only [entriesOf, hcd, if_true] at h
      cases j with
      | zero =>
        simp only [List.getElem?_cons_zero, Option.some.injEq] at h
        subst h
        refine ⟨[], x :: rest, rfl, rfl, by simp [dataOf], ?_⟩
        rw [hcd]
        simp only [dataOf, List.nil_append]
        rfl
      | succ j =>
        simp only [List.getElem?_cons_succ] at h
        obtain ⟨pre, Lj, h1, h2, h3, h4⟩ := ih _ _ _ j e h
        refine ⟨x :: pre, Lj, by rw [h1]; rfl, h2, ?_, ?_⟩
        · rw [h3]
          simp only [dataOf, hcd, if_true, List.length_append]
          omega
        · simp only [dataOf, hcd, if_true, h4, List.append_assoc]
    · simp only [entriesOf, hcd, if_false] at h
      obtain ⟨pre, Lj, h1, h2, h3, h4⟩ := ih _ _ _ j e h
      refine ⟨x :: pre, Lj, by rw [h1]; rfl, h2, ?_, ?_⟩
      · rw [h3]
        simp only [dataOf, hcd, if_false, List.length_append]
        omega
      · simp only [dataOf, hcd, if_false, h4, List.append_assoc]

theorem entriesOf_sublist (STEP : Nat) (L : List (List Nat × term_index_ctx)) :
    ∀ (prev : List Nat) (cd off : Nat),
      ((entriesOf STEP L prev cd off).map fun e => (e.term, e.tctx)).Sublist L := by
  induction L with
  | nil => intro prev cd off; simp [entriesOf]
  | cons x rest ih =>
    intro prev cd off
    simp only [entriesOf]
    split
    · simp only [List.map_cons]
      exact (ih _ _ _).cons₂ x
    · exact (ih _ _ _).cons x


theorem findCtx_of_mem {L : List (List Nat × term_index_ctx)}
    (hs : L.Pairwise fun a b => termLt a.1 b.1 = true) {x : List Nat × term_index_ctx}
    (hx : x ∈ L) : findCtx L x.1 = x.2 := by
  induction L with
  | nil => cases hx
  | cons y L ih =>
    rw [List.pairwise_cons] at hs
    rcases List.mem_cons.mp hx with h | h
    · rw [h]; exact findCtx_cons_eq _ _
    · rw [findCtx_cons_ne (termLt_ne (hs.1 x h))]
      exact ih hs.2 h

theorem validTerms_sort {D : List (List Nat × term_index_ctx)} (hv : ValidTerms D) :
    ∀ x ∈ sortTerms D, x.1.length ≤ 255 ∧ x.2.documents < 4294967296 ∧
      x.2.offset < 4294967296 ∧ x.2.size < 4294967296 := by
  intro x hx
  have hD := (perm_sortTerms D).mem_iff.mp hx
  exact ⟨hv.len x hD, hv.docs x hD, hv.off x hD, hv.size x hD⟩

theorem pack_terms_eq (STEP : Nat) (D : List (List Nat × term_index_ctx)) :
    pack_terms STEP D = (dataOf STEP (sortTerms D) [] 0,
      ((entriesOf STEP (sortTerms D) [] 0 0).map
        fun e => indexRecord e.term e.blockOffset e.tctx).flatten) := by
  rw [pack_terms, packLoop_eq]
  simp

theorem length_le_flatten_records (E : List terms_skiplist_entry) :
    E.length ≤ ((E.map fun e => indexRecord e.term e.blockOffset e.tctx).flatten).length := by
  induction E with
  | nil => exact Nat.zero_le _
  | cons e E ih =>
    have := indexRecord_length_pos e.term e.blockOffset e.tctx
    simp only [List.map_cons, List.flatten_cons, List.length_append, List.length_cons]
    omega

/-- The skiplist parsed from the index stream is the list of the entries recorded. -/
theorem unpack_pack (STEP : Nat) (D : List (List Nat × term_index_ctx)) (hv : ValidTerms D)
    (hsz : (pack_terms STEP D).1.length < 4294967296) :
    unpack_terms_skiplist (pack_terms STEP D).2 = entriesOf STEP (sortTerms D) [] 0 0 := by
  rw [pack_terms_eq] at hsz ⊢
  simp only at hsz ⊢
  rw [unpack_terms_skiplist]
  have h := unpackEntries_eq
    ((entriesOf STEP (sortTerms D) [] 0 0).map
      fun e => indexRecord e.term e.blockOffset e.tctx).flatten
    (entriesOf STEP (sortTerms D) [] 0 0) 0 [] _ (List.drop_zero _) ?_
    (length_le_flatten_records _)
  · simpa using h
  · intro e he
    have hsub := entriesOf_sublist STEP (sortTerms D) [] 0 0
    have hmem : (e.term, e.tctx) ∈ sortTerms D :=
      hsub.subset (List.mem_map.mpr ⟨e, he, rfl⟩)
    obtain ⟨v1, v2, v3, v4⟩ := validTerms_sort hv _ hmem
    obtain ⟨j, hj⟩ := List.mem_iff_getElem?.mp he
    obtain ⟨pre, Lj, -, -, k3, k4⟩ := entriesOf_spec STEP (sortTerms D) [] 0 0 j e hj
    refine ⟨v1, ?_, v2, v3, v4⟩
    have := congrArg List.length k4
    simp only [List.length_append] at this
    omega

/-- The lookup in the packed dictionary returns the context paired with the
query in the sorted list of pairs, or the empty context. -/
theorem lookup_eq_findCtx (STEP : Nat) (D : List (List Nat × term_index_ctx))
    (hv : ValidTerms D) (hsz : (pack_terms STEP D).1.length < 4294967296) (q : List Nat) :
    lookup_term (pack_terms STEP D).1 q (unpack_terms_skiplist (pack_terms STEP D).2)
      = findCtx (sortTerms D) q := by
  rw [unpack_pack STEP D hv hsz]
  have hsL := sorted_sortTerms D hv.nodup
  have hvL := validTerms_sort hv
  have hdata : (pack_terms STEP D).1 = dataOf STEP (sortTerms D) [] 0 := by
    rw [pack_terms_eq]
  rw [hdata]
  generalize hL : sortTerms D = L at hsL hvL
  generalize hE : entriesOf STEP L [] 0 0 = E
  have hsub : (E.map fun e => (e.term, e.tctx)).Sublist L := by
    rw [← hE]; exact entriesOf_sublist STEP L [] 0 0
  have hsE : ∀ i j, i < j → j < E.length →
      termLt (E.getD i ⟨[], 0, ⟨0, 0, 0⟩⟩).term (E.getD j ⟨[], 0, ⟨0, 0, 0⟩⟩).term = true := by
    intro i j hij hj
    have hp := hsL.sublist hsub
    rw [List.pairwise_map] at hp
    have hi : i < E.length := by omega
    rw [List.getD_eq_getElem?_getD, List.getD_eq_getElem?_getD, List.getElem?_eq_getElem hi,
      List.getElem?_eq_getElem hj]
    exact List.pairwise_iff_getElem.mp hp i j hi hj hij
  obtain ⟨s1, s2, s3⟩ := searchEntries_spec E q hsE E.length 0 E.length (Nat.zero_le _)
    (Nat.le_refl _) (by omega) (fun j hj => by omega) (fun j hj1 hj2 => by omega)
  rw [lookup_term]
  by_cases hk : searchEntries E q E.length 0 E.length = 0
  · rw [if_pos hk]
    refine (findCtx_none fun y hy hc => ?_).symm
    cases L with
    | nil => cases hy
    | cons x rest =>
      have hE0 : E.getD 0 ⟨[], 0, ⟨0, 0, 0⟩⟩ = ⟨x.1, 0, x.2⟩ ∧ 0 < E.length := by
        rw [← hE]
        simp [entriesOf]
      have hq := s3 0 (by omega) hE0.2
      rw [hE0.1] at hq
      rw [List.pairwise_cons] at hsL
      rcases List.mem_cons.mp hy with h | h
      · rw [h] at hc
        rw [hc, termLt_irrefl] at hq
        cases hq
      · have := termLt_trans _ _ _ hq (hsL.1 y h)
        rw [hc, termLt_irrefl] at this
        cases this
  · rw [if_neg hk]
    have hk1 : searchEntries E q E.length 0 E.length - 1 < E.length := by omega
    have hget : E[searchEntries E q E.length 0 E.length - 1]?
        = some (E.getD (searchEntries E q E.length 0 E.length - 1) ⟨[], 0, ⟨0, 0, 0⟩⟩) := by
      rw [List.getD_eq_getElem?_getD, List.getElem?_eq_getElem hk1]
      rfl
    have hnlt := s2 (searchEntries E q E.length 0 E.length - 1) (by omega)
    generalize E.getD (searchEntries E q E.length 0 E.length - 1) ⟨[], 0, ⟨0, 0, 0⟩⟩ = e
      at hget hnlt
    rw [← hE] at hget
    obtain ⟨pre, Lj, k1, k2, k3, k4⟩ := entriesOf_spec STEP L [] 0 0 _ e hget
    have hdrop : (dataOf STEP L [] 0).drop e.blockOffset = dataOf STEP Lj [] 0 := by
      rw [k3, k4, Nat.zero_add, List.drop_left]
    have hsL2 := hsL
    rw [k1] at hsL2
    obtain ⟨p1, p2, p3⟩ := List.pairwise_append.mp hsL2
    have hlen : Lj.length ≤ (dataOf STEP L [] 0).length := by
      have h1 := dataOf_length_ge STEP L [] 0
      have h2 : Lj.length ≤ L.length := by rw [k1]; simp
      omega
    rw [scanTerms_eq STEP _ q Lj [] 0 e.blockOffset [] _ hdrop (fun h => absurd rfl h) p2
      (fun x hx => hvL x (by rw [k1]; exact List.mem_append_right _ hx)) hlen]
    rw [k1]
    refine (findCtx_append fun y hy hc => ?_).symm
    cases Lj with
    | nil => cases k2
    | cons h t =>
      simp only [List.head?_cons, Option.some.injEq] at k2
      have := p3 y hy h (List.mem_cons_self _ _)
      rw [k2, hc] at this
      rw [this] at hnlt
      cases hnlt

/-- C5: Terms dictionary round trip. For every list `D` of pairs with
pairwise distinct terms of at most 255 bytes and 32-bit context fields, packed
by `pack_terms` into a data buffer shorter than `2^32` bytes and an index
buffer, with the skiplist parsed from the index buffer by
`unpack_terms_skiplist`: `lookup_term` returns for every term of `D` the
context paired with it, and the empty context for every term that is not in
`D`. -/
theorem terms_round_trip (STEP : Nat) (D : List (List Nat × term_index_ctx)) (hv : ValidTerms D)
    (hsz : (pack_terms STEP D).1.length < 4294967296) :
    (∀ x ∈ D, lookup_term (pack_terms STEP D).1 x.1
        (unpack_terms_skiplist (pack_terms STEP D).2) = x.2) ∧
      ∀ t, t ∉ D.map Prod.fst →
        lookup_term (pack_terms STEP D).1 t (unpack_terms_skiplist (pack_terms STEP D).2)
          = ⟨0, 0, 0⟩ := by
  constructor
  · intro x hx
    rw [lookup_eq_findCtx STEP D hv hsz]
    exact findCtx_of_mem (sorted_sortTerms D hv.nodup) ((perm_sortTerms D).mem_iff.mpr hx)
  · intro t ht
    rw [lookup_eq_findCtx STEP D hv hsz]
    refine findCtx_none fun y hy hc => ht ?_
    rw [← hc]
    exact List.mem_map_of_mem _ ((perm_sortTerms D).mem_iff.mp hy)

/-- Witness of C5 on the dictionary "ipad", "apple", "ipod", "amiga" with a
skiplist step of 2. -/
theorem terms_round_trip_witness :
    (∀ x ∈ sampleTerms, lookup_term (pack_terms 2 sampleTerms).1 x.1
        (unpack_terms_skiplist (pack_terms 2 sampleTerms).2) = x.2) ∧
      ∀ t, t ∉ sampleTerms.map Prod.fst →
        lookup_term (pack_terms 2 sampleTerms).1 t
          (unpack_terms_skiplist (pack_terms 2 sampleTerms).2) = ⟨0, 0, 0⟩ :=
  terms_round_trip 2 sampleTerms ⟨by decide, by decide, by decide, by decide, by decide⟩
    (by decide)


theorem cursorAt_nil {STEP : Nat} {v : IndexSourcePrefixCompressedTermsView}
    (h : CursorAt STEP v []) : v.done = true := by
  obtain ⟨h1, -, h3, prev1, cd, h4, -⟩ := h
  have := List.drop_eq_nil_iff.mp (by simpa [dataOf] using h4)
  simp only [IndexSourcePrefixCompressedTermsView.done, beq_iff_eq]
  omega

theorem cursorAt_cons {STEP : Nat} {v : IndexSourcePrefixCompressedTermsView}
    {x : List Nat × term_index_ctx} {rest : List (List Nat × term_index_ctx)}
    (h : CursorAt STEP v (x :: rest)) (v1 : x.1.length ≤ 255)
    (v2 : x.2.documents < 4294967296) (v3 : x.2.offset < 4294967296)
    (v4 : x.2.size < 4294967296) :
    v.done = false ∧ v.cur.1 = x ∧ CursorAt STEP v.cur.2.next rest := by
  obtain ⟨h1, h2, h3, prev1, cd, h4, h5⟩ := h
  have key : ∃ pv cd1, v.termsData.drop v.it.p = termRecord pv x.1 x.2 ++ dataOf STEP rest x.1 cd1 ∧
      v.it.termStorage.take (commonPrefixLen pv x.1) = pv.take (commonPrefixLen pv x.1) := by
    by_cases hcd : cd = 0
    · refine ⟨[], STEP - 1, by simpa [dataOf, hcd] using h4, ?_⟩
      rw [commonPrefixLen_nil]; rfl
    · refine ⟨prev1, cd - 1, by simpa [dataOf, hcd] using h4, ?_⟩
      rw [h5 hcd]
  obtain ⟨pv, cd1, hrec, htake⟩ := key
  obtain ⟨d1, d2⟩ := decodeTermRecord_at hrec v1 v2 v3 v4 htake
  have hlen := congrArg List.length hrec
  simp only [List.length_drop, List.length_append] at hlen
  have hpos := termRecord_length_pos pv x.1 x.2
  refine ⟨?_, ?_, ?_, ?_, ?_, x.1, cd1, ?_, fun _ => ?_⟩
  · simp only [IndexSourcePrefixCompressedTermsView.done, beq_eq_false_iff_ne, ne_eq]
    omega
  · simp only [IndexSourcePrefixCompressedTermsView.cur, terms_iterator.decode_cur, h2,
      if_true, d1, List.take_length]
  · exact h1
  · rfl
  · simp only [IndexSourcePrefixCompressedTermsView.next, IndexSourcePrefixCompressedTermsView.cur,
      terms_iterator.decode_cur, h2, if_true, d1]
    omega
  · simp only [IndexSourcePrefixCompressedTermsView.next, IndexSourcePrefixCompressedTermsView.cur,
      terms_iterator.decode_cur, h2, if_true, d1]
    exact d2
  · simp only [IndexSourcePrefixCompressedTermsView.next, IndexSourcePrefixCompressedTermsView.cur,
      terms_iterator.decode_cur, h2, if_true, d1]

theorem driveTerms_eq (STEP : Nat) (L : List (List Nat × term_index_ctx)) :
    ∀ (v : IndexSourcePrefixCompressedTermsView) (acc : List (List Nat × term_index_ctx))
      (fuel : Nat), CursorAt STEP v L →
      (∀ x ∈ L, x.1.length ≤ 255 ∧ x.2.documents < 4294967296 ∧ x.2.offset < 4294967296 ∧
        x.2.size < 4294967296) →
      L.length < fuel → driveTerms fuel v acc = some (acc ++ L) := by
  induction L with
  | nil =>
    intro v acc fuel h _ hfuel
    cases fuel with
    | zero => simp at hfuel
    | succ f => simp only [driveTerms, cursorAt_nil h, if_true, List.append_nil]
  | cons x rest ih =>
    intro v acc fuel h hv hfuel
    obtain ⟨v1, v2, v3, v4⟩ := hv x (List.mem_cons_self _ _)
    obtain ⟨c1, c2, c3⟩ := cursorAt_cons h v1 v2 v3 v4
    cases fuel with
    | zero => simp at hfuel
    | succ f =>
      rw [driveTerms, c1, c2]
      simp only [Bool.false_eq_true, if_false]
      rw [ih _ _ f c3 (fun y hy => hv y (List.mem_cons_of_mem _ hy))
        (by simp only [List.length_cons] at hfuel; omega)]
      simp

theorem readAndPass_done (STEP : Nat) (L : List (List Nat × term_index_ctx)) :
    ∀ (v : IndexSourcePrefixCompressedTermsView), CursorAt STEP v L →
      (∀ x ∈ L, x.1.length ≤ 255 ∧ x.2.documents < 4294967296 ∧ x.2.offset < 4294967296 ∧
        x.2.size < 4294967296) →
      ∀ k, k ≤ L.length → (readAndPass k v).done = decide (k = L.length) := by
  induction L with
  | nil =>
    intro v h _ k hk
    have : k = 0 := by simpa using hk
    subst this
    simp only [readAndPass, cursorAt_nil h, List.length_nil, decide_True]
  | cons x rest ih =>
    intro v h hv k hk
    obtain ⟨v1, v2, v3, v4⟩ := hv x (List.mem_cons_self _ _)
    obtain ⟨c1, c2, c3⟩ := cursorAt_cons h v1 v2 v3 v4
    cases k with
    | zero =>
      simp only [readAndPass, c1, List.length_cons]
      exact (decide_eq_false (by omega)).symm
    | succ j =>
      simp only [readAndPass, List.length_cons]
      rw [ih _ c3 (fun y hy => hv y (List.mem_cons_of_mem _ hy)) j
        (by simp only [List.length_cons] at hk; omega)]
      simp

theorem cursorAt_new (STEP : Nat) (D : List (List Nat × term_index_ctx)) :
    CursorAt STEP (IndexSourcePrefixCompressedTermsView.new (pack_terms STEP D).1)
      (sortTerms D) := by
  refine ⟨rfl, rfl, Nat.zero_le _, [], 0, ?_, fun h => absurd rfl h⟩
  rw [pack_terms_eq]
  rfl

/-- C9: Terms cursor order and completeness. For every dictionary `D` with
pairwise distinct terms of at most 255 bytes and 32-bit context fields, the
loop `while not done(): read cur(); next()` over the view of the data packed by
`pack_terms` ends and yields the list `sortTerms D`; this list is a
permutation of `D`, so that every pair of `D` is read exactly once, and its
terms are strictly ascending in the byte-lexicographic order; and after `k`
rounds of the loop, `done()` is true exactly when `k` is the number of pairs
of `D`. -/
theorem terms_cursor_order (STEP : Nat) (D : List (List Nat × term_index_ctx))
    (hv : ValidTerms D) (fuel : Nat) (hfuel : D.length < fuel) :
    driveTerms fuel (IndexSourcePrefixCompressedTermsView.new (pack_terms STEP D).1) []
        = some (sortTerms D) ∧
      (sortTerms D).Perm D ∧
      (sortTerms D).Pairwise (fun a b => termLt a.1 b.1 = true) ∧
      ∀ k, k ≤ D.length →
        (readAndPass k (IndexSourcePrefixCompressedTermsView.new (pack_terms STEP D).1)).done
          = decide (k = D.length) := by
  have hlen : (sortTerms D).length = D.length := (perm_sortTerms D).length_eq
  refine ⟨?_, perm_sortTerms D, sorted_sortTerms D hv.nodup, fun k hk => ?_⟩
  · have := driveTerms_eq STEP (sortTerms D) _ [] fuel (cursorAt_new STEP D)
      (validTerms_sort hv) (by omega)
    simpa using this
  · have := readAndPass_done STEP (sortTerms D) _ (cursorAt_new STEP D) (validTerms_sort hv) k
      (by omega)
    rw [hlen] at this
    exact this

/-- Witness of C9 on the dictionary "ipad", "apple", "ipod", "amiga" with a
skiplist step of 2 and 5 rounds of fuel. -/
theorem terms_cursor_order_witness :
    driveTerms 5 (IndexSourcePrefixCompressedTermsView.new (pack_terms 2 sampleTerms).1) []
        = some (sortTerms sampleTerms) ∧
      (sortTerms sampleTerms).Perm sampleTerms ∧
      (sortTerms sampleTerms).Pairwise (fun a b => termLt a.1 b.1 = true) ∧
      ∀ k, k ≤ sampleTerms.length →
        (readAndPass k (IndexSourcePrefixCompressedTermsView.new
          (pack_terms 2 sampleTerms).1)).done = decide (k = sampleTerms.length) :=
  terms_cursor_order 2 sampleTerms ⟨by decide, by decide, by decide, by decide, by decide⟩ 5
    (by decide)


theorem encodeVarAux_shape (k : Nat) : ∀ x, x < 128 ^ (k + 1) →
    (∀ b ∈ (encodeVarAux k x).dropLast, 128 ≤ b ∧ b < 256) ∧
    (∃ b, (encodeVarAux k x).getLast? = some b ∧ b < 128) ∧
    base128Value (encodeVarAux k x) = x := by
  induction k with
  | zero =>
    intro x hx
    have hx1 : x < 128 := by simpa using hx
    refine ⟨by simp [encodeVarAux], ⟨x % 128, by simp [encodeVarAux], Nat.mod_lt _ (by norm_num)⟩,
      ?_⟩
    simp only [encodeVarAux, base128Value]
    omega
  | succ k ih =>
    intro x hx
    by_cases h : x < 128
    · refine ⟨by simp [encodeVarAux, h], ⟨x, by simp [encodeVarAux, h], h⟩, ?_⟩
      simp only [encodeVarAux, h, if_true, base128Value]
      omega
    · have hx2 : x / 128 < 128 ^ (k + 1) := by
        rw [Nat.div_lt_iff_lt_mul (by norm_num)]
        calc x < 128 ^ (k + 1 + 1) := hx
          _ = 128 ^ (k + 1) * 128 := by rw [pow_succ]
      obtain ⟨i1, ⟨b, i2, i3⟩, i4⟩ := ih (x / 128) hx2
      have hne : encodeVarAux k (x / 128) ≠ [] := by
        intro hc
        rw [hc] at i2
        cases i2
      obtain ⟨y, ys, hy⟩ := List.exists_cons_of_ne_nil hne
      simp only [encodeVarAux, h, if_false]
      refine ⟨?_, ⟨b, ?_, i3⟩, ?_⟩
      · intro c hc
        rw [hy, List.dropLast_cons₂] at hc
        rcases List.mem_cons.mp hc with rfl | hc
        · omega
        · exact i1 c (by rw [hy]; exact hc)
      · rw [hy, List.getLast?_cons_cons, ← hy]
        exact i2
      · simp only [base128Value, i4]
        omega

/-- C22: Varint round trip. For every 32-bit value `x`, `encode_varuint32 x`
is a string of 1 to 5 bytes; every byte but the last has its most significant
bit set and the last has it clear; the low seven bits of the bytes, the first
byte the least significant, are the base-128 digits of `x`; and
`decode_varuint32` applied where these bytes start returns `x` and the pointer
advanced by the number of bytes. -/
theorem varint_round_trip (x : Nat) (hx : x < 4294967296) :
    1 ≤ (encode_varuint32 x).length ∧ (encode_varuint32 x).length ≤ 5 ∧
      (∀ b ∈ (encode_varuint32 x).dropLast, 128 ≤ b ∧ b < 256) ∧
      (∃ b, (encode_varuint32 x).getLast? = some b ∧ b < 128) ∧
      base128Value (encode_varuint32 x) = x ∧
      ∀ (mem : List Nat) (p : Nat) (rest : List Nat),
        mem.drop p = encode_varuint32 x ++ rest →
        decode_varuint32 mem p = (x, p + (encode_varuint32 x).length) := by
  have h := encodeVarAux_shape 4 x (by norm_num; omega)
  refine ⟨encode_varuint32_length_pos x, encode_varuint32_length_le x, ?_, ?_, ?_, ?_⟩
  · simpa only [encode_varuint32, u32_of_lt hx] using h.1
  · simpa only [encode_varuint32, u32_of_lt hx] using h.2.1
  · simpa only [encode_varuint32, u32_of_lt hx] using h.2.2
  · intro mem p rest hm
    rw [decode_varuint32_encode mem p x rest hm, u32_of_lt hx]

/-- Witness of C22 on the value 300, encoded as the bytes 172, 2. -/
theorem varint_round_trip_witness :
    1 ≤ (encode_varuint32 300).length ∧ (encode_varuint32 300).length ≤ 5 ∧
      (∀ b ∈ (encode_varuint32 300).dropLast, 128 ≤ b ∧ b < 256) ∧
      (∃ b, (encode_varuint32 300).getLast? = some b ∧ b < 128) ∧
      base128Value (encode_varuint32 300) = 300 ∧
      ∀ (mem : List Nat) (p : Nat) (rest : List Nat),
        mem.drop p = encode_varuint32 300 ++ rest →
        decode_varuint32 mem p = (300, p + (encode_varuint32 300).length) :=
  varint_round_trip 300 (by decide)

/-- Counterexample to C21 as stated: the first `commit_block` of the term of
the documents 10, 11, 15, 25, 50, with `SKIPLIST_STEP = 1`, also rebuilds the
buffer `block` and appends an entry to `skipListData`; and with a countdown of
2 it changes `skiplistEntryCountdown`. -/
theorem commit_block_changes_skiplist_state :
    appleOpen.commit_block 1 = some appleCommitted ∧
      appleCommitted.skipListData ≠ appleOpen.skipListData ∧
      appleCommitted.block ≠ appleOpen.block ∧
      (({ appleOpen with skiplistEntryCountdown := 2 }.commit_block 1).map
          fun (e1 : Encoder) => e1.skiplistEntryCountdown) = some 1 :=
  ⟨rfl, by decide, by decide, rfl⟩

/-- C21 (amended): Append-only encoder output. For every encoder state with
`curBlockSize ≥ 1`, `commit_block` returns; the session output after the call
is the output before the call followed by the appended bytes; `hitsData`
becomes empty, `curBlockSize` becomes 0 and `prevBlockLastDocumentID` becomes
`curDocID`; `curDocID`, `docDeltas`, `blockFreqs`, `lastPos`, `termDocuments`
and `termOffset` are unchanged; `skipListData` keeps its bytes and is either
unchanged or extended by one entry of 8 bytes. The scratch buffer `block` and
`skiplistEntryCountdown` are the other fields the call may change. -/
theorem commit_block_append_only (st : Nat) (e : Encoder) (h : 1 ≤ e.curBlockSize) :
    ∃ e1 appended, e.commit_block st = some e1 ∧ e1.indexOut = e.indexOut ++ appended ∧
      e1.hitsData = [] ∧ e1.curBlockSize = 0 ∧ e1.prevBlockLastDocumentID = e.curDocID ∧
      e1.curDocID = e.curDocID ∧ e1.docDeltas = e.docDeltas ∧ e1.blockFreqs = e.blockFreqs ∧
      e1.lastPos = e.lastPos ∧ e1.termDocuments = e.termDocuments ∧
      e1.termOffset = e.termOffset ∧
      (e1.skipListData = e.skipListData ∨
        ∃ entry, entry.length = 8 ∧ e1.skipListData = e.skipListData ++ entry) := by
  have h0 : ¬ e.curBlockSize = 0 := by omega
  simp only [Encoder.commit_block, h0, if_false]
  refine ⟨_, encode_varuint32 (sub32 e.curDocID e.prevBlockLastDocumentID)
      ++ encode_varuint32 ((encodeArray e.blockFreqs e.curBlockSize 0
          (encodeArray e.docDeltas (e.curBlockSize - 1) 0 [])).length + e.hitsData.length)
      ++ [e.curBlockSize % 256]
      ++ encodeArray e.blockFreqs e.curBlockSize 0
          (encodeArray e.docDeltas (e.curBlockSize - 1) 0 [])
      ++ e.hitsData, rfl, ?_, rfl, rfl, rfl, rfl, rfl, rfl, rfl, rfl, rfl, ?_⟩
  · simp only [List.append_assoc]
  · by_cases hc : sub32 e.skiplistEntryCountdown 1 = 0
    · refine Or.inr ⟨pack32 (u32 e.prevBlockLastDocumentID) ++ pack32 (u32 e.indexOut.length),
        rfl, ?_⟩
      simp only [hc, if_true, List.append_assoc]
    · exact Or.inl (by simp only [hc, if_false])

/-- Witness of C21 (amended) on the open block of the documents 10, 11, 15, 25, 50. -/
theorem commit_block_append_only_witness :
    ∃ e1 appended, appleOpen.commit_block 1 = some e1 ∧
      e1.indexOut = appleOpen.indexOut ++ appended ∧
      e1.hitsData = [] ∧ e1.curBlockSize = 0 ∧
      e1.prevBlockLastDocumentID = appleOpen.curDocID ∧
      e1.curDocID = appleOpen.curDocID ∧ e1.docDeltas = appleOpen.docDeltas ∧
      e1.blockFreqs = appleOpen.blockFreqs ∧
      e1.lastPos = appleOpen.lastPos ∧ e1.termDocuments = appleOpen.termDocuments ∧
      e1.termOffset = appleOpen.termOffset ∧
      (e1.skipListData = appleOpen.skipListData ∨
        ∃ entry, entry.length = 8 ∧ e1.skipListData = appleOpen.skipListData ++ entry) :=
  commit_block_append_only 1 appleOpen (by decide)


/-- A `seek` to a target below the current document, on a decoder whose
current document is not above the last document of its block, returns `false`
and the same state. -/
theorem seek_below_current (d : Decoder) (t fuel : Nat) (ht : t < d.cur_document)
    (hle : d.cur_document ≤ d.blockLastDocID) : d.seek (fuel + 1) t = some (false, d) := by
  have h1 : ¬ t > d.blockLastDocID := by omega
  have h2 : d.documents.getD d.blockDocIdx 0 > t := ht
  simp only [Decoder.seek, h1, if_false, Decoder.seek_scan, h2, if_true]

theorem DecState.cur_le_last {d : Decoder} {fresh : Bool} {rem : List Posting}
    (h : DecState d fresh rem) : d.cur_document ≤ d.blockLastDocID := by
  rcases h with ⟨B, R, inv, -⟩ | ⟨-, ht⟩
  · obtain ⟨x, hx⟩ := inv.cur_ex
    have h1 : d.cur_document = x.docID := inv.cur_doc hx
    rw [h1, inv.last]
    exact inv.wf.le_lastDoc 0 (mem_of_getElem? hx)
  · rw [ht.cur_document_max, ht.last]

/-- C30: Backward seek is a no-op. Let `S` be a posting list with strictly
increasing document IDs in `[1, UINT32_MAX)`, encoded by the encoder into a
chunk shorter than `2^32` bytes, and `d` a decoder state reached after `init`
and `begin()` by calls of `next()` and `seek()`. For every target `t` below the
current document, a document of the list or not, `seek(t)` returns `false` and
leaves the decoder state unchanged. -/
theorem backward_seek_noop (st : Nat) (e : Encoder) (S : List Posting)
    (hd : e.docDeltas.length = N) (hf : e.blockFreqs.length = N) (wf : WellFormed S)
    (hpos : ∀ s ∈ S, 1 ≤ s.docID) (e1 : Encoder) (tctx : term_index_ctx)
    (henc : encodeTerm st e S = some (e1, tctx)) (hsz : tctx.size < 4294967296)
    (x0 : Nat) (d1 d : Decoder)
    (hbegin : (new_decoder tctx e1.indexOut).begin = some (x0, d1))
    (hreach : Reach (N + S.length + 1) d1 d) (t : Nat) (ht : t < d.cur_document)
    (fuel : Nat) (hfuel : 1 ≤ fuel) :
    d.seek fuel t = some (false, d) := by
  obtain ⟨-, x1, d2, g1, g2⟩ := init_seekInv st e S hd hf wf hpos henc hsz
  rw [hbegin] at g1
  simp only [Option.some.injEq, Prod.mk.injEq] at g1
  obtain ⟨-, rfl⟩ := g1
  obtain ⟨⟨fresh, pre, rem, hs, -, -⟩, -⟩ := g2.reach wf (Nat.le_refl _) hreach
  obtain ⟨f, rfl⟩ : ∃ f, fuel = f + 1 := ⟨fuel - 1, by omega⟩
  exact seek_below_current d t f ht hs.cur_le_last

/-- Witness of C30 on the documents 10, 11, 15, 25, 50: after `begin()` and one
`next()` the current document is 11, and `seek(10)`, a document of the list,
returns `false` and leaves the state unchanged. -/
theorem backward_seek_noop_witness : appleSecond.seek 1 10 = some (false, appleSecond) :=
  backward_seek_noop 1 (Encoder.new []) applePostings rfl rfl
    ⟨by decide, by decide, by decide, by decide⟩ (by decide) appleChunk.1 appleChunk.2 rfl
    (by decide) 10 appleBegun appleSecond rfl
    (Reach.next (b := true) Reach.refl (by decide) rfl) 10 (by decide) 1 (by decide)

/-- C27 fails in the code: for a participant with an empty posting range at
offset 0 of the index that holds the chunk of the documents 10, 11, 15, 25,
50, the first `refill` decodes the block that starts at the end of the range:
the pointer of the chunk moves to 12, past its end 0, and its current document
is 10. The merge of this participant with the participant of the documents 1
and 2 returns no call sequence for any amount of fuel, whereas the merge of
the second participant alone makes the calls of the documents 1 and 2. -/
theorem merge_empty_participant_reads_outside :
    (Chunk.ofParticipant emptyParticipant).p = (Chunk.ofParticipant emptyParticipant).e ∧
      ((Chunk.ofParticipant emptyParticipant).refill.map
          fun (c : Chunk) => (c.p, c.e, c.cur_document)) = some (12, 0, 10) ∧
      (∀ fuel, merge fuel [emptyParticipant, participantOf seg2Postings (fun _ => false)]
        = none) ∧
      merge 100 [participantOf seg2Postings (fun _ => false)]
        = some (postingCalls seg2Postings) := by
  refine ⟨rfl, rfl, fun fuel => ?_, rfl⟩
  rcases fuel with _ | _ | _ | _ | _ | _ | _ | _ <;> rfl


theorem mergeS_single (m : Nat → Bool) (hm : ∀ d, m d = false) :
    ∀ (S : List Posting) (fuel : Nat), S.length ≤ fuel → mergeS fuel [(m, S)] = S := by
  intro S
  induction S with
  | nil =>
    intro fuel _
    cases fuel with
    | zero => rfl
    | succ f => simp [mergeS, lowest, heads, headOf]
  | cons x rest ih =>
    intro fuel hfuel
    cases fuel with
    | zero => simp at hfuel
    | succ f =>
      have hl : lowest [(m, x :: rest)] = some x.docID := by
        simp [lowest, heads, headOf]
      have he : emitS x.docID [(m, x :: rest)] = [x] := by
        simp [emitS, headOf, hm]
      have ha : advanceS x.docID [(m, x :: rest)] = [(m, rest)] := by
        simp [advanceS, headOf]
      simp only [mergeS, hl, he, ha]
      rw [ih f (by simp only [List.length_cons] at hfuel; omega)]
      rfl

/-- The decoder on the chunk produced by the encoder calls of a posting list
visits the documents of the list with their frequencies. -/
theorem decode_of_calls (st : Nat) (e : Encoder) (x : Posting) (rest : List Posting)
    (hd : e.docDeltas.length = N) (hf : e.blockFreqs.length = N)
    (wf : WellFormed (x :: rest)) (hpos : ∀ d ∈ x :: rest, 1 ≤ d.docID) :
    ∃ e1 e2 tctx d1 f dk,
      Encoder.calls st (e.begin_term st) (postingCalls (x :: rest)) = some e1 ∧
      e1.end_term st = some (e2, tctx) ∧
      (new_decoder tctx e2.indexOut).begin = some (x.docID, d1) ∧ d1.cur_freq = x.freq ∧
      nextTrace (rest.length + 1) d1 =
        some (rest.map (fun s => (true, s.docID, s.freq)) ++ [(false, UINT32_MAX, f)], dk) ∧
      dk.cur_document = UINT32_MAX := by
  obtain ⟨e2, tctx, Bs, h1, h2, -, -, h5⟩ :=
    encode_decode_setup st e (x :: rest) hd hf wf hpos (by simp)
  obtain ⟨d1, g1, g2, -⟩ := begin_state h5 h2
  obtain ⟨f, dk, k1, k2⟩ := nextTrace_spec rest d1 true x g2
  simp only [encodeTerm, Option.bind_eq_some] at h1
  obtain ⟨e1, c1, c2⟩ := h1
  exact ⟨e1, e2, tctx, d1, f, dk, c1, c2, g1, g2.cur_head.2, k1, k2.cur_document_max⟩

/-- C25: Single-participant merge is the identity. For the chunk the encoder
produced for a well-formed non-empty posting list `S` with 32-bit positions
and document IDs from 1, `merge` with this chunk as the only participant and a
registry that masks no document makes on the output encoder exactly the calls
`begin_document(d, f)`, `new_position` for every position in order,
`end_document` of the documents of `S` in order; and these calls between
`begin_term` and `end_term` produce a chunk on which the decoder visits the
documents of `S` in order with their frequencies. -/
theorem single_participant_merge_identity (m : merge_participant) (x : Posting)
    (rest : List Posting) (h : MergeInput m (x :: rest))
    (hmask : ∀ d, m.maskedDocsReg d = false) (hpos : ∀ s ∈ x :: rest, 1 ≤ s.docID)
    (fuel : Nat) (hfuel : (x :: rest).length ≤ fuel) (st : Nat) (e : Encoder)
    (hd : e.docDeltas.length = N) (hf : e.blockFreqs.length = N) :
    ∃ calls, merge fuel [m] = some calls ∧ calls = postingCalls (x :: rest) ∧
      ∃ e1 e2 tctx d1 f dk,
        Encoder.calls st (e.begin_term st) calls = some e1 ∧
        e1.end_term st = some (e2, tctx) ∧
        (new_decoder tctx e2.indexOut).begin = some (x.docID, d1) ∧ d1.cur_freq = x.freq ∧
        nextTrace (rest.length + 1) d1 =
          some (rest.map (fun s => (true, s.docID, s.freq)) ++ [(false, UINT32_MAX, f)], dk) ∧
        dk.cur_document = UINT32_MAX := by
  have hm := merge_eq [(m, x :: rest)]
    (by intro i hi; rw [List.mem_singleton] at hi; subst hi; exact h)
    (List.cons_ne_nil _ _) (by simp) fuel (by simpa [totalLen, partsOf] using hfuel)
  have hS : mergeS fuel (partsOf [(m, x :: rest)]) = x :: rest :=
    mergeS_single m.maskedDocsReg hmask (x :: rest) fuel hfuel
  rw [hS] at hm
  exact ⟨_, hm, rfl, decode_of_calls st e x rest hd hf h.wf hpos⟩

/-- Witness of C25 on the chunk of the documents 10, 11, 15, 25, 50. -/
theorem single_participant_merge_identity_witness :
    ∃ calls, merge 5 [participantOf applePostings (fun _ => false)] = some calls ∧
      calls = postingCalls ((⟨10, 2, [1, 2]⟩ : Posting) ::
        [⟨11, 5, [15, 20, 21, 50, 55]⟩, ⟨15, 1, [20]⟩, ⟨25, 1, [18]⟩, ⟨50, 1, [20]⟩]) ∧
      ∃ e1 e2 tctx d1 f dk,
        Encoder.calls 1 ((Encoder.new []).begin_term 1) calls = some e1 ∧
        e1.end_term 1 = some (e2, tctx) ∧
        (new_decoder tctx e2.indexOut).begin = some (10, d1) ∧ d1.cur_freq = 2 ∧
        nextTrace 5 d1 = some ([(true, 11, 5), (true, 15, 1), (true, 25, 1), (true, 50, 1),
          (false, UINT32_MAX, f)], dk) ∧
        dk.cur_document = UINT32_MAX :=
  single_participant_merge_identity (participantOf applePostings (fun _ => false))
    ⟨10, 2, [1, 2]⟩ [⟨11, 5, [15, 20, 21, 50, 55]⟩, ⟨15, 1, [20]⟩, ⟨25, 1, [18]⟩, ⟨50, 1, [20]⟩]
    ⟨⟨1, Encoder.new [], _, _, rfl, rfl, rfl, rfl, rfl, rfl⟩,
      ⟨by decide, by decide, by decide, by decide⟩, by decide, by decide⟩
    (fun _ => rfl) (by decide) 5 (by decide) 1 (Encoder.new []) rfl rfl


theorem chunkBytes_append (A C : List (List Posting)) :
    ∀ prev, chunkBytes prev (A ++ C) = chunkBytes prev A ++ chunkBytes (chunkLast prev A) C := by
  induction A with
  | nil => intro prev; rfl
  | cons B A ih =>
    intro prev
    rw [List.cons_append, chunkBytes, chunkBytes, chunkLast, ih, List.append_assoc]

theorem chunkLast_lt (A : List (List Posting)) :
    ∀ prev, prev < 4294967296 → chunkLast prev A < 4294967296 := by
  induction A with
  | nil => intro prev h; exact h
  | cons B A ih => intro prev h; exact ih _ (lastDoc_lt prev B h)

/-- The merge's `refill` and `Decoder::unpack_next_block` are the same
computation when they start from the same arrays. -/
theorem refill_eq_unpack_next_block (c : Chunk) (d : Decoder) (hmem : d.mem = c.mem)
    (hp : d.p = c.p) (hlast : d.blockLastDocID = c.documents.getD (c.size - 1) 0)
    (hdocs : d.documents = c.documents) (hfreqs : d.freqs = c.freqs) :
    (c.refill.map fun (c1 : Chunk) => (c1.documents, c1.freqs, c1.p)) =
      (d.unpack_next_block.map fun (d1 : Decoder) => (d1.documents, d1.freqs, d1.p)) := by
  simp only [Chunk.refill, Decoder.unpack_next_block, Decoder.unpack_block, hmem, hp, hlast,
    hdocs, hfreqs]
  split <;> rfl

/-- C24: Merge refill agrees with the decoder. Let a chunk hold the blocks
`Pre ++ B :: R` of a well-formed posting list from the offset `start`, and let
the merge's `refill` and `Decoder::unpack_next_block` start at the header of
the block `B`, the first with `cur_block.documents[size - 1]` and the second
with `blockLastDocID` equal to the last document of the previous block (0 for
the first block). Both return; they leave the stream pointer at the same
position, the first position byte of the block; they store in the slots
`0 .. n-1` of their arrays the document IDs and the frequencies of the `n`
documents of `B`; `refill` sets `size` to `n` and `documents[size - 1]` is
the `blockLastDocID` the decoder sets; and when the two start from equal
arrays, they end with equal arrays. -/
theorem refill_agrees_with_decoder (c : Chunk) (d : Decoder) (Pre : List (List Posting))
    (B : List Posting) (R : List (List Posting)) (start : Nat)
    (hmem : d.mem = c.mem) (hp : d.p = c.p)
    (hlast : d.blockLastDocID = c.documents.getD (c.size - 1) 0)
    (hprev : c.documents.getD (c.size - 1) 0 = chunkLast 0 Pre)
    (hlayout : c.mem.drop start = chunkBytes 0 (Pre ++ B :: R) ++ c.mem.drop c.e)
    (hpos : c.p = start + (chunkBytes 0 Pre).length)
    (he : c.e = start + (chunkBytes 0 (Pre ++ B :: R)).length)
    (hblocks : ∀ B1 ∈ Pre ++ B :: R, 0 < B1.length ∧ B1.length ≤ N)
    (hwf : WellFormed (Pre ++ B :: R).flatten)
    (hcd : c.documents.length = N) (hcf : c.freqs.length = N)
    (hdd : d.documents.length = N) (hdf : d.freqs.length = N) :
    ∃ c1 d1, c.refill = some c1 ∧ d.unpack_next_block = some d1 ∧ c1.p = d1.p ∧
      c1.size = B.length ∧ c1.idx = 0 ∧ d1.blockDocIdx = 0 ∧
      d1.blockLastDocID = c1.documents.getD (c1.size - 1) 0 ∧
      c.mem.drop c1.p = hitsOf B ++ chunkBytes (lastDoc 0 B) R ++ c.mem.drop c.e ∧
      (∀ (j : Nat) (x : Posting), B[j]? = some x →
        c1.documents[j]? = some x.docID ∧ d1.documents[j]? = some x.docID ∧
        c1.freqs[j]? = some x.freq ∧ d1.freqs[j]? = some x.freq) ∧
      (d.documents = c.documents → d.freqs = c.freqs →
        d1.documents = c1.documents ∧ d1.freqs = c1.freqs) := by
  have hB := hblocks B (by simp)
  have hR : ∀ B1 ∈ R, 0 < B1.length ∧ B1.length ≤ N :=
    fun B1 h1 => hblocks B1 (by simp [h1])
  have hwf2 : WellFormed (B ++ R.flatten) := by
    have : (Pre ++ B :: R).flatten = Pre.flatten ++ (B ++ R.flatten) := by simp
    rw [this] at hwf
    exact hwf.right
  have hlt : c.documents.getD (c.size - 1) 0 < 4294967296 := by
    rw [hprev]; exact chunkLast_lt Pre 0 (by norm_num)
  rw [chunkBytes_append, List.append_assoc] at hlayout
  have hbytes := drop_add_of_drop_eq hlayout
  rw [← hpos, ← hprev] at hbytes
  have hend : c.p + (chunkBytes (c.documents.getD (c.size - 1) 0) (B :: R)).length = c.e := by
    rw [he, hpos, chunkBytes_append, List.length_append, hprev]
    omega
  obtain ⟨c1, r1, r2, r3, -⟩ := refill_inv c B R hB.1 hB.2 hcd hcf hlt hbytes hend hR hwf2
  -- the decoder, seen without its skiplist and base
  have hbytes2 : ({ d with skiplist := [], base := 0 } : Decoder).mem.drop d.p
      = chunkBytes d.blockLastDocID (B :: R) ++ c.mem.drop c.e := by
    show d.mem.drop d.p = _
    rw [hmem, hp, hlast]; exact hbytes
  obtain ⟨d1, u1, u2, u3, -⟩ := unpack_next_block_inv
    ({ d with skiplist := [], base := 0, chunkEnd := c.e } : Decoder) B R hB.1 hB.2 hdd hdf
    (by show d.blockLastDocID < 4294967296; rw [hlast]; exact hlt)
    (by
      show d.mem.drop d.p = chunkBytes d.blockLastDocID (B :: R) ++ d.mem.drop c.e
      rw [hmem, hp, hlast]; exact hbytes)
    (by
      show d.p + (chunkBytes d.blockLastDocID (B :: R)).length = c.e
      rw [hp, hlast]; exact hend)
    hR hwf2 rfl (Nat.zero_le _)
  have hn : d.mem.getD (decode_varuint32 d.mem (decode_varuint32 d.mem d.p).2).2 0 ≠ 0 := by
    intro hc
    simp only [Decoder.unpack_next_block, Decoder.unpack_block, hc, if_true, reduceCtorEq] at u1
  cases hd2 : d.unpack_next_block with
  | none =>
    simp only [Decoder.unpack_next_block, Decoder.unpack_block, hn, if_false, reduceCtorEq] at hd2
  | some d2 =>
  simp only [Decoder.unpack_next_block, Decoder.unpack_block, hn, if_false,
    Option.some.injEq] at hd2 u1
  have e1 : d2.p = d1.p := by rw [← hd2, ← u1]
  have e2 : d2.documents = d1.documents := by rw [← hd2, ← u1]
  have e3 : d2.freqs = d1.freqs := by rw [← hd2, ← u1]
  have e4 : d2.blockLastDocID = d1.blockLastDocID := by rw [← hd2, ← u1]
  have e5 : d2.blockDocIdx = d1.blockDocIdx := by rw [← hd2, ← u1]
  have hci := r2.inv
  have q1 := hci.p_end
  have q2 := u2.p_end
  have q3 : d1.chunkEnd = c.e := by rw [← u1]
  simp only [Chunk.toDecoder, if_true] at q1
  simp only [if_true] at q2
  rw [r3] at q1
  rw [u3, q3] at q2
  have hcl := hci.last
  simp only [Chunk.toDecoder] at hcl
  have hbb := hci.bytes
  simp only [Chunk.toDecoder, if_true, r3, List.drop_zero] at hbb
  have hmem1 : c1.mem = c.mem := by
    simp only [Chunk.refill] at r1
    split at r1
    · cases r1
    · simp only [Option.some.injEq] at r1
      rw [← r1]
  have he1 : c1.e = c.e := by
    simp only [Chunk.refill] at r1
    split at r1
    · cases r1
    · simp only [Option.some.injEq] at r1
      rw [← r1]
  rw [hmem1, he1] at hbb
  refine ⟨c1, d2, r1, rfl, ?_, r2.size, r3, by rw [e5, u3], ?_, hbb, ?_, ?_⟩
  · rw [e1]; omega
  · rw [e4, u2.last, hcl]
  · intro j x hx
    have hj : j < B.length := by
      by_contra hc
      rw [List.getElem?_eq_none (by omega)] at hx
      cases hx
    refine ⟨hci.docs j x hx, by rw [e2]; exact u2.docs j x hx, ?_, ?_⟩
    · by_cases h0 : j = 0
      · subst h0
        have := hci.cur_freq x (by simp only [Chunk.toDecoder, r3]; exact hx)
        simpa only [Chunk.toDecoder, r3, if_true] using this
      · exact hci.freqs j x (by simp only [Chunk.toDecoder, r3]; omega) hx
    · rw [e3]
      by_cases h0 : j = 0
      · subst h0
        have := u2.cur_freq x (by rw [u3]; exact hx)
        simpa only [u3, if_true] using this
      · exact u2.freqs j x (by rw [u3]; omega) hx
  · intro hdocs hfreqs
    have := refill_eq_unpack_next_block c d hmem hp hlast hdocs hfreqs
    rw [r1] at this
    simp only [Decoder.unpack_next_block, Decoder.unpack_block, hn, if_false, Option.map_some',
      Option.some.injEq, Prod.mk.injEq] at this
    rw [← hd2]
    exact ⟨this.1.symm, this.2.1.symm⟩

/-- Witness of C24 on the only block of the chunk of the documents 10, 11, 15, 25, 50. -/
theorem refill_agrees_with_decoder_witness :
    ∃ c1 d1, (Chunk.ofParticipant (participantOf applePostings (fun _ => false))).refill
        = some c1 ∧
      appleDecoder.unpack_next_block = some d1 ∧ c1.p = d1.p ∧
      c1.size = applePostings.length ∧ c1.idx = 0 ∧ d1.blockDocIdx = 0 ∧
      d1.blockLastDocID = c1.documents.getD (c1.size - 1) 0 ∧
      (Chunk.ofParticipant (participantOf applePostings (fun _ => false))).mem.drop c1.p
        = hitsOf applePostings ++ chunkBytes (lastDoc 0 applePostings) []
          ++ (Chunk.ofParticipant (participantOf applePostings (fun _ => false))).mem.drop
            (Chunk.ofParticipant (participantOf applePostings (fun _ => false))).e ∧
      (∀ (j : Nat) (x : Posting), applePostings[j]? = some x →
        c1.documents[j]? = some x.docID ∧ d1.documents[j]? = some x.docID ∧
        c1.freqs[j]? = some x.freq ∧ d1.freqs[j]? = some x.freq) ∧
      (appleDecoder.documents
          = (Chunk.ofParticipant (participantOf applePostings (fun _ => false))).documents →
        appleDecoder.freqs
          = (Chunk.ofParticipant (participantOf applePostings (fun _ => false))).freqs →
        d1.documents = c1.documents ∧ d1.freqs = c1.freqs) :=
  refill_agrees_with_decoder (Chunk.ofParticipant (participantOf applePostings (fun _ => false)))
    appleDecoder [] applePostings [] 0 rfl rfl rfl rfl (by decide) rfl (by decide) (by decide)
    ⟨by decide, by decide, by decide, by decide⟩ rfl rfl rfl rfl


theorem filterMap_congr_mem {α β : Type} {f g : α → Option β} {l : List α}
    (h : ∀ x ∈ l, f x = g x) : l.filterMap f = l.filterMap g := by
  induction l with
  | nil => rfl
  | cons a l ih =>
    rw [List.filterMap_cons, List.filterMap_cons, h a (List.mem_cons_self _ _),
      ih fun x hx => h x (List.mem_cons_of_mem _ hx)]

theorem range_map_getD (l : List Chunk) : ∀ n, n ≤ l.length →
    (List.range n).map (fun i => l.getD i default) = l.take n := by
  intro n hn
  apply List.ext_getElem
  · simp only [List.length_map, List.length_range, List.length_take]
    omega
  · intro i h1 h2
    simp only [List.length_map, List.length_range] at h1
    simp only [List.getElem_map, List.getElem_range, List.getElem_take]
    rw [List.getD_eq_getElem?_getD, List.getElem?_eq_getElem (by omega)]
    rfl

/-- The effect of `memmove(c, c + 1, (rem - idx) * sizeof(chunk))` after
`--rem`: the chunks below `idx` stay, the chunks above it up to the old `rem`
move down by one. -/
theorem memmove_shift (chunks : List Chunk) (idx rem : Nat) (hidx : idx < rem)
    (hrem : rem ≤ chunks.length) :
    (memmoveChunks chunks idx (idx + 1) (rem - 1 - idx)).length = chunks.length ∧
      (∀ j, j < idx →
        (memmoveChunks chunks idx (idx + 1) (rem - 1 - idx)).getD j default
          = chunks.getD j default) ∧
      ∀ j, idx ≤ j → j < rem - 1 →
        (memmoveChunks chunks idx (idx + 1) (rem - 1 - idx)).getD j default
          = chunks.getD (j + 1) default := by
  refine ⟨?_, ?_, ?_⟩
  · simp only [memmoveChunks, List.length_append, List.length_take, List.length_drop]
    omega
  · intro j hj
    simp only [memmoveChunks, List.getD_eq_getElem?_getD, List.append_assoc]
    rw [List.getElem?_append_left (by simp only [List.length_take]; omega),
      List.getElem?_take_of_lt hj]
  · intro j h1 h2
    simp only [memmoveChunks, List.getD_eq_getElem?_getD]
    have hl : (chunks.take idx).length = idx := by
      simp only [List.length_take]; omega
    rw [List.getElem?_append_left (by
      simp only [List.length_append, List.length_take, List.length_drop]; omega),
      List.getElem?_append_right (by rw [hl]; exact h1), hl,
      List.getElem?_take_of_lt (by omega), List.getElem?_drop]
    congr 2
    omega

theorem filterMap_some {α β : Type} (g : α → β) (l : List α) :
    l.filterMap (fun i => some (g i)) = l.map g := by
  induction l with
  | nil => rfl
  | cons a l ih => rw [List.filterMap_cons, List.map_cons, ih]

theorem chunk_getD_set_self (chunks : List Chunk) (i : Nat) (c : Chunk) (h : i < chunks.length) :
    (chunks.set i c).getD i default = c := by
  rw [List.getD_eq_getElem?_getD, List.getElem?_set_self h]
  rfl

theorem chunk_getD_set_ne (chunks : List Chunk) {i j : Nat} (c : Chunk) (h : i ≠ j) :
    (chunks.set i c).getD j default = chunks.getD j default := by
  rw [List.getD_eq_getElem?_getD, List.getD_eq_getElem?_getD, List.getElem?_set_ne h]

/-- A chunk that stays in the array: the pending indices, all below `idx`,
see the same chunks as before. -/
theorem advanceAll_stay (chunks : List Chunk) (rem idx : Nat) (rest : List Nat) (c1 : Chunk)
    (hrest : ∀ j ∈ rest, j < idx) (hlen : idx < chunks.length)
    (hadv : (chunks.getD idx default).advance = some (some c1)) :
    advanceAll (chunks.set idx c1) rem rest = advanceAll chunks rem (idx :: rest) := by
  apply filterMap_congr_mem
  intro i _
  by_cases hi : i = idx
  · subst hi
    have h1 : i ∉ rest := fun hc => Nat.lt_irrefl _ (hrest i hc)
    simp only [h1, if_false, List.mem_cons, true_or, if_true, hadv,
      chunk_getD_set_self chunks i c1 hlen]
    rfl
  · have h2 : i ∈ idx :: rest ↔ i ∈ rest := by
      simp only [List.mem_cons, hi, false_or]
    simp only [h2, chunk_getD_set_ne chunks c1 (Ne.symm hi)]

/-- A chunk that is removed: the pending indices, all below `idx`, see the
same chunks as before, and the chunks above `idx` are kept, one slot lower. -/
theorem advanceAll_remove (chunks : List Chunk) (rem idx : Nat) (rest : List Nat) (c1 : Chunk)
    (hrest : ∀ j ∈ rest, j < idx) (hidx : idx < rem) (hrem : rem ≤ chunks.length)
    (hadv : (chunks.getD idx default).advance = some none) :
    advanceAll (memmoveChunks (chunks.set idx c1) idx (idx + 1) (rem - 1 - idx)) (rem - 1) rest
      = advanceAll chunks rem (idx :: rest) := by
  obtain ⟨-, m2, m3⟩ := memmove_shift (chunks.set idx c1) idx rem hidx
    (by rw [List.length_set]; exact hrem)
  have e1 : rem - 1 = idx + (rem - 1 - idx) := by omega
  have e2 : rem = idx + (1 + (rem - 1 - idx)) := by omega
  unfold advanceAll
  generalize hF : (fun i => if i ∈ idx :: rest then (chunks.getD i default).advance.join
    else some (chunks.getD i default)) = F
  generalize hG : (fun i => if i ∈ rest
    then ((memmoveChunks (chunks.set idx c1) idx (idx + 1) (rem - 1 - idx)).getD i
      default).advance.join
    else some ((memmoveChunks (chunks.set idx c1) idx (idx + 1) (rem - 1 - idx)).getD i
      default)) = G
  have hlow : ∀ i, i < idx → G i = F i := by
    intro i hi
    have h2 : i ∈ idx :: rest ↔ i ∈ rest := by
      simp only [List.mem_cons, Nat.ne_of_lt hi, false_or]
    rw [← hF, ← hG]
    simp only [h2, m2 i hi, chunk_getD_set_ne chunks c1 (Nat.ne_of_gt hi)]
  have hhigh : ∀ k, k < rem - 1 - idx → G (idx + k) = F (idx + (1 + k)) := by
    intro k hk
    have h1 : idx + k ∉ rest := fun hc => by have := hrest _ hc; omega
    have h2 : idx + (1 + k) ∉ idx :: rest := by
      intro hc
      rcases List.mem_cons.mp hc with h | h
      · omega
      · have := hrest _ h; omega
    rw [← hF, ← hG]
    simp only [h1, h2, if_false, m3 (idx + k) (by omega) (by omega)]
    rw [chunk_getD_set_ne chunks c1 (by omega)]
    congr 2
    omega
  have hmid : F idx = none := by
    rw [← hF]
    simp only [List.mem_cons, true_or, if_true, hadv]
    rfl
  nth_rewrite 1 [e1]
  nth_rewrite 2 [e2]
  rw [List.range_add, List.range_add, List.range_add, List.filterMap_append,
    List.filterMap_append, List.map_append, List.filterMap_append, List.filterMap_map,
    List.filterMap_map, List.map_map, List.filterMap_map]
  rw [filterMap_congr_mem (f := G) (g := F) fun i hi => hlow i (List.mem_range.mp hi)]
  have hone : List.filterMap (F ∘ fun x => idx + x) (List.range 1) = [] := by
    have h1 : List.range 1 = [0] := rfl
    rw [h1, List.filterMap_cons]
    simp only [Function.comp, Nat.add_zero, hmid, List.filterMap_nil]
  rw [hone, List.nil_append]
  congr 1
  apply filterMap_congr_mem
  intro k hk
  simp only [Function.comp]
  exact hhigh k (List.mem_range.mp hk)


/-- The `do ... while` loop of `merge`, on indices taken in decreasing order:
the live chunks after it are the live chunks before it, in the same order,
every chunk with a listed index advanced or left out when exhausted. -/
theorem advanceLoop_advanceAll : ∀ (r : List Nat) (chunks : List Chunk) (rem : Nat),
    r.Pairwise (fun a b => b < a) → (∀ i ∈ r, i < rem) → rem ≤ chunks.length →
    ∀ (chunks1 : List Chunk) (rem1 : Nat) (done : Bool),
      advanceLoop r chunks rem = some (chunks1, rem1, done) →
      chunks1.length = chunks.length ∧ rem1 ≤ rem ∧ (done = false → 0 < rem → 0 < rem1) ∧
      (done = true → rem1 = 0) ∧ chunks1.take rem1 = advanceAll chunks rem r := by
  intro r
  induction r with
  | nil =>
    intro chunks rem _ _ hrem chunks1 rem1 done h
    simp only [advanceLoop, Option.some.injEq, Prod.mk.injEq] at h
    obtain ⟨rfl, rfl, rfl⟩ := h
    refine ⟨rfl, Nat.le_refl _, fun _ h => h, (fun h => by cases h), ?_⟩
    simp only [advanceAll, List.not_mem_nil, if_false]
    rw [filterMap_some, range_map_getD chunks rem hrem]
  | cons idx rest ih =>
    intro chunks rem hp hlt hrem chunks1 rem1 done h
    rw [List.pairwise_cons] at hp
    have hidx := hlt idx (List.mem_cons_self _ _)
    have hrest : ∀ j ∈ rest, j < idx := hp.1
    have hlt2 : ∀ i ∈ rest, i < rem := fun i hi => hlt i (List.mem_cons_of_mem _ hi)
    rw [advanceLoop] at h
    by_cases hs : (chunks.getD idx default).skip_current.1 = true
    · by_cases hpe : (chunks.getD idx default).skip_current.2.p
          ≠ (chunks.getD idx default).skip_current.2.e
      · cases hre : (chunks.getD idx default).skip_current.2.refill with
        | none => simp only [hs, hpe, hre, if_true, reduceCtorEq, ne_eq, not_false_eq_true] at h
        | some c1 =>
          simp only [hs, hpe, hre, if_true, ne_eq, not_false_eq_true] at h
          obtain ⟨k1, k2, k3, k4, k5⟩ := ih (chunks.set idx c1) rem hp.2 hlt2
            (by rw [List.length_set]; exact hrem) chunks1 rem1 done h
          have hadv : (chunks.getD idx default).advance = some (some c1) := by
            simp only [Chunk.advance, hs, hpe, hre, if_true, ne_eq, not_false_eq_true,
              Option.map_some']
          rw [List.length_set] at k1
          exact ⟨k1, k2, k3, k4, by
            rw [k5]; exact advanceAll_stay chunks rem idx rest c1 hrest (by omega) hadv⟩
      · have hadv : (chunks.getD idx default).advance = some none := by
          simp only [Chunk.advance, hs, hpe, if_true, if_false]
        by_cases h0 : rem - 1 = 0
        · simp only [hs, hpe, h0, if_true, if_false, Option.some.injEq, Prod.mk.injEq] at h
          obtain ⟨rfl, rfl, rfl⟩ := h
          have hi0 : idx = 0 := by omega
          have hr1 : rem = 1 := by omega
          have hnil : rest = [] := by
            cases rest with
            | nil => rfl
            | cons j t => have := hrest j (List.mem_cons_self _ _); omega
          refine ⟨List.length_set _ _ _, Nat.zero_le _, (fun h => by cases h), fun _ => rfl, ?_⟩
          subst hi0 hr1 hnil
          have h1 : List.range 1 = [0] := rfl
          simp only [List.take_zero, advanceAll, h1, List.filterMap_cons, List.mem_singleton,
            if_true, hadv]
          rfl
        · simp only [hs, hpe, h0, if_true, if_false] at h
          obtain ⟨m1, -, -⟩ := memmove_shift
            (chunks.set idx (chunks.getD idx default).skip_current.2) idx rem hidx
            (by rw [List.length_set]; exact hrem)
          obtain ⟨k1, k2, k3, k4, k5⟩ := ih _ (rem - 1) hp.2
            (fun i hi => by have := hrest i hi; omega)
            (by rw [m1, List.length_set]; omega) chunks1 rem1 done h
          rw [m1, List.length_set] at k1
          refine ⟨k1, by omega, fun hd _ => k3 hd (by omega), k4, ?_⟩
          rw [k5]
          exact advanceAll_remove chunks rem idx rest _ hrest hidx hrem hadv
    · simp only [hs, if_false, Bool.false_eq_true] at h
      obtain ⟨k1, k2, k3, k4, k5⟩ := ih (chunks.set idx (chunks.getD idx default).skip_current.2)
        rem hp.2 hlt2 (by rw [List.length_set]; exact hrem) chunks1 rem1 done h
      have hadv : (chunks.getD idx default).advance
          = some (some (chunks.getD idx default).skip_current.2) := by
        simp only [Chunk.advance, hs, if_false, Bool.false_eq_true]
      rw [List.length_set] at k1
      exact ⟨k1, k2, k3, k4, by
        rw [k5]; exact advanceAll_stay chunks rem idx rest _ hrest (by omega) hadv⟩


theorem idxs_sorted (d : Nat) (cs : List Nat) :
    ∀ i, (idxs d cs i).Pairwise (fun a b => a < b) ∧
      ∀ j ∈ idxs d cs i, i ≤ j ∧ j < i + cs.length := by
  induction cs with
  | nil => intro i; simp [idxs]
  | cons c cs ih =>
    intro i
    obtain ⟨h1, h2⟩ := ih (i + 1)
    by_cases hc : c = d
    · simp only [idxs, hc, if_true, List.pairwise_cons, List.mem_cons, List.length_cons]
      refine ⟨⟨fun j hj => by have := h2 j hj; omega, h1⟩, fun j hj => ?_⟩
      rcases hj with rfl | hj
      · omega
      · have := h2 j hj; omega
    · simp only [idxs, hc, if_false, List.length_cons]
      exact ⟨h1, fun j hj => by have := h2 j hj; omega⟩

/-- The indices collected by the scan of a round are increasing and below `rem`. -/
theorem tiedOf_sorted (chunks : List Chunk) (rem : Nat) (h1 : 1 ≤ rem)
    (hrem : rem ≤ chunks.length) :
    (tiedOf chunks rem).Pairwise (fun a b => a < b) ∧ ∀ i ∈ tiedOf chunks rem, i < rem := by
  have hdrop : chunks.drop 1 = (chunks.drop 1).take (rem - 1) ++ (chunks.drop 1).drop (rem - 1) :=
    (List.take_append_drop _ _).symm
  have hlen : ((chunks.drop 1).take (rem - 1)).length = rem - 1 := by
    simp only [List.length_take, List.length_drop]; omega
  have := findLowest_eq chunks ((chunks.drop 1).take (rem - 1)) _ 1
    (chunks.getD 0 default).cur_document [0] hdrop
  rw [hlen] at this
  rw [tiedOf, this]
  simp only
  have hcl0 : (List.map Chunk.cur_document ((chunks.drop 1).take (rem - 1))).length
      ≤ rem - 1 := by
    rw [List.length_map, hlen]
  generalize (List.map Chunk.cur_document ((chunks.drop 1).take (rem - 1))) = cs at *
  have hcl : cs.length ≤ rem - 1 := hcl0
  obtain ⟨s1, s2⟩ := idxs_sorted (cs.foldl min (chunks.getD 0 default).cur_document) cs 1
  split
  · refine ⟨?_, fun i hi => ?_⟩
    · rw [List.singleton_append, List.pairwise_cons]
      exact ⟨fun j hj => by have := s2 j hj; omega, s1⟩
    · rcases List.mem_append.mp hi with h | h
      · rw [List.mem_singleton] at h; omega
      · have := s2 i h; omega
  · rw [List.nil_append]
    exact ⟨s1, fun i hi => by have := s2 i hi; omega⟩

theorem origin_append_from (c : Chunk) : c.append_from.2.origin = c.origin := rfl

theorem origin_skip_current (c : Chunk) : c.skip_current.2.origin = c.origin := rfl

theorem origin_refill {c c1 : Chunk} (h : c.refill = some c1) : c1.origin = c.origin := by
  simp only [Chunk.refill] at h
  split at h
  · cases h
  · simp only [Option.some.injEq] at h
    rw [← h]
    rfl

theorem origin_advance {c c1 : Chunk} (h : c.advance = some (some c1)) :
    c1.origin = c.origin := by
  simp only [Chunk.advance] at h
  split at h
  · split at h
    · cases hr : c.skip_current.2.refill with
      | none => rw [hr] at h; cases h
      | some c2 =>
        rw [hr] at h
        simp only [Option.map_some', Option.some.injEq] at h
        rw [← h, origin_refill hr, origin_skip_current]
    · cases h
  · simp only [Option.some.injEq] at h
    rw [← h, origin_skip_current]

theorem origin_set (chunks : List Chunk) : ∀ (i : Nat) (c1 : Chunk),
    c1.origin = (chunks.getD i default).origin →
    (chunks.set i c1).map Chunk.origin = chunks.map Chunk.origin := by
  induction chunks with
  | nil => intro i c1 _; rfl
  | cons a l ih =>
    intro i c1 h
    cases i with
    | zero =>
      simp only [List.set_cons_zero, List.map_cons]
      rw [h]; rfl
    | succ i =>
      simp only [List.set_cons_succ, List.map_cons]
      rw [ih i c1 (by simpa using h)]

theorem origin_afterEmit (chunks : List Chunk) (rem : Nat) :
    (afterEmit chunks rem).map Chunk.origin = chunks.map Chunk.origin := by
  unfold afterEmit
  apply origin_set
  split <;> rfl

theorem filterMap_sublist_map {α β γ : Type} (f : α → Option β) (g : β → γ) (h : α → γ)
    (hfg : ∀ i c, f i = some c → g c = h i) :
    ∀ l : List α, ((l.filterMap f).map g).Sublist (l.map h) := by
  intro l
  induction l with
  | nil => exact List.Sublist.slnil
  | cons a l ih =>
    rw [List.filterMap_cons]
    cases hf : f a with
    | none => exact List.Sublist.cons _ ih
    | some c =>
      simp only [List.map_cons]
      rw [hfg a c hf]
      exact List.Sublist.cons₂ _ ih

theorem advanceAll_origin (chunks : List Chunk) (rem : Nat) (tied : List Nat)
    (hrem : rem ≤ chunks.length) :
    ((advanceAll chunks rem tied).map Chunk.origin).Sublist
      ((chunks.take rem).map Chunk.origin) := by
  rw [← range_map_getD chunks rem hrem, List.map_map]
  apply filterMap_sublist_map
  intro i c hc
  simp only [Function.comp]
  split at hc
  · cases ha : (chunks.getD i default).advance with
    | none => rw [ha] at hc; cases hc
    | some o =>
      cases o with
      | none => rw [ha] at hc; cases hc
      | some c2 =>
        rw [ha] at hc
        have : c2 = c := by simpa [Option.join] using hc
        rw [← this]
        exact origin_advance ha
  · simp only [Option.some.injEq] at hc
    rw [← hc]

theorem advanceAll_reverse (chunks : List Chunk) (rem : Nat) (tied : List Nat) :
    advanceAll chunks rem tied.reverse = advanceAll chunks rem tied := by
  apply filterMap_congr_mem
  intro i _
  simp only [List.mem_reverse]

/-- One round of the main loop of `merge`. -/
theorem mergeIter_round (chunks : List Chunk) (rem : Nat) (h1 : 1 ≤ rem)
    (hrem : rem ≤ chunks.length) {calls : List EncCall} {chunks1 : List Chunk} {rem1 : Nat}
    {done : Bool} (h : mergeIter chunks rem = some (calls, chunks1, rem1, done)) :
    chunks1.length = chunks.length ∧ rem1 ≤ rem ∧ (done = false → 1 ≤ rem1) ∧
      chunks1.take rem1 = advanceAll (afterEmit chunks rem) rem (tiedOf chunks rem) ∧
      ((chunks1.take rem1).map Chunk.origin).Sublist ((chunks.take rem).map Chunk.origin) := by
  obtain ⟨s1, s2⟩ := tiedOf_sorted chunks rem h1 hrem
  have hlenE : (afterEmit chunks rem).length = chunks.length := by
    have := congrArg List.length (origin_afterEmit chunks rem)
    simpa only [List.length_map] using this
  simp only [mergeIter, Option.map_eq_some', Prod.mk.injEq] at h
  obtain ⟨r1, hr, -, hr2⟩ := h
  subst hr2
  obtain ⟨k1, k2, k3, -, k5⟩ := advanceLoop_advanceAll (tiedOf chunks rem).reverse
    (afterEmit chunks rem) rem (List.pairwise_reverse.mpr s1)
    (fun i hi => s2 i (List.mem_reverse.mp hi)) (by rw [hlenE]; exact hrem)
    chunks1 rem1 done hr
  rw [advanceAll_reverse] at k5
  refine ⟨by rw [k1, hlenE], k2, fun hd => k3 hd (by omega), k5, ?_⟩
  rw [k5]
  have := advanceAll_origin (afterEmit chunks rem) rem (tiedOf chunks rem)
    (by rw [hlenE]; exact hrem)
  rwa [List.map_take, origin_afterEmit, ← List.map_take] at this

theorem refillAll_origin : ∀ (ps : List merge_participant) (chunks0 : List Chunk),
    refillAll (ps.map Chunk.ofParticipant) = some chunks0 →
    chunks0.length = ps.length ∧ chunks0.map Chunk.origin = ps.map merge_participant.origin := by
  intro ps
  induction ps with
  | nil =>
    intro chunks0 h
    simp only [List.map_nil, refillAll, Option.some.injEq] at h
    subst h
    exact ⟨rfl, rfl⟩
  | cons m ps ih =>
    intro chunks0 h
    simp only [List.map_cons, refillAll] at h
    cases hr : (Chunk.ofParticipant m).refill with
    | none => rw [hr] at h; cases h
    | some c1 =>
      rw [hr] at h
      cases hra : refillAll (ps.map Chunk.ofParticipant) with
      | none => rw [hra] at h; cases h
      | some cs1 =>
        rw [hra] at h
        simp only [Option.map_some', Option.some.injEq] at h
        subst h
        obtain ⟨i1, i2⟩ := ih cs1 hra
        refine ⟨by simp only [List.length_cons, i1], ?_⟩
        simp only [List.map_cons, i2, origin_refill hr]
        rfl

/-- The invariant of the main loop of `merge`. -/
theorem mergeReach_inv {chunks0 : List Chunk} {rem0 : Nat} (h1 : 1 ≤ rem0)
    (h2 : rem0 = chunks0.length) {chunks : List Chunk} {rem : Nat}
    (hreach : MergeReach chunks0 rem0 chunks rem) :
    1 ≤ rem ∧ rem ≤ chunks.length ∧
      ((chunks.take rem).map Chunk.origin).Sublist (chunks0.map Chunk.origin) := by
  induction hreach with
  | start =>
    refine ⟨h1, by omega, ?_⟩
    rw [h2, List.take_length]
  | round _ hit ih =>
    obtain ⟨i1, i2, i3⟩ := ih
    obtain ⟨k1, k2, k3, -, k5⟩ := mergeIter_round _ _ i1 i2 hit
    exact ⟨k3 rfl, by omega, k5.trans i3⟩

/-- C23: Participant removal keeps recency order. At the start of every round
of the main loop of `merge`, `rem` is at least 1 and the live chunks
`chunks[0 .. rem)` belong, in this order, to a subsequence of the original
participants. The chunks live after the round are the chunks live before it
in the same order, each of those collected in `toAdvance` replaced by its
advanced state or left out when it is exhausted, the others kept: no live
participant is dropped, duplicated or moved before another, however many
tied participants are exhausted in the round. A removal at index `idx` leaves
the chunks below `idx`, to which the pending entries of `toAdvance` refer, in
their slots and moves the chunks above it down by one slot. -/
theorem removal_keeps_recency_order (participants : List merge_participant)
    (chunks0 : List Chunk)
    (h0 : refillAll (participants.map Chunk.ofParticipant) = some chunks0)
    (hne : participants ≠ []) (chunks : List Chunk) (rem : Nat)
    (hreach : MergeReach chunks0 participants.length chunks rem) :
    1 ≤ rem ∧ rem ≤ chunks.length ∧
      ((chunks.take rem).map Chunk.origin).Sublist
        (participants.map merge_participant.origin) ∧
      (∀ (calls : List EncCall) (chunks1 : List Chunk) (rem1 : Nat) (done : Bool),
        mergeIter chunks rem = some (calls, chunks1, rem1, done) →
        chunks1.take rem1 = advanceAll (afterEmit chunks rem) rem (tiedOf chunks rem) ∧
          (afterEmit chunks rem).map Chunk.origin = chunks.map Chunk.origin ∧
          (tiedOf chunks rem).Pairwise (fun a b => a < b) ∧
          ∀ i ∈ tiedOf chunks rem, i < rem) ∧
      ∀ idx, idx < rem →
        (∀ j, j < idx →
          (memmoveChunks chunks idx (idx + 1) (rem - 1 - idx)).getD j default
            = chunks.getD j default) ∧
        ∀ j, idx ≤ j → j < rem - 1 →
          (memmoveChunks chunks idx (idx + 1) (rem - 1 - idx)).getD j default
            = chunks.getD (j + 1) default := by
  obtain ⟨g1, g2⟩ := refillAll_origin participants chunks0 h0
  have hpos : 1 ≤ participants.length := List.length_pos.mpr hne
  obtain ⟨i1, i2, i3⟩ := mergeReach_inv hpos g1.symm hreach
  rw [g2] at i3
  refine ⟨i1, i2, i3, fun calls chunks1 rem1 done hit => ?_, fun idx hidx => ?_⟩
  · obtain ⟨-, -, -, k4, -⟩ := mergeIter_round chunks rem i1 i2 hit
    obtain ⟨s1, s2⟩ := tiedOf_sorted chunks rem i1 i2
    exact ⟨k4, origin_afterEmit chunks rem, s1, s2⟩
  · exact (memmove_shift chunks idx rem hidx i2).2

/-- Witness of C23 on the merge scenario with a deletion, after its first
round: the more recent participant has been removed and the older one is the
only live chunk. -/
theorem removal_keeps_recency_order_witness :
    1 ≤ 1 ∧ 1 ≤ mergeChunksD1.length ∧
      ((mergeChunksD1.take 1).map Chunk.origin).Sublist
        ((mergeInputsD.map Prod.fst).map merge_participant.origin) ∧
      (∀ (calls : List EncCall) (chunks1 : List Chunk) (rem1 : Nat) (done : Bool),
        mergeIter mergeChunksD1 1 = some (calls, chunks1, rem1, done) →
        chunks1.take rem1
            = advanceAll (afterEmit mergeChunksD1 1) 1 (tiedOf mergeChunksD1 1) ∧
          (afterEmit mergeChunksD1 1).map Chunk.origin = mergeChunksD1.map Chunk.origin ∧
          (tiedOf mergeChunksD1 1).Pairwise (fun a b => a < b) ∧
          ∀ i ∈ tiedOf mergeChunksD1 1, i < 1) ∧
      ∀ idx, idx < 1 →
        (∀ j, j < idx →
          (memmoveChunks mergeChunksD1 idx (idx + 1) (1 - 1 - idx)).getD j default
            = mergeChunksD1.getD j default) ∧
        ∀ j, idx ≤ j → j < 1 - 1 →
          (memmoveChunks mergeChunksD1 idx (idx + 1) (1 - 1 - idx)).getD j default
            = mergeChunksD1.getD (j + 1) default :=
  removal_keeps_recency_order (mergeInputsD.map Prod.fst) mergeChunksD rfl
    (List.cons_ne_nil _ _) mergeChunksD1 1
    (MergeReach.round MergeReach.start
      (rfl : mergeIter mergeChunksD 2 = some ([], mergeChunksD1, 1, false)))


theorem mergeLoop_succ (fuel : Nat) (chunks : List Chunk) (rem : Nat) (calls : List EncCall) :
    mergeLoop (fuel + 1) chunks rem calls =
      match mergeIter chunks rem with
      | none => none
      | some r =>
        if r.2.2.2 then some (calls ++ r.1) else mergeLoop fuel r.2.1 r.2.2.1 (calls ++ r.1) := by
  rw [mergeLoop]
  simp only [mergeIter]
  cases advanceLoop
    (findLowest chunks (rem - 1) 1 (chunks.getD 0 default).cur_document [0]).2.reverse
    (chunks.set ((findLowest chunks (rem - 1) 1 (chunks.getD 0 default).cur_document [0]).2.getD
      0 0)
      (if (!(chunks.getD ((findLowest chunks (rem - 1) 1
          (chunks.getD 0 default).cur_document [0]).2.getD 0 0) default).maskedDocsReg
          (findLowest chunks (rem - 1) 1 (chunks.getD 0 default).cur_document [0]).1) = true
        then (chunks.getD ((findLowest chunks (rem - 1) 1
          (chunks.getD 0 default).cur_document [0]).2.getD 0 0) default).append_from
        else ([], chunks.getD ((findLowest chunks (rem - 1) 1
          (chunks.getD 0 default).cur_document [0]).2.getD 0 0) default)).2) rem with
  | none => rfl
  | some r => rfl

/-- One round of the main loop of `merge` on chunks that stand on the lists of
the participants `S`: it makes the calls of the document emitted for the lowest
current document, and the chunks then stand on the advanced lists. -/
theorem mergeIter_sim (S : List Part) (C G : List Chunk)
    (hrel : List.Forall₂ ChunkRel C (live S)) (hne : live S ≠ [])
    (hpos : ∀ a ∈ S, ∀ x ∈ a.2, ∀ q ∈ x.positions, q < 4294967296) :
    ∃ d chunks1 rem1 done, lowest S = some d ∧
      mergeIter (C ++ G) C.length = some (postingCalls (emitS d S), chunks1, rem1, done) ∧
      ((done = true ∧ live (advanceS d S) = []) ∨
        (done = false ∧ live (advanceS d S) ≠ [] ∧ ∃ C1 G1, chunks1 = C1 ++ G1 ∧
          rem1 = C1.length ∧ List.Forall₂ ChunkRel C1 (live (advanceS d S)))) := by
  have hposl : ∀ a ∈ live S, ∀ x ∈ a.2, ∀ q ∈ x.positions, q < 4294967296 :=
    fun a ha => hpos a (List.mem_of_mem_filter ha)
  obtain ⟨d, first, c1, em, h1, h2, h3, h4, h5, h6, h7⟩ :=
    merge_scan_emit C G (live S) hrel hne hposl
  rw [lowest_live] at h1
  rw [emitS_live] at h6
  obtain ⟨chunks1, rem1, done, e1, e2⟩ := advanceLoop_spec d (live S) (C.set first c1) [] [] G
    C.length (by simp) h7 List.Forall₂.nil
  simp only [List.append_nil] at e1 e2
  have hset : (C ++ G).set first c1 = C.set first c1 ++ G := List.set_append_left _ _ h4
  have hC0 : 0 < C.length := by
    have := hrel.length_eq
    have := List.length_pos.mpr hne
    omega
  rw [live_advanceS_live] at e2
  refine ⟨d, chunks1, rem1, done, h1, ?_, ?_⟩
  · simp only [mergeIter, h2, ← h3, h5, hset, e1, Option.map_some', h6]
  · rcases e2 with ⟨rfl, e3⟩ | ⟨rfl, C1, G1, rfl, rfl, e5, e6⟩
    · exact Or.inl ⟨rfl, e3⟩
    · refine Or.inr ⟨rfl, ?_, C1, G1, rfl, rfl, e5⟩
      intro hc
      rw [hc, List.forall₂_nil_right_iff] at e5
      have := e6 hC0
      rw [e5] at this
      simp at this

theorem mem_docSet {S : List Part} {z : Nat} :
    z ∈ docSet S ↔ ∃ a ∈ S, ∃ y ∈ a.2, y.docID = z := by
  simp only [docSet, List.mem_toFinset, List.mem_flatten, List.mem_map]
  constructor
  · rintro ⟨l, ⟨a, ha, rfl⟩, hz⟩
    obtain ⟨y, hy, rfl⟩ := List.mem_map.mp hz
    exact ⟨a, ha, y, hy, rfl⟩
  · rintro ⟨a, ha, y, hy, rfl⟩
    exact ⟨_, ⟨a, ha, rfl⟩, List.mem_map_of_mem _ hy⟩

theorem docSet_advanceS {S : List Part} {d : Nat} (hs : SortedParts S)
    (hl : lowest S = some d) : docSet (advanceS d S) = (docSet S).erase d := by
  ext z
  rw [Finset.mem_erase, mem_docSet, mem_docSet]
  constructor
  · rintro ⟨b, hb, y, hy, rfl⟩
    rw [advanceS_eq_map, List.mem_map] at hb
    obtain ⟨a, ha, rfl⟩ := hb
    obtain ⟨k1, k2⟩ := (mem_advanceOne_iff hs hl ha y).mp hy
    exact ⟨k2, a, ha, y, k1, rfl⟩
  · rintro ⟨hz, a, ha, y, hy, rfl⟩
    refine ⟨advanceOne d a, ?_, y, (mem_advanceOne_iff hs hl ha y).mpr ⟨hy, hz⟩, rfl⟩
    rw [advanceS_eq_map]
    exact List.mem_map_of_mem _ ha

theorem lowest_mem_docSet {S : List Part} {d : Nat} (hl : lowest S = some d) : d ∈ docSet S := by
  have := lowest_mem hl
  simp only [heads, List.mem_filterMap] at this
  obtain ⟨a, ha, hh⟩ := this
  rw [mem_docSet]
  cases h2 : a.2 with
  | nil => simp [headOf, h2] at hh
  | cons y t =>
    simp only [headOf, h2, List.head?_cons, Option.map_some', Option.some.injEq] at hh
    exact ⟨a, ha, y, by rw [h2]; exact List.mem_cons_self _ _, hh⟩

theorem card_docSet_advanceS {S : List Part} {d : Nat} (hs : SortedParts S)
    (hl : lowest S = some d) : (docSet (advanceS d S)).card + 1 = (docSet S).card := by
  rw [docSet_advanceS hs hl]
  exact Finset.card_erase_add_one (lowest_mem_docSet hl)

theorem live_eq_nil_iff (S : List Part) : live S = [] ↔ (docSet S).card = 0 := by
  rw [Finset.card_eq_zero, Finset.eq_empty_iff_forall_not_mem]
  simp only [live, List.filter_eq_nil_iff, mem_docSet, not_exists, not_and]
  constructor
  · intro h z a ha y hy _
    have := h a ha
    cases h2 : a.2 with
    | nil => rw [h2] at hy; cases hy
    | cons u t => simp [h2] at this
  · intro h a ha
    cases h2 : a.2 with
    | nil => simp
    | cons u t => exact absurd rfl (h u.docID a ha u (by rw [h2]; exact List.mem_cons_self _ _))

/-- The main loop of `merge` needs exactly as many rounds as there are
distinct document IDs in the lists of the participants. -/
theorem mergeLoop_rounds : ∀ (fuel : Nat) (S : List Part) (C G : List Chunk)
    (calls : List EncCall), List.Forall₂ ChunkRel C (live S) → live S ≠ [] →
    (∀ a ∈ S, ∀ x ∈ a.2, ∀ q ∈ x.positions, q < 4294967296) → SortedParts S →
    ((docSet S).card ≤ fuel → ∃ out, mergeLoop fuel (C ++ G) C.length calls = some out) ∧
      (fuel < (docSet S).card → mergeLoop fuel (C ++ G) C.length calls = none) := by
  intro fuel
  induction fuel with
  | zero =>
    intro S C G calls _ hne _ _
    refine ⟨fun h => ?_, fun _ => rfl⟩
    exact absurd ((live_eq_nil_iff S).mpr (by omega)) hne
  | succ f ih =>
    intro S C G calls hrel hne hpos hs
    obtain ⟨d, chunks1, rem1, done, h1, h2, h3⟩ := mergeIter_sim S C G hrel hne hpos
    have hcard := card_docSet_advanceS hs h1
    rw [mergeLoop_succ, h2]
    rcases h3 with ⟨rfl, e3⟩ | ⟨rfl, e4, C1, G1, rfl, rfl, e5⟩
    · have := (live_eq_nil_iff _).mp e3
      exact ⟨fun _ => ⟨_, rfl⟩, fun h => by omega⟩
    · have hpos1 : ∀ a ∈ advanceS d S, ∀ x ∈ a.2, ∀ q ∈ x.positions, q < 4294967296 := by
        intro b hb x hx
        obtain ⟨a, ha, -, hsub⟩ := mem_advanceS hb
        exact hpos a ha x (hsub x hx)
      obtain ⟨i1, i2⟩ := ih (advanceS d S) C1 G1 (calls ++ postingCalls (emitS d S)) e5 e4 hpos1
        (sortedParts_advanceS d hs)
      simp only [Bool.false_eq_true, if_false]
      exact ⟨fun h => i1 (by omega), fun h => i2 (by omega)⟩


theorem advance_of_chunkInv {c : Chunk} {fresh : Bool} {B : List Posting}
    {R : List (List Posting)} (h : ChunkInv c fresh B R) :
    (B.drop (c.idx + 1) ++ R.flatten = [] → c.advance = some none) ∧
      (B.drop (c.idx + 1) ++ R.flatten ≠ [] → c.advance ≠ some none) := by
  rcases h.advance with ⟨h1, h2, h3⟩ | ⟨h1, c1, -, ⟨h2, -⟩ | ⟨h2, h3, h4⟩⟩
  · refine ⟨fun _ => ?_, fun hc => absurd h1 hc⟩
    simp only [Chunk.advance, h2, if_true, h3, ne_eq, not_true_eq_false, if_false]
  · refine ⟨fun hc => absurd hc h1, fun _ => ?_⟩
    simp only [Chunk.advance, h2, Bool.false_eq_true, if_false, ne_eq, Option.some.injEq,
      reduceCtorEq, not_false_eq_true]
  · refine ⟨fun hc => absurd hc h1, fun _ => ?_⟩
    simp only [Chunk.advance, h2, if_true, h3, ne_eq, not_false_eq_true, h4, Option.map_some',
      Option.some.injEq, reduceCtorEq]

/-- The bytes a chunk consumes for its current document: `skip_current` alone
or `append_from` followed by `skip_current` move the pointer over the position
varints of the document once, and the chunk is exhausted exactly when the
document is the last one of its participant. -/
theorem chunkRel_accounting {c : Chunk} {a : Part} (h : ChunkRel c a)
    (hpos : ∀ x ∈ a.2, ∀ q ∈ x.positions, q < 4294967296) :
    ∃ x tl, a.2 = x :: tl ∧ c.cur_document = x.docID ∧ c.freqs.getD c.idx 0 = x.freq ∧
      c.skip_current.2.p = c.p + x.hits.length ∧
      c.append_from.1 = x.calls ∧ c.append_from.2.p = c.p + x.hits.length ∧
      c.append_from.2.freqs.getD c.idx 0 = 0 ∧
      c.append_from.2.skip_current.2.p = c.append_from.2.p ∧
      c.p + x.hits.length ≤ c.e ∧
      (tl = [] → c.p + x.hits.length = c.e ∧ c.advance = some none ∧
        c.append_from.2.advance = some none) ∧
      (tl ≠ [] → c.advance ≠ some none ∧ c.append_from.2.advance ≠ some none) := by
  obtain ⟨-, B, R, inv, ha⟩ := h
  obtain ⟨x, hx⟩ := inv.inv.cur_ex
  have hx1 : B[c.idx]? = some x := hx
  have hdrop := drop_eq_cons_of_getElem? hx1
  rw [hdrop, List.cons_append] at ha
  have hxa : x ∈ a.2 := by rw [ha]; exact List.mem_cons_self _ _
  obtain ⟨a1, a2, a3, a4⟩ := inv.append hx1 (hpos x hxa)
  have s1 := inv.inv.skip_cur
  have s2 := a2.inv.skip_cur
  have p1 := inv.inv.p_end
  have p2 := a2.inv.p_end
  have f1 := getD_of_getElem? (inv.inv.cur_freq x hx)
  have f2 := getD_of_getElem? (a2.inv.cur_freq x (by
    show B[c.append_from.2.idx]? = some x
    rw [a3]; exact hx1))
  have hd1 : c.cur_document = x.docID := inv.inv.cur_doc hx
  simp only [Chunk.toDecoder, if_true, hdrop, hitsOf_cons, List.length_append,
    List.append_assoc] at s1 p1
  simp only [Chunk.toDecoder, Bool.false_eq_true, if_false, a3, List.length_append] at s2 p2 f2
  simp only [Chunk.toDecoder, if_true] at f1
  have e1 : c.append_from.2.e = c.e := rfl
  have k1 : c.skip_current.2.p = skipVarints c.mem (c.freqs.getD c.idx 0) c.p := rfl
  have k2 : c.append_from.2.skip_current.2.p
      = skipVarints c.append_from.2.mem
          (c.append_from.2.freqs.getD c.append_from.2.idx 0) c.append_from.2.p := rfl
  rw [a3] at k2
  obtain ⟨v1, v2⟩ := advance_of_chunkInv inv
  obtain ⟨w1, w2⟩ := advance_of_chunkInv a2
  rw [a3] at w1 w2
  refine ⟨x, B.drop (c.idx + 1) ++ R.flatten, ha, hd1, f1, ?_, a1, ?_, f2, ?_, ?_, ?_, ?_⟩
  · rw [k1]; omega
  · rw [e1] at p2; omega
  · rw [k2]; rw [e1] at p2; omega
  · omega
  · intro htl
    refine ⟨?_, v1 htl, w1 htl⟩
    have h0 := congrArg List.length htl
    simp only [List.length_append, List.length_nil] at h0
    have h3 : hitsOf (B.drop (c.idx + 1)) = [] := by
      have : B.drop (c.idx + 1) = [] := List.eq_nil_of_length_eq_zero (by omega)
      rw [this]; rfl
    have h4 : R = [] := by
      cases R with
      | nil => rfl
      | cons B1 R1 =>
        have := (inv.inv.blocks B1 (List.mem_cons_self _ _)).1
        simp only [List.flatten_cons, List.length_append] at h0
        omega
    rw [h3, h4] at p1
    simp only [chunkBytes, List.length_nil, Nat.add_zero] at p1
    exact p1
  · intro htl
    exact ⟨v2 htl, w2 htl⟩

theorem forall₂_getD {R : Chunk → Part → Prop} : ∀ {C : List Chunk} {A : List Part},
    List.Forall₂ R C A → ∀ i, i < C.length → ∃ a ∈ A, R (C.getD i default) a := by
  intro C A h
  induction h with
  | nil => intro i hi; simp at hi
  | cons hab _ ih =>
    intro i hi
    cases i with
    | zero => exact ⟨_, List.mem_cons_self _ _, hab⟩
    | succ i =>
      obtain ⟨a, ha, hr⟩ := ih i (by simpa using hi)
      exact ⟨a, List.mem_cons_of_mem _ ha, by simpa using hr⟩

theorem mem_advanceS_suffix {d : Nat} {S : List Part} {b : Part} (h : b ∈ advanceS d S) :
    ∃ a ∈ S, ∃ pre, a.2 = pre ++ b.2 := by
  rw [advanceS_eq_map, List.mem_map] at h
  obtain ⟨a, ha, rfl⟩ := h
  refine ⟨a, ha, ?_⟩
  unfold advanceOne
  split
  · exact ⟨a.2.take 1, by cases a.2 <;> simp⟩
  · exact ⟨[], rfl⟩

/-- The invariant of the main loop of `merge` on well-formed participants: at
the start of every round the live chunks stand, documents unread, on what is
left of the lists of the participants. -/
theorem mergeReach_rel {S0 : List Part} {C0 : List Chunk}
    (hrel : List.Forall₂ ChunkRel C0 (live S0)) (hne : live S0 ≠ [])
    (hpos : ∀ a ∈ S0, ∀ x ∈ a.2, ∀ q ∈ x.positions, q < 4294967296)
    {chunks : List Chunk} {rem : Nat} (hr : MergeReach C0 C0.length chunks rem) :
    ∃ S C G, chunks = C ++ G ∧ rem = C.length ∧ List.Forall₂ ChunkRel C (live S) ∧
      live S ≠ [] ∧ (∀ a ∈ S, ∀ x ∈ a.2, ∀ q ∈ x.positions, q < 4294967296) ∧
      ∀ b ∈ S, ∃ a ∈ S0, ∃ pre, a.2 = pre ++ b.2 := by
  induction hr with
  | start =>
    exact ⟨S0, C0, [], (List.append_nil _).symm, rfl, hrel, hne, hpos,
      fun b hb => ⟨b, hb, [], rfl⟩⟩
  | round _ hit ih =>
    obtain ⟨S, C, G, rfl, rfl, i1, i2, i3, i4⟩ := ih
    obtain ⟨d, chunks1, rem1, done, -, h2, h3⟩ := mergeIter_sim S C G i1 i2 i3
    rw [hit] at h2
    simp only [Option.some.injEq, Prod.mk.injEq] at h2
    obtain ⟨-, rfl, rfl, rfl⟩ := h2
    rcases h3 with ⟨hc, -⟩ | ⟨-, e4, C1, G1, e5, e6, e7⟩
    · cases hc
    · refine ⟨advanceS d S, C1, G1, e5, e6, e7, e4, ?_, ?_⟩
      · intro b hb x hx
        obtain ⟨a, ha, -, hsub⟩ := mem_advanceS hb
        exact i3 a ha x (hsub x hx)
      · intro b hb
        obtain ⟨a, ha, pre1, hsub⟩ := mem_advanceS_suffix hb
        obtain ⟨a0, ha0, pre0, hs0⟩ := i4 a ha
        exact ⟨a0, ha0, pre0 ++ pre1, by rw [hs0, hsub, List.append_assoc]⟩

/-- C28: Merge terminates and consumes every input exactly. For 1 to 128
participants, each holding the encoded chunk of a well-formed non-empty
posting list with 32-bit positions, `merge` returns when its main loop is
given as many rounds as there are distinct document IDs in the lists of the
participants, and does not return with fewer. At the start of every round
every live chunk stands on a document `x` of a participant, followed in the
list of this participant by the documents `tl`, and the position varints of
`x` are passed exactly once: `skip_current` alone moves the pointer
over the bytes of these varints, and so does `append_from`, after which
`skip_current` decodes nothing, the frequency slot being zeroed. The pointer
stays within the range of the chunk, and the chunk is removed exactly when `x`
is the last document of its participant (`tl` is empty), with the pointer at
the end of the range. -/
theorem merge_terminates_and_consumes (inputs : List (merge_participant × List Posting))
    (h : ∀ i ∈ inputs, MergeInput i.1 i.2) (h1 : inputs ≠ []) (h128 : inputs.length ≤ 128) :
    (∃ calls, merge (docSet (partsOf inputs)).card (inputs.map Prod.fst) = some calls) ∧
      (∀ fuel, fuel < (docSet (partsOf inputs)).card →
        merge fuel (inputs.map Prod.fst) = none) ∧
      ∃ chunks0, refillAll ((inputs.map Prod.fst).map Chunk.ofParticipant) = some chunks0 ∧
        ∀ (chunks : List Chunk) (rem : Nat), MergeReach chunks0 inputs.length chunks rem →
          ∀ i, i < rem →
            ∃ (x : Posting) (tl : List Posting),
              (∃ inp ∈ inputs, ∃ pre, inp.2 = pre ++ x :: tl) ∧
              (chunks.getD i default).cur_document = x.docID ∧
              (chunks.getD i default).freqs.getD (chunks.getD i default).idx 0 = x.freq ∧
              (chunks.getD i default).skip_current.2.p
                = (chunks.getD i default).p + x.hits.length ∧
              (chunks.getD i default).append_from.1 = x.calls ∧
              (chunks.getD i default).append_from.2.p
                = (chunks.getD i default).p + x.hits.length ∧
              (chunks.getD i default).append_from.2.freqs.getD (chunks.getD i default).idx 0
                = 0 ∧
              (chunks.getD i default).append_from.2.skip_current.2.p
                = (chunks.getD i default).append_from.2.p ∧
              (chunks.getD i default).p + x.hits.length ≤ (chunks.getD i default).e ∧
              (tl = [] → (chunks.getD i default).p + x.hits.length = (chunks.getD i default).e ∧
                (chunks.getD i default).advance = some none ∧
                (chunks.getD i default).append_from.2.advance = some none) ∧
              (tl ≠ [] → (chunks.getD i default).advance ≠ some none ∧
                (chunks.getD i default).append_from.2.advance ≠ some none) := by
  obtain ⟨C, g1, g2⟩ := refillAll_spec inputs h
  have hlen : (inputs.map Prod.fst).length = inputs.length := List.length_map _ _
  have hpos0 : 0 < inputs.length := List.length_pos.mpr h1
  have hcond : ¬ (inputs.length = 0 ∨ 128 < inputs.length) := by omega
  have hC : C.length = inputs.length := by
    rw [g2.length_eq]; simp [partsOf]
  have hl := live_partsOf inputs h
  have hrel : List.Forall₂ ChunkRel C (live (partsOf inputs)) := by rw [hl]; exact g2
  have hne : live (partsOf inputs) ≠ [] := by
    rw [hl]; intro hc; simp [partsOf] at hc; exact h1 hc
  have hpos : ∀ a ∈ partsOf inputs, ∀ x ∈ a.2, ∀ q ∈ x.positions, q < 4294967296 := by
    intro a ha x hx
    simp only [partsOf, List.mem_map] at ha
    obtain ⟨i, hi, rfl⟩ := ha
    exact (h i hi).pos32 x hx
  have hs := sortedParts_partsOf inputs h
  have hm : ∀ fuel, merge fuel (inputs.map Prod.fst) = mergeLoop fuel (C ++ []) C.length [] := by
    intro fuel
    simp only [merge, hlen, hcond, if_false, g1, List.append_nil, hC]
  refine ⟨?_, fun fuel hf => ?_, C, g1, fun chunks rem hr i hi => ?_⟩
  · rw [hm]
    exact (mergeLoop_rounds _ _ C [] [] hrel hne hpos hs).1 (Nat.le_refl _)
  · rw [hm]
    exact (mergeLoop_rounds _ _ C [] [] hrel hne hpos hs).2 hf
  · rw [← hC] at hr
    obtain ⟨S, C1, G1, rfl, rfl, i1, -, i3, i4⟩ := mergeReach_rel hrel hne hpos hr
    obtain ⟨a, ha, hra⟩ := forall₂_getD i1 i hi
    have hget : (C1 ++ G1).getD i default = C1.getD i default := by
      rw [List.getD_eq_getElem?_getD, List.getD_eq_getElem?_getD,
        List.getElem?_append_left hi]
    rw [hget]
    have haS : a ∈ S := List.mem_of_mem_filter ha
    obtain ⟨x, tl, q1, q2⟩ := chunkRel_accounting hra (i3 a haS)
    obtain ⟨a0, ha0, hs0⟩ := i4 a haS
    simp only [partsOf, List.mem_map] at ha0
    obtain ⟨inp, hinp, rfl⟩ := ha0
    obtain ⟨pre, hpre⟩ := hs0
    exact ⟨x, tl, ⟨inp, hinp, pre, by rw [← q1]; exact hpre⟩, q2⟩

/-- Witness of C28 on the merge scenario with a deletion: two distinct
document IDs, two rounds. -/
theorem merge_terminates_and_consumes_witness :
    (∃ calls, merge (docSet (partsOf mergeInputsD)).card (mergeInputsD.map Prod.fst)
        = some calls) ∧
      (∀ fuel, fuel < (docSet (partsOf mergeInputsD)).card →
        merge fuel (mergeInputsD.map Prod.fst) = none) ∧
      ∃ chunks0, refillAll ((mergeInputsD.map Prod.fst).map Chunk.ofParticipant)
          = some chunks0 ∧
        ∀ (chunks : List Chunk) (rem : Nat),
          MergeReach chunks0 mergeInputsD.length chunks rem →
          ∀ i, i < rem →
            ∃ (x : Posting) (tl : List Posting),
              (∃ inp ∈ mergeInputsD, ∃ pre, inp.2 = pre ++ x :: tl) ∧
              (chunks.getD i default).cur_document = x.docID ∧
              (chunks.getD i default).freqs.getD (chunks.getD i default).idx 0 = x.freq ∧
              (chunks.getD i default).skip_current.2.p
                = (chunks.getD i default).p + x.hits.length ∧
              (chunks.getD i default).append_from.1 = x.calls ∧
              (chunks.getD i default).append_from.2.p
                = (chunks.getD i default).p + x.hits.length ∧
              (chunks.getD i default).append_from.2.freqs.getD (chunks.getD i default).idx 0
                = 0 ∧
              (chunks.getD i default).append_from.2.skip_current.2.p
                = (chunks.getD i default).append_from.2.p ∧
              (chunks.getD i default).p + x.hits.length ≤ (chunks.getD i default).e ∧
              (tl = [] → (chunks.getD i default).p + x.hits.length = (chunks.getD i default).e ∧
                (chunks.getD i default).advance = some none ∧
                (chunks.getD i default).append_from.2.advance = some none) ∧
              (tl ≠ [] → (chunks.getD i default).advance ≠ some none ∧
                (chunks.getD i default).append_from.2.advance ≠ some none) :=
  merge_terminates_and_consumes mergeInputsD mergeInputsD_ok (List.cons_ne_nil _ _) (by decide)


theorem core_withSkip (d : Decoder) (sl : List (Nat × Nat)) (i : Nat) :
    (d.withSkip sl i).core = d.core := rfl

/-- The loop of `seek_block`, with the blocks it skips: it unpacks the first
block of `R` that does not end below the target, or finalizes the decoder. -/
theorem seek_block_struct (t : Nat) :
    ∀ (R : List (List Posting)) (d : Decoder), R ≠ [] →
      d.mem.drop d.p = chunkBytes d.blockLastDocID R ++ d.mem.drop d.chunkEnd →
      d.p + (chunkBytes d.blockLastDocID R).length = d.chunkEnd →
      (∀ B1 ∈ R, 0 < B1.length ∧ B1.length ≤ N) → d.blockLastDocID < 4294967296 →
      WellFormed R.flatten → d.documents.length = N → d.freqs.length = N →
      d.skiplist = [] → d.base ≤ d.p → (chunkBytes d.blockLastDocID R).length < 4294967296 →
      ∀ fuel, R.length < fuel →
      ∃ d1, d.seek_block fuel t = some d1 ∧ d1.mem = d.mem ∧ d1.chunkEnd = d.chunkEnd ∧
        d1.base = d.base ∧
        ((∃ Skip B1 R1, R = Skip ++ B1 :: R1 ∧ DecInv d1 true B1 R1 ∧ d1.blockDocIdx = 0 ∧
            t ≤ d1.blockLastDocID) ∨ DecTerm d1) := by
  intro R
  induction R with
  | nil => intro d h; exact absurd rfl h
  | cons B1 R1 ih =>
    intro d _ hbytes hend hblocks hprev wf hdl hfl hskip hbase hsz fuel hfuel
    cases fuel with
    | zero => omega
    | succ f =>
    have hB1 := hblocks B1 (List.mem_cons_self _ _)
    have hbytes0 := hbytes
    simp only [chunkBytes, List.append_assoc] at hbytes
    obtain ⟨h1, h2, h3, h4, h5⟩ := header_eq hbytes hprev
    have wf1 : WellFormed (B1 ++ R1.flatten) := by simpa using wf
    have hbody : u32 (blockBody d.blockLastDocID B1).length
        = (blockBody d.blockLastDocID B1).length := by
      apply u32_of_lt
      simp only [chunkBytes, blockBytes, List.length_append] at hsz
      omega
    rw [hbody] at h2
    rw [Decoder.seek_block]
    simp only [h1, h2, h3]
    by_cases hgt : t > lastDoc d.blockLastDocID B1
    · rw [if_pos hgt]
      have hend1 : (decode_varuint32 d.mem (decode_varuint32 d.mem d.p).2).2 + 1
          + (blockBody d.blockLastDocID B1).length
          + (chunkBytes (lastDoc d.blockLastDocID B1) R1).length = d.chunkEnd := by
        rw [h5, ← hend]
        simp only [chunkBytes, List.length_append]
        omega
      by_cases hR1 : R1 = []
      · subst hR1
        simp only [chunkBytes, List.length_nil, Nat.add_zero] at hend1
        rw [if_pos hend1]
        exact ⟨_, rfl, rfl, rfl, rfl, Or.inr (DecTerm.finalize hend1 hdl hfl hskip)⟩
      · have hpos := chunkBytes_length_pos (lastDoc d.blockLastDocID B1) hR1
        rw [if_neg (by omega)]
        have hb1 := drop_add_of_drop_eq h4
        obtain ⟨d1, g1, g2, g3, g4, g6⟩ := ih
          { d with
            p := (decode_varuint32 d.mem (decode_varuint32 d.mem d.p).2).2 + 1
              + (blockBody d.blockLastDocID B1).length
            blockLastDocID := lastDoc d.blockLastDocID B1 }
          hR1 hb1 hend1 (fun B2 hB2 => hblocks B2 (List.mem_cons_of_mem _ hB2))
          (lastDoc_lt _ _ hprev) wf1.right hdl hfl hskip (by simp only; omega)
          (by simp only [chunkBytes, List.length_append] at hsz ⊢; omega) f
          (by simp only [List.length_cons] at hfuel; omega)
        refine ⟨d1, g1, g2, g3, g4, ?_⟩
        rcases g6 with ⟨Skip, B2, R2, e1, e2, e3, e4⟩ | hterm
        · exact Or.inl ⟨B1 :: Skip, B2, R2, by rw [e1]; rfl, e2, e3, e4⟩
        · exact Or.inr hterm
    · rw [if_neg hgt]
      obtain ⟨d1, g1, g2, g3, g4, g5, g6, g7⟩ := unpack_next_block_inv d B1 R1 hB1.1 hB1.2 hdl hfl
        hprev hbytes0 hend (fun B2 hB2 => hblocks B2 (List.mem_cons_of_mem _ hB2)) wf1 hskip hbase
      simp only [Decoder.unpack_next_block, h1, h3] at g1
      refine ⟨d1, g1, g6, g7, g5, Or.inl ⟨[], B1, R1, rfl, g2, g3, ?_⟩⟩
      rw [g2.last, lastDoc_congr 0 d.blockLastDocID hB1.1]
      omega

/-- One call of `next()` keeps the decoder positioned in the blocks of its chunk. -/
theorem DecAt.next {All : List (List Posting)} {d : Decoder} (h : DecAt All d)
    (hcur : d.cur_document ≠ UINT32_MAX) :
    ∃ b d1, d.next = some (b, d1) ∧ DecAt All d1 ∧ d1.mem = d.mem ∧
      d1.chunkEnd = d.chunkEnd ∧ d1.base = d.base := by
  rcases h with ⟨fresh, Pre, B, R, hAll, h⟩ | hterm
  swap
  · exact absurd hterm.cur_document_max hcur
  by_cases hlast : d.blockDocIdx + 1 = B.length
  · have hat := h.at_last_iff.mpr hlast
    obtain ⟨hb, he, hp⟩ := h.skip_cur
    have hdrop : B.drop (d.blockDocIdx + 1) = [] := List.drop_eq_nil_of_le (by omega)
    rw [hdrop, hitsOf_nil, List.nil_append] at hb he
    cases R with
    | nil =>
      simp only [chunkBytes, List.length_nil, Nat.add_zero] at he
      refine ⟨false, d.skip_block_doc.finalize, ?_, ?_, rfl, rfl, rfl⟩
      · simp only [Decoder.next, hat, if_true]
        rw [if_neg (by simp only [Decoder.skip_block_doc, ne_eq, not_not]; exact he)]
      · right
        refine DecTerm.finalize ?_ h.docs_len h.freqs_len h.skiplist
        simpa only [Decoder.skip_block_doc] using he
    | cons B1 R1 =>
      have hB1 := h.blocks B1 (List.mem_cons_self _ _)
      have hne : d.skip_block_doc.p ≠ d.skip_block_doc.chunkEnd := by
        simp only [Decoder.skip_block_doc]
        have := blockBytes_length_pos (lastDoc 0 B) B1
        simp only [chunkBytes, List.length_append] at he
        omega
      have hlt32 : d.skip_block_doc.blockLastDocID < 4294967296 := by
        have := h.last_lt
        simp only [Decoder.skip_block_doc]
        unfold UINT32_MAX at this
        omega
      obtain ⟨d1, g1, g2, g3, g4, g5, g6, g7⟩ := unpack_next_block_inv d.skip_block_doc B1 R1
        hB1.1 hB1.2 h.docs_len h.freqs_len hlt32
        (by simp only [Decoder.skip_block_doc]; rw [h.last]; exact hb)
        (by simp only [Decoder.skip_block_doc]; rw [h.last]; exact he)
        (fun B2 hB2 => h.blocks B2 (List.mem_cons_of_mem _ hB2))
        (by have := h.wf.right; simpa using this) h.skiplist
        (Nat.le_trans h.base_le (by simpa only [Decoder.skip_block_doc] using hp))
      refine ⟨true, d1, ?_, ?_, g6, g7, g5⟩
      · simp only [Decoder.next, hat, if_true, if_pos hne, g1, Option.map_some']
      · left
        exact ⟨true, Pre ++ [B], B1, R1, by rw [hAll]; simp, g2⟩
  · have hat : ¬ d.documents.getD d.blockDocIdx 0 = d.blockLastDocID :=
      fun hc => hlast (h.at_last_iff.mp hc)
    have hlt : d.blockDocIdx + 1 < B.length := by have := h.idx_lt; omega
    refine ⟨true, d.skip_block_doc, ?_, ?_, rfl, rfl, rfl⟩
    · simp only [Decoder.next, hat, if_false]
    · left
      exact ⟨true, Pre, B, R, hAll, h.skip_block_doc hlt⟩

/-- One call of `seek` on a decoder without skiplist keeps it positioned in
the blocks of its chunk. -/
theorem DecAt.seek {All : List (List Posting)} {d : Decoder} (h : DecAt All d) (t : Nat)
    (ht : t ≤ UINT32_MAX) (hsz : d.chunkEnd < d.base + 4294967296) (fuel : Nat)
    (hfuel : N + All.length < fuel) :
    ∃ b d1, d.seek fuel t = some (b, d1) ∧ DecAt All d1 ∧ d1.mem = d.mem ∧
      d1.chunkEnd = d.chunkEnd ∧ d1.base = d.base := by
  rcases h with ⟨fresh, Pre, B, R, hAll, h⟩ | hterm
  swap
  · obtain ⟨b, m1, -⟩ := hterm.seek_term t ht fuel (by omega)
    exact ⟨b, d, m1, Or.inr hterm, rfl, rfl, rfl⟩
  have hidx := h.idx_lt
  have hlen := h.len_le
  have hRl : R.length < All.length := by rw [hAll]; simp; omega
  by_cases hgt : t > d.blockLastDocID
  · obtain ⟨d1, g1, g2, g3, g4, g5, g6, g7, g8, g9, g10, g11, g12⟩ :=
      DecInv.skip_remaining (B.length - d.blockDocIdx) d fresh h rfl fuel (by omega)
    rw [Decoder.seek, if_pos hgt, g1, Option.some_bind]
    by_cases hR : R = []
    · subst hR
      simp only [chunkBytes, List.length_nil, Nat.add_zero] at g3
      rw [if_pos (by rw [g6]; exact g3)]
      exact ⟨false, d1.finalize, rfl, Or.inr (DecTerm.finalize (by rw [g6]; exact g3) g11 g12
        (by rw [g8]; exact h.skiplist)), g5, g6, g7⟩
    · have hpos := chunkBytes_length_pos (lastDoc 0 B) hR
      rw [if_neg (by rw [g6]; omega)]
      have hsk : d1.skiplist = [] := by rw [g8]; exact h.skiplist
      have hd2 : (if d1.skipListIdx ≠ d1.skiplist.length then
          if d1.skiplist_search t ≠ UINT32_MAX then
            { d1 with
              blockLastDocID := (d1.skiplist.getD (d1.skiplist_search t) (0, 0)).1
              p := d1.base + (d1.skiplist.getD (d1.skiplist_search t) (0, 0)).2
              skipListIdx := d1.skiplist_search t + 1 }
          else d1
        else d1) = d1 := by
        rw [skiplist_search_nil hsk]
        simp
      simp only [hd2]
      have hl32 : d1.blockLastDocID < 4294967296 := by
        rw [g10]
        have := h.last_lt
        unfold UINT32_MAX at this
        omega
      obtain ⟨d3, k1, k2, k3, k4, k6⟩ := seek_block_struct t R d1 hR
        (by rw [g10, h.last, g6, g5]; rw [g5] at g2; exact g2) (by rw [g10, h.last, g6]; exact g3)
        h.blocks hl32 h.wf.right g11 g12 hsk (by rw [g7]; exact g4)
        (by rw [g10, h.last]; omega) fuel (by omega)
      rw [k1, Option.some_bind]
      rcases k6 with ⟨Skip, B1, R1, hR1, inv, i0, hle⟩ | term
      · obtain ⟨b, d4, fresh4, m1, m2, -, -, -, m6, m7, m8, -⟩ :=
          DecInv.seek_scan t (B1.length - d3.blockDocIdx) d3 true inv hle rfl fuel
            (by have := inv.len_le; omega)
        refine ⟨b, d4, m1, Or.inl ⟨fresh4, Pre ++ [B] ++ Skip, B1, R1, ?_, m2⟩,
          by rw [m6, k2, g5], by rw [m7, k3, g6], by rw [m8, k4, g7]⟩
        rw [hAll, hR1]; simp
      · have hfuel0 : 0 < fuel := by omega
        cases fuel with
        | zero => omega
        | succ f =>
        have hdoc : d3.documents.getD d3.blockDocIdx 0 = UINT32_MAX := by
          rw [term.idx]; exact getD_of_getElem? term.doc
        rw [Decoder.seek_scan]
        simp only [hdoc]
        by_cases h1 : UINT32_MAX > t
        · rw [if_pos h1]
          exact ⟨false, d3, rfl, Or.inr term, by rw [k2, g5], by rw [k3, g6], by rw [k4, g7]⟩
        · have h2 : UINT32_MAX = t := by omega
          rw [if_neg h1, if_pos h2]
          exact ⟨true, d3, rfl, Or.inr term, by rw [k2, g5], by rw [k3, g6], by rw [k4, g7]⟩
  · obtain ⟨b, d1, fresh1, m1, m2, -, -, -, m6, m7, m8, -⟩ :=
      DecInv.seek_scan t (B.length - d.blockDocIdx) d fresh h (by omega) rfl fuel (by omega)
    exact ⟨b, d1, by rw [Decoder.seek, if_neg hgt]; exact m1,
      Or.inl ⟨fresh1, Pre, B, R, hAll, m2⟩, m6, m7, m8⟩


theorem chunkLast_append (A C : List (List Posting)) :
    ∀ prev, chunkLast prev (A ++ C) = chunkLast (chunkLast prev A) C := by
  induction A with
  | nil => intro prev; rfl
  | cons B A ih =>
    intro prev
    rw [List.cons_append, chunkLast, chunkLast, ih]

theorem seek_eq_jump (d : Decoder) (fuel t : Nat) :
    d.seek fuel t =
      if t > d.blockLastDocID then
        (d.skip_remaining_block_documents fuel).bind fun d1 =>
          if d1.p = d1.chunkEnd then some (false, d1.finalize)
          else ((d1.skiplist_jump t).seek_block fuel t).bind fun d3 => d3.seek_scan fuel t
      else d.seek_scan fuel t := rfl

theorem skiplist_jump_nil {d : Decoder} (h : d.skiplist = []) (t : Nat) :
    d.skiplist_jump t = d := by
  unfold Decoder.skiplist_jump
  rw [skiplist_search_nil h]
  simp

/-- On the chunk of `twoBlocks` with a skiplist entry for each block,
`seek(25)` after `begin()` is served through the second skiplist entry (the
index of the next entry moves from 0 to 2) and stops on document 25 with
frequency 1, as does the same call with the skiplist emptied, which leaves
the index at 0. -/
theorem twoBlocks_seek_through_skiplist :
    twoBlocksBegun.cur_document = 10 ∧ twoBlocksBegun.skiplist = twoBlocksSkiplist ∧
      twoBlocksSkiplist = [(0, 0), (11, 13)] ∧
      ((twoBlocksBegun.seek 134 25).map fun r =>
        (r.1, r.2.cur_document, r.2.cur_freq, r.2.skipListIdx)) = some (true, 25, 1, 2) ∧
      (((twoBlocksBegun.withSkip [] 0).seek 134 25).map fun r =>
        (r.1, r.2.cur_document, r.2.cur_freq, r.2.skipListIdx)) = some (true, 25, 1, 0) := by
  refine ⟨rfl, rfl, rfl, rfl, rfl⟩

theorem succ_div_cases (k st : Nat) (h : 1 ≤ st) :
    (k % st + 1 = st → (k + 1) / st = k / st + 1) ∧ (k % st + 1 < st → (k + 1) / st = k / st) := by
  obtain ⟨m1, m2⟩ := succ_mod_cases k st h
  constructor
  · intro h1
    rw [Nat.succ_div, if_pos (Nat.dvd_of_mod_eq_zero (m1 h1))]
  · intro h1
    rw [Nat.succ_div, if_neg]
    · rfl
    · intro hd
      have := Nat.mod_eq_zero_of_dvd hd
      rw [m2 h1] at this
      omega

/-- One call of `commit_block` on a block that is not empty: the count of
commits goes from `k` to `k + 1`. -/
theorem commit_count (st : Nat) (h1 : 1 ≤ st) (hlt : st < 4294967296) (k : Nat) (e : Encoder)
    (hc : e.skiplistEntryCountdown = st - k % st) (hl : e.skipListData.length = 8 * (k / st))
    (hsz : e.curBlockSize ≠ 0) :
    ∃ e1, e.commit_block st = some e1 ∧ e1.skiplistEntryCountdown = st - (k + 1) % st ∧
      e1.skipListData.length = 8 * ((k + 1) / st) ∧ e1.curBlockSize = 0 ∧
      e1.termDocuments = e.termDocuments ∧ e1.termOffset = e.termOffset := by
  have hex : ∃ e1, e.commit_block st = some e1 ∧ e1.curBlockSize = 0 ∧
      e1.termDocuments = e.termDocuments ∧ e1.termOffset = e.termOffset := by
    simp only [Encoder.commit_block, hsz, if_false]
    exact ⟨_, rfl, rfl, rfl, rfl⟩
  obtain ⟨e1, hcommit, g1, g2, g3⟩ := hex
  obtain ⟨c1, c2⟩ := commit_skiplist st e e1 hcommit
  obtain ⟨m1, m2⟩ := succ_mod_cases k st h1
  obtain ⟨q1, q2⟩ := succ_div_cases k st h1
  have hlt2 := Nat.mod_lt k (show st > 0 by omega)
  have hsub : sub32 e.skiplistEntryCountdown 1 = st - k % st - 1 := by
    rw [hc]
    unfold sub32
    omega
  refine ⟨e1, hcommit, ?_, ?_, g1, g2, g3⟩
  · by_cases hz : k % st + 1 = st
    · rw [(c1 (by rw [hsub]; omega)).2, m1 hz]; rfl
    · rw [(c2 (by rw [hsub]; omega)).2, hsub, m2 (by omega)]
      omega
  · by_cases hz : k % st + 1 = st
    · rw [(c1 (by rw [hsub]; omega)).1, q1 hz]
      simp only [List.length_append, hl, pack32, List.length_cons, List.length_nil]
      omega
    · rw [(c2 (by rw [hsub]; omega)).1, q2 (by omega), hl]

theorem CountInv.at_begin_term (st : Nat) (e : Encoder) :
    CountInv st 0 (e.begin_term st) := by
  refine ⟨rfl, rfl, ?_, ?_⟩
  · show st = st - (0 / N) % st
    simp
  · show ([] : List Nat).length = 8 * ((0 / N) / st)
    simp

/-- The calls of one document take the count of documents from `n` to `n + 1`. -/
theorem CountInv.after_posting {st n : Nat} {e : Encoder} (h1 : 1 ≤ st) (hlt : st < 4294967296)
    (inv : CountInv st n e) (d : Posting) :
    ∃ e1, Encoder.calls st e d.calls = some e1 ∧ CountInv st (n + 1) e1 := by
  obtain ⟨lp, hp⟩ := calls_positions st (e.begin_document d.docID d.freq) d.positions
  have hN : N = 128 := rfl
  generalize he2 : ({ e.begin_document d.docID d.freq with
    hitsData := (e.begin_document d.docID d.freq).hitsData
      ++ varints (posDeltas (e.begin_document d.docID d.freq).lastPos d.positions)
    lastPos := lp } : Encoder) = e2 at hp
  have hcalls : Encoder.calls st e d.calls = e2.end_document st := by
    simp only [Posting.calls, Encoder.calls, Encoder.call, Option.some_bind, calls_append, hp]
    cases e2.end_document st <;> rfl
  have hsz : e2.curBlockSize = n % N + 1 := by
    rw [← he2]; simp [Encoder.begin_document, inv.size]
  have hdocs : e2.termDocuments = n + 1 := by
    rw [← he2]; simp [Encoder.begin_document, inv.docs]
  have hcd : e2.skiplistEntryCountdown = st - (n / N) % st := by
    rw [← he2]; simp [Encoder.begin_document, inv.countdown]
  have hen : e2.skipListData.length = 8 * ((n / N) / st) := by
    rw [← he2]; simp [Encoder.begin_document, inv.entries]
  rw [hcalls, Encoder.end_document]
  by_cases hfull : n % N + 1 = N
  · obtain ⟨e1, k1, k2, k3, k4, k5, -⟩ := commit_count st h1 hlt (n / N) e2 hcd hen
      (by rw [hsz]; omega)
    have hq : (n + 1) / N = n / N + 1 := by rw [hN] at hfull ⊢; omega
    have hr : (n + 1) % N = 0 := by rw [hN] at hfull ⊢; omega
    refine ⟨e1, ?_, ?_, ?_, ?_, ?_⟩
    · rw [if_pos (by rw [hsz]; exact hfull), k1]
    · rw [k4, hr]
    · rw [k5, hdocs]
    · rw [k2, hq]
    · rw [k3, hq]
  · have hq : (n + 1) / N = n / N := by rw [hN] at hfull ⊢; omega
    have hr : (n + 1) % N = n % N + 1 := by rw [hN] at hfull ⊢; omega
    refine ⟨e2, ?_, ?_, ?_, ?_, ?_⟩
    · rw [if_neg (by rw [hsz]; exact hfull)]
    · rw [hsz, hr]
    · exact hdocs
    · rw [hcd, hq]
    · rw [hen, hq]

theorem CountInv.after_postings {st : Nat} (h1 : 1 ≤ st) (hlt : st < 4294967296) (S : List Posting) :
    ∀ {n : Nat} {e : Encoder}, CountInv st n e →
      ∃ e1, Encoder.calls st e (postingCalls S) = some e1 ∧ CountInv st (n + S.length) e1 := by
  induction S with
  | nil => intro n e inv; exact ⟨e, rfl, inv⟩
  | cons d ds ih =>
    intro n e inv
    obtain ⟨e1, g1, inv1⟩ := inv.after_posting h1 hlt d
    obtain ⟨e2, g2, inv2⟩ := ih inv1
    refine ⟨e2, ?_, ?_⟩
    · simp only [postingCalls, calls_append, g1, Option.some_bind, g2]
    · have : n + (d :: ds).length = n + 1 + ds.length := by simp; omega
      rw [this]; exact inv2

/-- The number `k` of calls of `commit_block` that encoding a term makes, and
the skiplist data they record: an entry of 8 bytes every `st` calls. -/
theorem encodeTerm_commits (st : Nat) (h1 : 1 ≤ st) (hlt : st < 4294967296) (e : Encoder)
    (S : List Posting) :
    ∃ e1 tctx k, encodeTerm st e S = some (e1, tctx) ∧ tctx.documents = S.length ∧
      e1.skipListData.length = 8 * (k / st) ∧
      (S.length % N = 0 → k = S.length / N) ∧ (S.length % N ≠ 0 → k = S.length / N + 1) := by
  obtain ⟨e1, g1, inv⟩ := (CountInv.at_begin_term st e).after_postings h1 hlt S
  rw [Nat.zero_add] at inv
  by_cases hz : e1.curBlockSize = 0
  · have hr : S.length % N = 0 := by rw [← inv.size]; exact hz
    refine ⟨e1, ⟨e1.termDocuments, e1.termOffset, e1.indexOut.length - e1.termOffset⟩,
      S.length / N, ?_, inv.docs, inv.entries, fun _ => rfl, fun h => absurd hr h⟩
    simp only [encodeTerm, g1, Option.some_bind, Encoder.end_term, hz, if_true]
  · have hr : S.length % N ≠ 0 := by rw [← inv.size]; exact hz
    obtain ⟨e2, k1, -, k3, -, k5, -⟩ := commit_count st h1 hlt (S.length / N) e1 inv.countdown
      inv.entries hz
    refine ⟨e2, ⟨e2.termDocuments, e2.termOffset, e2.indexOut.length - e2.termOffset⟩,
      S.length / N + 1, ?_, by show e2.termDocuments = _; rw [k5, inv.docs], k3,
      fun h => absurd h hr, fun _ => rfl⟩
    simp only [encodeTerm, g1, Option.some_bind, Encoder.end_term, hz, if_false, k1,
      Option.map_some']

/-- C31: encoder and decoder agree on the skiplist length. For a term of `D`
documents encoded in blocks of `N`, with `skiplistEntryCountdown` starting at
`SKIPLIST_STEP` (a 32-bit value, at least 1) and with `D + N - 1` a 32-bit
value, so that the sum in `Decoder::init` is the same in 32-bit and in wider
arithmetic: the encoder returns, the term context holds `D`, and the skiplist
data that the calls of `commit_block` recorded for the term is 8 bytes (two
`uint32_t`) for each of the `((D + N - 1) / N) / SKIPLIST_STEP` entries that
`Decoder::init` computes from the term context. -/
theorem skiplist_length_agreement (st : Nat) (h1 : 1 ≤ st) (hlt : st < 4294967296)
    (e : Encoder) (S : List Posting) (_hD : S.length + (N - 1) < 4294967296) :
    ∃ e1 tctx, encodeTerm st e S = some (e1, tctx) ∧ tctx.documents = S.length ∧
      e1.skipListData.length = 8 * Decoder.init_n st tctx := by
  obtain ⟨e1, tctx, k, g1, g2, g3, g4, g5⟩ := encodeTerm_commits st h1 hlt e S
  have hN : N = 128 := rfl
  have hk : (S.length + (N - 1)) / N = k := by
    by_cases hr : S.length % N = 0
    · rw [g4 hr]; rw [hN] at hr ⊢; omega
    · rw [g5 hr]; rw [hN] at hr ⊢; omega
  refine ⟨e1, tctx, g1, g2, ?_⟩
  rw [g3, Decoder.init_n, g2, hk]

/-- Witness of C31 with `SKIPLIST_STEP = 1` on the documents 10, 11, 15, 25,
50: one block, one skiplist entry of 8 bytes. -/
theorem skiplist_length_agreement_witness :
    ∃ e1 tctx, encodeTerm 1 (Encoder.new []) applePostings = some (e1, tctx) ∧
      tctx.documents = applePostings.length ∧
      e1.skipListData.length = 8 * Decoder.init_n 1 tctx :=
  skiplist_length_agreement 1 (by decide) (by decide) (Encoder.new []) applePostings (by decide)

/-- On the documents 1 to 10000 with `SKIPLIST_STEP = 4`: the encoder commits
79 blocks and records 19 skiplist entries in 152 bytes, the number of entries
that `Decoder::init` computes from the term context. -/
theorem largeList_skiplist_entries :
    ∃ e1 tctx, encodeTerm 4 (Encoder.new []) largeList = some (e1, tctx) ∧
      tctx.documents = 10000 ∧ Decoder.init_n 4 tctx = 19 ∧ e1.skipListData.length = 152 := by
  obtain ⟨e1, tctx, k, g1, g2, g3, -, g5⟩ :=
    encodeTerm_commits 4 (by decide) (by decide) (Encoder.new []) largeList
  have hlen : largeList.length = 10000 := by simp [largeList]
  have hN : N = 128 := rfl
  rw [hlen] at g2 g5
  have hk : k = 79 := by rw [g5 (by rw [hN]; decide), hN]
  refine ⟨e1, tctx, g1, g2, ?_, ?_⟩
  · rw [Decoder.init_n, g2, hN]
  · rw [g3, hk]

theorem decodeVarAux_pos (k : Nat) (l : List Nat) : 1 ≤ (decodeVarAux (k + 1) l).2 := by
  simp only [decodeVarAux]
  split
  · exact Nat.le_refl _
  · exact Nat.le_add_left _ _

/-- The varint decoder depends on the bytes it consumes only. -/
theorem decodeVarAux_local : ∀ (k : Nat) (l l' : List Nat) (m : Nat),
    (decodeVarAux k l).2 ≤ m → l.take m = l'.take m → decodeVarAux k l' = decodeVarAux k l := by
  intro k
  induction k with
  | zero => intro l l' m _ _; rfl
  | succ k ih =>
    intro l l' m hm heq
    have hpos := decodeVarAux_pos k l
    obtain ⟨m1, rfl⟩ : ∃ m1, m = m1 + 1 := ⟨m - 1, by omega⟩
    have hhead : l'.headD 0 = l.headD 0 := by
      cases l with
      | nil =>
        cases l' with
        | nil => rfl
        | cons a' t' => simp at heq
      | cons a t =>
        cases l' with
        | nil => simp at heq
        | cons a' t' =>
          simp only [List.take_succ_cons, List.cons.injEq] at heq
          simp [heq.1]
    have htail : l.tail.take m1 = l'.tail.take m1 := by
      cases l with
      | nil =>
        cases l' with
        | nil => rfl
        | cons a' t' => simp at heq
      | cons a t =>
        cases l' with
        | nil => simp at heq
        | cons a' t' =>
          simp only [List.take_succ_cons, List.cons.injEq] at heq
          exact heq.2
    simp only [decodeVarAux] at hm ⊢
    rw [hhead]
    by_cases hb : l.headD 0 < 128
    · simp only [hb, if_true]
    · simp only [hb, if_false] at hm ⊢
      rw [ih l.tail l'.tail m1 (by omega) htail]

theorem agreeOn_at {mem mem' : List Nat} {b b' e : Nat} (W : AgreeOn mem mem' b b' e) {p : Nat}
    (hp : b ≤ p) : (mem.drop p).take (e - p) = (mem'.drop (b' + (p - b))).take (e - p) := by
  have h := congrArg (List.drop (p - b)) W
  rw [List.drop_take, List.drop_take, List.drop_drop, List.drop_drop] at h
  have h1 : e - b - (p - b) = e - p := by omega
  have h2 : b + (p - b) = p := by omega
  rw [h1, h2] at h
  exact h

theorem decode_gt (mem : List Nat) (p : Nat) : p < (decode_varuint32 mem p).2 := by
  have h : 1 ≤ (decodeVarAux 5 (mem.drop p)).2 := decodeVarAux_pos 4 (mem.drop p)
  show p < p + (decodeVarAux 5 (mem.drop p)).2
  omega

theorem decode_reloc {mem mem' : List Nat} {b b' e : Nat} (W : AgreeOn mem mem' b b' e)
    {p : Nat} (hp : b ≤ p) (hin : (decode_varuint32 mem p).2 ≤ e) :
    decode_varuint32 mem' (b' + (p - b))
      = ((decode_varuint32 mem p).1, b' + ((decode_varuint32 mem p).2 - b)) := by
  have hin2 : p + (decodeVarAux 5 (mem.drop p)).2 ≤ e := hin
  have h := decodeVarAux_local 5 (mem.drop p) (mem'.drop (b' + (p - b))) (e - p) (by omega)
    (agreeOn_at W hp)
  simp only [decode_varuint32, h, Prod.mk.injEq, true_and]
  omega

theorem getD_reloc {mem mem' : List Nat} {b b' e : Nat} (W : AgreeOn mem mem' b b' e)
    {q : Nat} (hq : b ≤ q) (hin : q + 1 ≤ e) : mem'.getD (b' + (q - b)) 0 = mem.getD q 0 := by
  have h := agreeOn_at W hq
  obtain ⟨m1, hm1⟩ : ∃ m1, e - q = m1 + 1 := ⟨e - q - 1, by omega⟩
  rw [hm1] at h
  rw [getD_eq_head_drop, getD_eq_head_drop]
  generalize mem.drop q = l at h
  generalize mem'.drop (b' + (q - b)) = l' at h
  cases l with
  | nil =>
    cases l' with
    | nil => rfl
    | cons a' t' => simp at h
  | cons a t =>
    cases l' with
    | nil => simp at h
    | cons a' t' =>
      simp only [List.take_succ_cons, List.cons.injEq] at h
      simp [h.1]

theorem skipVarints_ge (mem : List Nat) : ∀ (k p : Nat), p ≤ skipVarints mem k p := by
  intro k
  induction k with
  | zero => intro p; exact Nat.le_refl _
  | succ k ih =>
    intro p
    have := decode_gt mem p
    have := ih (decode_varuint32 mem p).2
    simp only [skipVarints]
    omega

theorem skipVarints_reloc {mem mem' : List Nat} {b b' e : Nat} (W : AgreeOn mem mem' b b' e) :
    ∀ (k p : Nat), b ≤ p → skipVarints mem k p ≤ e →
      skipVarints mem' k (b' + (p - b)) = b' + (skipVarints mem k p - b) := by
  intro k
  induction k with
  | zero => intro p _ _; rfl
  | succ k ih =>
    intro p hp hin
    simp only [skipVarints] at hin ⊢
    have h1 := decode_gt mem p
    have h2 := skipVarints_ge mem k (decode_varuint32 mem p).2
    rw [decode_reloc W hp (by omega)]
    exact ih _ (by omega) hin

theorem unpackDocs_ge (mem : List Nat) : ∀ (c i id p : Nat) (docs : List Nat),
    p ≤ (unpackDocs mem c i id p docs).2 := by
  intro c
  induction c with
  | zero => intro i id p docs; exact Nat.le_refl _
  | succ c ih =>
    intro i id p docs
    have := decode_gt mem p
    have := ih (i + 1) (u32 (id + (decode_varuint32 mem p).1)) (decode_varuint32 mem p).2
      (docs.set i (u32 (id + (decode_varuint32 mem p).1)))
    simp only [unpackDocs]
    omega

theorem unpackDocs_reloc {mem mem' : List Nat} {b b' e : Nat} (W : AgreeOn mem mem' b b' e) :
    ∀ (c i id p : Nat) (docs : List Nat), b ≤ p → (unpackDocs mem c i id p docs).2 ≤ e →
      unpackDocs mem' c i id (b' + (p - b)) docs
        = ((unpackDocs mem c i id p docs).1, b' + ((unpackDocs mem c i id p docs).2 - b)) := by
  intro c
  induction c with
  | zero => intro i id p docs _ _; rfl
  | succ c ih =>
    intro i id p docs hp hin
    simp only [unpackDocs] at hin ⊢
    have h1 := decode_gt mem p
    have h2 := unpackDocs_ge mem c (i + 1) (u32 (id + (decode_varuint32 mem p).1))
      (decode_varuint32 mem p).2 (docs.set i (u32 (id + (decode_varuint32 mem p).1)))
    rw [decode_reloc W hp (by omega)]
    exact ih _ _ _ _ (by omega) hin

theorem unpackFreqs_ge (mem : List Nat) : ∀ (c i p : Nat) (freqs : List Nat),
    p ≤ (unpackFreqs mem c i p freqs).2 := by
  intro c
  induction c with
  | zero => intro i p freqs; exact Nat.le_refl _
  | succ c ih =>
    intro i p freqs
    have := decode_gt mem p
    have := ih (i + 1) (decode_varuint32 mem p).2 (freqs.set i (decode_varuint32 mem p).1)
    simp only [unpackFreqs]
    omega

theorem unpackFreqs_reloc {mem mem' : List Nat} {b b' e : Nat} (W : AgreeOn mem mem' b b' e) :
    ∀ (c i p : Nat) (freqs : List Nat), b ≤ p → (unpackFreqs mem c i p freqs).2 ≤ e →
      unpackFreqs mem' c i (b' + (p - b)) freqs
        = ((unpackFreqs mem c i p freqs).1, b' + ((unpackFreqs mem c i p freqs).2 - b)) := by
  intro c
  induction c with
  | zero => intro i p freqs _ _; rfl
  | succ c ih =>
    intro i p freqs hp hin
    simp only [unpackFreqs] at hin ⊢
    have h1 := decode_gt mem p
    have h2 := unpackFreqs_ge mem c (i + 1) (decode_varuint32 mem p).2
      (freqs.set i (decode_varuint32 mem p).1)
    rw [decode_reloc W hp (by omega)]
    exact ih _ _ _ (by omega) hin

theorem materializeLoop_ge (mem : List Nat) (termID : Nat) :
    ∀ (k p pos : Nat) (dws : DocWordsSpace) (out : List term_hit),
      p ≤ (materializeLoop mem termID k p pos dws out).1 := by
  intro k
  induction k with
  | zero => intro p pos dws out; exact Nat.le_refl _
  | succ k ih =>
    intro p pos dws out
    have := decode_gt mem p
    simp only [materializeLoop]
    have := ih (decode_varuint32 mem p).2 ((pos + (decode_varuint32 mem p).1) % 65536)
      (dws ++ [(termID, (pos + (decode_varuint32 mem p).1) % 65536)])
      (out ++ [⟨0, (pos + (decode_varuint32 mem p).1) % 65536, 0⟩])
    omega

theorem materializeLoop_reloc {mem mem' : List Nat} {b b' e : Nat}
    (W : AgreeOn mem mem' b b' e) (termID : Nat) :
    ∀ (k p pos : Nat) (dws : DocWordsSpace) (out : List term_hit), b ≤ p →
      (materializeLoop mem termID k p pos dws out).1 ≤ e →
      materializeLoop mem' termID k (b' + (p - b)) pos dws out
        = (b' + ((materializeLoop mem termID k p pos dws out).1 - b),
            (materializeLoop mem termID k p pos dws out).2) := by
  intro k
  induction k with
  | zero => intro p pos dws out _ _; rfl
  | succ k ih =>
    intro p pos dws out hp hin
    simp only [materializeLoop] at hin ⊢
    have h1 := decode_gt mem p
    have h2 := materializeLoop_ge mem termID k (decode_varuint32 mem p).2
      ((pos + (decode_varuint32 mem p).1) % 65536)
      (dws ++ [(termID, (pos + (decode_varuint32 mem p).1) % 65536)])
      (out ++ [⟨0, (pos + (decode_varuint32 mem p).1) % 65536, 0⟩])
    rw [decode_reloc W hp (by omega)]
    exact ih _ _ _ _ (by omega) hin

theorem unpack_block_ge {d d1 : Decoder} {L n : Nat} (h : d.unpack_block L n = some d1) :
    d.p ≤ d1.p ∧ d1.mem = d.mem ∧ d1.base = d.base ∧ d1.chunkEnd = d.chunkEnd ∧
      d1.skiplist = d.skiplist := by
  unfold Decoder.unpack_block at h
  by_cases hn : n = 0
  · rw [if_pos hn] at h; cases h
  · rw [if_neg hn] at h
    simp only [Option.some.injEq] at h
    subst h
    refine ⟨?_, rfl, rfl, rfl, rfl⟩
    have g1 := unpackDocs_ge d.mem (n - 1) 0 d.blockLastDocID d.p d.documents
    have g2 := unpackFreqs_ge d.mem n 0
      (unpackDocs d.mem (n - 1) 0 d.blockLastDocID d.p d.documents).2 d.freqs
    show d.p ≤ (unpackFreqs d.mem n 0
      (unpackDocs d.mem (n - 1) 0 d.blockLastDocID d.p d.documents).2 d.freqs).2
    omega

theorem unpack_block_reloc {d d1 : Decoder} {mem' : List Nat} {b' : Nat}
    (W : AgreeOn d.mem mem' d.base b' d.chunkEnd) (hb : d.base ≤ d.p) {L n : Nat}
    (h : d.unpack_block L n = some d1) (hin : d1.p ≤ d.chunkEnd) :
    (d.relocate mem' b').unpack_block L n = some (d1.relocate mem' b') := by
  unfold Decoder.unpack_block at h ⊢
  by_cases hn : n = 0
  · rw [if_pos hn] at h; cases h
  · rw [if_neg hn] at h ⊢
    simp only [Option.some.injEq] at h
    subst h
    have hin' : (unpackFreqs d.mem n 0
      (unpackDocs d.mem (n - 1) 0 d.blockLastDocID d.p d.documents).2 d.freqs).2
        ≤ d.chunkEnd := hin
    have g1 := unpackDocs_ge d.mem (n - 1) 0 d.blockLastDocID d.p d.documents
    have g2 := unpackFreqs_ge d.mem n 0
      (unpackDocs d.mem (n - 1) 0 d.blockLastDocID d.p d.documents).2 d.freqs
    have r1 := unpackDocs_reloc W (n - 1) 0 d.blockLastDocID d.p d.documents hb (by omega)
    have r2 := unpackFreqs_reloc W n 0
      (unpackDocs d.mem (n - 1) 0 d.blockLastDocID d.p d.documents).2 d.freqs (by omega) hin'
    simp only [Decoder.relocate, r1, r2]

theorem unpack_next_block_ge {d d1 : Decoder} (h : d.unpack_next_block = some d1) :
    (decode_varuint32 d.mem (decode_varuint32 d.mem d.p).2).2 + 1 ≤ d1.p ∧ d1.mem = d.mem ∧
      d1.base = d.base ∧ d1.chunkEnd = d.chunkEnd ∧ d1.skiplist = d.skiplist := by
  unfold Decoder.unpack_next_block at h
  exact unpack_block_ge h

theorem unpack_next_block_reloc {d d1 : Decoder} {mem' : List Nat} {b' : Nat}
    (W : AgreeOn d.mem mem' d.base b' d.chunkEnd) (hb : d.base ≤ d.p)
    (h : d.unpack_next_block = some d1) (hin : d1.p ≤ d.chunkEnd) :
    (d.relocate mem' b').unpack_next_block = some (d1.relocate mem' b') := by
  have hge := (unpack_next_block_ge h).1
  have h1 := decode_gt d.mem d.p
  have h2 := decode_gt d.mem (decode_varuint32 d.mem d.p).2
  have q1 := decode_reloc W hb (show (decode_varuint32 d.mem d.p).2 ≤ d.chunkEnd by omega)
  have q2 := decode_reloc W (show d.base ≤ (decode_varuint32 d.mem d.p).2 by omega)
    (show (decode_varuint32 d.mem (decode_varuint32 d.mem d.p).2).2 ≤ d.chunkEnd by omega)
  have q3 := getD_reloc W
    (show d.base ≤ (decode_varuint32 d.mem (decode_varuint32 d.mem d.p).2).2 by omega)
    (by omega)
  have e : b' + ((decode_varuint32 d.mem (decode_varuint32 d.mem d.p).2).2 - d.base) + 1
      = b' + ((decode_varuint32 d.mem (decode_varuint32 d.mem d.p).2).2 + 1 - d.base) := by
    omega
  unfold Decoder.unpack_next_block at h ⊢
  have := unpack_block_reloc (d := { d with
    p := (decode_varuint32 d.mem (decode_varuint32 d.mem d.p).2).2 + 1 }) W
    (show d.base ≤ (decode_varuint32 d.mem (decode_varuint32 d.mem d.p).2).2 + 1 by omega) h hin
  simp only [Decoder.relocate, q1, q2, q3, e] at this ⊢
  exact this

theorem seek_block_ge (t : Nat) : ∀ (fuel : Nat) (d d1 : Decoder),
    d.seek_block fuel t = some d1 →
      (decode_varuint32 d.mem (decode_varuint32 d.mem d.p).2).2 + 1 ≤ d1.p ∧ d1.mem = d.mem ∧
        d1.base = d.base ∧ d1.chunkEnd = d.chunkEnd ∧ d1.skiplist = d.skiplist := by
  intro fuel
  induction fuel with
  | zero => intro d d1 h; cases h
  | succ fuel ih =>
    intro d d1 h
    simp only [Decoder.seek_block] at h
    by_cases h1 : t > u32 (d.blockLastDocID + (decode_varuint32 d.mem d.p).1)
    · rw [if_pos h1] at h
      by_cases h2 : (decode_varuint32 d.mem (decode_varuint32 d.mem d.p).2).2 + 1
          + (decode_varuint32 d.mem (decode_varuint32 d.mem d.p).2).1 = d.chunkEnd
      · rw [if_pos h2] at h
        simp only [Option.some.injEq] at h
        subst h
        refine ⟨?_, rfl, rfl, rfl, rfl⟩
        show _ ≤ (decode_varuint32 d.mem (decode_varuint32 d.mem d.p).2).2 + 1
          + (decode_varuint32 d.mem (decode_varuint32 d.mem d.p).2).1
        omega
      · rw [if_neg h2] at h
        obtain ⟨k1, k2, k3, k4, k5⟩ := ih _ _ h
        have g1 := decode_gt d.mem ((decode_varuint32 d.mem (decode_varuint32 d.mem d.p).2).2 + 1
          + (decode_varuint32 d.mem (decode_varuint32 d.mem d.p).2).1)
        have g2 := decode_gt d.mem (decode_varuint32 d.mem
          ((decode_varuint32 d.mem (decode_varuint32 d.mem d.p).2).2 + 1
          + (decode_varuint32 d.mem (decode_varuint32 d.mem d.p).2).1)).2
        refine ⟨?_, k2, k3, k4, k5⟩
        have k1' : (decode_varuint32 d.mem (decode_varuint32 d.mem
          ((decode_varuint32 d.mem (decode_varuint32 d.mem d.p).2).2 + 1
          + (decode_varuint32 d.mem (decode_varuint32 d.mem d.p).2).1)).2).2 + 1 ≤ d1.p := k1
        omega
    · rw [if_neg h1] at h
      obtain ⟨k1, k2, k3, k4, k5⟩ := unpack_block_ge h
      exact ⟨k1, k2, k3, k4, k5⟩

theorem seek_block_reloc {mem' : List Nat} {b' : Nat} (t : Nat) : ∀ (fuel : Nat) (d d1 : Decoder),
    AgreeOn d.mem mem' d.base b' d.chunkEnd → d.base ≤ d.p →
    d.seek_block fuel t = some d1 → d1.p ≤ d.chunkEnd →
      (d.relocate mem' b').seek_block fuel t = some (d1.relocate mem' b') := by
  intro fuel
  induction fuel with
  | zero => intro d d1 _ _ h; cases h
  | succ fuel ih =>
    intro d d1 W hb h hin
    have hge := (seek_block_ge t _ _ _ h).1
    have h1 := decode_gt d.mem d.p
    have h2 := decode_gt d.mem (decode_varuint32 d.mem d.p).2
    have q1 := decode_reloc W hb (show (decode_varuint32 d.mem d.p).2 ≤ d.chunkEnd by omega)
    have q2 := decode_reloc W (show d.base ≤ (decode_varuint32 d.mem d.p).2 by omega)
      (show (decode_varuint32 d.mem (decode_varuint32 d.mem d.p).2).2 ≤ d.chunkEnd by omega)
    have q3 := getD_reloc W
      (show d.base ≤ (decode_varuint32 d.mem (decode_varuint32 d.mem d.p).2).2 by omega)
      (by omega)
    simp only [Decoder.seek_block] at h ⊢
    simp only [Decoder.relocate, q1, q2, q3]
    by_cases c1 : t > u32 (d.blockLastDocID + (decode_varuint32 d.mem d.p).1)
    · rw [if_pos c1] at h ⊢
      have e : b' + ((decode_varuint32 d.mem (decode_varuint32 d.mem d.p).2).2 - d.base) + 1
          + (decode_varuint32 d.mem (decode_varuint32 d.mem d.p).2).1
          = b' + ((decode_varuint32 d.mem (decode_varuint32 d.mem d.p).2).2 + 1
          + (decode_varuint32 d.mem (decode_varuint32 d.mem d.p).2).1 - d.base) := by omega
      by_cases c2 : (decode_varuint32 d.mem (decode_varuint32 d.mem d.p).2).2 + 1
          + (decode_varuint32 d.mem (decode_varuint32 d.mem d.p).2).1 = d.chunkEnd
      · rw [if_pos c2] at h
        rw [if_pos (by omega)]
        simp only [Option.some.injEq] at h
        subst h
        rw [e]
        rfl
      · rw [if_neg c2] at h
        have hge2 := (seek_block_ge t _ _ _ h).1
        have g1 := decode_gt d.mem ((decode_varuint32 d.mem (decode_varuint32 d.mem d.p).2).2 + 1
          + (decode_varuint32 d.mem (decode_varuint32 d.mem d.p).2).1)
        have g2 := decode_gt d.mem (decode_varuint32 d.mem
          ((decode_varuint32 d.mem (decode_varuint32 d.mem d.p).2).2 + 1
          + (decode_varuint32 d.mem (decode_varuint32 d.mem d.p).2).1)).2
        have hge3 : (decode_varuint32 d.mem (decode_varuint32 d.mem
          ((decode_varuint32 d.mem (decode_varuint32 d.mem d.p).2).2 + 1
          + (decode_varuint32 d.mem (decode_varuint32 d.mem d.p).2).1)).2).2 + 1 ≤ d1.p := hge2
        rw [if_neg (by omega), e]
        exact ih { d with
            p := (decode_varuint32 d.mem (decode_varuint32 d.mem d.p).2).2 + 1
              + (decode_varuint32 d.mem (decode_varuint32 d.mem d.p).2).1
            blockLastDocID := u32 (d.blockLastDocID + (decode_varuint32 d.mem d.p).1) } d1 W
          (show d.base ≤ (decode_varuint32 d.mem (decode_varuint32 d.mem d.p).2).2 + 1
            + (decode_varuint32 d.mem (decode_varuint32 d.mem d.p).2).1 by omega) h hin
    · rw [if_neg c1] at h ⊢
      have e : b' + ((decode_varuint32 d.mem (decode_varuint32 d.mem d.p).2).2 - d.base) + 1
          = b' + ((decode_varuint32 d.mem (decode_varuint32 d.mem d.p).2).2 + 1 - d.base) := by
        omega
      rw [e]
      exact unpack_block_reloc (d := { d with
        p := (decode_varuint32 d.mem (decode_varuint32 d.mem d.p).2).2 + 1 }) W
        (show d.base ≤ (decode_varuint32 d.mem (decode_varuint32 d.mem d.p).2).2 + 1 by omega)
        h hin

theorem skip_remaining_ge : ∀ (fuel : Nat) (d d1 : Decoder),
    d.skip_remaining_block_documents fuel = some d1 →
      skipVarints d.mem (d.freqs.getD d.blockDocIdx 0) d.p ≤ d1.p ∧ d1.mem = d.mem ∧
        d1.base = d.base ∧ d1.chunkEnd = d.chunkEnd ∧ d1.skiplist = d.skiplist := by
  intro fuel
  induction fuel with
  | zero => intro d d1 h; cases h
  | succ fuel ih =>
    intro d d1 h
    simp only [Decoder.skip_remaining_block_documents] at h
    by_cases c1 : d.documents.getD d.blockDocIdx 0 = d.blockLastDocID
    · rw [if_pos c1] at h
      simp only [Option.some.injEq] at h
      subst h
      exact ⟨Nat.le_refl _, rfl, rfl, rfl, rfl⟩
    · rw [if_neg c1] at h
      obtain ⟨k1, k2, k3, k4, k5⟩ := ih _ _ h
      refine ⟨?_, k2, k3, k4, k5⟩
      have g := skipVarints_ge d.mem (d.freqs.getD (d.blockDocIdx + 1) 0)
        (skipVarints d.mem (d.freqs.getD d.blockDocIdx 0) d.p)
      have k1' : skipVarints d.mem (d.freqs.getD (d.blockDocIdx + 1) 0)
        (skipVarints d.mem (d.freqs.getD d.blockDocIdx 0) d.p) ≤ d1.p := k1
      omega

theorem skip_remaining_reloc {mem' : List Nat} {b' : Nat} : ∀ (fuel : Nat) (d d1 : Decoder),
    AgreeOn d.mem mem' d.base b' d.chunkEnd → d.base ≤ d.p →
    d.skip_remaining_block_documents fuel = some d1 → d1.p ≤ d.chunkEnd →
      (d.relocate mem' b').skip_remaining_block_documents fuel = some (d1.relocate mem' b') := by
  intro fuel
  induction fuel with
  | zero => intro d d1 _ _ h; cases h
  | succ fuel ih =>
    intro d d1 W hb h hin
    have hge := (skip_remaining_ge _ _ _ h).1
    have g0 := skipVarints_ge d.mem (d.freqs.getD d.blockDocIdx 0) d.p
    have q := skipVarints_reloc W (d.freqs.getD d.blockDocIdx 0) d.p hb (by omega)
    simp only [Decoder.skip_remaining_block_documents] at h ⊢
    simp only [Decoder.relocate, q]
    by_cases c1 : d.documents.getD d.blockDocIdx 0 = d.blockLastDocID
    · rw [if_pos c1] at h ⊢
      simp only [Option.some.injEq] at h
      subst h
      rfl
    · rw [if_neg c1] at h ⊢
      exact ih { d with
          p := skipVarints d.mem (d.freqs.getD d.blockDocIdx 0) d.p
          blockDocIdx := d.blockDocIdx + 1 } d1 W
        (show d.base ≤ skipVarints d.mem (d.freqs.getD d.blockDocIdx 0) d.p by omega) h hin

theorem skip_block_doc_reloc {d : Decoder} {mem' : List Nat} {b' : Nat}
    (W : AgreeOn d.mem mem' d.base b' d.chunkEnd) (hb : d.base ≤ d.p)
    (hin : d.skip_block_doc.p ≤ d.chunkEnd) :
    (d.relocate mem' b').skip_block_doc = d.skip_block_doc.relocate mem' b' := by
  have q := skipVarints_reloc W (d.freqs.getD d.blockDocIdx 0) d.p hb hin
  simp only [Decoder.skip_block_doc, Decoder.relocate, q]

theorem seek_scan_ge (t : Nat) : ∀ (fuel : Nat) (d d1 : Decoder) (r : Bool),
    d.seek_scan fuel t = some (r, d1) →
      d.p ≤ d1.p ∧ d1.mem = d.mem ∧ d1.base = d.base ∧ d1.chunkEnd = d.chunkEnd ∧
        d1.skiplist = d.skiplist := by
  intro fuel
  induction fuel with
  | zero => intro d d1 r h; cases h
  | succ fuel ih =>
    intro d d1 r h
    simp only [Decoder.seek_scan] at h
    by_cases c1 : d.documents.getD d.blockDocIdx 0 > t
    · rw [if_pos c1] at h
      simp only [Option.some.injEq, Prod.mk.injEq] at h
      obtain ⟨-, rfl⟩ := h
      exact ⟨Nat.le_refl _, rfl, rfl, rfl, rfl⟩
    · rw [if_neg c1] at h
      by_cases c2 : d.documents.getD d.blockDocIdx 0 = t
      · rw [if_pos c2] at h
        simp only [Option.some.injEq, Prod.mk.injEq] at h
        obtain ⟨-, rfl⟩ := h
        exact ⟨Nat.le_refl _, rfl, rfl, rfl, rfl⟩
      · rw [if_neg c2] at h
        by_cases c3 : d.documents.getD d.blockDocIdx 0 = d.blockLastDocID
        · rw [if_pos c3] at h
          simp only [Option.some.injEq, Prod.mk.injEq] at h
          obtain ⟨-, rfl⟩ := h
          exact ⟨Nat.le_refl _, rfl, rfl, rfl, rfl⟩
        · rw [if_neg c3] at h
          obtain ⟨k1, k2, k3, k4, k5⟩ := ih _ _ _ h
          refine ⟨?_, k2, k3, k4, k5⟩
          have g := skipVarints_ge d.mem (d.freqs.getD d.blockDocIdx 0) d.p
          have k1' : skipVarints d.mem (d.freqs.getD d.blockDocIdx 0) d.p ≤ d1.p := k1
          omega

theorem seek_scan_reloc {mem' : List Nat} {b' : Nat} (t : Nat) :
    ∀ (fuel : Nat) (d d1 : Decoder) (r : Bool),
    AgreeOn d.mem mem' d.base b' d.chunkEnd → d.base ≤ d.p →
    d.seek_scan fuel t = some (r, d1) → d1.p ≤ d.chunkEnd →
      (d.relocate mem' b').seek_scan fuel t = some (r, d1.relocate mem' b') := by
  intro fuel
  induction fuel with
  | zero => intro d d1 r _ _ h; cases h
  | succ fuel ih =>
    intro d d1 r W hb h hin
    simp only [Decoder.seek_scan] at h ⊢
    have e1 : (d.relocate mem' b').documents = d.documents := rfl
    have e2 : (d.relocate mem' b').blockDocIdx = d.blockDocIdx := rfl
    have e3 : (d.relocate mem' b').blockLastDocID = d.blockLastDocID := rfl
    rw [e1, e2, e3]
    by_cases c1 : d.documents.getD d.blockDocIdx 0 > t
    · rw [if_pos c1] at h ⊢
      simp only [Option.some.injEq, Prod.mk.injEq] at h
      obtain ⟨rfl, rfl⟩ := h
      rfl
    · rw [if_neg c1] at h ⊢
      by_cases c2 : d.documents.getD d.blockDocIdx 0 = t
      · rw [if_pos c2] at h ⊢
        simp only [Option.some.injEq, Prod.mk.injEq] at h
        obtain ⟨rfl, rfl⟩ := h
        rfl
      · rw [if_neg c2] at h ⊢
        by_cases c3 : d.documents.getD d.blockDocIdx 0 = d.blockLastDocID
        · rw [if_pos c3] at h ⊢
          simp only [Option.some.injEq, Prod.mk.injEq] at h
          obtain ⟨rfl, rfl⟩ := h
          rfl
        · rw [if_neg c3] at h ⊢
          have hge := (seek_scan_ge t _ _ _ _ h).1
          have hin2 : d.skip_block_doc.p ≤ d.chunkEnd := Nat.le_trans hge hin
          rw [skip_block_doc_reloc W hb hin2]
          exact ih d.skip_block_doc d1 r W (Nat.le_trans hb (skipVarints_ge d.mem _ d.p)) h hin

theorem next_frame {d d1 : Decoder} {r : Bool} (h : d.next = some (r, d1)) :
    d.skip_block_doc.p ≤ d1.p ∧ d1.mem = d.mem ∧ d1.base = d.base ∧
      d1.chunkEnd = d.chunkEnd ∧ d1.skiplist = d.skiplist := by
  unfold Decoder.next at h
  by_cases c1 : d.documents.getD d.blockDocIdx 0 = d.blockLastDocID
  · rw [if_pos c1] at h
    by_cases c2 : d.skip_block_doc.p ≠ d.skip_block_doc.chunkEnd
    · simp only [c2, if_true, ne_eq, not_false_eq_true] at h
      cases hu : d.skip_block_doc.unpack_next_block with
      | none => rw [hu] at h; cases h
      | some d3 =>
        rw [hu] at h
        simp only [Option.map_some', Option.some.injEq, Prod.mk.injEq] at h
        obtain ⟨-, rfl⟩ := h
        obtain ⟨k1, k2, k3, k4, k5⟩ := unpack_next_block_ge hu
        have g1 := decode_gt d.skip_block_doc.mem d.skip_block_doc.p
        have g2 := decode_gt d.skip_block_doc.mem
          (decode_varuint32 d.skip_block_doc.mem d.skip_block_doc.p).2
        exact ⟨by omega, k2, k3, k4, k5⟩
    · simp only [c2, if_false] at h
      simp only [Option.some.injEq, Prod.mk.injEq] at h
      obtain ⟨-, rfl⟩ := h
      exact ⟨Nat.le_refl _, rfl, rfl, rfl, rfl⟩
  · rw [if_neg c1] at h
    simp only [Option.some.injEq, Prod.mk.injEq] at h
    obtain ⟨-, rfl⟩ := h
    exact ⟨Nat.le_refl _, rfl, rfl, rfl, rfl⟩

theorem next_reloc {d d1 : Decoder} {r : Bool} {mem' : List Nat} {b' : Nat}
    (W : AgreeOn d.mem mem' d.base b' d.chunkEnd) (hb : d.base ≤ d.p)
    (h : d.next = some (r, d1)) (hin : d1.p ≤ d.chunkEnd) :
    (d.relocate mem' b').next = some (r, d1.relocate mem' b') := by
  have hge := (next_frame h).1
  have hin2 : d.skip_block_doc.p ≤ d.chunkEnd := Nat.le_trans hge hin
  have hb2 : d.base ≤ d.skip_block_doc.p :=
    Nat.le_trans hb (skipVarints_ge d.mem _ d.p)
  have q := skip_block_doc_reloc W hb hin2
  unfold Decoder.next at h ⊢
  have e1 : (d.relocate mem' b').documents = d.documents := rfl
  have e2 : (d.relocate mem' b').blockDocIdx = d.blockDocIdx := rfl
  have e3 : (d.relocate mem' b').blockLastDocID = d.blockLastDocID := rfl
  rw [e1, e2, e3, q]
  by_cases c1 : d.documents.getD d.blockDocIdx 0 = d.blockLastDocID
  · rw [if_pos c1] at h ⊢
    have hc : (d.skip_block_doc.relocate mem' b').p ≠ (d.skip_block_doc.relocate mem' b').chunkEnd
        ↔ d.skip_block_doc.p ≠ d.skip_block_doc.chunkEnd := by
      show b' + (d.skip_block_doc.p - d.base) ≠ b' + (d.chunkEnd - d.base)
        ↔ d.skip_block_doc.p ≠ d.chunkEnd
      omega
    by_cases c2 : d.skip_block_doc.p ≠ d.skip_block_doc.chunkEnd
    · simp only [c2, if_true, ne_eq, not_false_eq_true] at h
      simp only [hc.mpr c2, if_true, ne_eq, not_false_eq_true]
      cases hu : d.skip_block_doc.unpack_next_block with
      | none => rw [hu] at h; cases h
      | some d3 =>
        rw [hu] at h
        simp only [Option.map_some', Option.some.injEq, Prod.mk.injEq] at h
        obtain ⟨rfl, rfl⟩ := h
        rw [unpack_next_block_reloc (d := d.skip_block_doc) W hb2 hu hin]
        rfl
    · have c2' : ¬ (d.skip_block_doc.relocate mem' b').p
          ≠ (d.skip_block_doc.relocate mem' b').chunkEnd := fun hx => c2 (hc.mp hx)
      simp only [c2, if_false] at h
      simp only [c2', if_false]
      simp only [Option.some.injEq, Prod.mk.injEq] at h
      obtain ⟨rfl, rfl⟩ := h
      rfl
  · rw [if_neg c1] at h ⊢
    simp only [Option.some.injEq, Prod.mk.injEq] at h
    obtain ⟨rfl, rfl⟩ := h
    rfl

theorem begin_frame {d d1 : Decoder} {x : Nat} (h : d.begin = some (x, d1)) :
    d.p ≤ d1.p ∧ d1.mem = d.mem ∧ d1.base = d.base ∧ d1.chunkEnd = d.chunkEnd ∧
      d1.skiplist = d.skiplist := by
  unfold Decoder.begin at h
  by_cases c : d.p ≠ d.chunkEnd
  · simp only [c, if_true, ne_eq, not_false_eq_true] at h
    cases hu : d.unpack_next_block with
    | none => rw [hu] at h; cases h
    | some d3 =>
      rw [hu] at h
      simp only [Option.map_some', Option.some.injEq, Prod.mk.injEq] at h
      obtain ⟨-, rfl⟩ := h
      obtain ⟨k1, k2, k3, k4, k5⟩ := unpack_next_block_ge hu
      have g1 := decode_gt d.mem d.p
      have g2 := decode_gt d.mem (decode_varuint32 d.mem d.p).2
      exact ⟨by omega, k2, k3, k4, k5⟩
  · simp only [c, if_false] at h
    simp only [Option.some.injEq, Prod.mk.injEq] at h
    obtain ⟨-, rfl⟩ := h
    exact ⟨Nat.le_refl _, rfl, rfl, rfl, rfl⟩

theorem begin_reloc {d d1 : Decoder} {x : Nat} {mem' : List Nat} {b' : Nat}
    (W : AgreeOn d.mem mem' d.base b' d.chunkEnd) (hb : d.base ≤ d.p)
    (h : d.begin = some (x, d1)) (hin : d1.p ≤ d.chunkEnd) :
    (d.relocate mem' b').begin = some (x, d1.relocate mem' b') := by
  have hge := (begin_frame h).1
  unfold Decoder.begin at h ⊢
  have hc : (d.relocate mem' b').p ≠ (d.relocate mem' b').chunkEnd ↔ d.p ≠ d.chunkEnd := by
    show b' + (d.p - d.base) ≠ b' + (d.chunkEnd - d.base) ↔ d.p ≠ d.chunkEnd
    omega
  by_cases c : d.p ≠ d.chunkEnd
  · simp only [c, if_true, ne_eq, not_false_eq_true] at h
    simp only [hc.mpr c, if_true, ne_eq, not_false_eq_true]
    cases hu : d.unpack_next_block with
    | none => rw [hu] at h; cases h
    | some d3 =>
      rw [hu] at h
      simp only [Option.map_some', Option.some.injEq, Prod.mk.injEq] at h
      obtain ⟨rfl, rfl⟩ := h
      rw [unpack_next_block_reloc W hb hu hin]
      rfl
  · have c' : ¬ (d.relocate mem' b').p ≠ (d.relocate mem' b').chunkEnd :=
      fun hx => c (hc.mp hx)
    simp only [c, if_false] at h
    simp only [c', if_false]
    simp only [Option.some.injEq, Prod.mk.injEq] at h
    obtain ⟨rfl, rfl⟩ := h
    rfl

theorem seek_frame {d d1 : Decoder} {r : Bool} {fuel t : Nat} (hs : d.skiplist = [])
    (h : d.seek fuel t = some (r, d1)) :
    d.p ≤ d1.p ∧ d1.mem = d.mem ∧ d1.base = d.base ∧ d1.chunkEnd = d.chunkEnd ∧
      d1.skiplist = d.skiplist := by
  rw [seek_eq_jump] at h
  by_cases c1 : t > d.blockLastDocID
  · rw [if_pos c1] at h
    cases h2 : d.skip_remaining_block_documents fuel with
    | none => rw [h2] at h; cases h
    | some d2 =>
      rw [h2, Option.some_bind] at h
      obtain ⟨k1, k2, k3, k4, k5⟩ := skip_remaining_ge _ _ _ h2
      have g0 := skipVarints_ge d.mem (d.freqs.getD d.blockDocIdx 0) d.p
      by_cases c2 : d2.p = d2.chunkEnd
      · rw [if_pos c2] at h
        simp only [Option.some.injEq, Prod.mk.injEq] at h
        obtain ⟨-, rfl⟩ := h
        exact ⟨by show d.p ≤ d2.p; omega, k2, k3, k4, k5⟩
      · rw [if_neg c2, skiplist_jump_nil (by rw [k5]; exact hs)] at h
        cases h3 : d2.seek_block fuel t with
        | none => rw [h3] at h; cases h
        | some d3 =>
          rw [h3, Option.some_bind] at h
          obtain ⟨j1, j2, j3, j4, j5⟩ := seek_block_ge t _ _ _ h3
          obtain ⟨i1, i2, i3, i4, i5⟩ := seek_scan_ge t _ _ _ _ h
          have g1 := decode_gt d2.mem d2.p
          have g2 := decode_gt d2.mem (decode_varuint32 d2.mem d2.p).2
          exact ⟨by omega, by rw [i2, j2, k2], by rw [i3, j3, k3], by rw [i4, j4, k4],
            by rw [i5, j5, k5]⟩
  · rw [if_neg c1] at h
    exact seek_scan_ge t _ _ _ _ h

theorem seek_reloc {d d1 : Decoder} {r : Bool} {fuel t : Nat} {mem' : List Nat} {b' : Nat}
    (W : AgreeOn d.mem mem' d.base b' d.chunkEnd) (hb : d.base ≤ d.p) (hs : d.skiplist = [])
    (h : d.seek fuel t = some (r, d1)) (hin : d1.p ≤ d.chunkEnd) :
    (d.relocate mem' b').seek fuel t = some (r, d1.relocate mem' b') := by
  rw [seek_eq_jump] at h ⊢
  have e3 : (d.relocate mem' b').blockLastDocID = d.blockLastDocID := rfl
  rw [e3]
  by_cases c1 : t > d.blockLastDocID
  · rw [if_pos c1] at h ⊢
    cases h2 : d.skip_remaining_block_documents fuel with
    | none => rw [h2] at h; cases h
    | some d2 =>
      rw [h2, Option.some_bind] at h
      obtain ⟨k1, k2, k3, k4, k5⟩ := skip_remaining_ge _ _ _ h2
      have g0 := skipVarints_ge d.mem (d.freqs.getD d.blockDocIdx 0) d.p
      have hb2 : d2.base ≤ d2.p := by rw [k3]; omega
      have W2 : AgreeOn d2.mem mem' d2.base b' d2.chunkEnd := by rw [k2, k3, k4]; exact W
      by_cases c2 : d2.p = d2.chunkEnd
      · rw [if_pos c2] at h
        simp only [Option.some.injEq, Prod.mk.injEq] at h
        obtain ⟨rfl, rfl⟩ := h
        rw [skip_remaining_reloc _ _ _ W hb h2 (by rw [← k4]; omega), Option.some_bind]
        have c2' : (d2.relocate mem' b').p = (d2.relocate mem' b').chunkEnd := by
          show b' + (d2.p - d2.base) = b' + (d2.chunkEnd - d2.base)
          rw [c2]
        rw [if_pos c2']
        rfl
      · rw [if_neg c2, skiplist_jump_nil (by rw [k5]; exact hs)] at h
        cases h3 : d2.seek_block fuel t with
        | none => rw [h3] at h; cases h
        | some d3 =>
          rw [h3, Option.some_bind] at h
          obtain ⟨j1, j2, j3, j4, j5⟩ := seek_block_ge t _ _ _ h3
          obtain ⟨i1, i2, i3, i4, i5⟩ := seek_scan_ge t _ _ _ _ h
          have g1 := decode_gt d2.mem d2.p
          have g2 := decode_gt d2.mem (decode_varuint32 d2.mem d2.p).2
          have hin3 : d3.p ≤ d2.chunkEnd := by rw [k4]; omega
          have hin2 : d2.p ≤ d.chunkEnd := by omega
          have hb3 : d3.base ≤ d3.p := by rw [j3]; omega
          have W3 : AgreeOn d3.mem mem' d3.base b' d3.chunkEnd := by rw [j2, j3, j4]; exact W2
          rw [skip_remaining_reloc _ _ _ W hb h2 hin2, Option.some_bind]
          have c2' : ¬ (d2.relocate mem' b').p = (d2.relocate mem' b').chunkEnd := by
            show ¬ b' + (d2.p - d2.base) = b' + (d2.chunkEnd - d2.base)
            omega
          have hs2 : (d2.relocate mem' b').skiplist = [] := by
            show d2.skiplist = []
            rw [k5]; exact hs
          rw [if_neg c2', skiplist_jump_nil hs2, seek_block_reloc t _ _ _ W2 hb2 h3 hin3,
            Option.some_bind]
          exact seek_scan_reloc t _ _ _ _ W3 hb3 h (by rw [j4, k4]; exact hin)
  · rw [if_neg c1] at h ⊢
    exact seek_scan_reloc t _ _ _ _ W hb h hin

theorem materializeLoop_p (mem : List Nat) (termID : Nat) :
    ∀ (k p pos : Nat) (dws : DocWordsSpace) (out : List term_hit),
      (materializeLoop mem termID k p pos dws out).1 = skipVarints mem k p := by
  intro k
  induction k with
  | zero => intro p pos dws out; rfl
  | succ k ih =>
    intro p pos dws out
    simp only [materializeLoop, skipVarints]
    exact ih _ _ _ _

theorem materialize_hits_reloc {d d1 : Decoder} {termID : Nat} {dws w : DocWordsSpace}
    {o : List term_hit} {mem' : List Nat} {b' : Nat}
    (W : AgreeOn d.mem mem' d.base b' d.chunkEnd) (hb : d.base ≤ d.p)
    (h : d.materialize_hits termID dws = some (d1, w, o)) (hin : d1.p ≤ d.chunkEnd) :
    (d.relocate mem' b').materialize_hits termID dws = some (d1.relocate mem' b', w, o) := by
  unfold Decoder.materialize_hits at h ⊢
  have e1 : (d.relocate mem' b').freqs = d.freqs := rfl
  have e2 : (d.relocate mem' b').blockDocIdx = d.blockDocIdx := rfl
  rw [e1, e2]
  by_cases c : 65536 ≤ d.freqs.getD d.blockDocIdx 0
  · simp only [c, if_true] at h
    cases h
  · simp only [c, if_false, Option.some.injEq, Prod.mk.injEq] at h ⊢
    obtain ⟨rfl, rfl, rfl⟩ := h
    have q := materializeLoop_reloc W termID (d.freqs.getD d.blockDocIdx 0) d.p 0 dws [] hb hin
    have e4 : (d.relocate mem' b').mem = mem' := rfl
    have e5 : (d.relocate mem' b').p = b' + (d.p - d.base) := rfl
    rw [e4, e5, q]
    exact ⟨rfl, rfl, rfl⟩

theorem materialize_hits_frame {d d1 : Decoder} {termID : Nat} {dws w : DocWordsSpace}
    {o : List term_hit} (h : d.materialize_hits termID dws = some (d1, w, o)) :
    d1 = { d with p := skipVarints d.mem (d.freqs.getD d.blockDocIdx 0) d.p
                  freqs := d.freqs.set d.blockDocIdx 0 } := by
  unfold Decoder.materialize_hits at h
  by_cases c : 65536 ≤ d.freqs.getD d.blockDocIdx 0
  · simp only [c, if_true] at h
    cases h
  · simp only [c, if_false, Option.some.injEq, Prod.mk.injEq] at h
    rw [← h.1, materializeLoop_p]

/-- Reading the positions of the current document leaves the decoder on it,
past its positions, with its frequency slot cleared. -/
theorem DecInv.materialize {d d1 : Decoder} {fresh : Bool} {B : List Posting}
    {R : List (List Posting)} (h : DecInv d fresh B R) {termID : Nat} {dws w : DocWordsSpace}
    {o : List term_hit} (hm : d.materialize_hits termID dws = some (d1, w, o)) :
    DecInv d1 false B R ∧ d1.blockDocIdx = d.blockDocIdx ∧ d1.mem = d.mem ∧
      d1.base = d.base ∧ d1.chunkEnd = d.chunkEnd := by
  have hd1 := materialize_hits_frame hm
  subst hd1
  obtain ⟨hb, he, hp⟩ := h.skip_cur
  have hidx := h.idx_lt
  have hlen := h.len_le
  have hfl := h.freqs_len
  refine ⟨⟨h.idx_lt, h.len_le, h.docs_len, ?_, h.docs, ?_, ?_, h.last, ?_, ?_, h.blocks, h.wf,
    h.skiplist, Nat.le_trans h.base_le hp⟩, rfl, rfl, rfl, rfl⟩
  · show (d.freqs.set d.blockDocIdx 0).length = N
    rw [List.length_set]; exact h.freqs_len
  · intro j x hj hx
    show (d.freqs.set d.blockDocIdx 0)[j]? = some x.freq
    have hj' : d.blockDocIdx < j := hj
    rw [List.getElem?_set_ne (by omega)]
    exact h.freqs j x hj' hx
  · intro x _
    show (d.freqs.set d.blockDocIdx 0)[d.blockDocIdx]? = some (if false = true then x.freq else 0)
    rw [List.getElem?_set_self (by omega)]
    rfl
  · show d.mem.drop (skipVarints d.mem (d.freqs.getD d.blockDocIdx 0) d.p)
      = hitsOf (B.drop (if false = true then d.blockDocIdx else d.blockDocIdx + 1))
        ++ chunkBytes (lastDoc 0 B) R ++ d.mem.drop d.chunkEnd
    simpa using hb
  · show skipVarints d.mem (d.freqs.getD d.blockDocIdx 0) d.p
      + (hitsOf (B.drop (if false = true then d.blockDocIdx else d.blockDocIdx + 1))
        ++ chunkBytes (lastDoc 0 B) R).length = d.chunkEnd
    simpa using he

theorem SeekInv.bounds {S : List Posting} {d : Decoder} (h : SeekInv S d)
    (hbe : d.base ≤ d.chunkEnd) : d.base ≤ d.p ∧ d.p ≤ d.chunkEnd ∧ d.skiplist = [] := by
  obtain ⟨fresh, pre, rem, hs, -, -⟩ := h
  rcases hs with ⟨B, R, inv, -⟩ | ⟨-, term⟩
  · have := inv.p_end
    exact ⟨inv.base_le, by omega, inv.skiplist⟩
  · rw [term.p_end]
    exact ⟨hbe, Nat.le_refl _, term.skiplist⟩

theorem SeekInv.skiplist_nil {S : List Posting} {d : Decoder} (h : SeekInv S d) :
    d.skiplist = [] := by
  obtain ⟨fresh, pre, rem, hs, -, -⟩ := h
  rcases hs with ⟨B, R, inv, -⟩ | ⟨-, term⟩
  · exact inv.skiplist
  · exact term.skiplist

/-- An allowed call that returns keeps the invariant of the decoder and its
chunk range. -/
theorem SeekInv.call {S : List Posting} (wf : WellFormed S) {d d1 : Decoder} (h : SeekInv S d)
    {m : Nat} (hm : N + S.length + 1 ≤ m) {c : DecCall} {r : DecResult} (ha : d.allows m c)
    (hc : d.call c = some (r, d1)) :
    SeekInv S d1 ∧ d1.mem = d.mem ∧ d1.base = d.base ∧ d1.chunkEnd = d.chunkEnd := by
  cases c with
  | next =>
    have ha' : d.cur_document ≠ UINT32_MAX := ha
    have hc' : (d.next.map fun r => (DecResult.flag r.1, r.2)) = some (r, d1) := hc
    cases hn : d.next with
    | none => rw [hn] at hc'; cases hc'
    | some x =>
      obtain ⟨b, d2⟩ := x
      rw [hn] at hc'
      simp only [Option.map_some', Option.some.injEq, Prod.mk.injEq] at hc'
      obtain ⟨-, rfl⟩ := hc'
      obtain ⟨-, k2, k3, k4, -⟩ := next_frame hn
      exact ⟨(h.reach wf hm (Reach.next Reach.refl ha' hn)).1, k2, k3, k4⟩
  | seek fuel t =>
    have ha' : m ≤ fuel ∧ t ≤ UINT32_MAX := ha
    have hc' : ((d.seek fuel t).map fun r => (DecResult.flag r.1, r.2)) = some (r, d1) := hc
    cases hn : d.seek fuel t with
    | none => rw [hn] at hc'; cases hc'
    | some x =>
      obtain ⟨b, d2⟩ := x
      rw [hn] at hc'
      simp only [Option.map_some', Option.some.injEq, Prod.mk.injEq] at hc'
      obtain ⟨-, rfl⟩ := hc'
      obtain ⟨-, k2, k3, k4, -⟩ := seek_frame h.skiplist_nil hn
      exact ⟨(h.reach wf hm (Reach.seek Reach.refl ha'.1 ha'.2 hn)).1, k2, k3, k4⟩
  | materialize_hits termID dws =>
    have ha' : d.cur_document ≠ UINT32_MAX := ha
    have hc' : ((d.materialize_hits termID dws).map
      fun r => (DecResult.hits r.2.1 r.2.2, r.1)) = some (r, d1) := hc
    cases hn : d.materialize_hits termID dws with
    | none => rw [hn] at hc'; cases hc'
    | some x =>
      obtain ⟨d2, w, o⟩ := x
      rw [hn] at hc'
      simp only [Option.map_some', Option.some.injEq, Prod.mk.injEq] at hc'
      obtain ⟨-, rfl⟩ := hc'
      obtain ⟨fresh, pre, rem, hs, hfull, hsz⟩ := h
      rcases hs with ⟨B, R, inv, hrem⟩ | ⟨-, term⟩
      · obtain ⟨inv1, k1, k2, k3, k4⟩ := inv.materialize hn
        exact ⟨⟨false, pre, rem, Or.inl ⟨B, R, inv1, by rw [k1]; exact hrem⟩, hfull,
          by rw [k3, k4]; exact hsz⟩, k2, k3, k4⟩
      · exact absurd term.cur_document_max ha'

/-- The invariant of the decoder holds along a run. -/
theorem Session.invariant {S : List Posting} (wf : WellFormed S) {m : Nat}
    (hm : N + S.length + 1 ≤ m) {d0 d : Decoder} {tr : List (DecCall × DecResult × Nat × Nat)}
    (h0 : SeekInv S d0) (hs : Session m d0 tr d) :
    SeekInv S d ∧ d.mem = d0.mem ∧ d.base = d0.base ∧ d.chunkEnd = d0.chunkEnd := by
  induction hs with
  | start => exact ⟨h0, rfl, rfl, rfl⟩
  | step _ ha hc ih =>
    obtain ⟨i1, i2, i3, i4⟩ := ih
    obtain ⟨k1, k2, k3, k4⟩ := i1.call wf hm ha hc
    exact ⟨k1, by rw [k2, i2], by rw [k3, i3], by rw [k4, i4]⟩

/-- A call that returns with the pointer inside the chunk returns the same on
the relocated decoder. -/
theorem call_reloc {d d1 : Decoder} {c : DecCall} {r : DecResult} {mem' : List Nat} {b' : Nat}
    (W : AgreeOn d.mem mem' d.base b' d.chunkEnd) (hb : d.base ≤ d.p) (hs : d.skiplist = [])
    (hc : d.call c = some (r, d1)) (hin : d1.p ≤ d.chunkEnd) :
    (d.relocate mem' b').call c = some (r, d1.relocate mem' b') := by
  cases c with
  | next =>
    have hc' : (d.next.map fun r => (DecResult.flag r.1, r.2)) = some (r, d1) := hc
    show ((d.relocate mem' b').next.map fun r => (DecResult.flag r.1, r.2)) = _
    cases hn : d.next with
    | none => rw [hn] at hc'; cases hc'
    | some x =>
      obtain ⟨b, d2⟩ := x
      rw [hn] at hc'
      simp only [Option.map_some', Option.some.injEq, Prod.mk.injEq] at hc'
      obtain ⟨rfl, rfl⟩ := hc'
      rw [next_reloc W hb hn hin]
      rfl
  | seek fuel t =>
    have hc' : ((d.seek fuel t).map fun r => (DecResult.flag r.1, r.2)) = some (r, d1) := hc
    show (((d.relocate mem' b').seek fuel t).map fun r => (DecResult.flag r.1, r.2)) = _
    cases hn : d.seek fuel t with
    | none => rw [hn] at hc'; cases hc'
    | some x =>
      obtain ⟨b, d2⟩ := x
      rw [hn] at hc'
      simp only [Option.map_some', Option.some.injEq, Prod.mk.injEq] at hc'
      obtain ⟨rfl, rfl⟩ := hc'
      rw [seek_reloc W hb hs hn hin]
      rfl
  | materialize_hits termID dws =>
    have hc' : ((d.materialize_hits termID dws).map
      fun r => (DecResult.hits r.2.1 r.2.2, r.1)) = some (r, d1) := hc
    show (((d.relocate mem' b').materialize_hits termID dws).map
      fun r => (DecResult.hits r.2.1 r.2.2, r.1)) = _
    cases hn : d.materialize_hits termID dws with
    | none => rw [hn] at hc'; cases hc'
    | some x =>
      obtain ⟨d2, w, o⟩ := x
      rw [hn] at hc'
      simp only [Option.map_some', Option.some.injEq, Prod.mk.injEq] at hc'
      obtain ⟨rfl, rfl⟩ := hc'
      rw [materialize_hits_reloc W hb hn hin]
      rfl

/-- A run of the decoder on a well-formed chunk is, call for call and result
for result, a run of the decoder relocated to a memory that holds the same
chunk bytes. -/
theorem Session.relocated {S : List Posting} (wf : WellFormed S) {m : Nat}
    (hm : N + S.length + 1 ≤ m) {d0 d : Decoder} {tr : List (DecCall × DecResult × Nat × Nat)}
    (h0 : SeekInv S d0) (hbe : d0.base ≤ d0.chunkEnd) {mem' : List Nat} {b' : Nat}
    (W : AgreeOn d0.mem mem' d0.base b' d0.chunkEnd) (hs : Session m d0 tr d) :
    Session m (d0.relocate mem' b') tr (d.relocate mem' b') := by
  induction hs with
  | start => exact Session.start
  | @step tr d d1 c r hs ha hc ih =>
    obtain ⟨i1, i2, i3, i4⟩ := Session.invariant wf hm h0 hs
    obtain ⟨j1, j2, j3, j4⟩ := Session.invariant wf hm h0 (Session.step hs ha hc)
    have hbd : d.base ≤ d.chunkEnd := by rw [i3, i4]; exact hbe
    have hbd1 : d1.base ≤ d1.chunkEnd := by rw [j3, j4]; exact hbe
    obtain ⟨b1, -, b3⟩ := i1.bounds hbd
    obtain ⟨-, c2, -⟩ := j1.bounds hbd1
    have Wd : AgreeOn d.mem mem' d.base b' d.chunkEnd := by rw [i2, i3, i4]; exact W
    have hcr := call_reloc Wd b1 b3 hc (by rw [i4, ← j4]; exact c2)
    have har : (d.relocate mem' b').allows m c := by
      cases c with
      | next => exact ha
      | seek fuel t => exact ha
      | materialize_hits termID dws => exact ha
    exact Session.step ih har hcr

theorem range_map_getD_drop (l : List Nat) (o n : Nat) (h : o + n ≤ l.length) :
    (List.range n).map (fun i => l.getD (o + i) 0) = (l.drop o).take n := by
  apply List.ext_getElem
  · simp only [List.length_map, List.length_range, List.length_take, List.length_drop]
    omega
  · intro i h1 h2
    simp only [List.length_map, List.length_range] at h1
    simp only [List.getElem_map, List.getElem_range, List.getElem_take, List.getElem_drop]
    rw [List.getD_eq_getElem _ _ (by omega)]

theorem new_decoder_fields (tctx : term_index_ctx) (mem : List Nat) :
    (new_decoder tctx mem).mem = mem ∧ (new_decoder tctx mem).base = tctx.offset ∧
      (new_decoder tctx mem).chunkEnd = tctx.offset + tctx.size ∧
      (new_decoder tctx mem).p = tctx.offset := by
  simp only [new_decoder, Decoder.init]
  split <;> exact ⟨rfl, rfl, rfl, rfl⟩

theorem new_decoder_relocate (n n' off size : Nat) (mem mem' : List Nat) (o : Nat) :
    (new_decoder ⟨n, off, size⟩ mem).relocate mem' o = new_decoder ⟨n', o, size⟩ mem' := by
  have e1 : o + (off - off) = o := by omega
  have e2 : o + (off + size - off) = o + size := by omega
  simp only [new_decoder, Decoder.init]
  split
  · simp only [Decoder.relocate, Decoder.finalize, e1, e2]
  · simp only [Decoder.relocate, e1, e2]

/-- The state after `begin()` of a decoder initialised on a memory that holds
the bytes of a chunk at the range of its term context. -/
theorem begin_seekInv {Bs : List (List Posting)}
    (hblocks : ∀ B ∈ Bs, 0 < B.length ∧ B.length ≤ N) (wf : WellFormed Bs.flatten)
    (hpos : ∀ x ∈ Bs.flatten, 1 ≤ x.docID) (mem : List Nat) (off n : Nat)
    (hmem : mem.drop off = chunkBytes 0 Bs ++ mem.drop (off + (chunkBytes 0 Bs).length))
    (hsz : (chunkBytes 0 Bs).length < 4294967296) :
    ∃ x d1, (new_decoder ⟨n, off, (chunkBytes 0 Bs).length⟩ mem).begin = some (x, d1) ∧
      SeekInv Bs.flatten d1 := by
  obtain ⟨f1, f2, f3, f4⟩ := new_decoder_fields ⟨n, off, (chunkBytes 0 Bs).length⟩ mem
  cases Bs with
  | nil =>
    have hterm : DecTerm (new_decoder ⟨n, off, 0⟩ mem) := by
      simp only [new_decoder, Decoder.init, if_true]
      exact DecTerm.finalize rfl (by simp [Decoder.new]) (by simp [Decoder.new]) rfl
    have hterm2 : DecTerm (new_decoder ⟨n, off, 0⟩ mem).finalize :=
      DecTerm.finalize hterm.p_end hterm.docs_len hterm.freqs_len hterm.skiplist
    simp only [chunkBytes, List.length_nil] at f2 f3 ⊢
    refine ⟨(new_decoder ⟨n, off, 0⟩ mem).finalize.cur_document,
      (new_decoder ⟨n, off, 0⟩ mem).finalize, ?_, true, [], [], Or.inr ⟨rfl, hterm2⟩, rfl, ?_⟩
    · simp only [Decoder.begin, hterm.p_end, ne_eq, not_true_eq_false, if_false]
    · show (new_decoder ⟨n, off, 0⟩ mem).chunkEnd < (new_decoder ⟨n, off, 0⟩ mem).base + 4294967296
      rw [f2, f3]
      show off + 0 < off + 4294967296
      omega
  | cons B0 R0 =>
    have hoff : (List.replicate off 0).length = off := List.length_replicate _ _
    have h0 := init_inv mem (List.replicate off 0) (B0 :: R0) n (List.cons_ne_nil _ _)
      (by rw [hoff]; exact hmem) hblocks wf hpos
    rw [hoff] at h0
    have hlast : (new_decoder ⟨n, off, (chunkBytes 0 (B0 :: R0)).length⟩ mem).blockLastDocID
        = 0 := by
      rw [h0.last]; simp [lastDoc, u32]
    generalize (new_decoder ⟨n, off, (chunkBytes 0 (B0 :: R0)).length⟩ mem) = D0
      at h0 f1 f2 f3 f4 hlast ⊢
    dsimp only at f2 f3 f4
    have hpos0 := chunkBytes_length_pos 0 (List.cons_ne_nil B0 R0)
    have hB0 := hblocks B0 (List.mem_cons_self _ _)
    obtain ⟨d1, u1, u2, u3, -, u5, u6, u7⟩ := unpack_next_block_inv D0 B0 R0 hB0.1 hB0.2
      h0.docs_len h0.freqs_len (by rw [hlast]; decide)
      (by rw [f1, f4, hlast, f3]; exact hmem) (by rw [f4, hlast, f3])
      (fun B1 h1 => hblocks B1 (List.mem_cons_of_mem _ h1))
      (by simpa [List.flatten_cons] using wf) h0.skiplist h0.base_le
    refine ⟨d1.cur_document, d1, ?_, true, [], (B0 :: R0).flatten,
      Or.inl ⟨B0, R0, u2, by rw [u3]; simp⟩, rfl, ?_⟩
    · rw [Decoder.begin, if_pos (by rw [f4, f3]; omega), u1]
      rfl
    · rw [u5, u7, f2, f3]
      omega

/-- C32: chunk append is a verbatim copy. For a session output `indexOut`
shorter than `2^32` bytes and a source term context whose chunk lies inside
the source index `indexPtr`, `append_index_chunk` returns the range
`(indexOut.length, size)`, leaves the bytes of `indexOut` as the first bytes
of the output, and the bytes after them are those of the source chunk.
Consequently, when the source chunk holds the bytes the encoder writes for a
well-formed posting list `S`, `begin()` returns the same document on the
source chunk and on the returned range of the output, and every run of the
decoder on the source chunk (calls of `next()` and of `materialize_hits` on a
decoder that is not exhausted, calls of `seek` with 32-bit targets) is a run
of the decoder on the output with the same result, current document and
current frequency after every call; the two states differ by the relocation
of the chunk only. -/
theorem append_index_chunk_verbatim (indexOut indexPtr : List Nat) (srcTCTX : term_index_ctx)
    (hin : srcTCTX.offset + srcTCTX.size ≤ indexPtr.length)
    (ho : indexOut.length < 4294967296) :
    (append_index_chunk indexOut indexPtr srcTCTX).2 = (indexOut.length, srcTCTX.size) ∧
      (append_index_chunk indexOut indexPtr srcTCTX).1.take indexOut.length = indexOut ∧
      (append_index_chunk indexOut indexPtr srcTCTX).1.drop indexOut.length
        = (indexPtr.drop srcTCTX.offset).take srcTCTX.size ∧
      ∀ (st : Nat) (e e1 : Encoder) (S : List Posting) (tctx : term_index_ctx),
        e.docDeltas.length = N → e.blockFreqs.length = N → WellFormed S →
        (∀ x ∈ S, 1 ≤ x.docID) → encodeTerm st e S = some (e1, tctx) →
        tctx.size < 4294967296 →
        (indexPtr.drop srcTCTX.offset).take srcTCTX.size = e1.indexOut.drop tctx.offset →
        ∃ x d1, (new_decoder srcTCTX indexPtr).begin = some (x, d1) ∧
          (new_decoder ⟨srcTCTX.documents, (append_index_chunk indexOut indexPtr srcTCTX).2.1,
              (append_index_chunk indexOut indexPtr srcTCTX).2.2⟩
            (append_index_chunk indexOut indexPtr srcTCTX).1).begin
            = some (x, d1.relocate (append_index_chunk indexOut indexPtr srcTCTX).1
                indexOut.length) ∧
          ∀ (tr : List (DecCall × DecResult × Nat × Nat)) (d : Decoder),
            Session (N + S.length + 1) d1 tr d →
            Session (N + S.length + 1)
              (d1.relocate (append_index_chunk indexOut indexPtr srcTCTX).1 indexOut.length) tr
              (d.relocate (append_index_chunk indexOut indexPtr srcTCTX).1 indexOut.length) := by
  have hcopy := range_map_getD_drop indexPtr srcTCTX.offset srcTCTX.size hin
  have a1 : (append_index_chunk indexOut indexPtr srcTCTX).2
      = (indexOut.length, srcTCTX.size) := by
    show (u32 indexOut.length, srcTCTX.size) = _
    rw [u32_of_lt ho]
  have a3 : (append_index_chunk indexOut indexPtr srcTCTX).1.drop indexOut.length
      = (indexPtr.drop srcTCTX.offset).take srcTCTX.size := by
    show (indexOut ++ (List.range srcTCTX.size).map
      (fun i => indexPtr.getD (srcTCTX.offset + i) 0)).drop indexOut.length = _
    rw [List.drop_left, hcopy]
  refine ⟨a1, ?_, a3, ?_⟩
  · show (indexOut ++ (List.range srcTCTX.size).map
      (fun i => indexPtr.getD (srcTCTX.offset + i) 0)).take indexOut.length = _
    rw [List.take_left]
  intro st e e1 S tctx hd hf wf hpos henc hsz hchunk
  generalize append_index_chunk indexOut indexPtr srcTCTX = r at a1 a3 ⊢
  obtain ⟨out', ro, rs⟩ := r
  simp only [Prod.mk.injEq] at a1
  obtain ⟨rfl, rfl⟩ := a1
  simp only at a3 ⊢
  obtain ⟨e2, Bs, k1, k2, k3, k4, -, -⟩ := encodeTerm_layout st e S hd hf
  rw [henc] at k1
  simp only [Option.some.injEq, Prod.mk.injEq] at k1
  obtain ⟨rfl, rfl⟩ := k1
  have hch : (indexPtr.drop srcTCTX.offset).take srcTCTX.size = chunkBytes 0 Bs := by
    rw [hchunk, k2]
    exact List.drop_left _ _
  have hsize : srcTCTX.size = (chunkBytes 0 Bs).length := by
    have := congrArg List.length hch
    simp only [List.length_take, List.length_drop] at this
    omega
  have hmem : indexPtr.drop srcTCTX.offset = chunkBytes 0 Bs
      ++ indexPtr.drop (srcTCTX.offset + (chunkBytes 0 Bs).length) := by
    have := (List.take_append_drop srcTCTX.size (indexPtr.drop srcTCTX.offset)).symm
    rw [hch, List.drop_drop, hsize] at this
    exact this
  obtain ⟨docs, off, size⟩ := srcTCTX
  simp only at hsize hmem hch a3 hin ⊢
  subst hsize
  obtain ⟨x, d1, hb, hinv⟩ := begin_seekInv k4 (k3 ▸ wf) (k3 ▸ hpos) indexPtr off docs hmem hsz
  rw [k3] at hinv
  obtain ⟨f1, f2, f3, f4⟩ := new_decoder_fields ⟨docs, off, (chunkBytes 0 Bs).length⟩ indexPtr
  obtain ⟨-, g2, g3, g4, -⟩ := begin_frame hb
  have W : AgreeOn indexPtr out' off indexOut.length (off + (chunkBytes 0 Bs).length) := by
    unfold AgreeOn
    rw [Nat.add_sub_cancel_left, a3, List.take_take, Nat.min_self]
  have hbe : d1.base ≤ d1.chunkEnd := by
    rw [g3, g4, f2, f3]
    exact Nat.le_add_right _ _
  obtain ⟨-, c2, -⟩ := hinv.bounds hbe
  refine ⟨x, d1, hb, ?_, ?_⟩
  · rw [← new_decoder_relocate docs docs off (chunkBytes 0 Bs).length indexPtr out'
      indexOut.length]
    exact begin_reloc (by rw [f1, f2, f3]; exact W) (by rw [f2, f4]) hb
      (by rw [← g4]; exact c2)
  · intro tr d hs
    exact Session.relocated wf (Nat.le_refl _) hinv hbe
      (by rw [g2, g3, g4, f1, f2, f3]; exact W) hs

/-- Witness of C32: the chunk of the documents 10, 11, 15, 25, 50, bytes 0 to
21 of a session index that holds the chunk of a second term after it, is
appended to an output of three bytes. The returned range is `(3, 22)`, the
three bytes are kept, the 22 bytes after them are those of the source chunk,
and the runs of the decoder on the source chunk are runs of the decoder on
the returned range of the output. -/
theorem append_index_chunk_verbatim_witness :
    appendedApple.2 = (3, 22) ∧ appendedApple.1.take 3 = [9, 9, 9] ∧
      appendedApple.1.drop 3 = (sessionIndex.drop 0).take 22 ∧
      ∃ x d1, (new_decoder appleChunk.2 sessionIndex).begin = some (x, d1) ∧
        (new_decoder ⟨5, appendedApple.2.1, appendedApple.2.2⟩ appendedApple.1).begin
          = some (x, d1.relocate appendedApple.1 3) ∧
        ∀ (tr : List (DecCall × DecResult × Nat × Nat)) (d : Decoder),
          Session 134 d1 tr d →
          Session 134 (d1.relocate appendedApple.1 3) tr (d.relocate appendedApple.1 3) :=
  have h := append_index_chunk_verbatim [9, 9, 9] sessionIndex appleChunk.2 (by decide)
    (by decide)
  ⟨h.1, h.2.1, h.2.2.1,
    h.2.2.2 1 (Encoder.new []) appleChunk.1 applePostings appleChunk.2 rfl rfl
      ⟨by decide, by decide, by decide, by decide⟩ (by decide) rfl (by decide) (by decide)⟩

/-- The decoders of the witness of C32, evaluated: after `begin()` both are
on document 10, five calls of `next()` return the same flags, documents and
frequencies on the source chunk and on the copy, the fifth `false` on
`UINT32_MAX`; `materialize_hits` fills the same hits, and `seek(25)` returns
`true` on document 25 on both, 20 bytes into the chunk. -/
theorem appended_chunk_trace :
    appendedApple = ([9, 9, 9] ++ sessionIndex.take 22, 3, 22) ∧
      sourceBegun.cur_document = 10 ∧ copyBegun.cur_document = 10 ∧
      copyBegun = sourceBegun.relocate appendedApple.1 3 ∧
      (nextTrace 5 sourceBegun).map Prod.fst
        = some [(true, 11, 5), (true, 15, 1), (true, 25, 1), (true, 50, 1),
            (false, UINT32_MAX, 0)] ∧
      (nextTrace 5 copyBegun).map Prod.fst = (nextTrace 5 sourceBegun).map Prod.fst ∧
      ((copyBegun.materialize_hits 7 []).map fun r => (r.2.1, r.2.2))
        = ((sourceBegun.materialize_hits 7 []).map fun r => (r.2.1, r.2.2)) ∧
      ((sourceBegun.seek 134 25).map fun r => (r.1, r.2.cur_document, r.2.p))
        = some (true, 25, 20) ∧
      ((copyBegun.seek 134 25).map fun r => (r.1, r.2.cur_document, r.2.p))
        = some (true, 25, 23) := by
  refine ⟨rfl, rfl, rfl, rfl, rfl, rfl, rfl, rfl, rfl⟩


theorem Reach.toAny {m : Nat} {d0 d : Decoder} (h : Reach m d0 d) : ReachAny m d0 d := by
  induction h with
  | refl => exact ReachAny.refl
  | next _ _ hn ih => exact ReachAny.next ih hn
  | seek _ hf ht hs ih => exact ReachAny.seek ih hf ht hs

end Trinity
